import Mathlib

/-!
# cpp-promise: event queues, promise control blocks, the timer, schedules and topics

A verification development over the C++ sources of the `cpppromise` library
(`event_queue.cc`, `event_queue_impl.h`, `promise_control_block_impl.h`,
`promise_impl.h`, `timer.cc`, `schedule_control_block.cc`, `schedule.cc`,
`schedule_cancel_trigger.cc`, `topic_impl.h`, `publication_impl.h`,
`subscription_unsubscribe_trigger_impl.h`).

Modelling conventions.

* Every object guarded by one mutex is a Lean structure; every member function
  that runs under that mutex is a Lean function on the structure.  The
  interleaving of threads is a list of such atomic operations.
* `assert` is taken as enabled: a failed assertion aborts the program, which is
  the result `none` of a function into `Option`.
* The template parameter `T` of promises is instantiated with `Int` in the
  world model (`Empty` is the value `0`); the control block itself is generic.
* `int count_` is an `Int`; `uint64_t id_counter_` is a `Nat` reduced modulo
  `2 ^ 64`; `clock::time_point` and `nanoseconds` are `Int` tick counts, and
  the sum `scheduled_run_time_ + interval_` is reduced to the range of `int64`
  (`wrapTicks`); the `int` values of the chains of `Then` are reduced to 32
  bits, two's complement (`wrapInt`).
* The optional lifecycle listeners are observability hooks that cannot reach
  the private fields of the objects; their calls are left out.
* In the world model a worker runs a popped task to completion as one step;
  client threads and the workers of different queues interleave between such
  steps and between the calls a client thread makes into the library.
* `std::make_shared` allocates the next free index; handles are never freed.
* The schedule model is the `bool` overload of `DoPeriodically`.  Its steps are
  the locked sections of the source: the two sections of `Cancel`, a pass of
  the timer thread and the call of the dispatched entry, a pass of the worker
  and the run of the popped task.  The default `time_point()` is tick 0.
* The topic model has `T = int`.  A listener is the list of statements it runs
  on a value.  `Publish` holds the lock of the topic for its whole loop and is
  one step; `Unsubscribe` called by a client thread is two steps, the locked
  section and `Remove`.  In `TopicWorld` a worker pass runs a popped delivery
  (the check of the back-pointer and the call of the listener) as one step;
  this is used where the steps of other threads between the two cannot change
  the result.  `DeliveryWorld` splits the delivery where the source releases
  the lock of the block: the pop with the check, the call of the listener,
  each statement of the listener and the `Remove` of an `Unsubscribe` made by
  the listener are one move each, and the other threads step in between.  The
  promises that `Publish` returns are programs of the promise world model.
* A run of the world model is a list of events: a client thread runs a piece
  of code against the library, or the worker of a queue makes one pass.
  Properties of all runs are proved by showing that every library call keeps
  them (`World.Stable`).
* Client code cannot make a handle: code that holds no resolver of a block
  is code that does not name it and receives from the library only handles of
  other blocks (`Prog.avoids`, and `Prog.outside` for the blocks and the
  counter of one call of `ResolveAll`).
* For the question which mutexes a thread holds when it calls into client
  code, the bodies of the members are trees of locked sections and calls
  (`Code`), read off the scopes of the `std::unique_lock` objects.
* The fan-in of `Publish` is followed in the world model: `publishFrom` is the
  loop of `Publish` and the end of the member, with listeners that push the
  value on the vector `got`, and the workers then pass in any order.
-/

namespace cpppromise

/-! ## EventQueue (`event_queue.h`, `event_queue.cc`) -/

/-- The struct `EventQueue::Task`: an identifier and the thunk `f`
(the `e_listener` member is an observability hook). -/
structure Task (α : Type) where
  id : String
  f : α

/-- The fields of `EventQueue` that are guarded by `mu_`: the FIFO `tasks_`,
the flag `running_`, the counter `count_`; `t_` is true while the worker thread
`t_` is inside the loop of `Start`. -/
structure EventQueue (α : Type) where
  tasks_ : List (Task α)
  running_ : Bool
  count_ : Int
  t_ : Bool

namespace EventQueue

variable {α : Type}

/-- The constructor `EventQueue::EventQueue`: `running_(true), count_(0)`, an
empty FIFO, and `Start()` launches the worker. -/
def new : EventQueue α :=
  { tasks_ := [], running_ := true, count_ := 0, t_ := true }

/-- The member `EventQueue::AddTask`: `tasks_.push_back(task)`. -/
def AddTask (q : EventQueue α) (f : α) (id : String) : EventQueue α :=
  { q with tasks_ := q.tasks_ ++ [{ id := id, f := f }] }

/-- The member `EventQueue::Finish`: `running_ = false`. -/
def Finish (q : EventQueue α) : EventQueue α :=
  { q with running_ := false }

/-- The member `EventQueue::Take`: `count_++`. -/
def Take (q : EventQueue α) : EventQueue α :=
  { q with count_ := q.count_ + 1 }

/-- The member `EventQueue::Release`: `count_--`. -/
def Release (q : EventQueue α) : EventQueue α :=
  { q with count_ := q.count_ - 1 }

/-- What one pass of the `while (true)` loop of the worker does. -/
inductive Pass (α : Type) where
  /-- The worker thread has already left the loop. -/
  | stopped
  /-- The FIFO is empty, `!running_ && count_ == 0`: `break`. -/
  | exited
  /-- The FIFO is empty otherwise: `cond_.wait(lock); continue`. -/
  | waiting
  /-- The head task was popped; the worker calls `task.f()` next. -/
  | popped (task : Task α)

/-- One pass of the loop in `EventQueue::Start`, up to the point where the lock
is dropped: the new queue state and what the worker does next. -/
def pass (q : EventQueue α) : EventQueue α × Pass α :=
  if q.t_ then
    match q.tasks_ with
    | [] =>
      if !q.running_ && q.count_ == 0 then ({ q with t_ := false }, Pass.exited)
      else (q, Pass.waiting)
    | task :: rest => ({ q with tasks_ := rest }, Pass.popped task)
  else (q, Pass.stopped)

/-- The operations that reach the guarded fields of one queue, from any
thread. -/
inductive Op (α : Type) where
  | addTask (f : α) (id : String)
  | take
  | release
  | finish
  /-- One pass of the worker loop; a popped task is run by the worker. -/
  | worker

/-- One operation: the new state, and the task the worker ran, if any. -/
def step (q : EventQueue α) : Op α → EventQueue α × List (Task α)
  | Op.addTask f id => (q.AddTask f id, [])
  | Op.take => (q.Take, [])
  | Op.release => (q.Release, [])
  | Op.finish => (q.Finish, [])
  | Op.worker =>
    match q.pass with
    | (q1, Pass.popped task) => (q1, [task])
    | (q1, _) => (q1, [])

/-- A sequence of operations: the final state and the tasks the worker ran,
in the order in which it ran them. -/
def exec : List (Op α) → EventQueue α → EventQueue α × List (Task α)
  | [], q => (q, [])
  | op :: ops, q =>
    let r := q.step op
    let s := exec ops r.1
    (s.1, r.2 ++ s.2)

/-- The tasks that a sequence of operations enqueues, in enqueue order. -/
def added : List (Op α) → List (Task α)
  | [] => []
  | Op.addTask f id :: ops => { id := id, f := f } :: added ops
  | _ :: ops => added ops

end EventQueue

/-! ## PromiseControlBlock (`promise_control_block.h`, `promise_control_block_impl.h`) -/

/-- The fields of `PromiseControlBlock<T>` guarded by `mu_`.  A dependent is
the closure that `Then` pushes; `δ` is what identifies that closure. -/
structure PromiseControlBlock (T δ : Type) where
  result_ : Option T
  dependents_ : List δ

namespace PromiseControlBlock

variable {T δ : Type}

/-- The constructor: no result, no dependents. -/
def new : PromiseControlBlock T δ :=
  { result_ := none, dependents_ := [] }

/-- The member `NotifyDependents`: `for (auto d : dependents_) d(result_.value())`
and `dependents_.clear()`.  The calls `d(value)` made are returned in order;
`result_.value()` throws when there is no result. -/
def NotifyDependents (p : PromiseControlBlock T δ) :
    Option (PromiseControlBlock T δ × List (δ × T)) :=
  match p.result_ with
  | some v => some ({ p with dependents_ := [] }, p.dependents_.map fun d => (d, v))
  | none => if p.dependents_.isEmpty then some (p, []) else none

/-- The member `Resolve`: `assert(!result_.has_value())`, `result_ = result`,
`NotifyDependents()`. -/
def Resolve (p : PromiseControlBlock T δ) (result : T) :
    Option (PromiseControlBlock T δ × List (δ × T)) :=
  if p.result_.isSome then none
  else NotifyDependents { p with result_ := some result }

/-- The part of the member `Then` that touches the block:
`dependents_.push_back(d)` and `if (result_.has_value()) NotifyDependents()`. -/
def Then (p : PromiseControlBlock T δ) (d : δ) :
    Option (PromiseControlBlock T δ × List (δ × T)) :=
  let p1 := { p with dependents_ := p.dependents_ ++ [d] }
  if p1.result_.isSome then NotifyDependents p1 else some (p1, [])

/-- The two operations on a control block. -/
inductive Op (T δ : Type) where
  | resolve (result : T)
  | andThen (d : δ)

/-- One operation on the block. -/
def step (p : PromiseControlBlock T δ) : Op T δ →
    Option (PromiseControlBlock T δ × List (δ × T))
  | Op.resolve v => p.Resolve v
  | Op.andThen d => p.Then d

/-- A sequence of operations: the final block and every call `d(value)` made,
in order; `none` when an assertion failed. -/
def exec : List (Op T δ) → PromiseControlBlock T δ →
    Option (PromiseControlBlock T δ × List (δ × T))
  | [], p => some (p, [])
  | op :: ops, p =>
    match p.step op with
    | none => none
    | some (p1, calls1) =>
      match exec ops p1 with
      | none => none
      | some (p2, calls2) => some (p2, calls1 ++ calls2)

/-- The continuations a sequence of operations registers, in order. -/
def registered : List (Op T δ) → List δ
  | [] => []
  | Op.andThen d :: ops => d :: registered ops
  | _ :: ops => registered ops

/-- The values a sequence of operations passes to `Resolve`, in order. -/
def resolutions : List (Op T δ) → List T
  | [] => []
  | Op.resolve v :: ops => v :: resolutions ops
  | _ :: ops => resolutions ops

end PromiseControlBlock

/-! ## Timer (`timer.h`, `timer.cc`) -/

/-- The struct `Task` of `timer.cc`: the id and the callback of one entry. -/
structure TimerImpl.Task (γ : Type) where
  id : Nat
  callback : γ

/-- The fields of `TimerImpl` guarded by `mu_`.  `tasks_` is the
`std::map<clock::time_point, Task>`: its entries in ascending key order. -/
structure TimerImpl (γ : Type) where
  run_ : Bool
  id_counter_ : Nat
  tasks_ : List (Int × TimerImpl.Task γ)

namespace TimerImpl

variable {γ : Type}

/-- The constructor: `run_(true), id_counter_(0)` and an empty map. -/
def new : TimerImpl γ :=
  { run_ := true, id_counter_ := 0, tasks_ := [] }

/-- The member `std::map::insert(value)`: the entry is placed in key order, and
nothing is inserted when the map already holds an entry with that key. -/
def mapInsert (k : Int) (v : Task γ) : List (Int × Task γ) → List (Int × Task γ)
  | [] => [(k, v)]
  | e :: rest =>
    if k < e.1 then (k, v) :: e :: rest
    else if k = e.1 then e :: rest
    else e :: mapInsert k v rest

/-- The member `std::map::erase(key)`. -/
def mapErase (k : Int) : List (Int × Task γ) → List (Int × Task γ)
  | [] => []
  | e :: rest => if e.1 = k then rest else e :: mapErase k rest

/-- A `std::map` holds at most one entry per key, in ascending key order. -/
def WellFormed (s : TimerImpl γ) : Prop :=
  (s.tasks_.map Prod.fst).Pairwise (· < ·)

instance (s : TimerImpl γ) : Decidable s.WellFormed := by
  unfold WellFormed
  infer_instance

/-- The member `Schedule(when, f)`: `id = id_counter_++`,
`tasks_.insert({when, {id, f}})`, `return id`. -/
def Schedule (s : TimerImpl γ) (when : Int) (f : γ) : TimerImpl γ × Nat :=
  ({ s with id_counter_ := (s.id_counter_ + 1) % 2 ^ 64
            tasks_ := mapInsert when { id := s.id_counter_, callback := f } s.tasks_ },
   s.id_counter_)

/-- The loop of `Cancel` over the entries: the first entry whose id matches is
erased and the result is `true`; `false` when the end is reached. -/
def cancelLoop (id : Nat) : List (Int × Task γ) → List (Int × Task γ) × Bool
  | [] => ([], false)
  | e :: rest =>
    if e.2.id = id then (rest, true)
    else ((e :: (cancelLoop id rest).1), (cancelLoop id rest).2)

/-- The member `Cancel(id)`. -/
def Cancel (s : TimerImpl γ) (id : Nat) : TimerImpl γ × Bool :=
  ({ s with tasks_ := (cancelLoop id s.tasks_).1 }, (cancelLoop id s.tasks_).2)

/-- What one pass of the loop of the timer thread does. -/
inductive Pass (γ : Type) where
  /-- The flag `run_` is false: `break`. -/
  | exited
  /-- The map is empty: `cond_.wait(lock)`. -/
  | waiting
  /-- The earliest entry is not due: `cond_.wait_for(lock, t - Now())`. -/
  | sleeping (t : Int)
  /-- The earliest entry was due and erased; its callback is called next. -/
  | dispatched (task : Task γ)

/-- One pass of the loop of the timer thread when `Now()` returns `now`. -/
def pass (s : TimerImpl γ) (now : Int) : TimerImpl γ × Pass γ :=
  if !s.run_ then (s, Pass.exited)
  else
    match s.tasks_ with
    | [] => (s, Pass.waiting)
    | e :: _ =>
      if e.1 ≤ now then ({ s with tasks_ := mapErase e.1 s.tasks_ }, Pass.dispatched e.2)
      else (s, Pass.sleeping e.1)

/-- The entry a pass dispatched, if any. -/
def Pass.task : Pass γ → List (Task γ)
  | Pass.dispatched task => [task]
  | _ => []

/-- Successive passes of the timer thread at the times `nows`: the final state
and the entries dispatched, in order. -/
def passes : List Int → TimerImpl γ → TimerImpl γ × List (Task γ)
  | [], s => (s, [])
  | now :: nows, s =>
    let r := s.pass now
    let u := passes nows r.1
    (u.1, r.2.task ++ u.2)

/-- The ids of the pending entries. -/
def pendingIds (s : TimerImpl γ) : List Nat :=
  s.tasks_.map fun e => e.2.id

end TimerImpl

/-! ## The program state: queues, control blocks and client closures -/

/-- An `EventQueue *`. -/
abbrev QId := Nat

/-- A `std::shared_ptr<PromiseControlBlock<T>>`; `Promise<T>` and `Resolver<T>`
are both handles to one. -/
abbrev PId := Nat

/-- A `std::shared_ptr<int>`. -/
abbrev CId := Nat

/-- Client code: what a closure handed to the library does when it is called,
as the sequence of its calls into the library, ending in the value it returns
(a `void` closure returns `0`). -/
inductive Prog : Type where
  /-- The statement `return v`. -/
  | ret (v : Int)
  /-- The client effect `got.push_back(k)` of the tests. -/
  | push (k : Int) (rest : Prog)
  /-- The call `q->Enqueue<T>(f, id)`. -/
  | enqueue (q : QId) (f : Prog) (id : String) (k : PId → Prog)
  /-- The call `q->EnqueueWithResolver<T>(resolve, id)`. -/
  | enqueueWithResolver (q : QId) (resolve : PId → Prog) (id : String) (k : PId → Prog)
  /-- The call `EventQueue::CreateResolver<T>(id)`. -/
  | createResolver (id : String) (k : PId → Prog)
  /-- The call `EventQueue::CreateResolvedPromise(v, id)`. -/
  | createResolvedPromise (v : Int) (id : String) (k : PId → Prog)
  /-- The call `p.Then<Y>(q, f, id)`. -/
  | thenOn (p : PId) (q : QId) (f : Int → Prog) (id : String) (k : PId → Prog)
  /-- The call `p.Then<Y>(f, id)`, on the queue `EventQueue::Get()`. -/
  | thenHere (p : PId) (f : Int → Prog) (id : String) (k : PId → Prog)
  /-- The call `r.Resolve(v)`. -/
  | resolve (r : PId) (v : Int) (rest : Prog)
  /-- The expression `--(*c)` on a shared `int`. -/
  | decr (c : CId) (k : Int → Prog)
  /-- The call `Promise<Empty>::ResolveAll(id, ps...)`. -/
  | resolveAll (id : String) (ps : List PId) (k : PId → Prog)
  /-- The call `q->Finish()`. -/
  | finish (q : QId) (rest : Prog)

/-- The closures the library stores in `EventQueue::Task::f`. -/
inductive Closure : Type where
  /-- From `Enqueue`: `[this, f, pcb]() { pcb->Resolve(f()); }`. -/
  | enqueueBody (f : Prog) (pcb : PId)
  /-- From `Then`: `[f, resolver, value]() mutable { resolver.Resolve(f(value)); }`. -/
  | thenBody (f : Int → Prog) (resolver : PId) (value : Int)
  /-- From `EnqueueWithResolver`: `[resolve, resolver]() { resolve(resolver); }`. -/
  | withResolverBody (resolve : PId → Prog) (resolver : PId)

/-- The closure `Then` pushes onto `dependents_`:
`[q, f, resolver, id](X value) mutable { q->AddTask(..., id); q->Release(); }`. -/
structure Dependent where
  q : QId
  f : Int → Prog
  resolver : PId
  id : String

/-- The heap of the program: the event queues, the control blocks and shared
counters allocated so far, and the client vector `got`. -/
structure World where
  queues : QId → EventQueue Closure
  pcbs : PId → PromiseControlBlock Int Dependent
  pcbCount : Nat
  cells : CId → Int
  cellCount : Nat
  got : List Int

namespace World

/-- The state in which every queue has just been constructed. -/
def init : World :=
  { queues := fun _ => EventQueue.new
    pcbs := fun _ => PromiseControlBlock.new
    pcbCount := 0
    cells := fun _ => 0
    cellCount := 0
    got := [] }

/-- Replace the state of queue `q`. -/
def setQueue (w : World) (q : QId) (s : EventQueue Closure) : World :=
  { w with queues := Function.update w.queues q s }

/-- Replace the state of control block `p`. -/
def setPcb (w : World) (p : PId) (s : PromiseControlBlock Int Dependent) : World :=
  { w with pcbs := Function.update w.pcbs p s }

/-- The expression `std::make_shared<PromiseControlBlock<T>>(id)`. -/
def newPcb (w : World) : World × PId :=
  ({ w with pcbs := Function.update w.pcbs w.pcbCount PromiseControlBlock.new
            pcbCount := w.pcbCount + 1 }, w.pcbCount)

/-- The expression `std::make_shared<int>(n)`. -/
def newCell (w : World) (n : Int) : World × CId :=
  ({ w with cells := Function.update w.cells w.cellCount n
            cellCount := w.cellCount + 1 }, w.cellCount)

/-- The call `q->AddTask(f, id)`. -/
def AddTask (w : World) (q : QId) (f : Closure) (id : String) : World :=
  w.setQueue q ((w.queues q).AddTask f id)

/-- The call `q->Take()`. -/
def Take (w : World) (q : QId) : World :=
  w.setQueue q (w.queues q).Take

/-- The call `q->Release()`. -/
def Release (w : World) (q : QId) : World :=
  w.setQueue q (w.queues q).Release

/-- The call `q->Finish()`. -/
def Finish (w : World) (q : QId) : World :=
  w.setQueue q (w.queues q).Finish

/-- The call `d(value)` of a dependent: `q->AddTask([f, resolver, value]...)`
and then `q->Release()`. -/
def call (w : World) (c : Dependent × Int) : World :=
  (w.AddTask c.1.q (Closure.thenBody c.1.f c.1.resolver c.2) c.1.id).Release c.1.q

/-- The calls made by one `NotifyDependents`, in order. -/
def calls (w : World) (cs : List (Dependent × Int)) : World :=
  cs.foldl call w

/-- The call `pcb->Resolve(result)` (also `Resolver<T>::Resolve`). -/
def Resolve (w : World) (p : PId) (result : Int) : Option World :=
  match (w.pcbs p).Resolve result with
  | none => none
  | some (s, cs) => some ((w.setPcb p s).calls cs)

/-- The call `pcb->Then(q, f, id)` (also `Promise<X>::Then(q, f, id)`): the new
block, the dependent pushed under the lock, `q->Take()`, and the notification
when the block is already resolved. -/
def Then (w : World) (p : PId) (q : QId) (f : Int → Prog) (id : String) :
    Option (World × PId) :=
  let (w1, out) := w.newPcb
  match (w1.pcbs p).Then { q := q, f := f, resolver := out, id := id } with
  | none => none
  | some (s, cs) => some ((((w1.setPcb p s).Take q).calls cs), out)

/-- The call `Promise<X>::Then(f, id)`: `assert(EventQueue::Get() != nullptr)`
and `Then(EventQueue::Get(), f, id)`. -/
def ThenHere (w : World) (cur : Option QId) (p : PId) (f : Int → Prog) (id : String) :
    Option (World × PId) :=
  match cur with
  | none => none
  | some q => w.Then p q f id

/-- The call `q->Enqueue<T>(f, id)`. -/
def Enqueue (w : World) (q : QId) (f : Prog) (id : String) : World × PId :=
  let (w1, pcb) := w.newPcb
  (w1.AddTask q (Closure.enqueueBody f pcb) id, pcb)

/-- The call `EventQueue::CreateResolver<T>(id)`; both handles of the pair are
the new block. -/
def CreateResolver (w : World) : World × PId :=
  w.newPcb

/-- The call `EventQueue::CreateResolvedPromise(val, id)`. -/
def CreateResolvedPromise (w : World) (val : Int) : Option (World × PId) :=
  let (w1, pair) := w.CreateResolver
  match w1.Resolve pair val with
  | none => none
  | some w2 => some (w2, pair)

/-- The call `q->EnqueueWithResolver<T>(resolve, id)`. -/
def EnqueueWithResolver (w : World) (q : QId) (resolve : PId → Prog) (id : String) :
    World × PId :=
  let (w1, pair) := w.CreateResolver
  (w1.AddTask q (Closure.withResolverBody resolve pair) id, pair)

/-- The expression `--(*c)`: the decremented value is stored and returned. -/
def decr (w : World) (c : CId) : World × Int :=
  ({ w with cells := Function.update w.cells c (w.cells c - 1) }, w.cells c - 1)

/-- The closure `ResolveAll` hands to `Then`:
`[count, resolver]() mutable { if (--(*count) == 0) resolver.Resolve(Empty()); }`. -/
def resolveAllBody (count : CId) (resolver : PId) : Int → Prog :=
  fun _ => Prog.decr count fun n =>
    if n = 0 then Prog.resolve resolver 0 (Prog.ret 0) else Prog.ret 0

/-- The fold `(promises.Then(body, ""), ...)` of `ResolveAll`, left to right. -/
def thenEach (cur : Option QId) (f : Int → Prog) : List PId → World → Option World
  | [], w => some w
  | p :: ps, w =>
    match w.ThenHere cur p f "" with
    | none => none
    | some (w1, _) => thenEach cur f ps w1

/-- The call `Promise<Empty>::ResolveAll(id, promises...)`. -/
def ResolveAll (w : World) (cur : Option QId) (promises : List PId) :
    Option (World × PId) :=
  let (w1, pair) := w.CreateResolver
  let (w2, count) := w1.newCell promises.length
  match thenEach cur (resolveAllBody count pair) promises w2 with
  | none => none
  | some w3 => some (w3, pair)

end World

/-- Run client code on a thread whose `EventQueue::Get()` is `cur`: the state
it leaves and the value it returns; `none` when an assertion fails. -/
def Prog.run (cur : Option QId) : Prog → World → Option (World × Int)
  | Prog.ret v, w => some (w, v)
  | Prog.push k rest, w => Prog.run cur rest { w with got := w.got ++ [k] }
  | Prog.enqueue q f id k, w =>
    let r := w.Enqueue q f id
    Prog.run cur (k r.2) r.1
  | Prog.enqueueWithResolver q body id k, w =>
    let r := w.EnqueueWithResolver q body id
    Prog.run cur (k r.2) r.1
  | Prog.createResolver _ k, w =>
    let r := w.CreateResolver
    Prog.run cur (k r.2) r.1
  | Prog.createResolvedPromise v _ k, w =>
    match w.CreateResolvedPromise v with
    | none => none
    | some r => Prog.run cur (k r.2) r.1
  | Prog.thenOn p q f id k, w =>
    match w.Then p q f id with
    | none => none
    | some r => Prog.run cur (k r.2) r.1
  | Prog.thenHere p f id k, w =>
    match w.ThenHere cur p f id with
    | none => none
    | some r => Prog.run cur (k r.2) r.1
  | Prog.resolve r v rest, w =>
    match w.Resolve r v with
    | none => none
    | some w1 => Prog.run cur rest w1
  | Prog.decr c k, w =>
    let r := w.decr c
    Prog.run cur (k r.2) r.1
  | Prog.resolveAll _ ps k, w =>
    match w.ResolveAll cur ps with
    | none => none
    | some r => Prog.run cur (k r.2) r.1
  | Prog.finish q rest, w => Prog.run cur rest (w.Finish q)

/-- The call `task.f()` made by the worker of queue `cur`. -/
def Closure.run (cur : Option QId) : Closure → World → Option World
  | Closure.enqueueBody f pcb, w =>
    match Prog.run cur f w with
    | none => none
    | some (w1, v) => w1.Resolve pcb v
  | Closure.thenBody f resolver value, w =>
    match Prog.run cur (f value) w with
    | none => none
    | some (w1, v) => w1.Resolve resolver v
  | Closure.withResolverBody resolve resolver, w =>
    match Prog.run cur (resolve resolver) w with
    | none => none
    | some (w1, _) => some w1

namespace World

/-- One pass of the worker loop of queue `q`, the popped task included: the
worker pops under the lock and then calls `task.f()`. -/
def workerStep (w : World) (q : QId) : Option World :=
  match (w.queues q).pass with
  | (s, EventQueue.Pass.popped task) => Closure.run (some q) task.f (w.setQueue q s)
  | (s, _) => some (w.setQueue q s)

/-- The workers take turns as the schedule says: `qs` lists the queue whose
worker makes the next pass. -/
def runWorkers : List QId → World → Option World
  | [], w => some w
  | q :: qs, w =>
    match w.workerStep q with
    | none => none
    | some w1 => runWorkers qs w1

end World

end cpppromise

namespace cpppromise

/-! ## Scenarios of the tests -/

/-- The task that the call `d(value)` of a dependent enqueues:
`[f, resolver, value]() mutable { resolver.Resolve(f(value)); }` under the id of
the `Then`. -/
def World.taskOf (c : Dependent × Int) : Task Closure :=
  { id := c.1.id, f := Closure.thenBody c.1.f c.1.resolver c.2 }

/-- The closure `[&got](int k) { got.push_back(k); }` of the tests. -/
def pushArg : Int → Prog :=
  fun k => Prog.push k (Prog.ret 0)

/-- The loop of the test `ResolverPromiseOrderOne`, `m` rounds from index `i`:
`q->Enqueue(push i)`, `CreateResolver`, `Then(push k)`, `Resolve(2 * max + i)`. -/
def orderOneLoop (q : QId) (max : Int) : Nat → Int → Prog
  | 0, _ => Prog.ret 0
  | m + 1, i =>
    Prog.enqueue q (Prog.push i (Prog.ret 0)) "" fun _ =>
    Prog.createResolver "" fun pr =>
    Prog.thenHere pr pushArg "" fun _ =>
    Prog.resolve pr (2 * max + i) (orderOneLoop q max m (i + 1))

/-- The loop of the test `ResolverPromiseOrderTwo`: as above, but the
`Resolve(2 * max + i)` is the body of a further task enqueued on `q`. -/
def orderTwoLoop (q : QId) (max : Int) : Nat → Int → Prog
  | 0, _ => Prog.ret 0
  | m + 1, i =>
    Prog.enqueue q (Prog.push i (Prog.ret 0)) "" fun _ =>
    Prog.createResolver "" fun pr =>
    Prog.thenHere pr pushArg "" fun _ =>
    Prog.enqueue q (Prog.resolve pr (2 * max + i) (Prog.ret 0)) "" fun _ =>
    orderTwoLoop q max m (i + 1)

/-- The vector `want` of `ResolverPromiseOrderOne`, from index `i` on:
`i, 2 * max + i, i + 1, 2 * max + i + 1, ...`. -/
def orderOneWant (max : Int) : Nat → Int → List Int
  | 0, _ => []
  | m + 1, i => i :: (2 * max + i) :: orderOneWant max m (i + 1)

/-- The values `i, i + 1, ..., i + m - 1`. -/
def countUp : Nat → Int → List Int
  | 0, _ => []
  | m + 1, i => i :: countUp m (i + 1)

/-- The test fixture with the body of the test enqueued on `q` and `Stop()`
begun: `q->Enqueue(body); q->Finish()`. -/
def World.testStart (q : QId) (body : Prog) : World :=
  ((World.init.Enqueue q body "").1).Finish q

end cpppromise

namespace cpppromise

/-- The tasks that `m` rounds of `orderOneLoop` from index `i` leave in the
FIFO when the next control block to be allocated is `b`. -/
def orderOneTasks (max : Int) : Nat → Int → Nat → List (Task Closure)
  | 0, _, _ => []
  | m + 1, i, b =>
    ⟨"", Closure.enqueueBody (Prog.push i (Prog.ret 0)) b⟩ ::
    ⟨"", Closure.thenBody pushArg (b + 2) (2 * max + i)⟩ ::
    orderOneTasks max m (i + 1) (b + 3)

/-- The tasks that `m` rounds of `orderTwoLoop` from index `i` leave in the
FIFO when the next control block to be allocated is `b`. -/
def orderTwoTasks (max : Int) : Nat → Int → Nat → List (Task Closure)
  | 0, _, _ => []
  | m + 1, i, b =>
    ⟨"", Closure.enqueueBody (Prog.push i (Prog.ret 0)) b⟩ ::
    ⟨"", Closure.enqueueBody (Prog.resolve (b + 1) (2 * max + i) (Prog.ret 0)) (b + 3)⟩ ::
    orderTwoTasks max m (i + 1) (b + 4)

/-- The downstream tasks that the resolutions of `orderTwoTasks` enqueue. -/
def orderTwoThens (max : Int) : Nat → Int → Nat → List (Task Closure)
  | 0, _, _ => []
  | m + 1, i, b =>
    ⟨"", Closure.thenBody pushArg (b + 2) (2 * max + i)⟩ ::
    orderTwoThens max m (i + 1) (b + 4)

end cpppromise

namespace cpppromise

/-! ## A chain of `Then` on a client thread (tests `StringOfPromises`, `ChattyEventQueues`) -/

/-- The value of type `int` (32 bits, two's complement) that an arithmetic
expression with the mathematical result `z` leaves.  Signed overflow, which the
language leaves undefined, is taken as the wrap-around of the machine; whatever
it is, the result is an `int`. -/
def wrapInt (z : Int) : Int :=
  (z + 2147483648) % 4294967296 - 2147483648

/-- The closure `[](int x) { return x + 1; }`. -/
def addOne : Int → Prog :=
  fun x => Prog.ret (wrapInt (x + 1))

/-- The value that `k` calls of `[](int x) { return x + 1; }`, each on the
result of the one before, make of `v`. -/
def chainVal (v : Int) : Nat → Int
  | 0 => v
  | k + 1 => wrapInt (chainVal v k + 1)

/-- A statement of the client thread that builds the chain. -/
inductive ChainOp where
  /-- The statement `p = p.Then<int>(q, [](int x) { return x + 1; })`. -/
  | andThen (q : QId)
  /-- The statement `pr.second.Resolve(v)`. -/
  | resolve (v : Int)

/-- The client thread and the heap: the statements still to be executed, the
resolver `pr.second` of the first promise and the variable `p`. -/
structure ChainState where
  world : World
  todo : List ChainOp
  head : PId
  p : PId

/-- Who moves next: the client thread executes its next statement, or the
worker of a queue makes one pass. -/
inductive Turn where
  | client
  | worker (q : QId)

/-- One move. -/
def ChainState.step (s : ChainState) : Turn → Option ChainState
  | Turn.client =>
    match s.todo with
    | [] => some s
    | ChainOp.andThen q :: rest =>
      match s.world.Then s.p q addOne "" with
      | none => none
      | some r => some { world := r.1, todo := rest, head := s.head, p := r.2 }
    | ChainOp.resolve v :: rest =>
      match s.world.Resolve s.head v with
      | none => none
      | some w => some { s with world := w, todo := rest }
  | Turn.worker q =>
    match s.world.workerStep q with
    | none => none
    | some w => some { s with world := w }

/-- A schedule: the moves in the order in which they happen. -/
def ChainState.run : List Turn → ChainState → Option ChainState
  | [], s => some s
  | t :: ts, s =>
    match s.step t with
    | none => none
    | some s1 => ChainState.run ts s1

/-- The client thread of the chain tests on the fresh fixture:
`pr = CreateResolver<int>()`, `p = pr.first`, then one `Then` per queue of
`before`, then `pr.second.Resolve(v)`, then one `Then` per queue of `after`. -/
def chainStart (before after : List QId) (v : Int) : ChainState :=
  { world := World.init.CreateResolver.1
    todo := before.map ChainOp.andThen ++ ChainOp.resolve v :: after.map ChainOp.andThen
    head := World.init.CreateResolver.2
    p := World.init.CreateResolver.2 }

/-- The dependent that the `j`-th `Then` of the chain registers. -/
def chainDep (qs : List QId) (j : Nat) : Dependent :=
  { q := (qs[j]?).getD 0, f := addOne, resolver := j + 1, id := "" }

/-- The downstream task of the `k`-th `Then` of the chain. -/
def chainToken (v : Int) (k : Nat) : Task Closure :=
  { id := "", f := Closure.thenBody addOne (k + 1) (chainVal v k) }

/-- The shape of every state of the chain: `m` statements `Then` are done and
the first `c` promises are resolved. -/
structure ChainInv (before after : List QId) (v : Int) (s : ChainState) (m c : Nat) :
    Prop where
  head : s.head = 0
  p : s.p = m
  count : s.world.pcbCount = m + 1
  hm : m ≤ (before ++ after).length
  hc : c ≤ m + 1
  todo0 : c = 0 → m ≤ before.length ∧
    s.todo = (before.drop m).map ChainOp.andThen ++
      ChainOp.resolve v :: after.map ChainOp.andThen
  todo1 : 0 < c → before.length ≤ m ∧
    s.todo = ((before ++ after).drop m).map ChainOp.andThen
  live : ∀ q, (s.world.queues q).t_ = true ∧ (s.world.queues q).running_ = true
  fifo : ∀ q, (s.world.queues q).tasks_ =
    if 0 < c ∧ c ≤ m ∧ ((before ++ after)[c - 1]?).getD 0 = q then [chainToken v (c - 1)]
    else []
  pcbs : ∀ j, j ≤ m → s.world.pcbs j =
    if j < c then ⟨some (chainVal v j), []⟩
    else if j < m then ⟨none, [chainDep (before ++ after) j]⟩
    else ⟨none, []⟩

end cpppromise

namespace cpppromise

/-! ## Timer: the calls of all threads, in lock order -/

namespace TimerImpl

variable {γ : Type}

/-- The calls that take `mu_` of the timer, from any thread. -/
inductive Op (γ : Type) where
  /-- A client calls `Schedule(when, f)`. -/
  | schedule (when : Int) (f : γ)
  /-- A client calls `Cancel(id)`. -/
  | cancel (id : Nat)
  /-- The timer thread makes one pass of its loop while `Now()` is `now`. -/
  | pass (now : Int)

/-- One call: the new state and the id it returned to the client, if it is a
`Schedule`. -/
def step (s : TimerImpl γ) : Op γ → TimerImpl γ × List Nat
  | Op.schedule when f => ((s.Schedule when f).1, [(s.Schedule when f).2])
  | Op.cancel id => ((s.Cancel id).1, [])
  | Op.pass now => ((s.pass now).1, [])

/-- The ids that the `Schedule` calls of a sequence of calls return, in call
order. -/
def returned : List (Op γ) → TimerImpl γ → List Nat
  | [], _ => []
  | op :: ops, s => (s.step op).2 ++ returned ops (s.step op).1

/-- The number of `Schedule` calls in a sequence of calls. -/
def scheduleCount : List (Op γ) → Nat
  | [] => 0
  | Op.schedule _ _ :: ops => scheduleCount ops + 1
  | _ :: ops => scheduleCount ops

end TimerImpl

end cpppromise

namespace cpppromise

/-! ## Schedule (`schedule_control_block.h`, `schedule_control_block.cc`,
`schedule_cancel_trigger.cc`, `schedule.cc`, `EventQueue::DoPeriodically`) -/

/-- The members of `ScheduleControlBlock` that are plain data.  `running_`,
`scheduled_run_time_` and `current_timer_` are guarded by `mu_`; `interval_`
and `id_` never change.  `scheduled_run_time_` is a tick count, and the
value-initialised `Timer::clock::time_point()` is tick 0. -/
structure ScheduleControlBlock where
  interval_ : Int
  id_ : String
  running_ : Bool
  scheduled_run_time_ : Int
  current_timer_ : Option Nat

/-- The callbacks held by the process-wide timer. -/
inductive TimerJob where
  /-- The lambda `[shared_this]() { shared_this->TimerCallback(); }` that
  `ScheduleNextRun` hands to `Timer::Schedule`. -/
  | timerCallback
  /-- A callback of another client of the timer. -/
  | other

/-- The tasks in the FIFO of the owning queue `q_`. -/
inductive ScheduleTask where
  /-- The lambda that `TimerCallback` enqueues: the firing body. -/
  | firing
  /-- The task that `Then` adds for `[shared_this](bool keep_running) {...}`,
  with the value the promise of `f_()` was resolved with. -/
  | continuation (keep_running : Bool)
  /-- A task of another client of the queue. -/
  | other

/-- What a step of the schedule lets the outside observe. -/
inductive Obs where
  /-- `ScheduleNextRun` called `Timer::Schedule(when, ...)`, which returned `id`. -/
  | armed (when : Int) (id : Nat)
  /-- The firing body invoked the user function, for the `k`-th time counting
  from 0. -/
  | called (k : Nat)
  /-- `Finish` called `done_.Resolve(Empty())`. -/
  | done

/-- The time of an arming. -/
def Obs.armedAt : Obs → Option Int
  | Obs.armed when _ => some when
  | _ => none

/-- Whether the observation is an invocation of the user function. -/
def Obs.isCalled : Obs → Bool
  | Obs.called _ => true
  | _ => false

/-- Whether the observation is the resolution of the done-promise. -/
def Obs.isDone : Obs → Bool
  | Obs.done => true
  | _ => false

/-- The index of an invocation of the user function, and `none` for the
resolution of the done-promise; armings are left out. -/
def Obs.progress : Obs → Option (Option Nat)
  | Obs.called k => some (some k)
  | Obs.done => some none
  | Obs.armed _ _ => none

/-- One schedule with what it touches: the process-wide timer, the owning
queue `q_`, the control block, the block of the done-promise, the number of
invocations of the user function so far, the local `this_task` of the timer
thread (an entry it has erased and whose callback it has not called yet), the
local `task` of the worker of `q_` (popped, not yet run), and the number of
threads inside `Cancel` between its two locked sections. -/
structure ScheduleWorld where
  timer : TimerImpl TimerJob
  q : EventQueue ScheduleTask
  scb : ScheduleControlBlock
  done : PromiseControlBlock Unit Unit
  count : Nat
  this_task : Option TimerJob
  task : Option ScheduleTask
  cancelling : Nat

/-- The tick count (`int64_t` nanoseconds, two's complement) that an
arithmetic expression on `Timer::clock` values with the mathematical result `z`
leaves. -/
def wrapTicks (z : Int) : Int :=
  (z + 9223372036854775808) % 18446744073709551616 - 9223372036854775808

namespace ScheduleWorld

/-- The member `ScheduleNextRun`, when `Timer::Get()->Now()` returns `now`. -/
def ScheduleNextRun (w : ScheduleWorld) (now : Int) : ScheduleWorld × List Obs :=
  if !w.scb.running_ then (w, [])
  else
    let when := if w.scb.scheduled_run_time_ = 0 then now
      else wrapTicks (w.scb.scheduled_run_time_ + w.scb.interval_)
    let r := w.timer.Schedule when TimerJob.timerCallback
    ({ w with timer := r.1
              scb := { w.scb with scheduled_run_time_ := when, current_timer_ := some r.2 } },
      [Obs.armed when r.2])

/-- The member `Finish`: `if (running_) { running_ = false; done_.Resolve(Empty()); }`.
No client continuation on the done-promise is part of this model. -/
def Finish (w : ScheduleWorld) : Option (ScheduleWorld × List Obs) :=
  if w.scb.running_ then
    match w.done.Resolve () with
    | none => none
    | some r => some ({ w with scb := { w.scb with running_ := false }, done := r.1 }, [Obs.done])
  else some (w, [])

/-- The first locked section of the member `Cancel`:
`if (current_timer_.has_value()) { Timer::Get()->Cancel(*current_timer_); current_timer_.reset(); }`. -/
def CancelTimer (w : ScheduleWorld) : ScheduleWorld :=
  match w.scb.current_timer_ with
  | some id => { w with timer := (w.timer.Cancel id).1
                        scb := { w.scb with current_timer_ := none } }
  | none => w

/-- The member `TimerCallback`: `current_timer_.reset()` and `q_->Enqueue(body, id_)`.
The promise that `Enqueue` returns is dropped by the caller. -/
def TimerCallback (w : ScheduleWorld) : ScheduleWorld :=
  { w with scb := { w.scb with current_timer_ := none }
           q := w.q.AddTask ScheduleTask.firing w.scb.id_ }

/-- The expression `f_().Then(cont)` of the firing body, for the `f_` that
`DoPeriodically(std::function<bool()> f, ...)` builds: `CreateResolver<bool>()`,
`pair.second.Resolve(f())`, and `Then` on `EventQueue::Get()`, which is `q_`
because the body runs on its worker: the dependent is pushed, `q->Take()`, and
the notification calls `q->AddTask(...)` and `q->Release()`. -/
def callThen (q : EventQueue ScheduleTask) (result : Bool) : Option (EventQueue ScheduleTask) :=
  match (PromiseControlBlock.new : PromiseControlBlock Bool Unit).Resolve result with
  | none => none
  | some (p, _) =>
    match p.Then () with
    | none => none
    | some (_, cs) =>
      some (cs.foldl (fun q1 c => (q1.AddTask (ScheduleTask.continuation c.2) "").Release)
        q.Take)

/-- The firing body: `if (!running_) return;` and `f_().Then(...)`, all under
`mu_`.  The `k`-th invocation of the user function returns `f k`. -/
def firing (f : Nat → Bool) (w : ScheduleWorld) : Option (ScheduleWorld × List Obs) :=
  if !w.scb.running_ then some (w, [])
  else
    match callThen w.q (f w.count) with
    | none => none
    | some q1 => some ({ w with q := q1, count := w.count + 1 }, [Obs.called w.count])

/-- The continuation `[shared_this](bool keep_running)`:
`if (!keep_running) Finish(); else ScheduleNextRun();`. -/
def continuation (w : ScheduleWorld) (keep_running : Bool) (now : Int) :
    Option (ScheduleWorld × List Obs) :=
  if !keep_running then w.Finish else some (w.ScheduleNextRun now)

/-- The call `q->DoPeriodically(f, interval, id)` when `Now()` returns `now`:
the constructor of the control block (`running_(true)`, `scheduled_run_time_()`,
`q_->Take()`) and `Start()`. -/
def DoPeriodically (timer : TimerImpl TimerJob) (q : EventQueue ScheduleTask) (interval : Int)
    (id : String) (now : Int) : ScheduleWorld × List Obs :=
  ScheduleNextRun
    { timer := timer
      q := q.Take
      scb := { interval_ := interval, id_ := id, running_ := true, scheduled_run_time_ := 0,
               current_timer_ := none }
      done := PromiseControlBlock.new
      count := 0
      this_task := none
      task := none
      cancelling := 0 } now

/-- The atomic steps of the threads that touch the schedule. -/
inductive Ev where
  /-- A thread that called `Cancel` (through `Schedule::Cancel` or the
  destructor of the cancel trigger) runs the first locked section. -/
  | cancelLock
  /-- A thread that is inside `Cancel` calls `Finish` and returns. -/
  | cancelFinish
  /-- The timer thread makes one pass of its loop while `Now()` is `now`. -/
  | timerPass (now : Int)
  /-- The timer thread calls the callback of the entry it erased. -/
  | timerCall
  /-- Another client of the timer calls `Timer::Schedule(when, ...)`. -/
  | timerOther (when : Int)
  /-- The worker of `q_` makes one pass of its loop. -/
  | workerPass
  /-- The worker of `q_` runs the task it popped; `now` is what `Now()` returns
  if the task asks. -/
  | workerRun (now : Int)
  /-- Another client enqueues a task on `q_`. -/
  | enqueueOther (id : String)
  /-- A client calls `q_->Finish()`. -/
  | queueFinish

/-- One step: the new state and what it lets observe; `none` when an assertion
fails. -/
def step (f : Nat → Bool) (w : ScheduleWorld) : Ev → Option (ScheduleWorld × List Obs)
  | Ev.cancelLock => some ({ w.CancelTimer with cancelling := w.cancelling + 1 }, [])
  | Ev.cancelFinish =>
    if w.cancelling = 0 then some (w, [])
    else
      match w.Finish with
      | none => none
      | some r => some ({ r.1 with cancelling := w.cancelling - 1 }, r.2)
  | Ev.timerPass now =>
    match w.this_task with
    | some _ => some (w, [])
    | none =>
      match w.timer.pass now with
      | (s, TimerImpl.Pass.dispatched t) =>
        some ({ w with timer := s, this_task := some t.callback }, [])
      | (s, _) => some ({ w with timer := s }, [])
  | Ev.timerCall =>
    match w.this_task with
    | some TimerJob.timerCallback => some ({ w.TimerCallback with this_task := none }, [])
    | some TimerJob.other => some ({ w with this_task := none }, [])
    | none => some (w, [])
  | Ev.timerOther when =>
    some ({ w with timer := (w.timer.Schedule when TimerJob.other).1 }, [])
  | Ev.workerPass =>
    match w.task with
    | some _ => some (w, [])
    | none =>
      match w.q.pass with
      | (s, EventQueue.Pass.popped t) => some ({ w with q := s, task := some t.f }, [])
      | (s, _) => some ({ w with q := s }, [])
  | Ev.workerRun now =>
    match w.task with
    | some ScheduleTask.firing => firing f { w with task := none }
    | some (ScheduleTask.continuation b) => continuation { w with task := none } b now
    | some ScheduleTask.other => some ({ w with task := none }, [])
    | none => some (w, [])
  | Ev.enqueueOther id => some ({ w with q := w.q.AddTask ScheduleTask.other id }, [])
  | Ev.queueFinish => some ({ w with q := w.q.Finish }, [])

/-- A sequence of steps: the final state and everything observed, in order. -/
def exec (f : Nat → Bool) : List Ev → ScheduleWorld → Option (ScheduleWorld × List Obs)
  | [], w => some (w, [])
  | e :: es, w =>
    match step f w e with
    | none => none
    | some r =>
      match exec f es r.1 with
      | none => none
      | some r2 => some (r2.1, r.2 ++ r2.2)

/-- Whether the step belongs to a call of `Cancel`. -/
def Ev.isCancel : Ev → Bool
  | Ev.cancelLock => true
  | Ev.cancelFinish => true
  | _ => false

end ScheduleWorld

namespace ScheduleWorld

/-- The done-promise is unresolved exactly while the schedule is running. -/
def Sound (w : ScheduleWorld) : Prop :=
  w.scb.running_ = true ↔ w.done.result_ = none

/-- The arming times of a trace. -/
def armedTimes (tr : List Obs) : List Int :=
  tr.filterMap Obs.armedAt

/-- Each arming time is the one before plus the interval, as a tick count,
unless the one before is tick 0. -/
def Follows (interval : Int) : Int → List Int → Prop
  | _, [] => True
  | s, t :: ts => (s ≠ 0 → t = wrapTicks (s + interval)) ∧ Follows interval t ts

end ScheduleWorld

end cpppromise

namespace cpppromise

/-! ## Schedule: where the one firing in flight is -/

/-- The callback of the schedule counts 1, a callback of another client 0. -/
def TimerJob.weight : TimerJob → Nat
  | TimerJob.timerCallback => 1
  | TimerJob.other => 0

/-- A task of the schedule counts 1, a task of another client 0. -/
def ScheduleTask.weight : ScheduleTask → Nat
  | ScheduleTask.other => 0
  | _ => 1

namespace ScheduleWorld

/-- The number of timer entries that hold the callback of the schedule. -/
def timerWeight (l : List (Int × TimerImpl.Task TimerJob)) : Nat :=
  (l.map fun e => e.2.callback.weight).sum

/-- The number of tasks of the schedule in a FIFO. -/
def queueWeight (l : List (Task ScheduleTask)) : Nat :=
  (l.map fun t => t.f.weight).sum

/-- The weight of the local `this_task` of the timer thread. -/
def thisWeight : Option TimerJob → Nat
  | some j => j.weight
  | none => 0

/-- The weight of the local `task` of the worker. -/
def heldWeight : Option ScheduleTask → Nat
  | some t => t.weight
  | none => 0

/-- The armings of the schedule that are pending in the timer or held by the
timer thread. -/
def armedCount (w : ScheduleWorld) : Nat :=
  timerWeight w.timer.tasks_ + thisWeight w.this_task

/-- The tasks of the schedule that are in the FIFO of `q_` or held by its
worker. -/
def queuedCount (w : ScheduleWorld) : Nat :=
  queueWeight w.q.tasks_ + heldWeight w.task

/-- A continuation with value `b` is in the FIFO or held by the worker. -/
def hasContinuation (w : ScheduleWorld) (b : Bool) : Prop :=
  (∃ t ∈ w.q.tasks_, t.f = ScheduleTask.continuation b) ∨
    w.task = some (ScheduleTask.continuation b)

/-- The shape of every state of a schedule on which `Cancel` is not called: at
most one firing is in flight, as a timer entry, a firing body or a
continuation; a stopped schedule has none and no timer id; and while a task of
the schedule is queued no timer id is registered. -/
structure Tokens (w : ScheduleWorld) : Prop where
  sound : Sound w
  idle : w.cancelling = 0
  one : armedCount w + queuedCount w ≤ 1
  zero : w.scb.running_ = false → armedCount w + queuedCount w = 0 ∧
    w.scb.current_timer_ = none
  cur : 0 < queuedCount w → w.scb.current_timer_ = none

/-- What the invocations so far returned, on a schedule on which `Cancel` is
not called: a pending continuation carries the result of the last invocation,
every earlier invocation returned true, the last one returned true unless its
continuation is still pending, and a stopped schedule was stopped by a last
result false. -/
structure Results (f : Nat → Bool) (w : ScheduleWorld) : Prop where
  value : ∀ b, hasContinuation w b → 0 < w.count ∧ b = f (w.count - 1)
  past : ∀ k, k + 1 < w.count → f k = true
  last : w.scb.running_ = true → 0 < w.count →
    f (w.count - 1) = true ∨ ∃ b, hasContinuation w b
  halt : w.scb.running_ = false → 0 < w.count ∧ f (w.count - 1) = false

end ScheduleWorld

end cpppromise

namespace cpppromise

namespace ScheduleWorld

/-- The state between two firings when nothing else uses the timer and the
queue: the timer thread is alive and the one pending entry is the arming of the
schedule, the worker is alive and idle, the schedule runs, and the user
function has been invoked `k` times. -/
def Ready (w : ScheduleWorld) (k : Nat) : Prop :=
  w.timer.run_ = true ∧
  (∃ t i, w.timer.tasks_ = [(t, ⟨i, TimerJob.timerCallback⟩)]) ∧
  w.this_task = none ∧ w.task = none ∧ w.q.tasks_ = [] ∧ w.q.t_ = true ∧
  w.scb.running_ = true ∧ w.done.result_ = none ∧ w.count = k

end ScheduleWorld

end cpppromise

namespace cpppromise

/-! ## Topic, Publication, Subscription (`topic.h`, `topic_impl.h`,
`publication_impl.h`, `subscription_control_block.h`,
`subscription_unsubscribe_trigger_impl.h`, `subscription_impl.h`) -/

/-- A `Topic<T> *`. -/
abbrev TId := Nat

/-- A `std::shared_ptr<SubscriptionControlBlock<T>>`. -/
abbrev SId := Nat

/-- A statement of a listener, which is client code. -/
inductive Act where
  /-- The statement `received_.push_back(k)` on the vector of the subscriber. -/
  | push (k : Int)
  /-- The statement `subscription_->Unsubscribe()`, or `subscription_.reset()`
  on the last handle, for the subscription `s`. -/
  | unsubscribe (s : SId)

/-- The struct `SubscriptionControlBlock<T>` (`T` is `int`): the nullable
back-pointer `topic`, guarded by `mu`, the delivery queue `q`, the listener and
the id.  The listener maps the value it is called with to the statements it
executes. -/
structure SubscriptionControlBlock where
  topic : Option TId
  q : QId
  listener : Int → List Act
  id : String

/-- The tasks in the FIFO of a queue, as far as topics are concerned. -/
inductive TopicTask where
  /-- The lambda `[value, block]() {...}` that `Publish` enqueues. -/
  | delivery (value : Int) (block : SId)
  /-- The lambda of `ResolvePublishPromiseWhenRecipientsDone`, which touches
  promises only. -/
  | fanIn
  /-- Any other task; what it does to topics is a step of its own. -/
  | other

/-- The topics, the subscription blocks and the queues.  `topics t` is the
vector `subscriptions_` of topic `t`, guarded by its `mu_`.  `received s` is
the vector that the listener of `s` fills, `heard s` lists the values the
listener of `s` was called with, and `removing` lists the calls
`topic->Remove(deleted_block)` that threads inside `Unsubscribe` have still to
make.  The promises that `Enqueue` and `Publish` return are not part of this
state; the fan-in on them is `resolvePublishPromiseWhenRecipientsDone`. -/
structure TopicWorld where
  queues : QId → EventQueue TopicTask
  topics : TId → List SId
  blocks : SId → SubscriptionControlBlock
  blockCount : Nat
  received : SId → List Int
  heard : SId → List Int
  removing : List (TId × SId)

namespace TopicWorld

/-- The state in which every queue and every topic has just been constructed
and no subscription exists. -/
def init : TopicWorld :=
  { queues := fun _ => EventQueue.new
    topics := fun _ => []
    blocks := fun _ => { topic := none, q := 0, listener := fun _ => [], id := "" }
    blockCount := 0
    received := fun _ => []
    heard := fun _ => []
    removing := [] }

/-- The call `q->AddTask(f, id)`, as made by `q->Enqueue(f, id)`. -/
def AddTask (w : TopicWorld) (q : QId) (f : TopicTask) (id : String) : TopicWorld :=
  { w with queues := Function.update w.queues q ((w.queues q).AddTask f id) }

/-- The member `Topic<T>::Add`: `subscriptions_.push_back(block)`. -/
def Add (w : TopicWorld) (t : TId) (block : SId) : TopicWorld :=
  { w with topics := Function.update w.topics t (w.topics t ++ [block]) }

/-- The member `Topic<T>::Remove`: the first element equal to `block` is
erased. -/
def Remove (w : TopicWorld) (t : TId) (block : SId) : TopicWorld :=
  { w with topics := Function.update w.topics t ((w.topics t).erase block) }

/-- The loop of `Publish` over `subscriptions_`:
`block->q->Enqueue([value, block]() {...}, block->id)` for each block. -/
def publishLoop (value : Int) : List SId → TopicWorld → TopicWorld
  | [], w => w
  | s :: rest, w =>
    publishLoop value rest
      (w.AddTask (w.blocks s).q (TopicTask.delivery value s) (w.blocks s).id)

/-- The member `Topic<T>::Publish(value)`, called on a thread whose
`EventQueue::Get()` is `cur`: the loop under `mu_`, and the task that
`ResolvePublishPromiseWhenRecipientsDone` enqueues on `cur`. -/
def Publish (w : TopicWorld) (cur : QId) (t : TId) (value : Int) : TopicWorld :=
  (publishLoop value (w.topics t) w).AddTask cur TopicTask.fanIn ""

/-- The member `Publication<T>::Subscribe(listener, id)` of the publication of
topic `t`, called on a thread whose `EventQueue::Get()` is `cur`: a new block
with `topic = topic_`, `q = EventQueue::Get()`, and `topic_->Add(scb)`. -/
def Subscribe (w : TopicWorld) (cur : QId) (t : TId) (listener : Int → List Act)
    (id : String) : TopicWorld × SId :=
  (({ w with blocks := Function.update w.blocks w.blockCount
                { topic := some t, q := cur, listener := listener, id := id }
             blockCount := w.blockCount + 1 } : TopicWorld).Add t w.blockCount,
    w.blockCount)

/-- The locked section of `SubscriptionUnsubscribeTrigger<T>::Unsubscribe`:
when `block_->topic` is not null it is read and set to null, and the thread
goes on to call `topic->Remove(deleted_block)`. -/
def unsubscribeLock (w : TopicWorld) (s : SId) : TopicWorld :=
  match (w.blocks s).topic with
  | some t =>
    { w with blocks := Function.update w.blocks s { w.blocks s with topic := none }
             removing := w.removing ++ [(t, s)] }
  | none => w

/-- The call `topic->Remove(deleted_block)` of a thread that is inside
`Unsubscribe` and has left the locked section. -/
def unsubscribeRemove (w : TopicWorld) (t : TId) (s : SId) : TopicWorld :=
  if (t, s) ∈ w.removing then
    { w.Remove t s with removing := w.removing.erase (t, s) }
  else w

/-- A whole call of `Unsubscribe` on the subscription `s`. -/
def Unsubscribe (w : TopicWorld) (s : SId) : TopicWorld :=
  match (w.blocks s).topic with
  | some t => (w.unsubscribeLock s).unsubscribeRemove t s
  | none => w

/-- One statement of the listener of the subscription `s`. -/
def act (s : SId) (w : TopicWorld) : Act → TopicWorld
  | Act.push k => { w with received := Function.update w.received s (w.received s ++ [k]) }
  | Act.unsubscribe s1 => w.Unsubscribe s1

/-- The delivery lambda of `Publish`, run without a step of another thread in
between: `if (block->topic == nullptr) return;` under the lock of the block,
then `block->listener(value)`.  The source releases the lock before the call;
`DeliveryWorld.workerStep` splits the lambda there. -/
def deliver (w : TopicWorld) (value : Int) (block : SId) : TopicWorld :=
  match (w.blocks block).topic with
  | none => w
  | some _ =>
    ((w.blocks block).listener value).foldl (act block)
      { w with heard := Function.update w.heard block (w.heard block ++ [value]) }

/-- One pass of the worker loop of queue `q`, the popped task included. -/
def workerStep (w : TopicWorld) (q : QId) : TopicWorld :=
  match (w.queues q).pass with
  | (s, EventQueue.Pass.popped task) =>
    match task.f with
    | TopicTask.delivery value block =>
      ({ w with queues := Function.update w.queues q s } : TopicWorld).deliver value block
    | _ => { w with queues := Function.update w.queues q s }
  | (s, _) => { w with queues := Function.update w.queues q s }

/-- The steps of the threads that touch topics, blocks and queues. -/
inductive Ev where
  /-- A task that runs on queue `cur` calls `Publish(value)` on topic `t`. -/
  | publish (cur : QId) (t : TId) (value : Int)
  /-- A task that runs on queue `cur` calls `Subscribe(listener, id)` on the
  publication of topic `t`. -/
  | subscribe (cur : QId) (t : TId) (listener : Int → List Act) (id : String)
  /-- A thread calls `Unsubscribe` on the subscription `s` and runs the locked
  section; it returns at once when the back-pointer is null already. -/
  | unsubscribeLock (s : SId)
  /-- A thread inside `Unsubscribe` calls `topic->Remove(deleted_block)` and
  returns. -/
  | unsubscribeRemove (t : TId) (s : SId)
  /-- The worker of queue `q` makes one pass of its loop. -/
  | worker (q : QId)
  /-- A task that is not a delivery is enqueued on `q`. -/
  | enqueueOther (q : QId) (id : String)
  /-- A client calls `q->Finish()`. -/
  | finish (q : QId)

/-- One step. -/
def step (w : TopicWorld) : Ev → TopicWorld
  | Ev.publish cur t value => w.Publish cur t value
  | Ev.subscribe cur t listener id => (w.Subscribe cur t listener id).1
  | Ev.unsubscribeLock s => w.unsubscribeLock s
  | Ev.unsubscribeRemove t s => w.unsubscribeRemove t s
  | Ev.worker q => w.workerStep q
  | Ev.enqueueOther q id => w.AddTask q TopicTask.other id
  | Ev.finish q => { w with queues := Function.update w.queues q (w.queues q).Finish }

/-- A sequence of steps. -/
def exec : List Ev → TopicWorld → TopicWorld
  | [], w => w
  | e :: es, w => exec es (w.step e)

/-- The value of a task when it is a delivery for the subscription `s`. -/
def deliveryFor (s : SId) (task : Task TopicTask) : Option Int :=
  match task.f with
  | TopicTask.delivery value block => if block = s then some value else none
  | _ => none

/-- The values of the deliveries for `s` in the FIFO of queue `q`, in FIFO
order. -/
def pendingFor (w : TopicWorld) (s : SId) (q : QId) : List Int :=
  (w.queues q).tasks_.filterMap (deliveryFor s)

/-- The values that the steps publish on topic `t`, in order. -/
def published (t : TId) : List Ev → List Int
  | [] => []
  | Ev.publish _ t1 value :: es => if t1 = t then value :: published t es else published t es
  | _ :: es => published t es

/-- The listener of the consumers of the tests
`StreamUnsubscribeIsImmediate` and `SubscriptionOutOfScopeUnsubscribes`:
`if (k == bound_) { subscription_->Unsubscribe(); return; } received_.push_back(k);`
(the second test has `subscription_.reset()` for the first statement). -/
def boundedListener (bound : Int) (s : SId) : Int → List Act :=
  fun k => if k = bound then [Act.unsubscribe s] else [Act.push k]

end TopicWorld

/-- The static member
`Topic<T>::ResolvePublishPromiseWhenRecipientsDone(resolver, promises)`, called
on a thread whose `EventQueue::Get()` is `cur`, followed by the statements
`rest` of the caller: the task enqueued on `cur` resolves `resolver` when
`promises` is empty, and otherwise registers on the first promise, through
`Then` on `EventQueue::Get()`, a continuation that calls the member for the
other promises. -/
def resolvePublishPromiseWhenRecipientsDone (cur : QId) (resolver : PId) :
    List PId → Prog → Prog
  | [], rest =>
    Prog.enqueue cur (Prog.resolve resolver 0 (Prog.ret 0)) "" fun _ => rest
  | p :: promises, rest =>
    Prog.enqueue cur
      (Prog.thenHere p
        (fun _ => resolvePublishPromiseWhenRecipientsDone cur resolver promises (Prog.ret 0))
        "" fun _ => Prog.ret 0)
      "" fun _ => rest

/-- The end of `Topic<T>::Publish`, after the loop has collected the promises
`completions` of the deliveries: `CreateResolver<Empty>()`, the fan-in, and
`return promise_resolver_pair.first`. -/
def publishPromise (cur : QId) (completions : List PId) : Prog :=
  Prog.createResolver "" fun pair =>
    resolvePublishPromiseWhenRecipientsDone cur pair completions (Prog.ret pair)

end cpppromise

namespace cpppromise

namespace TopicWorld

/-- The statement does not unsubscribe `s`. -/
def Act.spares (s : SId) : Act → Prop
  | Act.push _ => True
  | Act.unsubscribe s1 => s1 ≠ s

/-- The step does not unsubscribe `s` and subscribes no listener that would. -/
def Ev.spares (s : SId) : Ev → Prop
  | Ev.subscribe _ _ listener _ => ∀ k, ∀ a ∈ listener k, Act.spares s a
  | Ev.unsubscribeLock s1 => s1 ≠ s
  | _ => True

/-- The subscription `s` is subscribed to topic `t` with delivery queue `qs`
and stays so: its block points to `t`, the list of `t` holds it once and no
other list holds it, no thread is unsubscribing it, no listener unsubscribes
it, and only its own queue holds deliveries for it. -/
structure Subscribed (w : TopicWorld) (s : SId) (t : TId) (qs : QId) : Prop where
  block : (w.blocks s).topic = some t ∧ (w.blocks s).q = qs
  lt : s < w.blockCount
  once : (w.topics t).count s = 1
  only : ∀ t1, t1 ≠ t → s ∉ w.topics t1
  fresh : ∀ t1 s1, s1 ∈ w.topics t1 → s1 < w.blockCount
  staying : ∀ t1, (t1, s) ∉ w.removing
  spared : ∀ s1 k, ∀ a ∈ (w.blocks s1).listener k, Act.spares s a
  other : ∀ q, q ≠ qs → w.pendingFor s q = []

/-- The values the listener of `s` was called with, followed by the values of
the deliveries that wait in its queue. -/
def stream (w : TopicWorld) (s : SId) (qs : QId) : List Int :=
  w.heard s ++ w.pendingFor s qs

end TopicWorld

end cpppromise

namespace cpppromise

namespace TopicWorld

/-- The shape of every state that the steps reach from `init`: the lists hold
allocated blocks, each at most once; a listed block points to its topic or is
being removed from it by a thread inside `Unsubscribe`; a block that is being
removed has a null back-pointer, is allocated, and is being removed once. -/
structure Listed (w : TopicWorld) : Prop where
  fresh : ∀ t s, s ∈ w.topics t → s < w.blockCount
  nodup : ∀ t, (w.topics t).Nodup
  owner : ∀ t s, s ∈ w.topics t → (w.blocks s).topic = some t ∨ (t, s) ∈ w.removing
  pending : ∀ t s, (t, s) ∈ w.removing → (w.blocks s).topic = none ∧ s < w.blockCount
  single : (w.removing.map Prod.snd).Nodup
  alloc : ∀ s, (w.blocks s).topic ≠ none → s < w.blockCount

/-- The back-pointer of the allocated block `s` is null. -/
def Cleared (w : TopicWorld) (s : SId) : Prop :=
  s < w.blockCount ∧ (w.blocks s).topic = none

/-- The allocated block `s` is in no list. -/
def Gone (w : TopicWorld) (s : SId) : Prop :=
  s < w.blockCount ∧ ∀ t, s ∉ w.topics t

end TopicWorld

end cpppromise

namespace cpppromise

namespace TopicWorld

/-- The steps of the tests with a bounded consumer: publishes, worker passes,
other tasks and `Finish`; nobody else subscribes or unsubscribes. -/
def Ev.plain : Ev → Prop
  | Ev.subscribe _ _ _ _ => False
  | Ev.unsubscribeLock _ => False
  | Ev.unsubscribeRemove _ _ => False
  | _ => True

/-- The state of the tests `StreamUnsubscribeIsImmediate` and
`SubscriptionOutOfScopeUnsubscribes` after `StartConsuming` has run on the
queue `qc` of the consumer: the one subscription, block 0, has the bounded
listener. -/
def boundedStart (qc : QId) (t : TId) (bound : Int) : TopicWorld :=
  (init.Subscribe qc t (boundedListener bound 0) "").1

/-- The values `a, a + 1, ..., b - 1`. -/
def counting (a b : Nat) : List Int :=
  (List.range' a (b - a)).map Int.ofNat

end TopicWorld

end cpppromise

namespace cpppromise

namespace TopicWorld

/-- The number of calls `topic->Remove(block)` for the block `s` that the
statement `a` of a listener makes in the state `w`: `Unsubscribe` calls
`Remove` when it found the back-pointer set. -/
def actRemoves (s : SId) (w : TopicWorld) : Act → Nat
  | Act.push _ => 0
  | Act.unsubscribe s1 => if s1 = s ∧ (w.blocks s1).topic ≠ none then 1 else 0

/-- The calls of `Remove` for `s` that the statements of the listener of `b`
make. -/
def actsRemoves (s b : SId) : List Act → TopicWorld → Nat
  | [], _ => 0
  | a :: rest, w => actRemoves s w a + actsRemoves s b rest (act b w a)

/-- The calls of `Remove` for `s` that a delivery makes. -/
def deliverRemoves (s : SId) (w : TopicWorld) (value : Int) (block : SId) : Nat :=
  match (w.blocks block).topic with
  | none => 0
  | some _ =>
    actsRemoves s block ((w.blocks block).listener value)
      { w with heard := Function.update w.heard block (w.heard block ++ [value]) }

/-- The calls of `Remove` for `s` that one step makes: a thread inside
`Unsubscribe` that has left the locked section makes one, and a worker pass
makes those of the delivery it runs. -/
def Ev.removes (s : SId) (w : TopicWorld) : Ev → Nat
  | Ev.unsubscribeRemove t s1 => if s1 = s ∧ (t, s1) ∈ w.removing then 1 else 0
  | Ev.worker q =>
    match (w.queues q).pass with
    | (u, EventQueue.Pass.popped task) =>
      match task.f with
      | TopicTask.delivery value block =>
        deliverRemoves s { w with queues := Function.update w.queues q u } value block
      | _ => 0
    | _ => 0
  | _ => 0

/-- The calls of `Remove` for `s` that a sequence of steps makes. -/
def removes (s : SId) : List Ev → TopicWorld → Nat
  | [], _ => 0
  | e :: es, w => e.removes s w + removes s es (w.step e)

/-- The calls of `Remove` for `s` that are still possible: one while the
back-pointer of `s` is set or `s` is not allocated yet, and afterwards one per
thread that is inside `Unsubscribe` for `s`. -/
def removeBudget (w : TopicWorld) (s : SId) : Nat :=
  if (w.blocks s).topic ≠ none ∨ w.blockCount ≤ s then 1
  else (w.removing.map Prod.snd).count s

end TopicWorld

end cpppromise

namespace cpppromise

/-! ## The program state: steps of client threads and workers -/

namespace World

/-- The steps of the threads: a thread whose `EventQueue::Get()` is `cur` runs
client code (a worker thread has `cur` set, any other thread has none), or the
worker of a queue makes one pass of its loop. -/
inductive Ev where
  | client (cur : Option QId) (code : Prog)
  | worker (q : QId)

/-- One step; `none` when an assertion fails. -/
def step (w : World) : Ev → Option World
  | Ev.client cur code => (Prog.run cur code w).map Prod.fst
  | Ev.worker q => w.workerStep q

/-- A sequence of steps. -/
def exec : List Ev → World → Option World
  | [], w => some w
  | e :: es, w =>
    match w.step e with
    | none => none
    | some w1 => exec es w1

/-- The sum `f 0 + ... + f (n - 1)`. -/
def sumTo (f : Nat → Nat) : Nat → Nat
  | 0 => 0
  | n + 1 => sumTo f n + f n

/-- The number of continuations pending on block `p` whose target queue is
`q`. -/
def pendingOn (w : World) (q : QId) (p : PId) : Nat :=
  ((w.pcbs p).dependents_.filter fun d => decide (d.q = q)).length

/-- Every continuation pending on one of the first `n` blocks holds its target
queue, and no other block has a pending continuation: the counter `count_` of
each queue is at least the number of pending continuations whose target it
is. -/
def HeldAt (w : World) (n : Nat) : Prop :=
  (∀ p, n ≤ p → (w.pcbs p).dependents_ = []) ∧
    ∀ q, ((sumTo (w.pendingOn q) n : Nat) : Int) ≤ (w.queues q).count_

/-- Every pending continuation holds its target queue. -/
def Held (w : World) : Prop :=
  ∃ n, HeldAt w n

/-- A property of the state that every call into the library keeps. -/
structure Stable (P : World → Prop) : Prop where
  got : ∀ w g, P w → P { w with got := g }
  decr : ∀ w c, P w → P (w.decr c).1
  newPcb : ∀ w, P w → P w.newPcb.1
  newCell : ∀ w n, P w → P (w.newCell n).1
  addTask : ∀ w q f id, P w → P (w.AddTask q f id)
  finish : ∀ w q, P w → P (w.Finish q)
  resolve : ∀ w p v w1, P w → w.Resolve p v = some w1 → P w1
  andThen : ∀ w p q f id r, P w → w.Then p q f id = some r → P r.1

/-- Between the states `w` and `u` the allocated block `p` was not freed: no
block was freed, a result of `p` stayed, and while `p` has no result the
continuations pending on it stayed. -/
def Grows (p : PId) (w u : World) : Prop :=
  w.pcbCount ≤ u.pcbCount ∧
  (p < w.pcbCount →
    ((w.pcbs p).result_.isSome = true → (u.pcbs p).result_.isSome = true) ∧
    ((u.pcbs p).result_ = none →
      ∀ d ∈ (w.pcbs p).dependents_, d ∈ (u.pcbs p).dependents_))

end World

end cpppromise

namespace cpppromise

namespace ScheduleWorld

/-- The destructor `~ScheduleControlBlock`, which runs when the last
`shared_ptr` to the block is gone: `assert(!running_)` and `q_->Release()`. -/
def Destructor (w : ScheduleWorld) : Option ScheduleWorld :=
  if w.scb.running_ then none else some { w with q := w.q.Release }

end ScheduleWorld

end cpppromise

namespace cpppromise

/-! ## The mutexes a thread holds when it calls client code -/

/-- The mutexes: `ScheduleControlBlock::mu_`, `SubscriptionControlBlock::mu`,
`Topic::mu_`, `PromiseControlBlock::mu_`, `EventQueue::mu_` and the mutex of
the timer. -/
inductive Mu where
  | schedule
  | subscription
  | topic
  | promise
  | queue
  | timer
  deriving DecidableEq

/-- The callbacks a client supplies: the periodic function of a schedule and
the listener of a subscription. -/
inductive Callback where
  | periodic
  | listener
  deriving DecidableEq

/-- What a thread executes, as far as mutexes and callbacks are concerned. -/
inductive Code where
  /-- Statements that take no mutex and call no callback. -/
  | skip
  /-- One piece of code after another. -/
  | seq (a b : Code)
  /-- A scope that opens with `std::unique_lock<std::mutex> lock(m)`. -/
  | locked (m : Mu) (body : Code)
  /-- The call of a callback of the client, whose body is `body`. -/
  | invoke (c : Callback) (body : Code)

/-- Run the code on a thread that holds the mutexes `held`: the callbacks it
calls, in order, each with the mutexes held at the call.  `std::mutex` is not
recursive: a thread that locks a mutex it holds never returns, which is the
result `none`. -/
def Code.run (held : List Mu) : Code → Option (List (Callback × List Mu))
  | Code.skip => some []
  | Code.seq a b =>
    match a.run held with
    | none => none
    | some ra =>
      match b.run held with
      | none => none
      | some rb => some (ra ++ rb)
  | Code.locked m body => if m ∈ held then none else body.run (m :: held)
  | Code.invoke c body =>
    match body.run held with
    | none => none
    | some r => some ((c, held) :: r)

namespace Locking

/-- The member `ScheduleControlBlock::Finish`; `done_.Resolve` locks the block
of the done-promise. -/
def Finish (running : Bool) : Code :=
  Code.locked Mu.schedule (if running then Code.locked Mu.promise Code.skip else Code.skip)

/-- The member `ScheduleControlBlock::Cancel`: the scope with
`Timer::Get()->Cancel(*current_timer_)`, then `Finish()`. -/
def Cancel (hasTimer running : Bool) : Code :=
  Code.seq
    (Code.locked Mu.schedule (if hasTimer then Code.locked Mu.timer Code.skip else Code.skip))
    (Finish running)

/-- The member `ScheduleControlBlock::ScheduleNextRun`. -/
def ScheduleNextRun (running : Bool) : Code :=
  Code.locked Mu.schedule (if running then Code.locked Mu.timer Code.skip else Code.skip)

/-- The expression `p.Then(cont)` on a resolved or unresolved promise: the lock
of the block, `q->Take()`, and the calls `q->AddTask`, `q->Release` of the
notification. -/
def Then : Code :=
  Code.locked Mu.promise (Code.locked Mu.queue Code.skip)

/-- The lambda that `TimerCallback` enqueues, whose periodic function has the
body `f`: `std::unique_lock<std::mutex> lock(shared_this->mu_)`,
`if (!running_) return;`, `f_().Then(...)`. -/
def firingBody (running : Bool) (f : Code) : Code :=
  Code.locked Mu.schedule
    (if running then Code.seq (Code.invoke Callback.periodic f) Then else Code.skip)

/-- The continuation `[shared_this](bool keep_running)`, which runs as a task of
its own. -/
def continuationBody (keep_running running : Bool) : Code :=
  if keep_running then ScheduleNextRun running else Finish running

/-- The member `SubscriptionUnsubscribeTrigger<T>::Unsubscribe`: the scope that
reads and clears `block_->topic`, then `topic->Remove(deleted_block)`, which
locks the topic. -/
def Unsubscribe (subscribed : Bool) : Code :=
  Code.seq (Code.locked Mu.subscription Code.skip)
    (if subscribed then Code.locked Mu.topic Code.skip else Code.skip)

/-- The delivery lambda of `Topic<T>::Publish`, whose listener has the body
`listener`: the scope `{ lock(block->mu); if (block->topic == nullptr) return; }`
and then `block->listener(value)`. -/
def deliveryBody (subscribed : Bool) (listener : Code) : Code :=
  Code.seq (Code.locked Mu.subscription Code.skip)
    (if subscribed then Code.invoke Callback.listener listener else Code.skip)

end Locking

end cpppromise

namespace cpppromise

/-! ## Client code that does not hold a resolver -/

/-- The client code never calls `Resolve` on the block `p`: it names no
resolver of `p`, and the handles it receives from the library are handles of
other blocks. -/
def Prog.avoids (p : PId) : Prog → Prop
  | Prog.ret _ => True
  | Prog.push _ rest => rest.avoids p
  | Prog.enqueue _ f _ k => f.avoids p ∧ ∀ out, out ≠ p → (k out).avoids p
  | Prog.enqueueWithResolver _ body _ k =>
    (∀ out, out ≠ p → (body out).avoids p) ∧ ∀ out, out ≠ p → (k out).avoids p
  | Prog.createResolver _ k => ∀ out, out ≠ p → (k out).avoids p
  | Prog.createResolvedPromise _ _ k => ∀ out, out ≠ p → (k out).avoids p
  | Prog.thenOn _ _ f _ k => (∀ v, (f v).avoids p) ∧ ∀ out, out ≠ p → (k out).avoids p
  | Prog.thenHere _ f _ k => (∀ v, (f v).avoids p) ∧ ∀ out, out ≠ p → (k out).avoids p
  | Prog.resolve r _ rest => r ≠ p ∧ rest.avoids p
  | Prog.decr _ k => ∀ n, (k n).avoids p
  | Prog.resolveAll _ _ k => ∀ out, out ≠ p → (k out).avoids p
  | Prog.finish _ rest => rest.avoids p

/-- The closure of a task does not resolve the block `p`. -/
def Closure.avoids (p : PId) : Closure → Prop
  | Closure.enqueueBody f pcb => pcb ≠ p ∧ f.avoids p
  | Closure.thenBody f resolver value => resolver ≠ p ∧ (f value).avoids p
  | Closure.withResolverBody resolve resolver => resolver ≠ p ∧ (resolve resolver).avoids p

namespace World

/-- The step is not client code that resolves the block `p`. -/
def Ev.avoids (p : PId) : Ev → Prop
  | Ev.client _ code => code.avoids p
  | Ev.worker _ => True

/-- No task in a FIFO and no pending continuation resolves the block `p`. -/
def Unheld (p : PId) (w : World) : Prop :=
  (∀ q, ∀ t ∈ (w.queues q).tasks_, t.f.avoids p) ∧
  (∀ p1, ∀ d ∈ (w.pcbs p1).dependents_, d.resolver ≠ p ∧ ∀ v, (d.f v).avoids p)

/-- The allocated block `p` is unresolved and nothing in the state resolves
it. -/
def Avoids (p : PId) (w : World) : Prop :=
  p < w.pcbCount ∧ (w.pcbs p).result_ = none ∧ Unheld p w

end World

end cpppromise

namespace cpppromise

namespace ScheduleWorld

/-- The time point for which the step calls `Timer::Schedule`, if it does:
another client of the timer, or the continuation of the schedule that calls
`ScheduleNextRun` while the schedule runs. -/
def Ev.schedules (w : ScheduleWorld) : Ev → Option Int
  | Ev.timerOther when => some when
  | Ev.workerRun now =>
    match w.task with
    | some (ScheduleTask.continuation true) =>
      if w.scb.running_ then
        some (if w.scb.scheduled_run_time_ = 0 then now
          else wrapTicks (w.scb.scheduled_run_time_ + w.scb.interval_))
      else none
    | _ => none
  | _ => none

/-- No step of the sequence calls `Timer::Schedule` for a time point at which
an entry is pending, the case in which `std::map::insert` stores nothing. -/
def Distinct (f : Nat → Bool) : List Ev → ScheduleWorld → Prop
  | [], _ => True
  | e :: es, w =>
    (∀ t, e.schedules w = some t → t ∉ w.timer.tasks_.map Prod.fst) ∧
    match step f w e with
    | none => True
    | some r => Distinct f es r.1

/-- When `current_timer_` is set, it is the id of a pending entry of the
schedule, or the timer thread has just erased the entry of the schedule and has
not called `TimerCallback` yet. -/
def Registered (w : ScheduleWorld) : Prop :=
  ∀ i, w.scb.current_timer_ = some i →
    (∃ when, (when, (⟨i, TimerJob.timerCallback⟩ : TimerImpl.Task TimerJob)) ∈ w.timer.tasks_) ∨
    w.this_task = some TimerJob.timerCallback

end ScheduleWorld

end cpppromise

namespace cpppromise

/-! ## `Publish`: the deliveries and the fan-in on their promises -/

/-- The body of the task that `ResolvePublishPromiseWhenRecipientsDone`
enqueues: `resolver.Resolve(Empty())` for an empty list, and otherwise `Then`
on the first promise with a continuation that calls the member for the others. -/
def fanInBody (cur : QId) (resolver : PId) : List PId → Prog
  | [] => Prog.resolve resolver 0 (Prog.ret 0)
  | p :: promises =>
    Prog.thenHere p
      (fun _ => resolvePublishPromiseWhenRecipientsDone cur resolver promises (Prog.ret 0))
      "" fun _ => Prog.ret 0

/-- The member `Topic<T>::Publish(value)` as client code that runs on the queue
`cur`, for subscriptions whose queues are `subs`, in list order, each with its
back-pointer set and the listener `got.push_back(k)`: the loop enqueues one
delivery per subscription and collects the promises in `completions`, and the
end of the member returns the promise of the fan-in. -/
def publishFrom (cur : QId) (value : Int) : List QId → List PId → Prog
  | [], completions => publishPromise cur completions
  | q :: subs, completions =>
    Prog.enqueue q (Prog.push value (Prog.ret 0)) "" fun p =>
      publishFrom cur value subs (completions ++ [p])

namespace FanIn

/-- Where the fan-in of one `Publish` with `n` deliveries is. -/
inductive Stage where
  /-- The task of the call of the helper for the completions from `j` on is in
  the FIFO of the queue of the publisher. -/
  | task (j : Nat)
  /-- The continuation of that task is pending on completion `j`. -/
  | waiting (j : Nat)
  /-- The downstream task of that continuation is in the FIFO. -/
  | cont (j : Nat)
  /-- The promise of `Publish` is resolved. -/
  | done

/-- The delivery task of subscription `i`; its promise is block `i`. -/
def delivery (value : Int) (i : Nat) : Task Closure :=
  ⟨"", Closure.enqueueBody (Prog.push value (Prog.ret 0)) i⟩

/-- The completions from `j` on. -/
def rest (n j : Nat) : List PId :=
  (List.range n).drop j

/-- The continuation registered on completion `j`. -/
def next (cur : QId) (n j : Nat) : Int → Prog :=
  fun _ => resolvePublishPromiseWhenRecipientsDone cur n (rest n (j + 1)) (Prog.ret 0)

/-- The closure that `Then` pushes for it. -/
def dep (cur : QId) (n j : Nat) : Dependent :=
  ⟨cur, next cur n j, n + 2 + 2 * j, ""⟩

/-- The task of the fan-in that is in the FIFO of the publisher's queue. -/
def token (cur : QId) (n : Nat) : Stage → List (Task Closure)
  | Stage.task j => [⟨"", Closure.enqueueBody (fanInBody cur n (rest n j)) (n + 1 + 2 * j)⟩]
  | Stage.waiting _ => []
  | Stage.cont j => [⟨"", Closure.thenBody (next cur n j) (n + 2 + 2 * j) 0⟩]
  | Stage.done => []

/-- The continuations pending on completion `i`. -/
def pending (cur : QId) (n : Nat) : Stage → Nat → List Dependent
  | Stage.waiting j, i => if i = j then [dep cur n j] else []
  | _, _ => []

/-- The deliveries for queue `q` that have not returned, in enqueue order;
`ret` lists the deliveries that have returned. -/
def waitingOn (subs : List QId) (ret : List Nat) (q : QId) : List Nat :=
  (List.range subs.length).filter fun i => decide (i ∉ ret ∧ subs[i]? = some q)

/-- What the stage says about the blocks. -/
def stageOk (n : Nat) (w : World) (ret : List Nat) : Stage → Prop
  | Stage.task j => j ≤ n ∧ (∀ i, i < j → i ∈ ret) ∧ w.pcbCount = n + 2 + 2 * j ∧
      w.pcbs (n + 1 + 2 * j) = PromiseControlBlock.new ∧ w.pcbs n = PromiseControlBlock.new
  | Stage.waiting j => j < n ∧ j ∉ ret ∧ (∀ i, i < j → i ∈ ret) ∧
      w.pcbCount = n + 3 + 2 * j ∧
      w.pcbs (n + 2 + 2 * j) = PromiseControlBlock.new ∧ w.pcbs n = PromiseControlBlock.new
  | Stage.cont j => j < n ∧ (∀ i, i ≤ j → i ∈ ret) ∧ w.pcbCount = n + 3 + 2 * j ∧
      w.pcbs (n + 2 + 2 * j) = PromiseControlBlock.new ∧ w.pcbs n = PromiseControlBlock.new
  | Stage.done => (∀ i, i < n → i ∈ ret) ∧ w.pcbs n = ⟨some 0, []⟩

/-- The shape of every state after `Publish(value)` was called on the fresh
fixture from queue `cur` with the subscriptions `subs`: the deliveries in `ret`
have returned, each after one call of its listener, and their promises are
resolved, the others wait in the FIFOs in enqueue order, and the fan-in is at
the stage `st`. -/
structure Inv (cur : QId) (subs : List QId) (value : Int) (w : World) (ret : List Nat)
    (st : Stage) : Prop where
  nodup : ret.Nodup
  lt : ∀ i ∈ ret, i < subs.length
  fifo : ∀ q, (w.queues q).tasks_ = (waitingOn subs ret q).map (delivery value) ++
    (if q = cur then token cur subs.length st else [])
  alive : ∀ q, (w.queues q).t_ = true ∧ (w.queues q).running_ = true
  unreturned : ∀ i, i < subs.length → i ∉ ret →
    w.pcbs i = ⟨none, pending cur subs.length st i⟩
  returned : ∀ i ∈ ret, w.pcbs i = ⟨some 0, []⟩
  got : w.got = List.replicate ret.length value
  stage : stageOk subs.length w ret st

/-- The number of worker passes on non-empty FIFOs until the promise of
`Publish` is resolved. -/
def measure (n : Nat) (ret : List Nat) : Stage → Nat
  | Stage.task j => (n - ret.length) + (2 * (n - j) + 1)
  | Stage.waiting j => (n - ret.length) + 2 * (n - j)
  | Stage.cont j => (n - ret.length) + 2 * (n - j)
  | Stage.done => n - ret.length

end FanIn

end cpppromise

namespace cpppromise

namespace World

/-- Whether the pass that the worker of queue `q` makes in `w` pops a task and
calls it: `1` when it does, `0` when the worker waits, exits or has stopped. -/
def popsAt (w : World) (q : QId) : Nat :=
  match (w.queues q).pass with
  | (_, EventQueue.Pass.popped _) => 1
  | _ => 0

/-- The number of passes, among the turns `qs` of the workers from `w`, in
which a worker pops a task and calls it. -/
def busy : List QId → World → Nat
  | [], _ => 0
  | q :: qs, w =>
    w.popsAt q +
      match w.workerStep q with
      | none => 0
      | some w1 => busy qs w1

end World

end cpppromise

namespace cpppromise

/-! ## Topic: a delivery between its check and the end of the listener -/

/-- What the worker of a queue has still to do for the delivery task it has
popped.  The delivery lambda releases the lock of the block after the check of
the back-pointer, so the threads interleave between these moves. -/
inductive Move where
  /-- The statement `block->listener(value)`, which follows the check that
  found the back-pointer set. -/
  | call (value : Int) (block : SId)
  /-- A statement of the listener of `block`. -/
  | stmt (block : SId) (a : Act)
  /-- The call `topic->Remove(deleted_block)` of an `Unsubscribe` that the
  listener called, which follows its locked section. -/
  | remove (t : TId) (s : SId)

/-- The value of a move that is the call of the listener of `s`. -/
def Move.callFor (s : SId) : Move → Option Int
  | Move.call value block => if block = s then some value else none
  | _ => none

/-- A bound on the number of moves that a move stands for: the call of a
listener with `n` statements, of which each may be an `Unsubscribe` of two
moves, counts `2 * n + 1`. -/
def Move.weight (w : TopicWorld) : Move → Nat
  | Move.call value block => 2 * ((w.blocks block).listener value).length + 1
  | Move.stmt _ (Act.push _) => 1
  | Move.stmt _ (Act.unsubscribe _) => 2
  | Move.remove _ _ => 1

/-- The topics, blocks and queues of `TopicWorld`, and for each queue the moves
that its worker has still to make for the delivery task it has popped. -/
structure DeliveryWorld where
  base : TopicWorld
  todo : QId → List Move

namespace DeliveryWorld

/-- The state in which every queue and every topic has just been constructed. -/
def init : DeliveryWorld :=
  { base := TopicWorld.init, todo := fun _ => [] }

/-- One move of a worker inside a delivery task: the new state and the moves
that take the place of the one made.  The call of the listener yields its
statements; `Unsubscribe` in a listener is its locked section, which yields the
call of `Remove` when it found the back-pointer set. -/
def runMove (w : TopicWorld) : Move → TopicWorld × List Move
  | Move.call value block =>
    ({ w with heard := Function.update w.heard block (w.heard block ++ [value]) },
      ((w.blocks block).listener value).map (Move.stmt block))
  | Move.stmt block (Act.push k) =>
    ({ w with received := Function.update w.received block (w.received block ++ [k]) }, [])
  | Move.stmt _ (Act.unsubscribe s) =>
    match (w.blocks s).topic with
    | some t =>
      ({ w with blocks := Function.update w.blocks s { w.blocks s with topic := none } },
        [Move.remove t s])
    | none => (w, [])
  | Move.remove t s => (w.Remove t s, [])

/-- Replace the state of queue `q`. -/
def setQueue (w : DeliveryWorld) (q : QId) (u : EventQueue TopicTask) : DeliveryWorld :=
  { w with base := { w.base with queues := Function.update w.base.queues q u } }

/-- The next move of the worker of queue `q`: the next move of the delivery
task it is in, if any; otherwise one pass of its loop, and for a popped
delivery the check `if (block->topic == nullptr) return;` under the lock of the
block, after which the call of the listener is still to come.  The pop and the
check are one move: the pop takes the head of the FIFO of `q`, which no other
thread reads or changes, so a step of another thread between the two has the
same effect when it is made before the pop. -/
def workerStep (w : DeliveryWorld) (q : QId) : DeliveryWorld :=
  match w.todo q with
  | m :: rest =>
    { base := (runMove w.base m).1
      todo := Function.update w.todo q ((runMove w.base m).2 ++ rest) }
  | [] =>
    match (w.base.queues q).pass with
    | (u, EventQueue.Pass.popped task) =>
      match task.f with
      | TopicTask.delivery value block =>
        match (w.base.blocks block).topic with
        | none => w.setQueue q u
        | some _ =>
          { base := (w.setQueue q u).base
            todo := Function.update w.todo q [Move.call value block] }
      | _ => w.setQueue q u
    | (u, _) => w.setQueue q u

/-- One step of a thread: the steps of `TopicWorld`, with the move of a worker
in place of its whole pass. -/
def step (w : DeliveryWorld) : TopicWorld.Ev → DeliveryWorld
  | TopicWorld.Ev.worker q => w.workerStep q
  | TopicWorld.Ev.publish cur t value => { w with base := w.base.Publish cur t value }
  | TopicWorld.Ev.subscribe cur t listener id =>
    { w with base := (w.base.Subscribe cur t listener id).1 }
  | TopicWorld.Ev.unsubscribeLock s => { w with base := w.base.unsubscribeLock s }
  | TopicWorld.Ev.unsubscribeRemove t s => { w with base := w.base.unsubscribeRemove t s }
  | TopicWorld.Ev.enqueueOther q id => { w with base := w.base.AddTask q TopicTask.other id }
  | TopicWorld.Ev.finish q => w.setQueue q (w.base.queues q).Finish

/-- A sequence of steps. -/
def exec : List TopicWorld.Ev → DeliveryWorld → DeliveryWorld
  | [], w => w
  | e :: es, w => exec es (w.step e)

/-- The values with which the worker of `q` has still to call the listener of
`s`: deliveries that have passed their check. -/
def inFlight (w : DeliveryWorld) (s : SId) (q : QId) : List Int :=
  (w.todo q).filterMap (Move.callFor s)

/-- The move is not the call `Remove` for the block `s`. -/
def Move.keeps (s : SId) : Move → Prop
  | Move.remove _ s1 => s1 ≠ s
  | _ => True

/-- The shape of every state that the steps reach from `init`: the lists hold
allocated blocks, each at most once, and a listed block points to its topic or
is being removed from it, by a thread inside `Unsubscribe` or by a worker whose
listener called `Unsubscribe`. -/
structure Listed (w : DeliveryWorld) : Prop where
  fresh : ∀ t s, s ∈ w.base.topics t → s < w.base.blockCount
  nodup : ∀ t, (w.base.topics t).Nodup
  owner : ∀ t s, s ∈ w.base.topics t →
    (w.base.blocks s).topic = some t ∨ (t, s) ∈ w.base.removing ∨
      ∃ q, Move.remove t s ∈ w.todo q

/-- The state of the tests `StreamUnsubscribeIsImmediate` and
`SubscriptionOutOfScopeUnsubscribes` after `StartConsuming` has run on the
queue `qc` of the consumer. -/
def boundedStart (qc : QId) (t : TId) (bound : Int) : DeliveryWorld :=
  { base := TopicWorld.boundedStart qc t bound, todo := fun _ => [] }

/-- Where the consumer of the tests is, when the deliveries that wait in its
queue carry `a, ..., b - 1` and `m` values have been published: subscribed and
between two deliveries; past the check for the value `c = a - 1`, before the
call of its listener; inside the listener before the statement that records
`c`; inside the listener before `Unsubscribe`, on the value `bound`; past the
locked section of `Unsubscribe`, before `Remove`; or unsubscribed. -/
def Phase (w : DeliveryWorld) (qc : QId) (t : TId) (bound m a b : Nat) : Prop :=
  ((w.base.blocks 0).topic = some t ∧ w.base.topics t = [0] ∧ b = m ∧ a ≤ bound ∧
      w.base.received 0 = TopicWorld.counting 0 a ∧ w.todo qc = []) ∨
  (∃ c : Nat, c + 1 = a ∧ c ≤ bound ∧
      (w.base.blocks 0).topic = some t ∧ w.base.topics t = [0] ∧ b = m ∧
      w.base.received 0 = TopicWorld.counting 0 c ∧ w.todo qc = [Move.call c 0]) ∨
  (∃ c : Nat, c + 1 = a ∧ c < bound ∧
      (w.base.blocks 0).topic = some t ∧ w.base.topics t = [0] ∧ b = m ∧
      w.base.received 0 = TopicWorld.counting 0 c ∧
      w.todo qc = [Move.stmt 0 (Act.push c)]) ∨
  (bound + 1 = a ∧
      (w.base.blocks 0).topic = some t ∧ w.base.topics t = [0] ∧ b = m ∧
      w.base.received 0 = TopicWorld.counting 0 bound ∧
      w.todo qc = [Move.stmt 0 (Act.unsubscribe 0)]) ∨
  ((w.base.blocks 0).topic = none ∧ w.base.topics t = [0] ∧ b = m ∧
      w.base.received 0 = TopicWorld.counting 0 bound ∧ w.todo qc = [Move.remove t 0]) ∨
  ((w.base.blocks 0).topic = none ∧ w.base.topics t = [] ∧
      w.base.received 0 = TopicWorld.counting 0 bound ∧ w.todo qc = [])

/-- The shape of every state of the tests with a bounded consumer after `m`
values `0, ..., m - 1` have been published. -/
def Bounded (w : DeliveryWorld) (qc : QId) (t : TId) (bound m : Nat) : Prop :=
  ∃ a b : Nat, a ≤ b ∧ w.base.pendingFor 0 qc = TopicWorld.counting a b ∧
    (∀ q, q ≠ qc → w.base.pendingFor 0 q = []) ∧
    (∀ s, s ≠ 0 → (w.base.blocks s).topic = none) ∧
    (w.base.blocks 0).q = qc ∧
    (w.base.blocks 0).listener = TopicWorld.boundedListener bound 0 ∧
    (∀ t1, t1 ≠ t → w.base.topics t1 = []) ∧ w.base.removing = [] ∧
    (∀ q, q ≠ qc → w.todo q = []) ∧ Phase w qc t bound m a b

/-- A bound on the number of moves that the worker of `q` has still to make
until its FIFO is empty and it is in no task: four per task in the FIFO, which
covers a delivery to a listener of one statement, and the weights of the moves
it owes. -/
def backlog (w : DeliveryWorld) (q : QId) : Nat :=
  4 * (w.base.queues q).tasks_.length + ((w.todo q).map (Move.weight w.base)).sum

end DeliveryWorld

end cpppromise

namespace cpppromise

/-! ## `ResolveAll` among the steps of all threads -/

/-- The block `r` is none of the blocks `lo, ..., hi`. -/
def Apart (lo hi r : Nat) : Prop :=
  r < lo ∨ hi < r

/-- The block whose resolver the closure of a task holds. -/
def Closure.target : Closure → Nat
  | Closure.enqueueBody _ pcb => pcb
  | Closure.thenBody _ resolver _ => resolver
  | Closure.withResolverBody _ resolver => resolver

/-- Client code that holds no resolver of the blocks `lo, ..., hi` and no
pointer to the counter `c`: it names none of them, and the handles it receives
from the library are handles of blocks allocated after `hi`. -/
def Prog.outside (lo hi : Nat) (c : Nat) : Prog → Prop
  | Prog.ret _ => True
  | Prog.push _ rest => rest.outside lo hi c
  | Prog.enqueue _ f _ k => f.outside lo hi c ∧ ∀ o, hi < o → (k o).outside lo hi c
  | Prog.enqueueWithResolver _ body _ k =>
    (∀ o, hi < o → (body o).outside lo hi c) ∧ ∀ o, hi < o → (k o).outside lo hi c
  | Prog.createResolver _ k => ∀ o, hi < o → (k o).outside lo hi c
  | Prog.createResolvedPromise _ _ k => ∀ o, hi < o → (k o).outside lo hi c
  | Prog.thenOn _ _ f _ k =>
    (∀ v, (f v).outside lo hi c) ∧ ∀ o, hi < o → (k o).outside lo hi c
  | Prog.thenHere _ f _ k =>
    (∀ v, (f v).outside lo hi c) ∧ ∀ o, hi < o → (k o).outside lo hi c
  | Prog.resolve r _ rest => Apart lo hi r ∧ rest.outside lo hi c
  | Prog.decr c1 k => (c1 : Nat) ≠ c ∧ ∀ n, (k n).outside lo hi c
  | Prog.resolveAll _ _ k => ∀ o, hi < o → (k o).outside lo hi c
  | Prog.finish _ rest => rest.outside lo hi c

/-- The closure of a task holds no resolver of the blocks `lo, ..., hi` and no
pointer to the counter `c`. -/
def Closure.outside (lo hi : Nat) (c : Nat) : Closure → Prop
  | Closure.enqueueBody f pcb => Apart lo hi pcb ∧ f.outside lo hi c
  | Closure.thenBody f resolver value =>
    Apart lo hi resolver ∧ (f value).outside lo hi c
  | Closure.withResolverBody resolve resolver =>
    Apart lo hi resolver ∧ (resolve resolver).outside lo hi c

/-- The pending continuation holds no resolver of the blocks `lo, ..., hi` and
no pointer to the counter `c`. -/
def Dependent.outside (lo hi : Nat) (c : Nat) (d : Dependent) : Prop :=
  Apart lo hi d.resolver ∧ ∀ v, (d.f v).outside lo hi c

namespace World

/-- The step is not client code that holds a resolver of the blocks
`lo, ..., hi` or a pointer to the counter `c`. -/
def Ev.outside (lo hi : Nat) (c : Nat) : Ev → Prop
  | Ev.client _ code => code.outside lo hi c
  | Ev.worker _ => True

/-- The continuation that `ResolveAll`, called on the worker of `q`, registers
on its `j`-th input through `Then`: `out` is the block of the returned promise,
`c` the shared counter, and the `j`-th `Then` allocates the block
`out + 1 + j`. -/
def allDep (q : QId) (out : Nat) (c : Nat) (j : Nat) : Dependent :=
  { q := q, f := resolveAllBody c out, resolver := (out + 1 + j : Nat), id := "" }

/-- The number of places at which the continuation of the `j`-th input waits:
pending on the input, or as a task in the FIFO of `q`. -/
def allWaiting (w : World) (q : QId) (ps : List Nat) (out : Nat) (j : Nat) : Nat :=
  ((w.pcbs ((ps[j]?).getD 0)).dependents_.countP fun d => decide ((d.resolver : Nat) = out + 1 + j)) +
    ((w.queues q).tasks_.countP fun t => decide (t.f.target = out + 1 + j))

/-- The number of inputs among the first `i` whose continuation has not run:
the promise that the `Then` on the input returned is unresolved. -/
def allUnrun (w : World) (out : Nat) (i : Nat) : Nat :=
  (List.range i).countP fun j => (w.pcbs (out + 1 + j)).result_.isNone

/-- Every task in a FIFO is one that holds nothing of the call of `ResolveAll`
or the downstream task of one of its first `i` continuations, in the FIFO of
`q`. -/
def AllTasks (q : QId) (ps : List Nat) (out : Nat) (c : Nat) (i : Nat) (w : World) : Prop :=
  ∀ q1, ∀ t ∈ (w.queues q1).tasks_,
    t.f.outside out (out + ps.length) c ∨
      (q1 = q ∧ ∃ j v, j < i ∧ t = taskOf (allDep q out c j, v))

/-- Every pending continuation is one that holds nothing of the call of
`ResolveAll` or one of its first `i` continuations, on its input. -/
def AllDeps (q : QId) (ps : List Nat) (out : Nat) (c : Nat) (i : Nat) (w : World) : Prop :=
  ∀ p1, ∀ d ∈ (w.pcbs p1).dependents_,
    d.outside out (out + ps.length) c ∨ ∃ j, j < i ∧ ps[j]? = some p1 ∧ d = allDep q out c j

/-- The shape of every state during and after `ResolveAll(id, ps...)` on the
worker of `q`, where `out` is the block of the returned promise and `c` the
shared counter, when the first `i` inputs have their `Then` registered: each of
these continuations waits at exactly one place or has run, the counter is the
number of continuations that have not run, and the returned promise is resolved
exactly when the counter is 0. -/
structure AllJoin (q : QId) (ps : List Nat) (out : Nat) (c : Nat) (i : Nat) (w : World) :
    Prop where
  hi : i ≤ ps.length
  count : out + 1 + i ≤ w.pcbCount
  cellc : c < w.cellCount
  inputs : ∀ p ∈ ps, p < out
  tasks : AllTasks q ps out c i w
  deps : AllDeps q ps out c i w
  once : ∀ j, j < i →
    allWaiting w q ps out j + (if (w.pcbs (out + 1 + j)).result_ = none then 0 else 1) = 1
  cell : w.cells c = ((allUnrun w out i + (ps.length - i) : Nat) : Int)
  outp : (w.pcbs out).result_ = if w.cells c = 0 then some 0 else none

end World

/-- The body of the task of the test `ResolveAll`: four tasks enqueued on
queue 0, `ResolveAll` on their promises and a continuation on the returned
promise.  The assignments of the four tasks are recorded as pushes of 1 to 4
onto `got`, and the continuation with the assertions as a push of 5. -/
def resolveAllTest : Prog :=
  Prog.enqueue 0 (Prog.push 1 (Prog.ret 1)) "" fun p1 =>
  Prog.enqueue 0 (Prog.push 2 (Prog.ret 2)) "" fun p2 =>
  Prog.enqueue 0 (Prog.push 3 (Prog.ret 3)) "" fun p3 =>
  Prog.enqueue 0 (Prog.push 4 (Prog.ret 0)) "" fun p4 =>
  Prog.resolveAll "" [p1, p2, p3, p4] fun all =>
  Prog.thenHere all (fun _ => Prog.push 5 (Prog.ret 0)) "" fun _ => Prog.ret 0

/-- The state of the test `ResolveAll` when the body calls `ResolveAll`: the
worker of queue 0 has popped the task of the test, whose promise is block 0,
and the body has enqueued the four tasks, whose promises are the blocks 1 to
4. -/
def World.resolveAllCall : World :=
  (World.Enqueue (World.Enqueue (World.Enqueue (World.Enqueue
    ((World.testStart 0 resolveAllTest).setQueue 0
      ((World.testStart 0 resolveAllTest).queues 0).pass.1)
    0 (Prog.push 1 (Prog.ret 1)) "").1
    0 (Prog.push 2 (Prog.ret 2)) "").1
    0 (Prog.push 3 (Prog.ret 3)) "").1
    0 (Prog.push 4 (Prog.ret 0)) "").1

/-- The steps of the test `ResolveAll` after the call: the rest of the body,
which registers the continuation on the returned promise and ends with the
`Resolve` of the promise of the task of the test, and nine passes of the worker
of queue 0. -/
def World.resolveAllRest : List World.Ev :=
  World.Ev.client (some 0)
      (Prog.thenHere 5 (fun _ => Prog.push 5 (Prog.ret 0)) "" fun _ =>
        Prog.resolve 0 0 (Prog.ret 0)) ::
    List.replicate 9 (World.Ev.worker 0)

end cpppromise

/-! # Theorems -/

namespace cpppromise

/-! ## EventQueue: FIFO order -/

namespace EventQueue

variable {α : Type}

theorem queue_exec_append (xs ys : List (Op α)) (q : EventQueue α) :
    exec (xs ++ ys) q =
      ((exec ys (exec xs q).1).1, (exec xs q).2 ++ (exec ys (exec xs q).1).2) := by
  induction xs generalizing q with
  | nil => simp [exec]
  | cons x xs ih => simp [exec, ih, List.append_assoc]

theorem queue_added_append (xs ys : List (Op α)) : added (xs ++ ys) = added xs ++ added ys := by
  induction xs with
  | nil => rfl
  | cons x xs ih => cases x <;> simp [added, ih]

/-- One operation moves a task from the head of the FIFO to the trace, or
appends the enqueued task at the tail. -/
theorem queue_step_trace (q : EventQueue α) (op : Op α) :
    (q.step op).2 ++ (q.step op).1.tasks_ = q.tasks_ ++ added [op] := by
  cases op with
  | addTask f id => simp [step, AddTask, added]
  | take => simp [step, Take, added]
  | release => simp [step, Release, added]
  | finish => simp [step, Finish, added]
  | worker =>
    simp only [step, pass, added]
    cases ht : q.t_ with
    | false => simp
    | true =>
      cases hq : q.tasks_ with
      | nil => by_cases hc : (!q.running_ && q.count_ == 0) = true <;> simp [hc, hq]
      | cons t rest => simp

/-- In every state, the tasks run so far followed by the FIFO are the tasks
that were in the FIFO at the start followed by the tasks enqueued since. -/
theorem queue_exec_trace (ops : List (Op α)) (q : EventQueue α) :
    (exec ops q).2 ++ (exec ops q).1.tasks_ = q.tasks_ ++ added ops := by
  induction ops generalizing q with
  | nil => simp [exec, added]
  | cons op ops ih =>
    have h1 := queue_step_trace q op
    have h2 := ih (q.step op).1
    have h3 : added (op :: ops) = added [op] ++ added ops := queue_added_append [op] ops
    simp only [exec, List.append_assoc]
    rw [h2, ← List.append_assoc, h1, h3, List.append_assoc]

/-- A worker that has left its loop runs nothing more. -/
theorem queue_exec_stopped (ops : List (Op α)) (q : EventQueue α) (h : q.t_ = false) :
    (exec ops q).1.t_ = false ∧ (exec ops q).2 = [] := by
  induction ops generalizing q with
  | nil => simp [exec, h]
  | cons op ops ih =>
    have hs : (q.step op).1.t_ = false ∧ (q.step op).2 = [] := by
      cases op <;> simp [step, AddTask, Take, Release, Finish, pass, h]
    have h2 := ih (q.step op).1 hs.1
    simp [exec, hs.2, h2]

/-- While `running_` holds and no `Finish` is called the worker stays in its
loop. -/
theorem queue_exec_running (ops : List (Op α)) (q : EventQueue α)
    (hf : ∀ op ∈ ops, op ≠ Op.finish) (hr : q.running_ = true) (ht : q.t_ = true) :
    (exec ops q).1.running_ = true ∧ (exec ops q).1.t_ = true := by
  induction ops generalizing q with
  | nil => simp [exec, hr, ht]
  | cons op ops ih =>
    have hs : (q.step op).1.running_ = true ∧ (q.step op).1.t_ = true := by
      cases op with
      | addTask f id => simp [step, AddTask, hr, ht]
      | take => simp [step, Take, hr, ht]
      | release => simp [step, Release, hr, ht]
      | finish => exact absurd rfl (hf Op.finish (List.mem_cons_self _ _))
      | worker =>
        simp only [step, pass, ht, hr]
        cases hq : q.tasks_ with
        | nil => simp [hr, ht]
        | cons t rest => simp [hr, ht]
    have h2 := ih (q.step op).1 (fun o ho => hf o (List.mem_cons_of_mem _ ho)) hs.1 hs.2
    simpa [exec] using h2

/-- When the worker leaves its loop it has run every task that was in the FIFO,
in FIFO order, before anything enqueued later. -/
theorem queue_exec_exited (ops : List (Op α)) (q : EventQueue α) (ht : q.t_ = true)
    (hx : (exec ops q).1.t_ = false) :
    ∃ later, (exec ops q).2 = q.tasks_ ++ later ∧
      later ++ (exec ops q).1.tasks_ = added ops := by
  induction ops generalizing q with
  | nil => simp [exec, ht] at hx
  | cons op ops ih =>
    cases op with
    | addTask f id =>
      obtain ⟨later, h1, h2⟩ := ih (q.AddTask f id) (by simpa [AddTask] using ht)
        (by simpa [exec, step] using hx)
      refine ⟨{ id := id, f := f } :: later, ?_, ?_⟩
      · simpa [exec, step, AddTask] using h1
      · simpa [exec, step, added] using h2
    | take =>
      obtain ⟨later, h1, h2⟩ := ih q.Take (by simpa [Take] using ht)
        (by simpa [exec, step] using hx)
      exact ⟨later, by simpa [exec, step, Take] using h1, by simpa [exec, step, added] using h2⟩
    | release =>
      obtain ⟨later, h1, h2⟩ := ih q.Release (by simpa [Release] using ht)
        (by simpa [exec, step] using hx)
      exact ⟨later, by simpa [exec, step, Release] using h1,
        by simpa [exec, step, added] using h2⟩
    | finish =>
      obtain ⟨later, h1, h2⟩ := ih q.Finish (by simpa [Finish] using ht)
        (by simpa [exec, step] using hx)
      exact ⟨later, by simpa [exec, step, Finish] using h1,
        by simpa [exec, step, added] using h2⟩
    | worker =>
      obtain ⟨tasks, running, count, t⟩ := q
      simp only at ht
      subst ht
      cases tasks with
      | nil =>
        by_cases hc : (!running && count == 0) = true
        · have hstep : step (⟨[], running, count, true⟩ : EventQueue α) Op.worker
              = (⟨[], running, count, false⟩, []) := by
            simp [step, pass, hc]
          have hs := queue_exec_stopped ops (⟨[], running, count, false⟩ : EventQueue α) rfl
          have ht2 := queue_exec_trace ops (⟨[], running, count, false⟩ : EventQueue α)
          rw [hs.2] at ht2
          refine ⟨[], ?_, ?_⟩
          · simp [exec, hstep, hs.2]
          · simpa [exec, hstep, added] using ht2
        · have hstep : step (⟨[], running, count, true⟩ : EventQueue α) Op.worker
              = (⟨[], running, count, true⟩, []) := by
            simp [step, pass, hc]
          obtain ⟨later, h1, h2⟩ := ih _ rfl (by simpa [exec, hstep] using hx)
          exact ⟨later, by simpa [exec, hstep] using h1,
            by simpa [exec, hstep, added] using h2⟩
      | cons a rest =>
        have hstep : step (⟨a :: rest, running, count, true⟩ : EventQueue α) Op.worker
            = (⟨rest, running, count, true⟩, [a]) := by
          simp [step, pass]
        obtain ⟨later, h1, h2⟩ := ih _ rfl (by simpa [exec, hstep] using hx)
        exact ⟨later, by simpa [exec, hstep] using h1, by simpa [exec, hstep, added] using h2⟩

/-- After `Finish`, when nothing is outstanding, the worker drains the FIFO and
leaves its loop: `Join` returns. -/
theorem queue_exec_drain (n : Nat) (q : EventQueue α) (ht : q.t_ = true)
    (hr : q.running_ = false) (hc : q.count_ = 0) (hn : q.tasks_.length < n) :
    (exec (List.replicate n Op.worker) q).1.t_ = false ∧
      (exec (List.replicate n Op.worker) q).2 = q.tasks_ := by
  induction n generalizing q with
  | zero => simp at hn
  | succ n ih =>
    cases hq : q.tasks_ with
    | nil =>
      have hstep : q.step Op.worker = ({ q with t_ := false }, []) := by
        simp [step, pass, ht, hq, hr, hc]
      have hs := queue_exec_stopped (List.replicate n Op.worker) { q with t_ := false } rfl
      simp [List.replicate_succ, exec, hstep, hs]
    | cons t rest =>
      have hstep : q.step Op.worker = ({ q with tasks_ := rest }, [t]) := by
        simp [step, pass, ht, hq]
      have h2 := ih { q with tasks_ := rest } ht hr hc
        (by simp [hq] at hn; simpa using hn)
      simp [List.replicate_succ, exec, hstep, h2]

end EventQueue

/-- C1: on a freshly constructed EventQueue, for every interleaving `pre` of
operations before the first `Finish` and every `post` after it, once the worker
has left its loop (`Join` returns) the tasks it has run are exactly the tasks
enqueued before `Finish`, in enqueue order, followed by the tasks `later`
enqueued after `Finish` that it still ran; what a late `AddTask` left in the
FIFO accounts for the rest, so no task ran twice or out of order. -/
theorem eventQueue_runs_tasks_in_enqueue_order {α : Type}
    (pre post : List (EventQueue.Op α))
    (hpre : ∀ op ∈ pre, op ≠ EventQueue.Op.finish)
    (hjoin : (EventQueue.exec (pre ++ EventQueue.Op.finish :: post) EventQueue.new).1.t_
      = false) :
    ∃ later,
      (EventQueue.exec (pre ++ EventQueue.Op.finish :: post) EventQueue.new).2
        = EventQueue.added pre ++ later ∧
      later ++ (EventQueue.exec (pre ++ EventQueue.Op.finish :: post) EventQueue.new).1.tasks_
        = EventQueue.added post := by
  have hrun := EventQueue.queue_exec_running pre (EventQueue.new : EventQueue α) hpre rfl rfl
  have htr := EventQueue.queue_exec_trace pre (EventQueue.new : EventQueue α)
  rw [EventQueue.queue_exec_append] at hjoin ⊢
  obtain ⟨later, h1, h2⟩ := EventQueue.queue_exec_exited (EventQueue.Op.finish :: post)
    (EventQueue.exec pre EventQueue.new).1 hrun.2 hjoin
  refine ⟨later, ?_, ?_⟩
  · simp only [h1, ← List.append_assoc, htr]
    simp [EventQueue.new]
  · simpa [EventQueue.added] using h2

/-- C1, at the two tasks of the test `OrderOfOperations`. -/
theorem eventQueue_runs_tasks_in_enqueue_order_witness :
    ∃ later,
      (EventQueue.exec ([EventQueue.Op.addTask 0 "", EventQueue.Op.addTask 1 ""] ++
          EventQueue.Op.finish :: List.replicate 3 EventQueue.Op.worker)
        (EventQueue.new : EventQueue Nat)).2
        = EventQueue.added [EventQueue.Op.addTask 0 "", EventQueue.Op.addTask 1 ""] ++ later ∧
      later ++ (EventQueue.exec ([EventQueue.Op.addTask 0 "", EventQueue.Op.addTask 1 ""] ++
          EventQueue.Op.finish :: List.replicate 3 EventQueue.Op.worker)
        (EventQueue.new : EventQueue Nat)).1.tasks_
        = EventQueue.added (List.replicate 3 EventQueue.Op.worker) :=
  eventQueue_runs_tasks_in_enqueue_order
    [EventQueue.Op.addTask 0 "", EventQueue.Op.addTask 1 ""]
    (List.replicate 3 EventQueue.Op.worker)
    (by intro op hop; simp at hop; rcases hop with h | h <;> simp [h])
    (by rfl)

/-! ## PromiseControlBlock: continuations and single assignment -/

namespace PromiseControlBlock

variable {T δ : Type}

theorem pcb_exec_cons (op : Op T δ) (ops : List (Op T δ)) (p : PromiseControlBlock T δ) :
    exec (op :: ops) p =
      match p.step op with
      | none => none
      | some (p1, calls1) =>
        match exec ops p1 with
        | none => none
        | some (p2, calls2) => some (p2, calls1 ++ calls2) := rfl

theorem pcb_exec_append (xs ys : List (Op T δ)) (p : PromiseControlBlock T δ) :
    exec (xs ++ ys) p =
      match exec xs p with
      | none => none
      | some (p1, calls1) =>
        match exec ys p1 with
        | none => none
        | some (p2, calls2) => some (p2, calls1 ++ calls2) := by
  induction xs generalizing p with
  | nil =>
    simp only [List.nil_append, exec]
    cases exec ys p with
    | none => rfl
    | some r => simp
  | cons x xs ih =>
    rw [List.cons_append, pcb_exec_cons, pcb_exec_cons]
    cases p.step x with
    | none => rfl
    | some r =>
      obtain ⟨p1, c1⟩ := r
      simp only [ih]
      cases exec xs p1 with
      | none => rfl
      | some r2 =>
        obtain ⟨p2, c2⟩ := r2
        simp only
        cases exec ys p2 with
        | none => rfl
        | some r3 => simp [List.append_assoc]

/-- `Resolve` on an unresolved block stores the value and calls every pending
continuation with it, in registration order. -/
theorem pcb_Resolve_unresolved (ds : List δ) (v : T) :
    Resolve (⟨none, ds⟩ : PromiseControlBlock T δ) v
      = some (⟨some v, []⟩, ds.map fun d => (d, v)) := by
  simp [Resolve, NotifyDependents]

/-- `Resolve` on a resolved block fails its assertion. -/
theorem pcb_Resolve_resolved (p : PromiseControlBlock T δ) (w v : T) (h : p.result_ = some w) :
    p.Resolve v = none := by
  simp [Resolve, h]

/-- `Then` on an unresolved block only registers the continuation. -/
theorem pcb_Then_unresolved (ds : List δ) (d : δ) :
    Then (⟨none, ds⟩ : PromiseControlBlock T δ) d = some (⟨none, ds ++ [d]⟩, []) := by
  simp [Then]

/-- `Then` on a resolved block calls every pending continuation, the new one
last, with the stored value. -/
theorem pcb_Then_resolved (ds : List δ) (d : δ) (v : T) :
    Then (⟨some v, ds⟩ : PromiseControlBlock T δ) d
      = some (⟨some v, []⟩, (ds ++ [d]).map fun d => (d, v)) := by
  simp [Then, NotifyDependents]

/-- Registrations on an unresolved block call nothing. -/
theorem pcb_exec_thens_unresolved (ds0 ds : List δ) :
    exec (ds.map Op.andThen) (⟨none, ds0⟩ : PromiseControlBlock T δ)
      = some (⟨none, ds0 ++ ds⟩, []) := by
  induction ds generalizing ds0 with
  | nil => simp [exec]
  | cons d ds ih => simp [exec, step, pcb_Then_unresolved, ih]

/-- On a resolved block without pending continuations each registration calls
its own continuation at once, with the stored value. -/
theorem pcb_exec_thens_resolved (ds : List δ) (v : T) :
    exec (ds.map Op.andThen) (⟨some v, []⟩ : PromiseControlBlock T δ)
      = some (⟨some v, []⟩, ds.map fun d => (d, v)) := by
  induction ds with
  | nil => simp [exec]
  | cons d ds ih => simp [exec, step, pcb_Then_resolved, ih]

/-- No operation changes a stored result. -/
theorem pcb_step_result (p : PromiseControlBlock T δ) (op : Op T δ) (w : T)
    (r : PromiseControlBlock T δ × List (δ × T))
    (h : p.result_ = some w) (hr : p.step op = some r) : r.1.result_ = some w := by
  cases op with
  | resolve v => simp [step, Resolve, h] at hr
  | andThen d =>
    simp only [step, Then, h, Option.isSome_some, if_true, NotifyDependents] at hr
    cases hr
    rfl

theorem pcb_exec_result (ops : List (Op T δ)) (p : PromiseControlBlock T δ) (w : T)
    (r : PromiseControlBlock T δ × List (δ × T))
    (h : p.result_ = some w) (hr : exec ops p = some r) : r.1.result_ = some w := by
  induction ops generalizing p r with
  | nil =>
    simp only [exec, Option.some.injEq] at hr
    subst hr
    exact h
  | cons op ops ih =>
    simp only [exec] at hr
    cases hs : p.step op with
    | none => simp [hs] at hr
    | some r1 =>
      obtain ⟨p1, c1⟩ := r1
      simp only [hs] at hr
      cases he : exec ops p1 with
      | none => simp [he] at hr
      | some r2 =>
        obtain ⟨p2, c2⟩ := r2
        simp only [he, Option.some.injEq] at hr
        subst hr
        exact ih p1 (p2, c2) (pcb_step_result p op w (p1, c1) h hs) he

end PromiseControlBlock

/-- C2: on every PromiseControlBlock, for all continuations `before` registered
with Then ahead of `Resolve(v)` and all continuations `after` registered behind
it: the registrations ahead of Resolve call nothing, Resolve calls each of
`before` once with `v`, each later Then calls its own continuation once with
`v`, and over the whole run every continuation is called exactly once, with
`v`, in registration order. -/
theorem promiseControlBlock_continuation_called_once {T δ : Type}
    (before after : List δ) (v : T) :
    PromiseControlBlock.exec (before.map PromiseControlBlock.Op.andThen)
        (PromiseControlBlock.new : PromiseControlBlock T δ)
      = some (⟨none, before⟩, []) ∧
    PromiseControlBlock.Resolve (⟨none, before⟩ : PromiseControlBlock T δ) v
      = some (⟨some v, []⟩, before.map fun d => (d, v)) ∧
    (∀ d, PromiseControlBlock.Then (⟨some v, []⟩ : PromiseControlBlock T δ) d
      = some (⟨some v, []⟩, [(d, v)])) ∧
    PromiseControlBlock.exec
        (before.map PromiseControlBlock.Op.andThen ++
          PromiseControlBlock.Op.resolve v :: after.map PromiseControlBlock.Op.andThen)
        (PromiseControlBlock.new : PromiseControlBlock T δ)
      = some (⟨some v, []⟩, (before ++ after).map fun d => (d, v)) := by
  refine ⟨?_, PromiseControlBlock.pcb_Resolve_unresolved before v, ?_, ?_⟩
  · simpa [PromiseControlBlock.new] using
      PromiseControlBlock.pcb_exec_thens_unresolved (T := T) [] before
  · intro d
    simpa using PromiseControlBlock.pcb_Then_resolved (T := T) [] d v
  · rw [PromiseControlBlock.pcb_exec_append]
    have h1 := PromiseControlBlock.pcb_exec_thens_unresolved (T := T) [] before
    simp only [List.nil_append] at h1
    simp [PromiseControlBlock.new, h1, PromiseControlBlock.exec, PromiseControlBlock.step,
      PromiseControlBlock.pcb_Resolve_unresolved, PromiseControlBlock.pcb_exec_thens_resolved]

/-- C3: `Resolve` succeeds exactly on an unresolved block; on a resolved block
it fails its assertion, and no sequence of operations that starts from a block
holding `w` ends in a block holding anything else. -/
theorem promiseControlBlock_resolve_once {T δ : Type} (p : PromiseControlBlock T δ) (v : T) :
    ((p.Resolve v).isSome = true ↔ p.result_ = none) ∧
    (∀ w, p.result_ = some w → p.Resolve v = none) ∧
    (∀ w ops r, p.result_ = some w → PromiseControlBlock.exec ops p = some r →
      r.1.result_ = some w) := by
  refine ⟨?_, fun w h => PromiseControlBlock.pcb_Resolve_resolved p w v h,
    fun w ops r h hr => PromiseControlBlock.pcb_exec_result ops p w r h hr⟩
  obtain ⟨res, ds⟩ := p
  cases res with
  | none => simp [PromiseControlBlock.pcb_Resolve_unresolved]
  | some w => simp [PromiseControlBlock.Resolve]

/-- C3, on a block resolved with 42: a second `Resolve(7)` fails and a later
`Then` still sees 42. -/
theorem promiseControlBlock_resolve_once_witness :
    (PromiseControlBlock.Resolve (⟨some 42, []⟩ : PromiseControlBlock Nat Nat) 7 = none) ∧
    (∀ r, PromiseControlBlock.exec [PromiseControlBlock.Op.andThen 5]
        (⟨some 42, []⟩ : PromiseControlBlock Nat Nat) = some r → r.1.result_ = some 42) :=
  ⟨(promiseControlBlock_resolve_once (⟨some 42, []⟩ : PromiseControlBlock Nat Nat) 7).2.1 42 rfl,
   fun r hr => (promiseControlBlock_resolve_once (⟨some 42, []⟩ : PromiseControlBlock Nat Nat)
     7).2.2 42 [PromiseControlBlock.Op.andThen 5] r rfl hr⟩

/-! ## Timer -/

namespace TimerImpl

variable {γ : Type}

/-- `std::map::insert` leaves the map as it is when the key is present. -/
theorem timer_mapInsert_of_mem (k : Int) (v : Task γ) (l : List (Int × Task γ))
    (hwf : (l.map Prod.fst).Pairwise (· < ·)) (hk : k ∈ l.map Prod.fst) :
    mapInsert k v l = l := by
  induction l with
  | nil => simp at hk
  | cons e rest ih =>
    simp only [List.map_cons, List.pairwise_cons] at hwf
    simp only [List.map_cons, List.mem_cons] at hk
    rcases hk with hk | hk
    · simp [mapInsert, hk]
    · have hlt : e.1 < k := hwf.1 k hk
      have h1 : ¬ k < e.1 := not_lt.mpr (le_of_lt hlt)
      have h2 : ¬ k = e.1 := ne_of_gt hlt
      simp [mapInsert, h1, h2, ih hwf.2 hk]

/-- The loop of `Cancel` finds an entry exactly when the id is pending. -/
theorem timer_cancelLoop_true_iff (id : Nat) (l : List (Int × Task γ)) :
    (cancelLoop id l).2 = true ↔ id ∈ l.map fun e => e.2.id := by
  induction l with
  | nil => simp [cancelLoop]
  | cons e rest ih =>
    by_cases h : e.2.id = id
    · simp [cancelLoop, h]
    · have h2 : ¬ id = e.2.id := fun h3 => h h3.symm
      simp [cancelLoop, h, h2, ih]

/-- When the loop of `Cancel` finds nothing it erases nothing. -/
theorem timer_cancelLoop_false (id : Nat) (l : List (Int × Task γ))
    (h : (cancelLoop id l).2 = false) : (cancelLoop id l).1 = l := by
  induction l with
  | nil => simp [cancelLoop]
  | cons e rest ih =>
    by_cases he : e.2.id = id
    · simp [cancelLoop, he] at h
    · simp only [cancelLoop, he, if_false] at h ⊢
      rw [ih h]

/-- When the loop of `Cancel` finds an entry it erases that entry, the first
one with the id, and keeps every other entry in place. -/
theorem timer_cancelLoop_true (id : Nat) (l : List (Int × Task γ))
    (h : (cancelLoop id l).2 = true) :
    ∃ l1 e l2, l = l1 ++ e :: l2 ∧ e.2.id = id ∧ (∀ x ∈ l1, x.2.id ≠ id) ∧
      (cancelLoop id l).1 = l1 ++ l2 := by
  induction l with
  | nil => simp [cancelLoop] at h
  | cons e rest ih =>
    by_cases he : e.2.id = id
    · exact ⟨[], e, rest, rfl, he, by simp, by simp [cancelLoop, he]⟩
    · simp only [cancelLoop, he, if_false] at h
      obtain ⟨l1, x, l2, h1, h2, h3, h4⟩ := ih h
      refine ⟨e :: l1, x, l2, by simp [h1], h2, ?_, by simp [cancelLoop, he, h4]⟩
      intro y hy
      rcases List.mem_cons.mp hy with hy | hy
      · rw [hy]; exact he
      · exact h3 y hy

/-- `std::map::erase(key)` only removes entries. -/
theorem timer_mapErase_sublist (k : Int) (l : List (Int × Task γ)) :
    (mapErase k l).Sublist l := by
  induction l with
  | nil => simp [mapErase]
  | cons e rest ih =>
    by_cases h : e.1 = k
    · simp [mapErase, h]
    · simp [mapErase, h, ih]

/-- A pass dispatches only an entry that was pending, and leaves only entries
that were pending. -/
theorem timer_pass_sub (s : TimerImpl γ) (now : Int) :
    (∀ t ∈ (s.pass now).2.task, t ∈ s.tasks_.map Prod.snd) ∧
      (s.pass now).1.tasks_.Sublist s.tasks_ := by
  unfold pass
  by_cases hr : s.run_ = true
  · cases hq : s.tasks_ with
    | nil => simp [hr, Pass.task, hq]
    | cons e rest =>
      by_cases hd : e.1 ≤ now
      · simp [hr, hd, Pass.task, mapErase]
      · simp [hr, hd, Pass.task, hq]
  · simp [hr, Pass.task]

/-- Passes dispatch only entries that were pending at the start. -/
theorem timer_passes_sub (nows : List Int) (s : TimerImpl γ) :
    ∀ t ∈ (passes nows s).2, t ∈ s.tasks_.map Prod.snd := by
  induction nows generalizing s with
  | nil => simp [passes]
  | cons now nows ih =>
    intro t ht
    simp only [passes, List.mem_append] at ht
    rcases ht with ht | ht
    · exact (timer_pass_sub s now).1 t ht
    · have h1 := ih (s.pass now).1 t ht
      exact ((timer_pass_sub s now).2.map Prod.snd).subset h1

/-- A pass of the live timer thread moves the due head entry to the dispatched
ones or changes nothing. -/
theorem timer_pass_trace (s : TimerImpl γ) (now : Int) :
    (s.pass now).2.task ++ (s.pass now).1.tasks_.map Prod.snd = s.tasks_.map Prod.snd ∧
      (s.pass now).1.run_ = s.run_ := by
  unfold pass
  by_cases hr : s.run_ = true
  · cases hq : s.tasks_ with
    | nil => simp [hr, Pass.task, hq]
    | cons e rest =>
      by_cases hd : e.1 ≤ now
      · simp [hr, hd, Pass.task, mapErase]
      · simp [hr, hd, Pass.task, hq]
  · simp [hr, Pass.task]

/-- Over any number of passes, the entries dispatched followed by the entries
still pending are the entries that were pending at the start. -/
theorem timer_passes_trace (nows : List Int) (s : TimerImpl γ) :
    (passes nows s).2 ++ (passes nows s).1.tasks_.map Prod.snd = s.tasks_.map Prod.snd := by
  induction nows generalizing s with
  | nil => simp [passes]
  | cons now nows ih =>
    have h1 := timer_pass_trace s now
    have h2 := ih (s.pass now).1
    simp only [passes, List.append_assoc]
    rw [h2, h1.1]

end TimerImpl

/-- C8: evaluation of `Schedule` at a time that is already a key of the map.
The first `Schedule(5, 10)` returns id 0 and stores its entry; the second
`Schedule(5, 11)` returns the fresh id 1 but `std::map::insert` stores nothing:
the map still holds only the entry of id 0, `Cancel(1)` returns false, and the
passes of the timer thread at times 5, 6, 7 dispatch callback 10 only. -/
theorem timer_schedule_same_time_drops_entry :
    ((TimerImpl.new : TimerImpl Nat).Schedule 5 10).2 = 0 ∧
    ((((TimerImpl.new : TimerImpl Nat).Schedule 5 10).1.Schedule 5 11).2 = 1) ∧
    ((((TimerImpl.new : TimerImpl Nat).Schedule 5 10).1.Schedule 5 11).1.tasks_
      = [(5, ⟨0, 10⟩)]) ∧
    ((((TimerImpl.new : TimerImpl Nat).Schedule 5 10).1.Schedule 5 11).1.Cancel 1).2 = false ∧
    (TimerImpl.passes [5, 6, 7]
      (((TimerImpl.new : TimerImpl Nat).Schedule 5 10).1.Schedule 5 11).1).2 = [⟨0, 10⟩] := by
  refine ⟨rfl, rfl, rfl, rfl, rfl⟩

/-- C9: `Cancel(id)` returns true exactly when an entry with that id is
pending.  When it returns false the timer is unchanged.  When it returns true
the first entry with that id is erased and every other entry, the flag and the
id counter are unchanged; and when the pending ids are distinct, no entry with
that id is left, so no later pass of the timer thread dispatches it. -/
theorem timer_cancel_removes_pending_entry {γ : Type} (s : TimerImpl γ) (id : Nat) :
    ((s.Cancel id).2 = true ↔ id ∈ s.pendingIds) ∧
    ((s.Cancel id).2 = false → (s.Cancel id).1 = s) ∧
    ((s.Cancel id).2 = true →
      (s.Cancel id).1.run_ = s.run_ ∧ (s.Cancel id).1.id_counter_ = s.id_counter_ ∧
      ∃ l1 e l2, s.tasks_ = l1 ++ e :: l2 ∧ e.2.id = id ∧ (∀ x ∈ l1, x.2.id ≠ id) ∧
        (s.Cancel id).1.tasks_ = l1 ++ l2) ∧
    (s.pendingIds.Nodup →
      id ∉ (s.Cancel id).1.pendingIds ∧
      ∀ nows, ∀ t ∈ (TimerImpl.passes nows (s.Cancel id).1).2, t.id ≠ id) := by
  have hnot : s.pendingIds.Nodup → id ∉ (s.Cancel id).1.pendingIds := by
    intro hnd hmem
    by_cases hb : (TimerImpl.cancelLoop id s.tasks_).2 = true
    · obtain ⟨l1, e, l2, h1, h2, h3, h4⟩ := TimerImpl.timer_cancelLoop_true id s.tasks_ hb
      simp only [TimerImpl.pendingIds, h1, List.map_append, List.map_cons] at hnd
      simp only [TimerImpl.pendingIds, TimerImpl.Cancel, h4, List.map_append,
        List.mem_append, List.mem_map] at hmem
      rcases hmem with ⟨x, hx, hxid⟩ | ⟨x, hx, hxid⟩
      · exact h3 x hx hxid
      · have hp := (List.nodup_append.mp hnd).2.1
        rw [List.nodup_cons] at hp
        apply hp.1
        rw [h2, ← hxid]
        exact List.mem_map_of_mem (fun e => e.2.id) hx
    · have hb2 : (TimerImpl.cancelLoop id s.tasks_).2 = false := by simpa using hb
      have h5 := TimerImpl.timer_cancelLoop_false id s.tasks_ hb2
      have h6 := (TimerImpl.timer_cancelLoop_true_iff id s.tasks_).not.mp hb
      apply h6
      simpa [TimerImpl.pendingIds, TimerImpl.Cancel, h5] using hmem
  refine ⟨TimerImpl.timer_cancelLoop_true_iff id s.tasks_, ?_, ?_, ?_⟩
  · intro h
    have h5 := TimerImpl.timer_cancelLoop_false id s.tasks_ h
    simp [TimerImpl.Cancel, h5]
  · intro h
    exact ⟨rfl, rfl, TimerImpl.timer_cancelLoop_true id s.tasks_ h⟩
  · intro hnd
    refine ⟨hnot hnd, ?_⟩
    intro nows t ht hid
    have h1 := TimerImpl.timer_passes_sub nows (s.Cancel id).1 t ht
    apply hnot hnd
    simp only [List.mem_map] at h1
    obtain ⟨e, he, het⟩ := h1
    simp only [TimerImpl.pendingIds, List.mem_map]
    exact ⟨e, he, by rw [het, hid]⟩

/-- C9, at the timer of the test `CanCancel`: entries of ids 0 and 1 are
pending and `Cancel(0)` is called. -/
theorem timer_cancel_removes_pending_entry_witness :
    (((⟨true, 2, [(5, ⟨0, 10⟩), (6, ⟨1, 11⟩)]⟩ : TimerImpl Nat).Cancel 0).2 = true) ∧
    (0 ∉ ((⟨true, 2, [(5, ⟨0, 10⟩), (6, ⟨1, 11⟩)]⟩ : TimerImpl Nat).Cancel 0).1.pendingIds ∧
      ∀ nows, ∀ t ∈ (TimerImpl.passes nows
        ((⟨true, 2, [(5, ⟨0, 10⟩), (6, ⟨1, 11⟩)]⟩ : TimerImpl Nat).Cancel 0).1).2, t.id ≠ 0) :=
  ⟨(timer_cancel_removes_pending_entry
      (⟨true, 2, [(5, ⟨0, 10⟩), (6, ⟨1, 11⟩)]⟩ : TimerImpl Nat) 0).1.mpr (by decide),
   (timer_cancel_removes_pending_entry
      (⟨true, 2, [(5, ⟨0, 10⟩), (6, ⟨1, 11⟩)]⟩ : TimerImpl Nat) 0).2.2.2 (by decide)⟩

/-- C10: for every Timer state and time `now`, one pass of the timer thread
dispatches at most one entry.  While the timer is alive (`run_` is true): when
the map is empty nothing happens; when the head entry, which is the earliest,
has a time `<= now`, also one in the past, the pass erases exactly that entry
and dispatches its callback; otherwise nothing is erased or dispatched.  Over
any number of passes the dispatched entries followed by the pending ones are the
entries pending at the start, so no entry is dispatched twice. -/
theorem timer_pass_dispatches_earliest_due {γ : Type} (s : TimerImpl γ) (now : Int)
    (hwf : s.WellFormed) :
    ((s.pass now).2.task.length ≤ 1) ∧
    (s.run_ = true → s.tasks_ = [] → s.pass now = (s, TimerImpl.Pass.waiting)) ∧
    (s.run_ = true → ∀ e rest, s.tasks_ = e :: rest →
      (∀ x ∈ rest, e.1 < x.1) ∧
      (e.1 ≤ now → s.pass now = ({ s with tasks_ := rest }, TimerImpl.Pass.dispatched e.2)) ∧
      (now < e.1 → s.pass now = (s, TimerImpl.Pass.sleeping e.1))) ∧
    (∀ nows, (TimerImpl.passes nows s).2 ++ (TimerImpl.passes nows s).1.tasks_.map Prod.snd
      = s.tasks_.map Prod.snd) := by
  refine ⟨?_, ?_, ?_, fun nows => TimerImpl.timer_passes_trace nows s⟩
  · unfold TimerImpl.pass
    by_cases hrun : s.run_ = true
    · cases hq : s.tasks_ with
      | nil => simp [hrun, TimerImpl.Pass.task]
      | cons e rest =>
        by_cases hd : e.1 ≤ now <;> simp [hrun, hd, TimerImpl.Pass.task]
    · simp [hrun, TimerImpl.Pass.task]
  · intro hrun hq
    simp [TimerImpl.pass, hrun, hq]
  · intro hrun e rest hq
    refine ⟨?_, ?_, ?_⟩
    · intro x hx
      have h1 : ((e :: rest).map Prod.fst).Pairwise (· < ·) := by
        have h2 := hwf
        rw [TimerImpl.WellFormed, hq] at h2
        exact h2
      simp only [List.map_cons, List.pairwise_cons] at h1
      exact h1.1 x.1 (List.mem_map_of_mem Prod.fst hx)
    · intro hd
      simp [TimerImpl.pass, hrun, hq, hd, TimerImpl.mapErase]
    · intro hd
      simp [TimerImpl.pass, hrun, hq, not_le.mpr hd]

/-- C10, at a timer with entries at times 5 and 6 and `now = 5`: the entry at
time 5 is dispatched and the entry at time 6 stays. -/
theorem timer_pass_dispatches_earliest_due_witness :
    (⟨true, 2, [(5, ⟨0, 10⟩), (6, ⟨1, 11⟩)]⟩ : TimerImpl Nat).pass 5
      = (⟨true, 2, [(6, ⟨1, 11⟩)]⟩, TimerImpl.Pass.dispatched ⟨0, 10⟩) :=
  ((timer_pass_dispatches_earliest_due (⟨true, 2, [(5, ⟨0, 10⟩), (6, ⟨1, 11⟩)]⟩ : TimerImpl Nat)
    5 (by simp [TimerImpl.WellFormed])).2.2.1 rfl (5, ⟨0, 10⟩) [(6, ⟨1, 11⟩)] rfl).2.1
    (by decide)

/-! ## The program state: notifications, `Then`, `Resolve` -/

namespace World

theorem world_call_queues (w : World) (c : Dependent × Int) (q : QId) :
    (w.call c).queues q =
      if c.1.q = q then
        { w.queues q with
          tasks_ := (w.queues q).tasks_ ++ [taskOf c]
          count_ := (w.queues q).count_ - 1 }
      else w.queues q := by
  by_cases h : c.1.q = q
  · subst h
    simp [call, AddTask, Release, setQueue, EventQueue.AddTask, EventQueue.Release, taskOf]
  · have h2 : q ≠ c.1.q := fun h3 => h h3.symm
    simp [call, AddTask, Release, setQueue, h, Function.update_noteq h2]

theorem world_call_rest (w : World) (c : Dependent × Int) :
    (w.call c).pcbs = w.pcbs ∧ (w.call c).pcbCount = w.pcbCount ∧
      (w.call c).cells = w.cells ∧ (w.call c).cellCount = w.cellCount ∧
      (w.call c).got = w.got := by
  simp [call, AddTask, Release, setQueue]

/-- A notification touches the queues only. -/
theorem world_calls_rest (cs : List (Dependent × Int)) (w : World) :
    (w.calls cs).pcbs = w.pcbs ∧ (w.calls cs).pcbCount = w.pcbCount ∧
      (w.calls cs).cells = w.cells ∧ (w.calls cs).cellCount = w.cellCount ∧
      (w.calls cs).got = w.got := by
  induction cs generalizing w with
  | nil => simp [calls]
  | cons c cs ih =>
    have h1 := ih (w.call c)
    have h2 := world_call_rest w c
    simp only [calls, List.foldl_cons] at h1 ⊢
    simp [h1, h2]

/-- The calls of one notification append, for each dependent that targets
queue `q`, its task at the tail of the FIFO of `q`, in order, and release `q`
once per dependent. -/
theorem world_calls_queues (cs : List (Dependent × Int)) (w : World) (q : QId) :
    (w.calls cs).queues q =
      { w.queues q with
        tasks_ := (w.queues q).tasks_ ++ (cs.filter fun c => c.1.q = q).map taskOf
        count_ := (w.queues q).count_ - ((cs.filter fun c => c.1.q = q).length : Int) } := by
  induction cs generalizing w with
  | nil => simp [calls]
  | cons c cs ih =>
    have h1 := ih (w.call c)
    simp only [calls, List.foldl_cons] at h1 ⊢
    rw [h1, world_call_queues]
    by_cases h : c.1.q = q
    · simp [h, List.filter_cons]
      omega
    · simp [h, List.filter_cons]

/-- `Resolve` on an unresolved block: the value is stored, the dependents are
cleared and notified. -/
theorem world_Resolve_unresolved (w : World) (p : PId) (v : Int) (ds : List Dependent)
    (h : w.pcbs p = ⟨none, ds⟩) :
    w.Resolve p v = some ((w.setPcb p ⟨some v, []⟩).calls (ds.map fun d => (d, v))) := by
  simp [Resolve, h, PromiseControlBlock.pcb_Resolve_unresolved]

/-- `Then` on an unresolved block: a new block, one more dependent, one `Take`. -/
theorem world_Then_unresolved (w : World) (p : PId) (q : QId) (f : Int → Prog) (id : String)
    (ds : List Dependent) (h : w.pcbs p = ⟨none, ds⟩) (hp : p ≠ w.pcbCount) :
    w.Then p q f id = some (((w.newPcb.1).setPcb p
      ⟨none, ds ++ [({ q := q, f := f, resolver := w.pcbCount, id := id } : Dependent)]⟩).Take q,
      w.pcbCount) := by
  simp [Then, newPcb, Function.update_noteq hp, h, PromiseControlBlock.pcb_Then_unresolved, calls]

/-- `Then` on a resolved block: a new block, one `Take`, and the notification
of every dependent, the new one last. -/
theorem world_Then_resolved (w : World) (p : PId) (q : QId) (f : Int → Prog) (id : String)
    (v : Int) (ds : List Dependent) (h : w.pcbs p = ⟨some v, ds⟩) (hp : p ≠ w.pcbCount) :
    w.Then p q f id = some ((((w.newPcb.1).setPcb p ⟨some v, []⟩).Take q).calls
      ((ds ++ [({ q := q, f := f, resolver := w.pcbCount, id := id } : Dependent)]).map
        fun d => (d, v)),
      w.pcbCount) := by
  simp [Then, newPcb, Function.update_noteq hp, h, PromiseControlBlock.pcb_Then_resolved]

theorem world_runWorkers_append (xs ys : List QId) (w : World) :
    runWorkers (xs ++ ys) w =
      match runWorkers xs w with
      | none => none
      | some w1 => runWorkers ys w1 := by
  induction xs generalizing w with
  | nil => simp [runWorkers]
  | cons x xs ih =>
    simp only [List.cons_append, runWorkers]
    cases w.workerStep x with
    | none => rfl
    | some w1 => simp [ih]

end World

/-- C6: for every state `w`, queue `q`, value `v` and closure `f`:
`CreateResolvedPromise(v).Then(f)` on the worker of `q` and `q->Enqueue(() -> f(v))`
both succeed and both append exactly one task at the tail of the FIFO of `q`,
leave `running_`, `count_` and the worker of `q` as they were, leave every other
queue and the client state untouched, and return an unresolved promise; the two
appended tasks do the same thing when run: they compute `f(v)` and resolve the
returned promise with it. -/
theorem resolved_then_is_enqueue (w : World) (q : QId) (v : Int) (f : Int → Prog)
    (id : String) :
    (∃ w1,
      (match w.CreateResolvedPromise v with
        | none => none
        | some r => r.1.ThenHere (some q) r.2 f id) = some (w1, w.pcbCount + 1) ∧
      w1.queues q = { w.queues q with
        tasks_ := (w.queues q).tasks_ ++ [⟨id, Closure.thenBody f (w.pcbCount + 1) v⟩] } ∧
      (∀ q1, q1 ≠ q → w1.queues q1 = w.queues q1) ∧
      w1.pcbs (w.pcbCount + 1) = PromiseControlBlock.new ∧
      w1.got = w.got) ∧
    (w.Enqueue q (f v) id).2 = w.pcbCount ∧
    (w.Enqueue q (f v) id).1.queues q = { w.queues q with
      tasks_ := (w.queues q).tasks_ ++ [⟨id, Closure.enqueueBody (f v) w.pcbCount⟩] } ∧
    (∀ q1, q1 ≠ q → (w.Enqueue q (f v) id).1.queues q1 = w.queues q1) ∧
    (w.Enqueue q (f v) id).1.pcbs w.pcbCount = PromiseControlBlock.new ∧
    (w.Enqueue q (f v) id).1.got = w.got ∧
    (∀ cur p w3, Closure.run cur (Closure.thenBody f p v) w3
      = Closure.run cur (Closure.enqueueBody (f v) p) w3) := by
  refine ⟨?_, rfl, ?_, ?_, ?_, ?_, ?_⟩
  · simp [World.CreateResolvedPromise, World.CreateResolver, World.ThenHere, World.Then,
      World.Resolve, World.newPcb, World.setPcb, World.calls, World.call, World.Take,
      World.AddTask, World.Release, World.setQueue, PromiseControlBlock.Then,
      PromiseControlBlock.Resolve, PromiseControlBlock.NotifyDependents,
      PromiseControlBlock.new, EventQueue.AddTask, EventQueue.Take, EventQueue.Release]
    intro q1 hq1
    simp [Function.update_noteq hq1]
  · simp [World.Enqueue, World.newPcb, World.AddTask, World.setQueue, EventQueue.AddTask]
  · intro q1 hq1
    simp [World.Enqueue, World.newPcb, World.AddTask, World.setQueue, Function.update_noteq hq1]
  · simp [World.Enqueue, World.newPcb, World.AddTask, World.setQueue]
  · simp [World.Enqueue, World.newPcb, World.AddTask, World.setQueue]
  · intro cur p w3
    rfl

/-- C6, at the test `CreateResolvedPromise`: value 42 and the closure that
pushes its argument, on queue 0 of the fresh fixture. -/
theorem resolved_then_is_enqueue_witness :
    (World.init.Enqueue 0 (pushArg 42) "").1.queues 0 = { World.init.queues 0 with
      tasks_ := (World.init.queues 0).tasks_ ++
        [⟨"", Closure.enqueueBody (pushArg 42) World.init.pcbCount⟩] } :=
  (resolved_then_is_enqueue World.init 0 42 pushArg "").2.2.1

/-! ## The tests `ResolverPromiseOrderOne` and `ResolverPromiseOrderTwo` -/

/-- The tasks one round of `orderOneLoop` leaves in the FIFO. -/
theorem orderOne_round (q : QId) (max : Int) (m : Nat) (i : Int) (w : World) :
    ∃ w1, Prog.run (some q) (orderOneLoop q max (m + 1) i) w
        = Prog.run (some q) (orderOneLoop q max m (i + 1)) w1 ∧
      w1.got = w.got ∧
      w1.queues q = { w.queues q with
        tasks_ := (w.queues q).tasks_ ++
          [⟨"", Closure.enqueueBody (Prog.push i (Prog.ret 0)) w.pcbCount⟩,
           ⟨"", Closure.thenBody pushArg (w.pcbCount + 2) (2 * max + i)⟩] } ∧
      w1.pcbCount = w.pcbCount + 3 ∧
      w1.pcbs w.pcbCount = PromiseControlBlock.new ∧
      w1.pcbs (w.pcbCount + 2) = PromiseControlBlock.new ∧
      (∀ j, j < w.pcbCount → w1.pcbs j = w.pcbs j) := by
  apply Exists.intro
  apply And.intro
  · simp [orderOneLoop, Prog.run, World.ThenHere, World.Then, World.Enqueue,
      World.CreateResolver, World.newPcb, World.AddTask, World.setQueue, World.setPcb,
      World.Take, World.Release, World.Resolve, World.calls, World.call,
      PromiseControlBlock.Then, PromiseControlBlock.Resolve,
      PromiseControlBlock.NotifyDependents, PromiseControlBlock.new, EventQueue.AddTask,
      EventQueue.Take, EventQueue.Release]
    rfl
  · refine ⟨rfl, ?_, by simp, ?_, ?_, ?_⟩
    · simp
    · simp [PromiseControlBlock.new, Function.update_apply]
    · simp [PromiseControlBlock.new, Function.update_apply]
    · intro j hj
      have h1 : j ≠ w.pcbCount := by omega
      have h2 : j ≠ w.pcbCount + 1 := by omega
      have h3 : j ≠ w.pcbCount + 1 + 1 := by omega
      simp [Function.update_noteq, h1, h2, h3]

/-- The state `orderOneLoop` leaves: the tasks of its rounds at the tail of the
FIFO, their control blocks unresolved, everything older untouched. -/
theorem orderOne_loop (q : QId) (max : Int) (m : Nat) (i : Int) (w : World) :
    ∃ w1, Prog.run (some q) (orderOneLoop q max m i) w = some (w1, 0) ∧
      w1.got = w.got ∧
      w1.queues q = { w.queues q with
        tasks_ := (w.queues q).tasks_ ++ orderOneTasks max m i w.pcbCount } ∧
      (∀ j, j < m → w1.pcbs (w.pcbCount + 3 * j) = PromiseControlBlock.new ∧
        w1.pcbs (w.pcbCount + 3 * j + 2) = PromiseControlBlock.new) ∧
      (∀ j, j < w.pcbCount → w1.pcbs j = w.pcbs j) := by
  induction m generalizing i w with
  | zero =>
    exact ⟨w, rfl, rfl, by simp [orderOneTasks], by simp, by simp⟩
  | succ m ih =>
    obtain ⟨w1, h1, h2, h3, h4, h5, h6, h7⟩ := orderOne_round q max m i w
    obtain ⟨w2, k1, k2, k3, k4, k5⟩ := ih (i + 1) w1
    refine ⟨w2, by rw [h1, k1], by rw [k2, h2], ?_, ?_, ?_⟩
    · rw [k3, h3, h4]
      simp [orderOneTasks]
    · intro j hj
      cases j with
      | zero =>
        constructor
        · rw [k5 _ (by omega)]
          exact h5
        · rw [k5 _ (by omega)]
          exact h6
      | succ j =>
        have h8 := k4 j (by omega)
        rw [h4] at h8
        have e1 : w.pcbCount + 3 * (j + 1) = w.pcbCount + 3 + 3 * j := by omega
        have e2 : w.pcbCount + 3 * (j + 1) + 2 = w.pcbCount + 3 + 3 * j + 2 := by omega
        rw [e1]
        exact h8
    · intro j hj
      rw [k5 j (by omega), h7 j hj]

namespace World

/-- A worker pass on a non-empty FIFO pops the head and runs it. -/
theorem world_workerStep_pop (w : World) (q : QId) (t : Task Closure)
    (rest : List (Task Closure)) (ht : (w.queues q).t_ = true)
    (hq : (w.queues q).tasks_ = t :: rest) :
    w.workerStep q =
      Closure.run (some q) t.f (w.setQueue q { w.queues q with tasks_ := rest }) := by
  simp [workerStep, EventQueue.pass, ht, hq]

/-- A worker pass on an empty FIFO after `Finish`, with nothing outstanding,
ends the worker. -/
theorem world_workerStep_exit (w : World) (q : QId) (ht : (w.queues q).t_ = true)
    (hq : (w.queues q).tasks_ = []) (hr : (w.queues q).running_ = false)
    (hc : (w.queues q).count_ = 0) :
    w.workerStep q = some (w.setQueue q { w.queues q with t_ := false }) := by
  simp [workerStep, EventQueue.pass, ht, hq, hr, hc]

/-- The pass that runs a task of `Enqueue` whose body pushes `i`. -/
theorem world_step_push (w : World) (q : QId) (id : String) (i : Int) (b : Nat)
    (rest : List (Task Closure)) (ht : (w.queues q).t_ = true)
    (hq : (w.queues q).tasks_ = ⟨id, Closure.enqueueBody (Prog.push i (Prog.ret 0)) b⟩ :: rest)
    (hb : w.pcbs b = PromiseControlBlock.new) :
    ∃ w1, w.workerStep q = some w1 ∧ w1.got = w.got ++ [i] ∧
      w1.queues q = { w.queues q with tasks_ := rest } ∧
      (∀ j : Nat, j ≠ b → w1.pcbs j = w.pcbs j) := by
  rw [world_workerStep_pop w q _ rest ht hq]
  simp only [PromiseControlBlock.new] at hb
  simp [Closure.run, Prog.run, Resolve, setQueue, setPcb, calls, hb,
    PromiseControlBlock.Resolve, PromiseControlBlock.NotifyDependents]
  intro j hj
  simp [Function.update_noteq hj]

/-- The pass that runs a downstream task of `Then` whose closure pushes its
argument. -/
theorem world_step_pushArg (w : World) (q : QId) (id : String) (v : Int) (b : Nat)
    (rest : List (Task Closure)) (ht : (w.queues q).t_ = true)
    (hq : (w.queues q).tasks_ = ⟨id, Closure.thenBody pushArg b v⟩ :: rest)
    (hb : w.pcbs b = PromiseControlBlock.new) :
    ∃ w1, w.workerStep q = some w1 ∧ w1.got = w.got ++ [v] ∧
      w1.queues q = { w.queues q with tasks_ := rest } ∧
      (∀ j : Nat, j ≠ b → w1.pcbs j = w.pcbs j) := by
  rw [world_workerStep_pop w q _ rest ht hq]
  simp only [PromiseControlBlock.new] at hb
  simp [Closure.run, Prog.run, pushArg, Resolve, setQueue, setPcb, calls, hb,
    PromiseControlBlock.Resolve, PromiseControlBlock.NotifyDependents]
  intro j hj
  simp [Function.update_noteq hj]

end World

/-- The worker runs the tasks of `orderOneLoop` in FIFO order: the vector `got`
grows by `i, 2 * max + i, i + 1, ...`. -/
theorem orderOne_drain (q : QId) (max : Int) (m : Nat) (i : Int) (b : Nat) (w : World)
    (rest : List (Task Closure)) (ht : (w.queues q).t_ = true)
    (hq : (w.queues q).tasks_ = orderOneTasks max m i b ++ rest)
    (hb : ∀ j, j < m → w.pcbs (b + 3 * j) = PromiseControlBlock.new ∧
      w.pcbs (b + 3 * j + 2) = PromiseControlBlock.new) :
    ∃ w1, World.runWorkers (List.replicate (2 * m) q) w = some w1 ∧
      w1.got = w.got ++ orderOneWant max m i ∧
      w1.queues q = { w.queues q with tasks_ := rest } := by
  induction m generalizing i b w with
  | zero =>
    refine ⟨w, rfl, by simp [orderOneWant], ?_⟩
    simp only [orderOneTasks, List.nil_append] at hq
    rw [← hq]
  | succ m ih =>
    simp only [orderOneTasks, List.cons_append] at hq
    obtain ⟨w1, h1, h2, h3, h4⟩ := World.world_step_push w q "" i b _ ht hq
      (by simpa using (hb 0 (by omega)).1)
    obtain ⟨w2, k1, k2, k3, k4⟩ := World.world_step_pushArg w1 q "" (2 * max + i) (b + 2) _
      (by rw [h3]; exact ht) (by rw [h3])
      (by rw [h4 (b + 2) (by omega)]; simpa using (hb 0 (by omega)).2)
    obtain ⟨w3, l1, l2, l3⟩ := ih (i + 1) (b + 3) w2 (by rw [k3, h3]; exact ht)
      (by rw [k3, h3])
      (by
        intro j hj
        have h5 := hb (j + 1) (by omega)
        have e1 : b + 3 * (j + 1) = b + 3 + 3 * j := by omega
        have e2 : b + 3 * (j + 1) + 2 = b + 3 + 3 * j + 2 := by omega
        rw [e1] at h5
        rw [k4 (b + 3 + 3 * j) (by omega), k4 (b + 3 + 3 * j + 2) (by omega),
          h4 (b + 3 + 3 * j) (by omega), h4 (b + 3 + 3 * j + 2) (by omega)]
        exact h5)
    refine ⟨w3, ?_, ?_, ?_⟩
    · have e : 2 * (m + 1) = (2 * m + 1) + 1 := by omega
      rw [e, List.replicate_succ, List.replicate_succ]
      simp [World.runWorkers, h1, k1, l1]
    · rw [l2, k2, h2]
      simp [orderOneWant]
    · rw [l3, k3, h3]

/-- The fixture with one body enqueued and `Finish` called. -/
theorem testStart_state (q : QId) (body : Prog) :
    (World.testStart q body).queues q
        = ⟨[⟨"", Closure.enqueueBody body 0⟩], false, 0, true⟩ ∧
      (World.testStart q body).pcbCount = 1 ∧
      (World.testStart q body).got = [] ∧
      (World.testStart q body).pcbs 0 = PromiseControlBlock.new := by
  simp [World.testStart, World.init, World.Enqueue, World.newPcb, World.AddTask, World.Finish,
    World.setQueue, EventQueue.AddTask, EventQueue.Finish, EventQueue.new]

/-- The test `ResolverPromiseOrderOne` for every `max = n`: the worker runs the
body, then the `2 * n` tasks, and leaves its loop; `got` is the vector `want`. -/
theorem orderOne_test (q : QId) (n : Nat) :
    ∃ w1, World.runWorkers (List.replicate (2 * n + 2) q)
        (World.testStart q (orderOneLoop q n n 0)) = some w1 ∧
      w1.got = orderOneWant n n 0 ∧ (w1.queues q).tasks_ = [] ∧ (w1.queues q).t_ = false := by
  obtain ⟨s1, s2, s3, s4⟩ := testStart_state q (orderOneLoop q n n 0)
  generalize World.testStart q (orderOneLoop q n n 0) = w0 at s1 s2 s3 s4
  obtain ⟨wB, b1, b2, b3, b4, b5⟩ := orderOne_loop q n n 0
    (w0.setQueue q { w0.queues q with tasks_ := [] })
  have hB0 : wB.pcbs 0 = ⟨none, []⟩ := by
    rw [b5 0 (by simp [World.setQueue, s2])]
    simpa [World.setQueue, PromiseControlBlock.new] using s4
  have hstep1 : w0.workerStep q = some ((wB.setPcb 0 ⟨some 0, []⟩).calls []) := by
    rw [World.world_workerStep_pop w0 q ⟨"", Closure.enqueueBody (orderOneLoop q n n 0) 0⟩ []
      (by rw [s1]) (by rw [s1])]
    simp only [Closure.run, b1]
    rw [World.world_Resolve_unresolved wB 0 0 [] hB0]
    rfl
  have hCq : ((wB.setPcb 0 ⟨some 0, []⟩).calls []).queues q
      = ⟨orderOneTasks n n 0 1, false, 0, true⟩ := by
    simp [World.calls, World.setPcb, b3, World.setQueue, s1, s2]
  obtain ⟨wD, d1, d2, d3⟩ := orderOne_drain q n n 0 1 ((wB.setPcb 0 ⟨some 0, []⟩).calls []) []
    (by rw [hCq]) (by rw [hCq]; simp)
    (by
      intro j hj
      have h5 := b4 j hj
      simp only [World.setQueue, s2] at h5
      have e1 : (0 + 1 + 3 * j : Nat) = 1 + 3 * j := by omega
      rw [e1] at h5
      have n1 : (1 + 3 * j : Nat) ≠ 0 := by omega
      have n2 : (1 + 3 * j + 2 : Nat) ≠ 0 := by omega
      simpa [World.calls, World.setPcb, Function.update_noteq n1, Function.update_noteq n2]
        using h5)
  rw [hCq] at d3
  have hexit := World.world_workerStep_exit wD q (by rw [d3]) (by rw [d3]) (by rw [d3])
    (by rw [d3])
  refine ⟨wD.setQueue q { wD.queues q with t_ := false }, ?_, ?_, ?_, ?_⟩
  · have e : 2 * n + 2 = (2 * n + 1) + 1 := by omega
    have e2 : List.replicate (2 * n + 1) q = List.replicate (2 * n) q ++ [q] := by
      rw [List.replicate_succ']
    rw [e, List.replicate_succ, e2]
    simp only [World.runWorkers, hstep1]
    rw [World.world_runWorkers_append, d1]
    simp only [World.runWorkers, hexit]
  · simp [World.setQueue, d2, World.calls, World.setPcb, b2, s3]
  · simp [World.setQueue, d3]
  · simp [World.setQueue]

/-- The tasks and the pending `Then` one round of `orderTwoLoop` leaves. -/
theorem orderTwo_round (q : QId) (max : Int) (m : Nat) (i : Int) (w : World) :
    ∃ w1, Prog.run (some q) (orderTwoLoop q max (m + 1) i) w
        = Prog.run (some q) (orderTwoLoop q max m (i + 1)) w1 ∧
      w1.got = w.got ∧
      w1.queues q = { w.queues q with
        tasks_ := (w.queues q).tasks_ ++
          [⟨"", Closure.enqueueBody (Prog.push i (Prog.ret 0)) w.pcbCount⟩,
           ⟨"", Closure.enqueueBody (Prog.resolve (w.pcbCount + 1) (2 * max + i) (Prog.ret 0))
              (w.pcbCount + 3)⟩]
        count_ := (w.queues q).count_ + 1 } ∧
      w1.pcbCount = w.pcbCount + 4 ∧
      w1.pcbs w.pcbCount = PromiseControlBlock.new ∧
      w1.pcbs (w.pcbCount + 1) = ⟨none, [⟨q, pushArg, w.pcbCount + 2, ""⟩]⟩ ∧
      w1.pcbs (w.pcbCount + 2) = PromiseControlBlock.new ∧
      w1.pcbs (w.pcbCount + 3) = PromiseControlBlock.new ∧
      (∀ j, j < w.pcbCount → w1.pcbs j = w.pcbs j) := by
  apply Exists.intro
  apply And.intro
  · simp [orderTwoLoop, Prog.run, World.ThenHere, World.Then, World.Enqueue,
      World.CreateResolver, World.newPcb, World.AddTask, World.setQueue, World.setPcb,
      World.Take, World.Release, World.Resolve, World.calls, World.call,
      PromiseControlBlock.Then, PromiseControlBlock.Resolve,
      PromiseControlBlock.NotifyDependents, PromiseControlBlock.new, EventQueue.AddTask,
      EventQueue.Take, EventQueue.Release]
    rfl
  · refine ⟨rfl, ?_, by simp, ?_, ?_, ?_, ?_, ?_⟩
    · simp
    · simp [PromiseControlBlock.new, Function.update_apply]
    · simp [PromiseControlBlock.new, Function.update_apply]
    · simp [PromiseControlBlock.new, Function.update_apply]
    · simp [PromiseControlBlock.new, Function.update_apply]
    · intro j hj
      have h1 : j ≠ w.pcbCount := by omega
      have h2 : j ≠ w.pcbCount + 1 := by omega
      have h3 : j ≠ w.pcbCount + 1 + 1 := by omega
      have h4 : j ≠ w.pcbCount + 1 + 1 + 1 := by omega
      simp [Function.update_noteq, h1, h2, h3, h4]

/-- The state `orderTwoLoop` leaves: per round two tasks at the tail of the
FIFO, one pending `Then` holding the queue, and unresolved control blocks. -/
theorem orderTwo_loop (q : QId) (max : Int) (m : Nat) (i : Int) (w : World) :
    ∃ w1, Prog.run (some q) (orderTwoLoop q max m i) w = some (w1, 0) ∧
      w1.got = w.got ∧
      w1.queues q = { w.queues q with
        tasks_ := (w.queues q).tasks_ ++ orderTwoTasks max m i w.pcbCount
        count_ := (w.queues q).count_ + m } ∧
      (∀ j, j < m → w1.pcbs (w.pcbCount + 4 * j) = PromiseControlBlock.new ∧
        w1.pcbs (w.pcbCount + 4 * j + 1)
          = ⟨none, [⟨q, pushArg, w.pcbCount + 4 * j + 2, ""⟩]⟩ ∧
        w1.pcbs (w.pcbCount + 4 * j + 2) = PromiseControlBlock.new ∧
        w1.pcbs (w.pcbCount + 4 * j + 3) = PromiseControlBlock.new) ∧
      (∀ j, j < w.pcbCount → w1.pcbs j = w.pcbs j) := by
  induction m generalizing i w with
  | zero =>
    exact ⟨w, rfl, rfl, by simp [orderTwoTasks], by simp, by simp⟩
  | succ m ih =>
    obtain ⟨w1, h1, h2, h3, h4, h5, h6, h7, h8, h9⟩ := orderTwo_round q max m i w
    obtain ⟨w2, k1, k2, k3, k4, k5⟩ := ih (i + 1) w1
    refine ⟨w2, by rw [h1, k1], by rw [k2, h2], ?_, ?_, ?_⟩
    · rw [k3, h3, h4]
      simp [orderTwoTasks]
      omega
    · intro j hj
      cases j with
      | zero =>
        refine ⟨?_, ?_, ?_, ?_⟩
        · rw [k5 _ (by omega)]
          exact h5
        · rw [k5 _ (by omega)]
          exact h6
        · rw [k5 _ (by omega)]
          exact h7
        · rw [k5 _ (by omega)]
          exact h8
      | succ j =>
        have h10 := k4 j (by omega)
        rw [h4] at h10
        have e1 : w.pcbCount + 4 * (j + 1) = w.pcbCount + 4 + 4 * j := by omega
        rw [e1]
        exact h10
    · intro j hj
      rw [k5 j (by omega), h9 j hj]

namespace World

/-- The pass that runs a task of `Enqueue` whose body resolves `p`, a block
with one pending `Then` on the same queue: the downstream task goes to the tail
of the FIFO and the hold of the `Then` is released. -/
theorem world_step_resolve (w : World) (q : QId) (id id2 : String) (v : Int) (p o b : Nat)
    (f : Int → Prog) (rest : List (Task Closure)) (ht : (w.queues q).t_ = true)
    (hq : (w.queues q).tasks_
      = ⟨id, Closure.enqueueBody (Prog.resolve p v (Prog.ret 0)) b⟩ :: rest)
    (hp : w.pcbs p = ⟨none, [⟨q, f, o, id2⟩]⟩)
    (hb : w.pcbs b = PromiseControlBlock.new) (hbp : b ≠ p) :
    ∃ w1, w.workerStep q = some w1 ∧ w1.got = w.got ∧
      w1.queues q = { w.queues q with
        tasks_ := rest ++ [⟨id2, Closure.thenBody f o v⟩]
        count_ := (w.queues q).count_ - 1 } ∧
      (∀ j : Nat, j ≠ p → j ≠ b → w1.pcbs j = w.pcbs j) := by
  rw [world_workerStep_pop w q _ rest ht hq]
  simp only [PromiseControlBlock.new] at hb
  simp [Closure.run, Prog.run, Resolve, setQueue, setPcb, calls, call, hb, hp,
    Function.update_noteq hbp, AddTask, Release, EventQueue.AddTask, EventQueue.Release,
    PromiseControlBlock.Resolve, PromiseControlBlock.NotifyDependents]
  intro j hj1 hj2
  simp [Function.update_noteq hj1, Function.update_noteq hj2]

end World

/-- The worker runs the tasks of `orderTwoLoop`: `got` grows by `i, i + 1, ...`
and each resolution puts its downstream task behind everything queued. -/
theorem orderTwo_drain (q : QId) (max : Int) (m : Nat) (i : Int) (b : Nat) (w : World)
    (rest : List (Task Closure)) (ht : (w.queues q).t_ = true)
    (hq : (w.queues q).tasks_ = orderTwoTasks max m i b ++ rest)
    (hb : ∀ j, j < m → w.pcbs (b + 4 * j) = PromiseControlBlock.new ∧
      w.pcbs (b + 4 * j + 1) = ⟨none, [⟨q, pushArg, b + 4 * j + 2, ""⟩]⟩ ∧
      w.pcbs (b + 4 * j + 3) = PromiseControlBlock.new) :
    ∃ w1, World.runWorkers (List.replicate (2 * m) q) w = some w1 ∧
      w1.got = w.got ++ countUp m i ∧
      w1.queues q = { w.queues q with
        tasks_ := rest ++ orderTwoThens max m i b
        count_ := (w.queues q).count_ - m } ∧
      (∀ j, j < m → w1.pcbs (b + 4 * j + 2) = w.pcbs (b + 4 * j + 2)) ∧
      (∀ j, j < b → w1.pcbs j = w.pcbs j) := by
  induction m generalizing i b w rest with
  | zero =>
    refine ⟨w, rfl, by simp [countUp], ?_, by simp, by simp⟩
    simp only [orderTwoTasks, List.nil_append] at hq
    simp [orderTwoThens, ← hq]
  | succ m ih =>
    simp only [orderTwoTasks, List.cons_append] at hq
    obtain ⟨w1, h1, h2, h3, h4⟩ := World.world_step_push w q "" i b _ ht hq
      (by simpa using (hb 0 (by omega)).1)
    obtain ⟨w2, k1, k2, k3, k4⟩ := World.world_step_resolve w1 q "" "" (2 * max + i) (b + 1)
      (b + 2) (b + 3) pushArg _ (by rw [h3]; exact ht) (by rw [h3])
      (by rw [h4 (b + 1) (by omega)]; simpa using (hb 0 (by omega)).2.1)
      (by rw [h4 (b + 3) (by omega)]; simpa using (hb 0 (by omega)).2.2) (by omega)
    obtain ⟨w3, l1, l2, l3, l4, l5⟩ := ih (i + 1) (b + 4) w2
      (rest ++ [⟨"", Closure.thenBody pushArg (b + 2) (2 * max + i)⟩])
      (by rw [k3, h3]; exact ht)
      (by rw [k3, h3]; simp)
      (by
        intro j hj
        have h5 := hb (j + 1) (by omega)
        have e1 : b + 4 * (j + 1) = b + 4 + 4 * j := by omega
        rw [e1] at h5
        rw [k4 (b + 4 + 4 * j) (by omega) (by omega),
          k4 (b + 4 + 4 * j + 1) (by omega) (by omega),
          k4 (b + 4 + 4 * j + 3) (by omega) (by omega),
          h4 (b + 4 + 4 * j) (by omega), h4 (b + 4 + 4 * j + 1) (by omega),
          h4 (b + 4 + 4 * j + 3) (by omega)]
        exact h5)
    refine ⟨w3, ?_, ?_, ?_, ?_, ?_⟩
    · have e : 2 * (m + 1) = (2 * m + 1) + 1 := by omega
      rw [e, List.replicate_succ, List.replicate_succ]
      simp [World.runWorkers, h1, k1, l1]
    · rw [l2, k2, h2]
      simp [countUp]
    · rw [l3, k3, h3]
      simp [orderTwoThens]
      omega
    · intro j hj
      cases j with
      | zero =>
        rw [l5 (b + 4 * 0 + 2) (by omega), k4 (b + 4 * 0 + 2) (by omega) (by omega),
          h4 (b + 4 * 0 + 2) (by omega)]
      | succ j =>
        have e1 : b + 4 * (j + 1) = b + 4 + 4 * j := by omega
        rw [e1, l4 j (by omega), k4 (b + 4 + 4 * j + 2) (by omega) (by omega),
          h4 (b + 4 + 4 * j + 2) (by omega)]
    · intro j hj
      rw [l5 j (by omega), k4 j (by omega) (by omega), h4 j (by omega)]

/-- The worker runs the downstream tasks of `orderTwoLoop`: `got` grows by
`2 * max + i, 2 * max + i + 1, ...`. -/
theorem orderTwo_drainThens (q : QId) (max : Int) (m : Nat) (i : Int) (b : Nat) (w : World)
    (rest : List (Task Closure)) (ht : (w.queues q).t_ = true)
    (hq : (w.queues q).tasks_ = orderTwoThens max m i b ++ rest)
    (hb : ∀ j, j < m → w.pcbs (b + 4 * j + 2) = PromiseControlBlock.new) :
    ∃ w1, World.runWorkers (List.replicate m q) w = some w1 ∧
      w1.got = w.got ++ countUp m (2 * max + i) ∧
      w1.queues q = { w.queues q with tasks_ := rest } := by
  induction m generalizing i b w with
  | zero =>
    refine ⟨w, rfl, by simp [countUp], ?_⟩
    simp only [orderTwoThens, List.nil_append] at hq
    rw [← hq]
  | succ m ih =>
    simp only [orderTwoThens, List.cons_append] at hq
    obtain ⟨w1, h1, h2, h3, h4⟩ := World.world_step_pushArg w q "" (2 * max + i) (b + 2) _ ht hq
      (by simpa using hb 0 (by omega))
    obtain ⟨w2, l1, l2, l3⟩ := ih (i + 1) (b + 4) w1 (by rw [h3]; exact ht) (by rw [h3])
      (by
        intro j hj
        have h5 := hb (j + 1) (by omega)
        have e1 : b + 4 * (j + 1) = b + 4 + 4 * j := by omega
        rw [e1] at h5
        rw [h4 (b + 4 + 4 * j + 2) (by omega)]
        exact h5)
    refine ⟨w2, ?_, ?_, ?_⟩
    · rw [List.replicate_succ]
      simp [World.runWorkers, h1, l1]
    · rw [l2, h2]
      have e : 2 * max + (i + 1) = 2 * max + i + 1 := by ring
      simp [countUp, e]
    · rw [l3, h3]

/-- The test `ResolverPromiseOrderTwo` for every `max = n`: the worker runs the
body, the `2 * n` tasks, the `n` downstream tasks, and leaves its loop. -/
theorem orderTwo_test (q : QId) (n : Nat) :
    ∃ w1, World.runWorkers (List.replicate (3 * n + 2) q)
        (World.testStart q (orderTwoLoop q n n 0)) = some w1 ∧
      w1.got = countUp n 0 ++ countUp n (2 * n) ∧
      (w1.queues q).tasks_ = [] ∧ (w1.queues q).t_ = false := by
  obtain ⟨s1, s2, s3, s4⟩ := testStart_state q (orderTwoLoop q n n 0)
  generalize World.testStart q (orderTwoLoop q n n 0) = w0 at s1 s2 s3 s4
  obtain ⟨wB, b1, b2, b3, b4, b5⟩ := orderTwo_loop q n n 0
    (w0.setQueue q { w0.queues q with tasks_ := [] })
  have hB0 : wB.pcbs 0 = ⟨none, []⟩ := by
    rw [b5 0 (by simp [World.setQueue, s2])]
    simpa [World.setQueue, PromiseControlBlock.new] using s4
  have hstep1 : w0.workerStep q = some ((wB.setPcb 0 ⟨some 0, []⟩).calls []) := by
    rw [World.world_workerStep_pop w0 q ⟨"", Closure.enqueueBody (orderTwoLoop q n n 0) 0⟩ []
      (by rw [s1]) (by rw [s1])]
    simp only [Closure.run, b1]
    rw [World.world_Resolve_unresolved wB 0 0 [] hB0]
    rfl
  have hCq : ((wB.setPcb 0 ⟨some 0, []⟩).calls []).queues q
      = ⟨orderTwoTasks n n 0 1, false, n, true⟩ := by
    simp [World.calls, World.setPcb, b3, World.setQueue, s1, s2]
  have hCp : ∀ j : Nat, j ≠ 0 →
      ((wB.setPcb 0 ⟨some 0, []⟩).calls []).pcbs j = wB.pcbs j := by
    intro j hj
    simp [World.calls, World.setPcb, Function.update_noteq hj]
  have hB4 : ∀ j, j < n → wB.pcbs (1 + 4 * j) = PromiseControlBlock.new ∧
      wB.pcbs (1 + 4 * j + 1) = ⟨none, [⟨q, pushArg, 1 + 4 * j + 2, ""⟩]⟩ ∧
      wB.pcbs (1 + 4 * j + 2) = PromiseControlBlock.new ∧
      wB.pcbs (1 + 4 * j + 3) = PromiseControlBlock.new := by
    intro j hj
    have h5 := b4 j hj
    simp only [World.setQueue, s2] at h5
    have e1 : (0 + 1 + 4 * j : Nat) = 1 + 4 * j := by omega
    rw [e1] at h5
    exact h5
  obtain ⟨wD, d1, d2, d3, d4, d5⟩ := orderTwo_drain q n n 0 1
    ((wB.setPcb 0 ⟨some 0, []⟩).calls []) []
    (by rw [hCq]) (by rw [hCq]; simp)
    (by
      intro j hj
      rw [hCp _ (by omega), hCp _ (by omega), hCp _ (by omega)]
      exact ⟨(hB4 j hj).1, (hB4 j hj).2.1, (hB4 j hj).2.2.2⟩)
  rw [hCq] at d3
  obtain ⟨wE, e1, e2, e3⟩ := orderTwo_drainThens q n n 0 1 wD []
    (by rw [d3]) (by rw [d3]; simp)
    (by
      intro j hj
      rw [d4 j hj, hCp _ (by omega)]
      exact (hB4 j hj).2.2.1)
  rw [d3] at e3
  have hexit := World.world_workerStep_exit wE q (by rw [e3]) (by rw [e3]) (by rw [e3])
    (by rw [e3]; simp)
  refine ⟨wE.setQueue q { wE.queues q with t_ := false }, ?_, ?_, ?_, ?_⟩
  · have e : 3 * n + 2 = (2 * n + (n + 1)) + 1 := by omega
    have e4 : List.replicate (2 * n + (n + 1)) q
        = List.replicate (2 * n) q ++ (List.replicate n q ++ [q]) := by
      rw [List.replicate_add, List.replicate_succ']
    rw [e, List.replicate_succ, e4]
    simp only [World.runWorkers, hstep1]
    rw [World.world_runWorkers_append, d1]
    simp only
    rw [World.world_runWorkers_append, e1]
    simp only [World.runWorkers, hexit]
  · simp [World.setQueue, e2, d2, World.calls, World.setPcb, b2, s3]
  · simp [World.setQueue, e3]
  · simp [World.setQueue]

/-- C5: the downstream task of a `Then` goes to the tail of the FIFO of its
queue when the upstream is resolved, or at the `Then` itself when the upstream
is already resolved.  (1) `Resolve` on an unresolved block appends, for every
queue, the tasks of the dependents that target it, in registration order, at
the tail.  (2) `Then` on an unresolved block appends nothing and registers the
dependent.  (3) `Then` on a resolved block appends its task at the tail.
(4) For every `n`, the body of `ResolverPromiseOrderOne` on the fixture gives
`got = 0, 2n, 1, 2n + 1, ...` once the worker has left its loop.  (5) For every
`n`, the body of `ResolverPromiseOrderTwo` gives `0 .. n-1` followed by
`2n .. 3n-1`. -/
theorem then_task_appended_at_fifo_tail (q : QId) (n : Nat) :
    (∀ (w : World) (p : PId) (v : Int) (ds : List Dependent), w.pcbs p = ⟨none, ds⟩ →
      ∃ w1, w.Resolve p v = some w1 ∧
        ∀ q1, (w1.queues q1).tasks_ = (w.queues q1).tasks_ ++
          ((ds.filter fun d => d.q = q1).map fun d =>
            ⟨d.id, Closure.thenBody d.f d.resolver v⟩)) ∧
    (∀ (w : World) (p : PId) (f : Int → Prog) (id : String) (ds : List Dependent),
      w.pcbs p = ⟨none, ds⟩ → p < w.pcbCount →
      ∃ w1, w.Then p q f id = some (w1, w.pcbCount) ∧
        (∀ q1, (w1.queues q1).tasks_ = (w.queues q1).tasks_) ∧
        w1.pcbs p = ⟨none, ds ++ [⟨q, f, w.pcbCount, id⟩]⟩) ∧
    (∀ (w : World) (p : PId) (f : Int → Prog) (id : String) (v : Int),
      w.pcbs p = ⟨some v, []⟩ → p < w.pcbCount →
      ∃ w1, w.Then p q f id = some (w1, w.pcbCount) ∧
        (w1.queues q).tasks_ = (w.queues q).tasks_ ++
          [⟨id, Closure.thenBody f w.pcbCount v⟩]) ∧
    (∃ w1, World.runWorkers (List.replicate (2 * n + 2) q)
        (World.testStart q (orderOneLoop q n n 0)) = some w1 ∧
      w1.got = orderOneWant n n 0 ∧ (w1.queues q).tasks_ = [] ∧ (w1.queues q).t_ = false) ∧
    (∃ w1, World.runWorkers (List.replicate (3 * n + 2) q)
        (World.testStart q (orderTwoLoop q n n 0)) = some w1 ∧
      w1.got = countUp n 0 ++ countUp n (2 * n) ∧
      (w1.queues q).tasks_ = [] ∧ (w1.queues q).t_ = false) := by
  refine ⟨?_, ?_, ?_, orderOne_test q n, orderTwo_test q n⟩
  · intro w p v ds h
    refine ⟨_, World.world_Resolve_unresolved w p v ds h, ?_⟩
    intro q1
    rw [World.world_calls_queues]
    simp [World.setPcb, List.filter_map, World.taskOf, Function.comp_def]
  · intro w p f id ds h hp
    refine ⟨_, World.world_Then_unresolved w p q f id ds h (Nat.ne_of_lt hp), ?_, ?_⟩
    · intro q1
      by_cases hq : q1 = q
      · subst hq
        simp [World.Take, World.setQueue, World.setPcb, World.newPcb, EventQueue.Take]
      · simp [World.Take, World.setQueue, World.setPcb, World.newPcb,
          Function.update_noteq hq]
    · simp [World.Take, World.setQueue, World.setPcb, World.newPcb]
  · intro w p f id v h hp
    refine ⟨_, World.world_Then_resolved w p q f id v [] h (Nat.ne_of_lt hp), ?_⟩
    rw [World.world_calls_queues]
    simp [World.Take, World.setQueue, World.setPcb, World.newPcb, EventQueue.Take,
      World.taskOf]

/-- C5, at `n = 2` on queue 0, and at a block with one pending `Then`. -/
theorem then_task_appended_at_fifo_tail_witness :
    (∃ w1, (World.init.setPcb 0 ⟨none, [⟨0, pushArg, 1, ""⟩]⟩).Resolve 0 7 = some w1 ∧
      ∀ q1, (w1.queues q1).tasks_
        = ((World.init.setPcb 0 ⟨none, [⟨0, pushArg, 1, ""⟩]⟩).queues q1).tasks_ ++
          (([⟨0, pushArg, 1, ""⟩].filter fun d : Dependent => d.q = q1).map fun d =>
            ⟨d.id, Closure.thenBody d.f d.resolver 7⟩)) ∧
    (∃ w1, World.runWorkers (List.replicate (2 * 2 + 2) 0)
        (World.testStart 0 (orderOneLoop 0 (2 : Nat) 2 0)) = some w1 ∧
      w1.got = [0, 4, 1, 5] ∧ (w1.queues 0).tasks_ = [] ∧ (w1.queues 0).t_ = false) :=
  ⟨(then_task_appended_at_fifo_tail 0 2).1 (World.init.setPcb 0 ⟨none, [⟨0, pushArg, 1, ""⟩]⟩)
      0 7 [⟨0, pushArg, 1, ""⟩] (by simp [World.setPcb]),
   (then_task_appended_at_fifo_tail 0 2).2.2.2.1⟩

/-! ## A chain of `Then` -/

theorem chain_start_inv (before after : List QId) (v : Int) :
    ChainInv before after v (chainStart before after v) 0 0 where
  head := rfl
  p := rfl
  count := rfl
  hm := Nat.zero_le _
  hc := Nat.zero_le _
  todo0 := fun _ => ⟨Nat.zero_le _, by simp [chainStart]⟩
  todo1 := fun h => absurd h (lt_irrefl 0)
  live := fun q => by
    simp [chainStart, World.CreateResolver, World.newPcb, World.init, EventQueue.new]
  fifo := fun q => by
    simp [chainStart, World.CreateResolver, World.newPcb, World.init, EventQueue.new]
  pcbs := fun j hj => by
    have hj0 : j = 0 := by omega
    subst hj0
    simp [chainStart, World.CreateResolver, World.newPcb, World.init, PromiseControlBlock.new]

/-- The client thread executes a `Then`: one more promise in the chain; when
the last promise is already resolved the downstream task is enqueued at once. -/
theorem chain_step_then (before after : List QId) (v : Int) (s : ChainState) (m c : Nat)
    (inv : ChainInv before after v s m c) (q : QId) (rest : List ChainOp)
    (hm : m < (before ++ after).length)
    (hq : ((before ++ after)[m]?).getD 0 = q)
    (htodo : s.todo = ChainOp.andThen q :: rest) :
    ∃ s1, s.step Turn.client = some s1 ∧ s1.todo = rest ∧
      ChainInv before after v s1 (m + 1) c := by
  have hpm := inv.pcbs m (le_refl m)
  have hne : m ≠ s.world.pcbCount := by rw [inv.count]; omega
  by_cases hmc : m < c
  · -- the promise is resolved
    have hc : c = m + 1 := by have := inv.hc; omega
    subst hc
    simp only [hmc, if_true] at hpm
    have hT := World.world_Then_resolved s.world m q addOne "" (chainVal v m) [] hpm hne
    rw [inv.count] at hT
    refine ⟨⟨World.calls (((s.world.newPcb.1).setPcb m ⟨some (chainVal v m), []⟩).Take q)
        [(⟨q, addOne, m + 1, ""⟩, chainVal v m)], rest, s.head, m + 1⟩,
      by simp [ChainState.step, htodo, inv.p, hT], rfl, ?_⟩
    have ht1 := inv.todo1 (by omega)
    refine ⟨inv.head, rfl, ?_, by omega, by omega, fun h => by omega, fun _ => ⟨by omega, ?_⟩,
      ?_, ?_, ?_⟩
    · simp [World.world_calls_rest, World.Take, World.setQueue, World.setPcb, World.newPcb,
        inv.count]
    · have h2 := ht1.2
      rw [htodo, List.drop_eq_getElem_cons hm] at h2
      simp only [List.map_cons, List.cons.injEq] at h2
      exact h2.2
    · intro q1
      have h3 := inv.live q1
      rw [World.world_calls_queues]
      by_cases hq1 : q1 = q
      · subst hq1
        simpa [World.Take, World.setQueue, World.setPcb, World.newPcb, EventQueue.Take] using h3
      · simpa [World.Take, World.setQueue, World.setPcb, World.newPcb,
          Function.update_noteq hq1] using h3
    · intro q1
      have h3 := inv.fifo q1
      have h4 : ¬ (0 < m + 1 ∧ m + 1 ≤ m ∧ ((before ++ after)[m + 1 - 1]?).getD 0 = q1) := by
        omega
      rw [if_neg h4] at h3
      rw [World.world_calls_queues]
      by_cases hq1 : q1 = q
      · subst hq1
        simp [World.Take, World.setQueue, World.setPcb, World.newPcb, EventQueue.Take, h3,
          World.taskOf, chainToken, hq]
      · have hq2 : ¬ q = q1 := fun h => hq1 h.symm
        have hq3 : ¬ ((before ++ after)[m]?).getD 0 = q1 := by rw [hq]; exact hq2
        simp [World.Take, World.setQueue, World.setPcb, World.newPcb,
          Function.update_noteq hq1, h3, hq2, hq3]
    · intro j hj
      rw [(World.world_calls_rest _ _).1]
      simp only [World.Take, World.setQueue, World.setPcb, World.newPcb, inv.count]
      by_cases h1 : j = m
      · subst h1
        simp
      · by_cases h2 : j = m + 1
        · subst h2
          simp [Function.update_noteq h1, PromiseControlBlock.new]
        · have h3 := inv.pcbs j (by omega)
          have h4 : j < m := by omega
          simp only [Function.update_noteq h1, Function.update_noteq h2, h3]
          have h5 : j < m + 1 := by omega
          simp [h4, h5]
  · -- the promise is unresolved
    have hc := inv.hc
    simp only [hmc, if_false, lt_irrefl] at hpm
    have hT := World.world_Then_unresolved s.world m q addOne "" [] hpm hne
    rw [inv.count] at hT
    refine ⟨⟨((s.world.newPcb.1).setPcb m ⟨none, [⟨q, addOne, m + 1, ""⟩]⟩).Take q,
        rest, s.head, m + 1⟩,
      by simp [ChainState.step, htodo, inv.p, hT], rfl, ?_⟩
    refine ⟨inv.head, rfl, ?_, by omega, by omega, ?_, ?_, ?_, ?_, ?_⟩
    · simp [World.Take, World.setQueue, World.setPcb, World.newPcb, inv.count]
    · intro h0
      have ht0 := inv.todo0 h0
      have h2 := ht0.2
      rw [htodo] at h2
      have hlt : m < before.length := by
        by_contra hcon
        have : before.drop m = [] := List.drop_eq_nil_of_le (by omega)
        rw [this] at h2
        simp at h2
      rw [List.drop_eq_getElem_cons hlt] at h2
      simp only [List.map_cons, List.cons_append, List.cons.injEq] at h2
      exact ⟨by omega, h2.2⟩
    · intro h0
      have ht1 := inv.todo1 h0
      have h2 := ht1.2
      rw [htodo, List.drop_eq_getElem_cons hm] at h2
      simp only [List.map_cons, List.cons.injEq] at h2
      exact ⟨by omega, h2.2⟩
    · intro q1
      have h3 := inv.live q1
      by_cases hq1 : q1 = q
      · subst hq1
        simpa [World.Take, World.setQueue, World.setPcb, World.newPcb, EventQueue.Take] using h3
      · simpa [World.Take, World.setQueue, World.setPcb, World.newPcb,
          Function.update_noteq hq1] using h3
    · intro q1
      have h3 := inv.fifo q1
      have h4 : (0 < c ∧ c ≤ m + 1 ∧ ((before ++ after)[c - 1]?).getD 0 = q1) ↔
          (0 < c ∧ c ≤ m ∧ ((before ++ after)[c - 1]?).getD 0 = q1) := by
        constructor
        · intro h; exact ⟨h.1, by omega, h.2.2⟩
        · intro h; exact ⟨h.1, by omega, h.2.2⟩
      rw [if_congr h4 rfl rfl]
      by_cases hq1 : q1 = q
      · subst hq1
        simpa [World.Take, World.setQueue, World.setPcb, World.newPcb, EventQueue.Take] using h3
      · simpa [World.Take, World.setQueue, World.setPcb, World.newPcb,
          Function.update_noteq hq1] using h3
    · intro j hj
      simp only [World.Take, World.setQueue, World.setPcb, World.newPcb, inv.count]
      by_cases h1 : j = m
      · subst h1
        simp [hmc, chainDep, hq]
      · by_cases h2 : j = m + 1
        · subst h2
          have h6 : ¬ (m + 1 < c) := by omega
          simp [Function.update_noteq h1, PromiseControlBlock.new, h6]
        · have h3 := inv.pcbs j (by omega)
          have h4 : j < m := by omega
          have h5 : j < m + 1 := by omega
          simp only [Function.update_noteq h1, Function.update_noteq h2, h3]
          simp [h4, h5]

/-- The client thread executes `Resolve(v)`: the first promise is resolved, and
the downstream task of its `Then`, when there is one, is enqueued. -/
theorem chain_step_resolve (before after : List QId) (v : Int) (s : ChainState) (m : Nat)
    (inv : ChainInv before after v s m 0) (rest : List ChainOp) (u : Int)
    (htodo : s.todo = ChainOp.resolve u :: rest) :
    ∃ s1, s.step Turn.client = some s1 ∧ s1.todo = rest ∧ ChainInv before after v s1 m 1 := by
  have ht0 := inv.todo0 rfl
  have hmb : m = before.length := by
    by_contra hcon
    have hlt : m < before.length := by have := ht0.1; omega
    have h2 := ht0.2
    rw [htodo, List.drop_eq_getElem_cons hlt] at h2
    simp only [List.map_cons, List.cons_append, List.cons.injEq] at h2
    exact ChainOp.noConfusion h2.1
  have h2 := ht0.2
  rw [htodo, List.drop_eq_nil_of_le (by omega)] at h2
  simp only [List.map_nil, List.nil_append, List.cons.injEq, ChainOp.resolve.injEq] at h2
  obtain ⟨hu, hrest⟩ := h2
  subst hu
  have hp0 := inv.pcbs 0 (Nat.zero_le m)
  simp only [lt_irrefl, if_false] at hp0
  by_cases hm0 : 0 < m
  · simp only [hm0, if_true] at hp0
    have hR := World.world_Resolve_unresolved s.world 0 u _ hp0
    refine ⟨⟨World.calls (s.world.setPcb 0 ⟨some u, []⟩)
        [(chainDep (before ++ after) 0, u)], rest, s.head, s.p⟩,
      by simp [ChainState.step, htodo, inv.head, hR], rfl, ?_⟩
    refine ⟨inv.head, inv.p, ?_, inv.hm, by omega, fun h => by omega,
      fun _ => ⟨by omega, ?_⟩, ?_, ?_, ?_⟩
    · simp [World.world_calls_rest, World.setPcb, inv.count]
    · rw [hrest, hmb]
      simp
    · intro q1
      have h3 := inv.live q1
      rw [World.world_calls_queues]
      simpa [World.setPcb] using h3
    · intro q1
      have h3 := inv.fifo q1
      simp only [lt_irrefl, false_and, if_false] at h3
      rw [World.world_calls_queues]
      have h5 : (1 : Nat) ≤ m := hm0
      by_cases hq1 : ((before ++ after)[0]?).getD 0 = q1
      · simp [World.setPcb, h3, chainDep, hq1, World.taskOf, chainToken, h5, chainVal]
      · simp [World.setPcb, h3, chainDep, hq1]
    · intro j hj
      rw [(World.world_calls_rest _ _).1]
      simp only [World.setPcb]
      by_cases h1 : j = 0
      · subst h1
        simp [chainVal]
      · have h3 := inv.pcbs j hj
        have h4 : ¬ j < 1 := by omega
        simp only [Function.update_noteq h1, h3, h4, if_false]
        simp
  · have hm1 : m = 0 := by omega
    simp only [hm0, if_false] at hp0
    have hR := World.world_Resolve_unresolved s.world 0 u _ hp0
    refine ⟨⟨World.calls (s.world.setPcb 0 ⟨some u, []⟩) [], rest, s.head, s.p⟩,
      by simp [ChainState.step, htodo, inv.head, hR], rfl, ?_⟩
    refine ⟨inv.head, inv.p, ?_, inv.hm, by omega, fun h => by omega,
      fun _ => ⟨by omega, ?_⟩, ?_, ?_, ?_⟩
    · simp [World.calls, World.setPcb, inv.count]
    · rw [hrest, hmb]
      simp
    · intro q1
      have h3 := inv.live q1
      simpa [World.calls, World.setPcb] using h3
    · intro q1
      have h3 := inv.fifo q1
      simp only [lt_irrefl, false_and, if_false] at h3
      have h5 : ¬ (1 : Nat) ≤ m := by omega
      simp [World.calls, World.setPcb, h3, h5]
    · intro j hj
      have h1 : j = 0 := by omega
      subst h1
      simp [World.calls, World.setPcb, chainVal]

/-- The client thread has no statement left: nothing changes. -/
theorem chain_step_done (s : ChainState) (htodo : s.todo = []) :
    s.step Turn.client = some s := by
  simp [ChainState.step, htodo]

/-- The worker of a queue with an empty FIFO waits: the invariant is kept. -/
theorem chain_step_idle (before after : List QId) (v : Int) (s : ChainState) (m c : Nat)
    (inv : ChainInv before after v s m c) (q : QId)
    (hq : ¬ (0 < c ∧ c ≤ m ∧ ((before ++ after)[c - 1]?).getD 0 = q)) :
    s.step (Turn.worker q) = some s := by
  have h3 := inv.fifo q
  rw [if_neg hq] at h3
  have h4 := inv.live q
  have h5 : s.world.workerStep q = some s.world := by
    simp [World.workerStep, EventQueue.pass, h3, h4.1, h4.2, World.setQueue]
  simp [ChainState.step, h5]

/-- The worker of the queue that holds the downstream task runs it: the next
promise of the chain is resolved with one more, and the downstream task of its
`Then`, when there is one, is enqueued. -/
theorem chain_step_worker (before after : List QId) (v : Int) (s : ChainState) (m k : Nat)
    (inv : ChainInv before after v s m (k + 1)) (hk : k < m) :
    ∃ s1, s.step (Turn.worker (((before ++ after)[k]?).getD 0)) = some s1 ∧
      s1.todo = s.todo ∧ ChainInv before after v s1 m (k + 2) := by
  have hf := inv.fifo (((before ++ after)[k]?).getD 0)
  have hcond : 0 < k + 1 ∧ k + 1 ≤ m ∧
      ((before ++ after)[k + 1 - 1]?).getD 0 = ((before ++ after)[k]?).getD 0 :=
    ⟨by omega, by omega, by simp⟩
  rw [if_pos hcond] at hf
  simp only [Nat.add_sub_cancel, chainToken] at hf
  have hl := inv.live (((before ++ after)[k]?).getD 0)
  have hpop := World.world_workerStep_pop s.world _ _ [] hl.1 hf
  have hp := inv.pcbs (k + 1) (by omega)
  simp only [lt_irrefl, if_false] at hp
  have hrun : ∀ W : World, Closure.run (some (((before ++ after)[k]?).getD 0))
      (Closure.thenBody addOne (k + 1) (chainVal v k)) W
        = W.Resolve (k + 1) (chainVal v (k + 1)) := by
    intro W
    simp [Closure.run, Prog.run, addOne, chainVal]
  simp only at hpop
  rw [hrun] at hpop
  by_cases hkm : k + 1 < m
  · simp only [hkm, if_true] at hp
    have hR := World.world_Resolve_unresolved
      (s.world.setQueue (((before ++ after)[k]?).getD 0)
        { s.world.queues (((before ++ after)[k]?).getD 0) with tasks_ := [] })
      (k + 1) (chainVal v (k + 1)) [chainDep (before ++ after) (k + 1)] (by simpa [World.setQueue] using hp)
    rw [hR] at hpop
    refine ⟨⟨World.calls ((s.world.setQueue (((before ++ after)[k]?).getD 0)
        { s.world.queues (((before ++ after)[k]?).getD 0) with tasks_ := [] }).setPcb (k + 1)
          ⟨some (chainVal v (k + 1)), []⟩) [(chainDep (before ++ after) (k + 1), chainVal v (k + 1))],
      s.todo, s.head, s.p⟩, by simp [ChainState.step, hpop], rfl, ?_⟩
    refine ⟨inv.head, inv.p, ?_, inv.hm, by omega, fun h => by omega,
      fun _ => inv.todo1 (by omega), ?_, ?_, ?_⟩
    · simp [World.world_calls_rest, World.setPcb, World.setQueue, inv.count]
    · intro q1
      have h3 := inv.live q1
      rw [World.world_calls_queues]
      by_cases hq1 : q1 = ((before ++ after)[k]?).getD 0
      · subst hq1
        simpa [World.setPcb, World.setQueue] using h3
      · simpa [World.setPcb, World.setQueue, Function.update_noteq hq1] using h3
    · intro q1
      have h3 := inv.fifo q1
      rw [World.world_calls_queues]
      have h5 : k + 2 ≤ m := by omega
      have e1 : chainVal v (k + 1) = wrapInt (chainVal v k + 1) := rfl
      by_cases hq1 : q1 = ((before ++ after)[k]?).getD 0
      · subst hq1
        by_cases hq2 : ((before ++ after)[k + 1]?).getD 0 = ((before ++ after)[k]?).getD 0
        · simp [World.setPcb, World.setQueue, chainDep, hq2, World.taskOf, chainToken, h5, e1]
        · simp [World.setPcb, World.setQueue, chainDep, hq2, h5]
      · have hq3 : ¬ (0 < k + 1 ∧ k + 1 ≤ m ∧ ((before ++ after)[k + 1 - 1]?).getD 0 = q1) := by
          intro h
          apply hq1
          rw [← h.2.2]
          simp
        rw [if_neg hq3] at h3
        by_cases hq2 : ((before ++ after)[k + 1]?).getD 0 = q1
        · simp [World.setPcb, World.setQueue, Function.update_noteq hq1, h3, chainDep, hq2,
            World.taskOf, chainToken, h5, e1]
        · simp [World.setPcb, World.setQueue, Function.update_noteq hq1, h3, chainDep, hq2, h5]
    · intro j hj
      rw [(World.world_calls_rest _ _).1]
      simp only [World.setPcb, World.setQueue]
      by_cases h1 : j = k + 1
      · subst h1
        have e1 : chainVal v (k + 1) = wrapInt (chainVal v k + 1) := rfl
        simp [e1]
      · have h3 := inv.pcbs j hj
        simp only [Function.update_noteq h1, h3]
        by_cases h4 : j < k + 1
        · have h5 : j < k + 2 := by omega
          simp [h4, h5]
        · have h5 : ¬ j < k + 2 := by omega
          simp [h4, h5]
  · have hkm1 : m = k + 1 := by omega
    simp only [hkm, if_false] at hp
    have hR := World.world_Resolve_unresolved
      (s.world.setQueue (((before ++ after)[k]?).getD 0)
        { s.world.queues (((before ++ after)[k]?).getD 0) with tasks_ := [] })
      (k + 1) (chainVal v (k + 1)) [] (by simpa [World.setQueue] using hp)
    rw [hR] at hpop
    refine ⟨⟨World.calls ((s.world.setQueue (((before ++ after)[k]?).getD 0)
        { s.world.queues (((before ++ after)[k]?).getD 0) with tasks_ := [] }).setPcb (k + 1)
          ⟨some (chainVal v (k + 1)), []⟩) [],
      s.todo, s.head, s.p⟩, by simp [ChainState.step, hpop], rfl, ?_⟩
    refine ⟨inv.head, inv.p, ?_, inv.hm, by omega, fun h => by omega,
      fun _ => inv.todo1 (by omega), ?_, ?_, ?_⟩
    · simp [World.calls, World.setPcb, World.setQueue, inv.count]
    · intro q1
      have h3 := inv.live q1
      by_cases hq1 : q1 = ((before ++ after)[k]?).getD 0
      · subst hq1
        simpa [World.calls, World.setPcb, World.setQueue] using h3
      · simpa [World.calls, World.setPcb, World.setQueue, Function.update_noteq hq1] using h3
    · intro q1
      have h3 := inv.fifo q1
      have h5 : ¬ k + 2 ≤ m := by omega
      by_cases hq1 : q1 = ((before ++ after)[k]?).getD 0
      · subst hq1
        simp [World.calls, World.setPcb, World.setQueue, h5]
      · have hq3 : ¬ (0 < k + 1 ∧ k + 1 ≤ m ∧ ((before ++ after)[k + 1 - 1]?).getD 0 = q1) := by
          intro h
          apply hq1
          rw [← h.2.2]
          simp
        rw [if_neg hq3] at h3
        simp [World.calls, World.setPcb, World.setQueue, Function.update_noteq hq1, h3, h5]
    · intro j hj
      simp only [World.calls, List.foldl_nil, List.map_nil, World.setPcb, World.setQueue]
      by_cases h1 : j = k + 1
      · subst h1
        have e1 : chainVal v (k + 1) = wrapInt (chainVal v k + 1) := rfl
        simp [e1]
      · have h3 := inv.pcbs j hj
        simp only [Function.update_noteq h1, h3]
        by_cases h4 : j < k + 1
        · have h5 : j < k + 2 := by omega
          simp [h4, h5]
        · have h5 : ¬ j < k + 2 := by omega
          simp [h4, h5]

theorem chain_run_append (xs ys : List Turn) (s : ChainState) :
    ChainState.run (xs ++ ys) s =
      match ChainState.run xs s with
      | none => none
      | some s1 => ChainState.run ys s1 := by
  induction xs generalizing s with
  | nil => simp [ChainState.run]
  | cons x xs ih =>
    simp only [List.cons_append, ChainState.run]
    cases s.step x with
    | none => rfl
    | some s1 => simp [ih]

/-- The next statement of the client thread, read off the invariant. -/
theorem chain_todo_then (before after : List QId) (v : Int) (s : ChainState) (m c : Nat)
    (inv : ChainInv before after v s m c) (q : QId) (rest : List ChainOp)
    (htodo : s.todo = ChainOp.andThen q :: rest) :
    m < (before ++ after).length ∧ ((before ++ after)[m]?).getD 0 = q := by
  by_cases hc : c = 0
  · have h2 := (inv.todo0 hc).2
    rw [htodo] at h2
    have hlt : m < before.length := by
      by_contra hcon
      rw [List.drop_eq_nil_of_le (by omega)] at h2
      simp only [List.map_nil, List.nil_append, List.cons.injEq] at h2
      exact ChainOp.noConfusion h2.1
    rw [List.drop_eq_getElem_cons hlt] at h2
    simp only [List.map_cons, List.cons_append, List.cons.injEq, ChainOp.andThen.injEq] at h2
    refine ⟨by simp; omega, ?_⟩
    rw [List.getElem?_append_left hlt, List.getElem?_eq_getElem hlt]
    simp [h2.1]
  · have h2 := (inv.todo1 (by omega)).2
    rw [htodo] at h2
    have hlt : m < (before ++ after).length := by
      by_contra hcon
      rw [List.drop_eq_nil_of_le (by omega)] at h2
      simp at h2
    rw [List.drop_eq_getElem_cons hlt] at h2
    simp only [List.map_cons, List.cons.injEq, ChainOp.andThen.injEq] at h2
    refine ⟨hlt, ?_⟩
    rw [List.getElem?_eq_getElem hlt]
    simp [h2.1]

/-- Every move keeps the invariant: no move fails an assertion. -/
theorem chain_step_inv (before after : List QId) (v : Int) (s : ChainState) (m c : Nat)
    (inv : ChainInv before after v s m c) (t : Turn) :
    ∃ s1 m1 c1, s.step t = some s1 ∧ ChainInv before after v s1 m1 c1 := by
  cases t with
  | client =>
    cases htodo : s.todo with
    | nil => exact ⟨s, m, c, chain_step_done s htodo, inv⟩
    | cons op rest =>
      cases op with
      | andThen q =>
        obtain ⟨h1, h2⟩ := chain_todo_then before after v s m c inv q rest htodo
        obtain ⟨s1, k1, _, k3⟩ := chain_step_then before after v s m c inv q rest h1 h2 htodo
        exact ⟨s1, m + 1, c, k1, k3⟩
      | resolve u =>
        have hc : c = 0 := by
          by_contra hcon
          have h2 := (inv.todo1 (by omega)).2
          rw [htodo] at h2
          cases hd : (before ++ after).drop m with
          | nil => simp [hd] at h2
          | cons a l =>
            rw [hd] at h2
            simp only [List.map_cons, List.cons.injEq] at h2
            exact ChainOp.noConfusion h2.1
        subst hc
        obtain ⟨s1, k1, _, k3⟩ := chain_step_resolve before after v s m inv rest u htodo
        exact ⟨s1, m, 1, k1, k3⟩
  | worker q =>
    by_cases hq : 0 < c ∧ c ≤ m ∧ ((before ++ after)[c - 1]?).getD 0 = q
    · obtain ⟨k, hk⟩ : ∃ k, c = k + 1 := ⟨c - 1, by omega⟩
      subst hk
      have hq2 : ((before ++ after)[k]?).getD 0 = q := by simpa using hq.2.2
      obtain ⟨s1, k1, _, k3⟩ := chain_step_worker before after v s m k inv (by omega)
      rw [hq2] at k1
      exact ⟨s1, m, k + 2, k1, k3⟩
    · exact ⟨s, m, c, chain_step_idle before after v s m c inv q hq, inv⟩

/-- Every schedule keeps the invariant. -/
theorem chain_run_inv (before after : List QId) (v : Int) (sched : List Turn)
    (s : ChainState) (m c : Nat) (inv : ChainInv before after v s m c) :
    ∃ s1 m1 c1, ChainState.run sched s = some s1 ∧ ChainInv before after v s1 m1 c1 := by
  induction sched generalizing s m c with
  | nil => exact ⟨s, m, c, rfl, inv⟩
  | cons t ts ih =>
    obtain ⟨s1, m1, c1, h1, h2⟩ := chain_step_inv before after v s m c inv t
    obtain ⟨s2, m2, c2, h3, h4⟩ := ih s1 m1 c1 h2
    exact ⟨s2, m2, c2, by simp [ChainState.run, h1, h3], h4⟩

/-- In a state where the client thread is done and every FIFO is empty, the
last promise of the chain holds the start value plus the number of `Then`. -/
theorem chain_inv_quiescent (before after : List QId) (v : Int) (s : ChainState) (m c : Nat)
    (inv : ChainInv before after v s m c) (htodo : s.todo = [])
    (hq : ∀ q, (s.world.queues q).tasks_ = []) :
    (s.world.pcbs s.p).result_ = some (chainVal v (before ++ after).length) := by
  have hc : 0 < c := by
    by_contra hcon
    have h2 := (inv.todo0 (by omega)).2
    rw [htodo] at h2
    simp at h2
  have h2 := (inv.todo1 hc).2
  rw [htodo] at h2
  have hm : m = (before ++ after).length := by
    have h3 := inv.hm
    by_contra hcon
    have hlt : m < (before ++ after).length := by omega
    rw [List.drop_eq_getElem_cons hlt] at h2
    simp only [List.map_cons] at h2
    exact List.noConfusion h2
  have hcm : m < c := by
    by_contra hcon
    have h3 := inv.fifo (((before ++ after)[c - 1]?).getD 0)
    rw [if_pos ⟨hc, by omega, rfl⟩, hq] at h3
    simp at h3
  have h4 := inv.pcbs m (le_refl m)
  rw [if_pos hcm] at h4
  rw [inv.p, h4, hm]

/-- The client thread executes its next `j` statements `Then`. -/
theorem chain_run_clients (before after : List QId) (v : Int) (j : Nat) (s : ChainState)
    (m c M : Nat) (inv : ChainInv before after v s m c) (hM : m + j = M)
    (hn : M ≤ (before ++ after).length) (hb : c = 0 → M ≤ before.length) :
    ∃ s1, ChainState.run (List.replicate j Turn.client) s = some s1 ∧
      ChainInv before after v s1 M c := by
  induction j generalizing s m with
  | zero =>
    have h : m = M := by omega
    subst h
    exact ⟨s, rfl, inv⟩
  | succ j ih =>
    have htodo : ∃ q rest, s.todo = ChainOp.andThen q :: rest := by
      by_cases hc : c = 0
      · have h2 := (inv.todo0 hc).2
        have hlt : m < before.length := by have := hb hc; omega
        rw [List.drop_eq_getElem_cons hlt] at h2
        exact ⟨_, _, h2⟩
      · have h2 := (inv.todo1 (by omega)).2
        have hlt : m < (before ++ after).length := by omega
        rw [List.drop_eq_getElem_cons hlt] at h2
        exact ⟨_, _, h2⟩
    obtain ⟨q, rest, htodo⟩ := htodo
    obtain ⟨h1, h2⟩ := chain_todo_then before after v s m c inv q rest htodo
    obtain ⟨s1, k1, _, k3⟩ := chain_step_then before after v s m c inv q rest h1 h2 htodo
    obtain ⟨s2, l1, l2⟩ := ih s1 (m + 1) k3 (by omega)
    exact ⟨s2, by simp [List.replicate_succ, ChainState.run, k1, l1], l2⟩

/-- The workers run the downstream tasks one after the other, each on the queue
its `Then` named. -/
theorem chain_run_workers (before after : List QId) (v : Int) (d : Nat) (s : ChainState)
    (k : Nat) (inv : ChainInv before after v s (before ++ after).length (k + 1))
    (hd : k + d = (before ++ after).length) :
    ∃ s1, ChainState.run (((before ++ after).drop k).map Turn.worker) s = some s1 ∧
      s1.todo = s.todo ∧
      ChainInv before after v s1 (before ++ after).length ((before ++ after).length + 1) := by
  induction d generalizing s k with
  | zero =>
    have h : k = (before ++ after).length := by omega
    refine ⟨s, ?_, rfl, ?_⟩
    · rw [List.drop_eq_nil_of_le (by omega)]
      rfl
    · rw [h] at inv
      exact inv
  | succ d ih =>
    have hlt : k < (before ++ after).length := by omega
    obtain ⟨s1, k1, k2, k3⟩ := chain_step_worker before after v s _ k inv hlt
    obtain ⟨s2, l1, l2, l3⟩ := ih s1 (k + 1) k3 (by omega)
    refine ⟨s2, ?_, by rw [l2, k2], l3⟩
    rw [List.drop_eq_getElem_cons hlt, List.map_cons]
    have e : ((before ++ after)[k]?).getD 0 = (before ++ after)[k] := by
      rw [List.getElem?_eq_getElem hlt]
      rfl
    rw [e] at k1
    simp only [ChainState.run, k1]
    exact l1

/-- The chain for every start value, with the arithmetic of `int`: no schedule
fails an assertion, every quiescent final state holds `chainVal v n` in the
last promise, and the schedule that lets the client thread finish and then each
worker in turn reaches such a state. -/
theorem chain_runs (before after : List QId) (v : Int) :
    (∀ sched, ∃ s, ChainState.run sched (chainStart before after v) = some s ∧
      (s.todo = [] → (∀ q, (s.world.queues q).tasks_ = []) →
        (s.world.pcbs s.p).result_ = some (chainVal v (before ++ after).length))) ∧
    (∃ s, ChainState.run
        (List.replicate before.length Turn.client ++ (Turn.client ::
          (List.replicate after.length Turn.client ++ (before ++ after).map Turn.worker)))
        (chainStart before after v) = some s ∧
      s.todo = [] ∧ (∀ q, (s.world.queues q).tasks_ = []) ∧
      (s.world.pcbs s.p).result_ = some (chainVal v (before ++ after).length)) := by
  have h0 := chain_start_inv before after v
  constructor
  · intro sched
    obtain ⟨s, m, c, h1, h2⟩ := chain_run_inv before after v sched _ 0 0 h0
    exact ⟨s, h1, fun ht hq => chain_inv_quiescent before after v s m c h2 ht hq⟩
  · obtain ⟨s1, a1, a2⟩ := chain_run_clients before after v before.length _ 0 0 before.length
      h0 (by omega) (by simp) (fun _ => le_refl _)
    have htodo : s1.todo = ChainOp.resolve v :: after.map ChainOp.andThen := by
      have h2 := (a2.todo0 rfl).2
      rw [List.drop_eq_nil_of_le (le_refl _)] at h2
      simpa using h2
    obtain ⟨s2, b1, b2, b3⟩ := chain_step_resolve before after v s1 before.length a2 _ v htodo
    obtain ⟨s3, c1, c2⟩ := chain_run_clients before after v after.length s2 before.length 1
      (before ++ after).length b3 (by simp) (le_refl _) (fun h => by omega)
    obtain ⟨s4, d1, d2, d3⟩ := chain_run_workers before after v (before ++ after).length s3 0
      c2 (by omega)
    have htodo4 : s4.todo = [] := by
      have h2 := (c2.todo1 (by omega)).2
      rw [List.drop_eq_nil_of_le (le_refl _)] at h2
      rw [d2, h2]
      rfl
    have hq4 : ∀ q, (s4.world.queues q).tasks_ = [] := by
      intro q
      have h3 := d3.fifo q
      rw [if_neg (by omega)] at h3
      exact h3
    refine ⟨s4, ?_, htodo4, hq4, chain_inv_quiescent before after v s4 _ _ d3 htodo4 hq4⟩
    rw [chain_run_append, a1]
    simp only [ChainState.run, b1]
    rw [chain_run_append, c1]
    simpa using d1

/-- While the sums stay values of `int`, every step adds one. -/
theorem chain_val_exact (v : Int) (k : Nat) (hlo : -2147483648 ≤ v)
    (hhi : v + (k : Nat) ≤ 2147483647) : chainVal v k = v + (k : Nat) := by
  induction k with
  | zero => simp [chainVal]
  | succ k ih =>
    have h1 := ih (by push_cast at hhi ⊢; omega)
    simp only [chainVal, h1, wrapInt]
    push_cast at hhi ⊢
    omega

/-- C4, as the claim states it, at the start value `INT_MAX` and one step: the
client thread resolves the first promise with 2147483647 and chains one
`Then(x -> x + 1)` on queue 0, the worker runs the downstream task, and the
last promise is resolved with -2147483648, not with 2147483647 + 1. -/
theorem then_chain_wraps_at_int_max :
    ∃ s, ChainState.run [Turn.client, Turn.client, Turn.worker 0]
        (chainStart [] [0] 2147483647) = some s ∧
      s.todo = [] ∧ (∀ q, (s.world.queues q).tasks_ = []) ∧
      (s.world.pcbs s.p).result_ = some (-2147483648) ∧
      (s.world.pcbs s.p).result_ ≠ some (2147483647 + ((([] : List QId) ++ [0]).length : Nat)) := by
  obtain ⟨s, h1, h2, h3, h4⟩ := (chain_runs [] [0] 2147483647).2
  have e : chainVal 2147483647 (([] : List QId) ++ [0]).length = -2147483648 := by
    simp [chainVal, wrapInt]
  rw [e] at h4
  refine ⟨s, by simpa using h1, h2, h3, h4, ?_⟩
  rw [h4]
  simp

/-- C4: a chain of `Then(x -> x + 1)` built by a client thread on the fresh
fixture, one `Then` per queue of `before`, then `Resolve(v)`, then one `Then`
per queue of `after`, for arbitrary target queues (all the same one,
alternating between two, or any other), for every start value `v` of type
`int` such that `v` plus the number of `Then` is at most `INT_MAX`, and for
every interleaving `sched` of the client thread with the workers: no assertion
fails, and in every state in which the client thread is done and every FIFO is
empty the last promise is resolved with `v` plus the number of `Then`; and the
schedule that lets the client thread finish and then each worker in turn
reaches such a state.  (`StringOfPromises`: 1024 steps from 0 give 1024; 100
steps from 0 give 100; 1023 steps from 42 give 1065.) -/
theorem then_chain_adds_one_per_step (before after : List QId) (v : Int)
    (hlo : -2147483648 ≤ v) (hhi : v + ((before ++ after).length : Nat) ≤ 2147483647) :
    (∀ sched, ∃ s, ChainState.run sched (chainStart before after v) = some s ∧
      (s.todo = [] → (∀ q, (s.world.queues q).tasks_ = []) →
        (s.world.pcbs s.p).result_ = some (v + ((before ++ after).length : Nat)))) ∧
    (∃ s, ChainState.run
        (List.replicate before.length Turn.client ++ (Turn.client ::
          (List.replicate after.length Turn.client ++ (before ++ after).map Turn.worker)))
        (chainStart before after v) = some s ∧
      s.todo = [] ∧ (∀ q, (s.world.queues q).tasks_ = []) ∧
      (s.world.pcbs s.p).result_ = some (v + ((before ++ after).length : Nat))) := by
  have h := chain_runs before after v
  rw [chain_val_exact v (before ++ after).length hlo hhi] at h
  exact h

/-- C4, at two `Then` on queues 0 and 1 before `Resolve(42)` and one `Then` on
queue 0 after it. -/
theorem then_chain_adds_one_per_step_witness :
    (-2147483648 : Int) ≤ 42 ∧
    (42 : Int) + ((([0, 1] : List QId) ++ [0]).length : Nat) ≤ 2147483647 ∧
    ∃ s, ChainState.run
        (List.replicate [0, 1].length Turn.client ++ (Turn.client ::
          (List.replicate [0].length Turn.client ++ ([0, 1] ++ [0]).map Turn.worker)))
        (chainStart [0, 1] [0] 42) = some s ∧
      s.todo = [] ∧ (∀ q, (s.world.queues q).tasks_ = []) ∧
      (s.world.pcbs s.p).result_ = some (42 + ((([0, 1] : List QId) ++ [0]).length : Nat)) :=
  ⟨by decide, by decide,
    (then_chain_adds_one_per_step [0, 1] [0] 42 (by decide) (by decide)).2⟩

/-! ## Timer: `Schedule` at a time that is not yet a key -/

namespace TimerImpl

variable {γ : Type}

/-- The keys of the map after `std::map::insert`. -/
theorem timer_mapInsert_keys (k : Int) (v : Task γ) (l : List (Int × Task γ)) (x : Int) :
    x ∈ (mapInsert k v l).map Prod.fst ↔ x = k ∨ x ∈ l.map Prod.fst := by
  induction l with
  | nil => simp [mapInsert]
  | cons e rest ih =>
    by_cases h1 : k < e.1
    · simp [mapInsert, h1]
    · by_cases h2 : k = e.1
      · have he : mapInsert k v (e :: rest) = e :: rest := by simp [mapInsert, h2]
        rw [he]
        simp only [List.map_cons, List.mem_cons]
        constructor
        · intro h; exact Or.inr h
        · rintro (h | h)
          · exact Or.inl (h.trans h2)
          · exact h
      · simp only [mapInsert, h1, h2, if_false, List.map_cons, List.mem_cons, ih]
        constructor
        · rintro (h | h | h)
          · exact Or.inr (Or.inl h)
          · exact Or.inl h
          · exact Or.inr (Or.inr h)
        · rintro (h | h | h)
          · exact Or.inr (Or.inl h)
          · exact Or.inl h
          · exact Or.inr (Or.inr h)

/-- `std::map::insert` keeps the keys in ascending order. -/
theorem timer_mapInsert_sorted (k : Int) (v : Task γ) (l : List (Int × Task γ))
    (hwf : (l.map Prod.fst).Pairwise (· < ·)) :
    ((mapInsert k v l).map Prod.fst).Pairwise (· < ·) := by
  induction l with
  | nil => simp [mapInsert]
  | cons e rest ih =>
    simp only [List.map_cons, List.pairwise_cons] at hwf
    by_cases h1 : k < e.1
    · simp only [mapInsert, h1, if_true, List.map_cons, List.pairwise_cons, List.mem_cons]
      refine ⟨?_, hwf.1, hwf.2⟩
      rintro x (hx | hx)
      · rw [hx]; exact h1
      · exact lt_trans h1 (hwf.1 x hx)
    · by_cases h2 : k = e.1
      · have he : mapInsert k v (e :: rest) = e :: rest := by simp [mapInsert, h2]
        rw [he]
        simp only [List.map_cons, List.pairwise_cons]
        exact hwf
      · simp only [mapInsert, h1, h2, if_false, List.map_cons, List.pairwise_cons]
        refine ⟨?_, ih hwf.2⟩
        intro x hx
        rcases (timer_mapInsert_keys k v rest x).mp hx with h | h
        · rw [h]
          exact lt_of_le_of_ne (not_lt.mp h1) (fun h3 => h2 h3.symm)
        · exact hwf.1 x h

/-- When the key is not present `std::map::insert` stores the entry. -/
theorem timer_mapInsert_of_not_mem (k : Int) (v : Task γ) (l : List (Int × Task γ))
    (hk : k ∉ l.map Prod.fst) : (k, v) ∈ mapInsert k v l := by
  induction l with
  | nil => simp [mapInsert]
  | cons e rest ih =>
    simp only [List.map_cons, List.mem_cons, not_or] at hk
    by_cases h1 : k < e.1
    · simp [mapInsert, h1]
    · simp only [mapInsert, h1, hk.1, if_false, List.mem_cons]
      exact Or.inr (ih hk.2)

/-- `Schedule` at a time that no pending entry has: the entry is pending
afterwards under the returned id, `Cancel` on that id returns true, and the
map stays well formed. -/
theorem timer_schedule_fresh_time (s : TimerImpl γ) (when : Int) (f : γ)
    (hwf : s.WellFormed) (hk : when ∉ s.tasks_.map Prod.fst) :
    (when, ⟨(s.Schedule when f).2, f⟩) ∈ (s.Schedule when f).1.tasks_ ∧
      ((s.Schedule when f).1.Cancel (s.Schedule when f).2).2 = true ∧
      (s.Schedule when f).1.WellFormed := by
  have h1 : (when, (⟨s.id_counter_, f⟩ : Task γ)) ∈ (s.Schedule when f).1.tasks_ :=
    timer_mapInsert_of_not_mem when ⟨s.id_counter_, f⟩ s.tasks_ hk
  refine ⟨h1, ?_, timer_mapInsert_sorted when _ s.tasks_ hwf⟩
  rw [Cancel]
  apply (timer_cancelLoop_true_iff _ _).mpr
  exact List.mem_map.mpr ⟨_, h1, rfl⟩

end TimerImpl

/-! ## Timer: the ids returned by `Schedule` -/

namespace TimerImpl

variable {γ : Type}

/-- Only `Schedule` moves the id counter, by one modulo `2 ^ 64`. -/
theorem timer_step_counter (s : TimerImpl γ) (op : Op γ) :
    (s.step op).1.id_counter_ = (s.id_counter_ + scheduleCount [op]) % 2 ^ 64 ∨
      ((s.step op).1.id_counter_ = s.id_counter_ ∧ scheduleCount [op] = 0) := by
  cases op with
  | schedule when f => left; simp [step, Schedule, scheduleCount]
  | cancel id => right; simp [step, Cancel, scheduleCount]
  | pass now =>
    right
    refine ⟨?_, rfl⟩
    simp only [step, pass]
    split
    · rfl
    · split
      · rfl
      · split <;> rfl

/-- The ids that a sequence of calls returns are the successive values of the
counter: the `j`-th `Schedule` returns `(id_counter_ + j) % 2 ^ 64`. -/
theorem timer_returned_eq (ops : List (Op γ)) (s : TimerImpl γ) (hs : s.id_counter_ < 2 ^ 64) :
    returned ops s
      = (List.range (scheduleCount ops)).map fun j => (s.id_counter_ + j) % 2 ^ 64 := by
  induction ops generalizing s with
  | nil => simp [returned, scheduleCount]
  | cons op ops ih =>
    cases op with
    | schedule when f =>
      have h1 : ((s.step (Op.schedule when f)).1).id_counter_ = (s.id_counter_ + 1) % 2 ^ 64 := by
        simp [step, Schedule]
      have h2 := ih (s.step (Op.schedule when f)).1 (by rw [h1]; exact Nat.mod_lt _ (by norm_num))
      simp only [returned, scheduleCount, h2, h1, List.range_succ_eq_map, List.map_cons,
        List.map_map]
      have h3 : (s.step (Op.schedule when f)).2 = [s.id_counter_] := by simp [step, Schedule]
      rw [h3]
      simp only [List.singleton_append, Nat.add_zero, Nat.mod_eq_of_lt hs, List.cons.injEq,
        true_and]
      apply List.map_congr_left
      intro j _
      simp only [Function.comp, Nat.succ_eq_add_one]
      omega
    | cancel id =>
      have h1 : ((s.step (Op.cancel id)).1).id_counter_ = s.id_counter_ := by simp [step, Cancel]
      have h2 := ih (s.step (Op.cancel id)).1 (by rw [h1]; exact hs)
      simp only [returned, scheduleCount, h2, h1]
      simp [step]
    | pass now =>
      have h1 : ((s.step (Op.pass now)).1).id_counter_ = s.id_counter_ := by
        rcases timer_step_counter s (Op.pass now) with h | h
        · simp only [scheduleCount, Nat.add_zero] at h
          rw [h]
          exact Nat.mod_eq_of_lt hs
        · exact h.1
      have h2 := ih (s.step (Op.pass now)).1 (by rw [h1]; exact hs)
      simp only [returned, scheduleCount, h2, h1]
      simp [step]

theorem timer_scheduleCount_replicate (n : Nat) (when : Int) (f : γ) :
    scheduleCount (List.replicate n (Op.schedule when f)) = n := by
  induction n with
  | zero => rfl
  | succ n ih => simp [List.replicate_succ, scheduleCount, ih]

end TimerImpl

/-- C11, counterexample: `2 ^ 64 + 1` successive `Schedule` calls on a new
timer.  The counter is a `uint64_t`, so the last call returns id 0, which the
first call returned already: the ids are not all distinct and not strictly
increasing. -/
theorem timer_ids_repeat_after_wrap :
    ¬ (TimerImpl.returned (List.replicate (2 ^ 64 + 1) (TimerImpl.Op.schedule 0 ()))
        (TimerImpl.new : TimerImpl Unit)).Nodup ∧
    ¬ (TimerImpl.returned (List.replicate (2 ^ 64 + 1) (TimerImpl.Op.schedule 0 ()))
        (TimerImpl.new : TimerImpl Unit)).Pairwise (· < ·) := by
  have h := TimerImpl.timer_returned_eq
    (List.replicate (2 ^ 64 + 1) (TimerImpl.Op.schedule 0 ())) (TimerImpl.new : TimerImpl Unit)
    (by simp [TimerImpl.new])
  rw [TimerImpl.timer_scheduleCount_replicate] at h
  have hnd : ¬ (TimerImpl.returned (List.replicate (2 ^ 64 + 1) (TimerImpl.Op.schedule 0 ()))
      (TimerImpl.new : TimerImpl Unit)).Nodup := by
    rw [h]
    intro hn
    have h0 := List.inj_on_of_nodup_map hn (x := 0) (y := 2 ^ 64)
      (List.mem_range.mpr (by norm_num)) (List.mem_range.mpr (by norm_num))
      (by simp [TimerImpl.new])
    norm_num at h0
  refine ⟨hnd, fun hp => hnd ?_⟩
  exact hp.imp (fun hab => Nat.ne_of_lt hab)

/-- C11, amended: for every sequence of calls on a new timer, by any threads,
that holds at most `2 ^ 64` calls of `Schedule`, the ids returned are
`0, 1, 2, ...` in call order: strictly increasing, and no id is returned
twice.  From any state the `j`-th `Schedule` returns the counter plus `j`
modulo `2 ^ 64`. -/
theorem timer_ids_increase_below_wrap {γ : Type} (ops : List (TimerImpl.Op γ))
    (hn : TimerImpl.scheduleCount ops ≤ 2 ^ 64) :
    TimerImpl.returned ops TimerImpl.new = List.range (TimerImpl.scheduleCount ops) ∧
    (TimerImpl.returned ops TimerImpl.new).Pairwise (· < ·) ∧
    (TimerImpl.returned ops TimerImpl.new).Nodup ∧
    (∀ s : TimerImpl γ, s.id_counter_ < 2 ^ 64 →
      TimerImpl.returned ops s
        = (List.range (TimerImpl.scheduleCount ops)).map
            fun j => (s.id_counter_ + j) % 2 ^ 64) := by
  have h := TimerImpl.timer_returned_eq ops (TimerImpl.new : TimerImpl γ)
    (by simp [TimerImpl.new])
  have h1 : TimerImpl.returned ops (TimerImpl.new : TimerImpl γ)
      = List.range (TimerImpl.scheduleCount ops) := by
    rw [h]
    conv_rhs => rw [← List.map_id (List.range (TimerImpl.scheduleCount ops))]
    apply List.map_congr_left
    intro j hj
    have hj2 := List.mem_range.mp hj
    simp only [TimerImpl.new, Nat.zero_add, id]
    exact Nat.mod_eq_of_lt (by omega)
  refine ⟨h1, ?_, ?_, fun s hs => TimerImpl.timer_returned_eq ops s hs⟩
  · rw [h1]; exact List.pairwise_lt_range _
  · rw [h1]; exact List.nodup_range _

/-- C11, at three `Schedule` calls with a `Cancel` and a pass of the timer
thread in between: the ids are 0, 1, 2. -/
theorem timer_ids_increase_below_wrap_witness :
    TimerImpl.returned [TimerImpl.Op.schedule 5 (), TimerImpl.Op.cancel 0,
        TimerImpl.Op.schedule 5 (), TimerImpl.Op.pass 7, TimerImpl.Op.schedule 3 ()]
      (TimerImpl.new : TimerImpl Unit) = [0, 1, 2] :=
  (timer_ids_increase_below_wrap [TimerImpl.Op.schedule 5 (), TimerImpl.Op.cancel 0,
    TimerImpl.Op.schedule 5 (), TimerImpl.Op.pass 7, TimerImpl.Op.schedule 3 ()]
    (by simp [TimerImpl.scheduleCount])).1

/-! ## EventQueue: when the worker leaves its loop, and `Finish` -/

namespace EventQueue

variable {α : Type}

/-- While a `Take` is unmatched and no `Release` is called the counter stays
positive and the worker stays in its loop, whatever else is called. -/
theorem queue_exec_held (ops : List (Op α)) (q : EventQueue α)
    (hr : ∀ op ∈ ops, op ≠ Op.release) (hc : 0 < q.count_) (ht : q.t_ = true) :
    0 < (exec ops q).1.count_ ∧ (exec ops q).1.t_ = true := by
  induction ops generalizing q with
  | nil => simp [exec, hc, ht]
  | cons op ops ih =>
    have hs : 0 < (q.step op).1.count_ ∧ (q.step op).1.t_ = true := by
      cases op with
      | addTask f id => simp [step, AddTask, hc, ht]
      | take => simp only [step, Take, ht, and_true]; omega
      | release => exact absurd rfl (hr Op.release (List.mem_cons_self _ _))
      | finish => simp [step, Finish, hc, ht]
      | worker =>
        have hne : ¬ q.count_ = 0 := by omega
        simp only [step, pass, ht]
        cases hq : q.tasks_ with
        | nil => simp [hne, hc, ht]
        | cons t rest => simp [hc, ht]
    have h2 := ih (q.step op).1 (fun o ho => hr o (List.mem_cons_of_mem _ ho)) hs.1 hs.2
    simpa [exec] using h2

/-- A worker that is kept in its loop by an unmatched `Take` runs the whole
FIFO in order when it makes enough passes. -/
theorem queue_exec_workers_held (n : Nat) (q : EventQueue α) (ht : q.t_ = true)
    (hc : 0 < q.count_) (hn : q.tasks_.length ≤ n) :
    exec (List.replicate n Op.worker) q = ({ q with tasks_ := [] }, q.tasks_) := by
  induction n generalizing q with
  | zero =>
    have h0 : q.tasks_ = [] := List.length_eq_zero.mp (Nat.le_zero.mp hn)
    obtain ⟨tasks, running, count, t⟩ := q
    simp only at h0
    subst h0
    simp [exec]
  | succ n ih =>
    have hne : ¬ q.count_ = 0 := by omega
    cases hq : q.tasks_ with
    | nil =>
      have hstep : q.step Op.worker = (q, []) := by
        simp [step, pass, ht, hq, hne]
      have h2 := ih q ht hc (by simp [hq])
      simp [List.replicate_succ, exec, hstep, h2, hq]
    | cons t rest =>
      have hstep : q.step Op.worker = ({ q with tasks_ := rest }, [t]) := by
        simp [step, pass, ht, hq]
      have h2 := ih { q with tasks_ := rest } ht hc
        (by simp [hq] at hn; simpa using hn)
      simp [List.replicate_succ, exec, hstep, h2]

/-- When the worker has left its loop, it did so in a pass that found the FIFO
empty, `running_` false and `count_` zero. -/
theorem queue_exec_exit_moment (ops : List (Op α)) (q : EventQueue α) (ht : q.t_ = true)
    (hx : (exec ops q).1.t_ = false) :
    ∃ pre post, ops = pre ++ Op.worker :: post ∧ (exec pre q).1.t_ = true ∧
      (exec pre q).1.tasks_ = [] ∧ (exec pre q).1.running_ = false ∧
      (exec pre q).1.count_ = 0 := by
  induction ops generalizing q with
  | nil => simp [exec, ht] at hx
  | cons op ops ih =>
    by_cases hs : (q.step op).1.t_ = true
    · obtain ⟨pre, post, h1, h2, h3, h4, h5⟩ := ih (q.step op).1 hs (by simpa [exec] using hx)
      refine ⟨op :: pre, post, by simp [h1], ?_, ?_, ?_, ?_⟩
      · simpa [exec] using h2
      · simpa [exec] using h3
      · simpa [exec] using h4
      · simpa [exec] using h5
    · cases op with
      | addTask f id => simp [step, AddTask, ht] at hs
      | take => simp [step, Take, ht] at hs
      | release => simp [step, Release, ht] at hs
      | finish => simp [step, Finish, ht] at hs
      | worker =>
        refine ⟨[], ops, rfl, by simpa [exec] using ht, ?_⟩
        simp only [exec]
        cases hq : q.tasks_ with
        | nil =>
          by_cases hc : (!q.running_ && q.count_ == 0) = true
          · simp only [Bool.and_eq_true, Bool.not_eq_eq_eq_not, Bool.not_true, beq_iff_eq] at hc
            exact ⟨rfl, hc.1, hc.2⟩
          · simp [step, pass, ht, hq, hc] at hs
        | cons t rest => simp [step, pass, ht, hq] at hs

end EventQueue

/-- C16: for every EventQueue whose worker is in its loop.  One pass of the
worker under the lock ends the loop iff the FIFO is empty, `running_` is false
and `count_` is zero; with a task in the FIFO the pass pops the head and the
worker stays.  Over every sequence of operations by any threads: if the worker
has left its loop, it left in a pass that found exactly that condition; and
while a `Take` is unmatched (the counter is positive and no `Release` is
called) the worker stays in its loop, also after `Finish`, and a task enqueued
then is run after the tasks before it. -/
theorem eventQueue_worker_exits_iff_idle {α : Type} (q : EventQueue α) (ht : q.t_ = true) :
    (q.pass.1.t_ = false ↔ (q.tasks_ = [] ∧ q.running_ = false ∧ q.count_ = 0)) ∧
    (∀ task rest, q.tasks_ = task :: rest →
      q.pass = ({ q with tasks_ := rest }, EventQueue.Pass.popped task)) ∧
    (∀ ops, (EventQueue.exec ops q).1.t_ = false →
      ∃ pre post, ops = pre ++ EventQueue.Op.worker :: post ∧
        (EventQueue.exec pre q).1.t_ = true ∧ (EventQueue.exec pre q).1.tasks_ = [] ∧
        (EventQueue.exec pre q).1.running_ = false ∧ (EventQueue.exec pre q).1.count_ = 0) ∧
    (∀ ops, 0 < q.count_ → (∀ op ∈ ops, op ≠ EventQueue.Op.release) →
      (EventQueue.exec ops q).1.t_ = true ∧
      ∀ f id n, (EventQueue.exec ops q).1.tasks_.length < n →
        (EventQueue.exec (ops ++ EventQueue.Op.addTask f id ::
            List.replicate n EventQueue.Op.worker) q).2
          = (EventQueue.exec ops q).2 ++ ((EventQueue.exec ops q).1.tasks_ ++ [⟨id, f⟩]) ∧
        (EventQueue.exec (ops ++ EventQueue.Op.addTask f id ::
            List.replicate n EventQueue.Op.worker) q).1.t_ = true) := by
  refine ⟨?_, ?_, fun ops hx => EventQueue.queue_exec_exit_moment ops q ht hx, ?_⟩
  · cases hq : q.tasks_ with
    | nil =>
      by_cases hc : (!q.running_ && q.count_ == 0) = true
      · have hc2 := hc
        simp only [Bool.and_eq_true, Bool.not_eq_eq_eq_not, Bool.not_true, beq_iff_eq] at hc2
        simp [EventQueue.pass, ht, hq, hc, hc2.1, hc2.2]
      · have hc2 : ¬ (q.running_ = false ∧ q.count_ = 0) := by
          intro h
          apply hc
          simp [h.1, h.2]
        simp only [EventQueue.pass, ht, hq, hc, if_true, if_false, true_and]
        constructor
        · intro h; simp [ht] at h
        · intro h; exact absurd h hc2
    | cons t rest => simp [EventQueue.pass, ht, hq]
  · intro task rest hq
    simp [EventQueue.pass, ht, hq]
  · intro ops hc hr
    have h1 := EventQueue.queue_exec_held ops q hr hc ht
    refine ⟨h1.2, ?_⟩
    intro f id n hn
    have h2 := EventQueue.queue_exec_workers_held n ((EventQueue.exec ops q).1.AddTask f id)
      (by simpa [EventQueue.AddTask] using h1.2) (by simpa [EventQueue.AddTask] using h1.1)
      (by simp only [EventQueue.AddTask, List.length_append, List.length_singleton]; omega)
    rw [EventQueue.queue_exec_append]
    simp only [EventQueue.exec, EventQueue.step, h2]
    simp [EventQueue.AddTask, h1.2]

/-- C16, at the queue of the test `CanResolveIfEventQueueIsDestroyed`: one
`Take` is unmatched, `Finish` is called, and a task enqueued afterwards is
still run by the worker, which stays in its loop. -/
theorem eventQueue_worker_exits_iff_idle_witness :
    (EventQueue.exec ([EventQueue.Op.finish] ++ EventQueue.Op.addTask 7 "" ::
        List.replicate 1 EventQueue.Op.worker)
      (⟨[], true, 1, true⟩ : EventQueue Nat)).2
      = (EventQueue.exec [EventQueue.Op.finish] (⟨[], true, 1, true⟩ : EventQueue Nat)).2 ++
        ((EventQueue.exec [EventQueue.Op.finish]
          (⟨[], true, 1, true⟩ : EventQueue Nat)).1.tasks_ ++ [⟨"", 7⟩]) ∧
    (EventQueue.exec ([EventQueue.Op.finish] ++ EventQueue.Op.addTask 7 "" ::
        List.replicate 1 EventQueue.Op.worker)
      (⟨[], true, 1, true⟩ : EventQueue Nat)).1.t_ = true :=
  ((eventQueue_worker_exits_iff_idle (⟨[], true, 1, true⟩ : EventQueue Nat) rfl).2.2.2
    [EventQueue.Op.finish] (by decide) (by simp)).2 7 "" 1 (by decide)

/-- C17: for every EventQueue, `Finish` sets `running_` to false and leaves the
FIFO, the counter and the worker as they are; a second `Finish` changes
nothing, also as operations in a sequence. -/
theorem eventQueue_finish_idempotent {α : Type} (q : EventQueue α) :
    q.Finish.running_ = false ∧ q.Finish.tasks_ = q.tasks_ ∧ q.Finish.count_ = q.count_ ∧
    q.Finish.t_ = q.t_ ∧ q.Finish.Finish = q.Finish ∧
    EventQueue.exec [EventQueue.Op.finish, EventQueue.Op.finish] q
      = EventQueue.exec [EventQueue.Op.finish] q := by
  refine ⟨rfl, rfl, rfl, rfl, rfl, ?_⟩
  simp [EventQueue.exec, EventQueue.step, EventQueue.Finish]

/-! ## Schedule: the members of the control block -/

namespace ScheduleWorld

theorem sched_callThen (q : EventQueue ScheduleTask) (b : Bool) :
    callThen q b = some ((q.Take.AddTask (ScheduleTask.continuation b) "").Release) := by
  simp [callThen, PromiseControlBlock.Resolve, PromiseControlBlock.new,
    PromiseControlBlock.NotifyDependents, PromiseControlBlock.Then]

theorem sched_Finish_running (w : ScheduleWorld) (h : w.scb.running_ = true)
    (hd : w.done.result_ = none) :
    w.Finish = some ({ w with scb := { w.scb with running_ := false }
                              done := ⟨some (), []⟩ }, [Obs.done]) := by
  simp [Finish, h, PromiseControlBlock.Resolve, hd, PromiseControlBlock.NotifyDependents]

theorem sched_Finish_stopped (w : ScheduleWorld) (h : w.scb.running_ = false) :
    w.Finish = some (w, []) := by
  simp [Finish, h]

theorem sched_ScheduleNextRun_stopped (w : ScheduleWorld) (now : Int)
    (h : w.scb.running_ = false) : w.ScheduleNextRun now = (w, []) := by
  simp [ScheduleNextRun, h]

theorem sched_firing_stopped (f : Nat → Bool) (w : ScheduleWorld)
    (h : w.scb.running_ = false) : firing f w = some (w, []) := by
  simp [firing, h]

theorem sched_firing_running (f : Nat → Bool) (w : ScheduleWorld)
    (h : w.scb.running_ = true) :
    firing f w = some ({ w with
      q := (w.q.Take.AddTask (ScheduleTask.continuation (f w.count)) "").Release
      count := w.count + 1 }, [Obs.called w.count]) := by
  simp [firing, h, sched_callThen]

/-- A step of a stopped schedule: nothing is observed, the user function is not
invoked, and the schedule stays stopped with the same done block. -/
theorem sched_step_stopped (f : Nat → Bool) (w : ScheduleWorld) (e : Ev)
    (h : w.scb.running_ = false) :
    ∃ w1, step f w e = some (w1, []) ∧ w1.scb.running_ = false ∧ w1.count = w.count ∧
      w1.done = w.done ∧ w1.scb.interval_ = w.scb.interval_ ∧
      w1.scb.scheduled_run_time_ = w.scb.scheduled_run_time_ := by
  cases e with
  | cancelLock =>
    cases hc : w.scb.current_timer_ <;> simp [step, CancelTimer, hc, h]
  | cancelFinish =>
    by_cases hc : w.cancelling = 0
    · simp [step, hc, h]
    · simp [step, hc, sched_Finish_stopped w h, h]
  | timerPass now =>
    cases ht : w.this_task with
    | some j => simp [step, ht, h]
    | none =>
      by_cases hr : w.timer.run_ = true
      · cases hq : w.timer.tasks_ with
        | nil => simp [step, ht, TimerImpl.pass, hr, hq, h]
        | cons a rest =>
          by_cases hd : a.1 ≤ now <;> simp [step, ht, TimerImpl.pass, hr, hq, hd, h]
      · simp [step, ht, TimerImpl.pass, hr, h]
  | timerCall =>
    cases ht : w.this_task with
    | none => simp [step, ht, h]
    | some j => cases j <;> simp [step, ht, h, TimerCallback]
  | timerOther when => simp [step, h]
  | workerPass =>
    cases ht : w.task with
    | some j => simp [step, ht, h]
    | none =>
      by_cases hr : w.q.t_ = true
      · cases hq : w.q.tasks_ with
        | nil =>
          by_cases hc : (!w.q.running_ && w.q.count_ == 0) = true <;>
            simp [step, ht, EventQueue.pass, hr, hq, hc, h]
        | cons a rest => simp [step, ht, EventQueue.pass, hr, hq, h]
      · simp [step, ht, EventQueue.pass, hr, h]
  | workerRun now =>
    cases ht : w.task with
    | none => simp [step, ht, h]
    | some j =>
      cases j with
      | firing => simp [step, ht, sched_firing_stopped f { w with task := none } h, h]
      | continuation b =>
        cases b with
        | false =>
          simp [step, ht, continuation, sched_Finish_stopped { w with task := none } h, h]
        | true =>
          simp [step, ht, continuation,
            sched_ScheduleNextRun_stopped { w with task := none } now h, h]
      | other => simp [step, ht, h]
  | enqueueOther id => simp [step, h]
  | queueFinish => simp [step, h]

/-- A step of a running schedule never fails; it is quiet, or one invocation
of the user function, or the one resolution of the done-promise, which only
the `Finish` of a `Cancel` and a continuation with `false` make; and it arms at
most one timer, at the time before plus the interval unless that is tick 0. -/
theorem sched_step_running (f : Nat → Bool) (w : ScheduleWorld) (e : Ev)
    (h : w.scb.running_ = true) (hd : w.done.result_ = none) :
    ∃ r, step f w e = some r ∧ Sound r.1 ∧ r.1.scb.interval_ = w.scb.interval_ ∧
      ((r.2.filterMap Obs.progress = [] ∧ r.2.countP Obs.isDone = 0 ∧ r.1.count = w.count ∧
          r.1.scb.running_ = true) ∨
       (r.2.filterMap Obs.progress = [some w.count] ∧ r.2.countP Obs.isDone = 0 ∧
          r.1.count = w.count + 1 ∧ r.1.scb.running_ = true) ∨
       (r.2.filterMap Obs.progress = [none] ∧ r.2.countP Obs.isDone = 1 ∧
          r.1.count = w.count ∧ r.1.scb.running_ = false ∧
          ((e = Ev.cancelFinish ∧ 0 < w.cancelling) ∨
           (∃ now, e = Ev.workerRun now ∧ w.task = some (ScheduleTask.continuation false))))) ∧
      ((armedTimes r.2 = [] ∧ r.1.scb.scheduled_run_time_ = w.scb.scheduled_run_time_) ∨
       (armedTimes r.2 = [r.1.scb.scheduled_run_time_] ∧
          (w.scb.scheduled_run_time_ ≠ 0 →
            r.1.scb.scheduled_run_time_
              = wrapTicks (w.scb.scheduled_run_time_ + w.scb.interval_)))) := by
  cases e with
  | cancelLock =>
    cases hc : w.scb.current_timer_ <;>
      simp [step, CancelTimer, hc, h, hd, Sound, armedTimes]
  | cancelFinish =>
    by_cases hc : w.cancelling = 0
    · simp [step, hc, h, hd, Sound, armedTimes]
    · simp [step, hc, sched_Finish_running w h hd, h, hd, Sound, armedTimes, Obs.progress,
        Obs.isDone, Obs.armedAt]
      exact Nat.pos_of_ne_zero hc
  | timerPass now =>
    cases ht : w.this_task with
    | some j => simp [step, ht, h, hd, Sound, armedTimes]
    | none =>
      by_cases hr : w.timer.run_ = true
      · cases hq : w.timer.tasks_ with
        | nil => simp [step, ht, TimerImpl.pass, hr, hq, h, hd, Sound, armedTimes]
        | cons a rest =>
          by_cases hd2 : a.1 ≤ now <;>
            simp [step, ht, TimerImpl.pass, hr, hq, hd2, h, hd, Sound, armedTimes]
      · simp [step, ht, TimerImpl.pass, hr, h, hd, Sound, armedTimes]
  | timerCall =>
    cases ht : w.this_task with
    | none => simp [step, ht, h, hd, Sound, armedTimes]
    | some j => cases j <;> simp [step, ht, h, hd, TimerCallback, Sound, armedTimes]
  | timerOther when => simp [step, h, hd, Sound, armedTimes]
  | workerPass =>
    cases ht : w.task with
    | some j => simp [step, ht, h, hd, Sound, armedTimes]
    | none =>
      by_cases hr : w.q.t_ = true
      · cases hq : w.q.tasks_ with
        | nil =>
          by_cases hc : (!w.q.running_ && w.q.count_ == 0) = true <;>
            simp [step, ht, EventQueue.pass, hr, hq, hc, h, hd, Sound, armedTimes]
        | cons a rest => simp [step, ht, EventQueue.pass, hr, hq, h, hd, Sound, armedTimes]
      · simp [step, ht, EventQueue.pass, hr, h, hd, Sound, armedTimes]
  | workerRun now =>
    cases ht : w.task with
    | none => simp [step, ht, h, hd, Sound, armedTimes]
    | some j =>
      cases j with
      | firing =>
        simp [step, ht, sched_firing_running f { w with task := none } h, h, hd, Sound,
          armedTimes, Obs.progress, Obs.isDone, Obs.armedAt]
      | continuation b =>
        cases b with
        | false =>
          simp [step, ht, continuation, sched_Finish_running { w with task := none } h hd, h,
            hd, Sound, armedTimes, Obs.progress, Obs.isDone, Obs.armedAt]
        | true =>
          by_cases h0 : w.scb.scheduled_run_time_ = 0 <;>
            simp [step, ht, continuation, ScheduleNextRun, h, hd, Sound, armedTimes,
              Obs.progress, Obs.isDone, Obs.armedAt, h0]
      | other => simp [step, ht, h, hd, Sound, armedTimes]
  | enqueueOther id => simp [step, h, hd, Sound, armedTimes]
  | queueFinish => simp [step, h, hd, Sound, armedTimes]

theorem sched_exec_cons (f : Nat → Bool) (e : Ev) (es : List Ev) (w : ScheduleWorld)
    (r : ScheduleWorld × List Obs) (h : step f w e = some r) :
    exec f (e :: es) w = (exec f es r.1).map fun r2 => (r2.1, r.2 ++ r2.2) := by
  simp only [exec, h]
  cases exec f es r.1 <;> rfl

theorem sched_exec_append (f : Nat → Bool) (xs ys : List Ev) (w : ScheduleWorld)
    (r : ScheduleWorld × List Obs) (h : exec f xs w = some r) :
    exec f (xs ++ ys) w = (exec f ys r.1).map fun r2 => (r2.1, r.2 ++ r2.2) := by
  induction xs generalizing w r with
  | nil =>
    simp only [exec, Option.some.injEq] at h
    subst h
    rw [List.nil_append]
    cases exec f ys w <;> simp
  | cons x xs ih =>
    cases hs : step f w x with
    | none => simp [exec, hs] at h
    | some r1 =>
      rw [sched_exec_cons f x xs w r1 hs] at h
      cases hx : exec f xs r1.1 with
      | none => simp [hx] at h
      | some r2 =>
        simp only [hx, Option.map_some', Option.some.injEq] at h
        subst h
        rw [List.cons_append, sched_exec_cons f x (xs ++ ys) w r1 hs, ih r1.1 r2 hx]
        cases exec f ys r2.1 <;> simp [List.append_assoc]

/-- A stopped schedule stays stopped: no later step invokes the user function,
arms a timer or resolves the done-promise. -/
theorem sched_exec_stopped (f : Nat → Bool) (evs : List Ev) (w : ScheduleWorld)
    (h : w.scb.running_ = false) :
    ∃ w1, exec f evs w = some (w1, []) ∧ w1.scb.running_ = false ∧ w1.count = w.count ∧
      w1.done = w.done ∧ w1.scb.interval_ = w.scb.interval_ ∧
      w1.scb.scheduled_run_time_ = w.scb.scheduled_run_time_ := by
  induction evs generalizing w with
  | nil => exact ⟨w, rfl, h, rfl, rfl, rfl, rfl⟩
  | cons e es ih =>
    obtain ⟨w1, h1, h2, h3, h4, h5, h6⟩ := sched_step_stopped f w e h
    obtain ⟨w2, k1, k2, k3, k4, k5, k6⟩ := ih w1 h2
    refine ⟨w2, ?_, k2, k3.trans h3, k4.trans h4, k5.trans h5, k6.trans h6⟩
    rw [sched_exec_cons f e es w (w1, []) h1]
    simp [k1]

/-- From a running schedule every sequence of steps succeeds.  The invocations
of the user function are numbered consecutively and all come before the one
resolution of the done-promise, which happens exactly when the schedule stops;
each arming follows the one before by the interval. -/
theorem sched_exec_running (f : Nat → Bool) (evs : List Ev) (w : ScheduleWorld)
    (h : w.scb.running_ = true) (hd : w.done.result_ = none) :
    ∃ r, exec f evs w = some r ∧ Sound r.1 ∧ r.1.scb.interval_ = w.scb.interval_ ∧
      w.count ≤ r.1.count ∧
      r.2.filterMap Obs.progress
        = (List.range' w.count (r.1.count - w.count)).map some ++
          (if r.1.scb.running_ = false then [none] else []) ∧
      r.2.countP Obs.isDone = (if r.1.scb.running_ = false then 1 else 0) ∧
      Follows w.scb.interval_ w.scb.scheduled_run_time_ (armedTimes r.2) := by
  induction evs generalizing w with
  | nil =>
    refine ⟨(w, []), rfl, ?_, rfl, Nat.le_refl _, ?_, ?_, ?_⟩
    · simp [Sound, h, hd]
    · simp [h]
    · simp [h]
    · simp [armedTimes, Follows]
  | cons e es ih =>
    obtain ⟨r1, h1, hs1, hi1, hp1, ha1⟩ := sched_step_running f w e h hd
    rw [sched_exec_cons f e es w r1 h1]
    by_cases hr1 : r1.1.scb.running_ = true
    · obtain ⟨r2, k1, ks, ki, kc, kp, kd, kf⟩ := ih r1.1 hr1 (hs1.mp hr1)
      have hquiet : (r1.2.filterMap Obs.progress = [] ∧ r1.2.countP Obs.isDone = 0 ∧
          r1.1.count = w.count) ∨
          (r1.2.filterMap Obs.progress = [some w.count] ∧ r1.2.countP Obs.isDone = 0 ∧
          r1.1.count = w.count + 1) := by
        rcases hp1 with hp | hp | hp
        · exact Or.inl ⟨hp.1, hp.2.1, hp.2.2.1⟩
        · exact Or.inr ⟨hp.1, hp.2.1, hp.2.2.1⟩
        · rw [hp.2.2.2.1] at hr1; exact absurd hr1 (by simp)
      refine ⟨(r2.1, r1.2 ++ r2.2), by simp [k1], ks, ki.trans hi1, ?_, ?_, ?_, ?_⟩
      · rcases hquiet with hq | hq <;> simp only [] <;> omega
      · simp only [List.filterMap_append, kp]
        rcases hquiet with hq | hq
        · rw [hq.1, hq.2.2]; simp
        · rw [hq.1, hq.2.2]
          have hlen : r2.1.count - w.count = (r2.1.count - (w.count + 1)) + 1 := by
            have := kc; rw [hq.2.2] at this; omega
          rw [hlen, List.range'_succ]
          simp
      · simp only [List.countP_append, kd]
        rcases hquiet with hq | hq <;> simp [hq.2.1]
      · simp only [armedTimes, List.filterMap_append]
        rcases ha1 with ha | ha
        · have ha1 : List.filterMap Obs.armedAt r1.2 = [] := ha.1
          rw [ha1, List.nil_append]
          have := kf
          rw [hi1, ha.2] at this
          exact this
        · have ha1 : List.filterMap Obs.armedAt r1.2 = [r1.1.scb.scheduled_run_time_] := ha.1
          rw [ha1]
          have := kf
          rw [hi1] at this
          exact ⟨ha.2, this⟩
    · have hr0 : r1.1.scb.running_ = false := by simpa using hr1
      obtain ⟨w2, k1, k2, k3, k4, k5, k6⟩ := sched_exec_stopped f es r1.1 hr0
      have hstop : r1.2.filterMap Obs.progress = [none] ∧ r1.2.countP Obs.isDone = 1 ∧
          r1.1.count = w.count := by
        rcases hp1 with hp | hp | hp
        · rw [hp.2.2.2] at hr0; exact absurd hr0 (by simp)
        · rw [hp.2.2.2] at hr0; exact absurd hr0 (by simp)
        · exact ⟨hp.1, hp.2.1, hp.2.2.1⟩
      refine ⟨(w2, r1.2 ++ []), by simp [k1], ?_, k5.trans hi1, ?_, ?_, ?_, ?_⟩
      · have : Sound r1.1 := hs1
        simp only [Sound] at this ⊢
        rw [k2, k4]
        rw [hr0] at this
        exact this
      · simp only []; omega
      · simp only [List.append_nil, hstop.1, k2, k3, hstop.2.2]
        simp
      · simp only [List.append_nil, hstop.2.1, k2]
        simp
      · simp only [List.append_nil]
        rcases ha1 with ha | ha
        · have ha1 : armedTimes r1.2 = [] := ha.1
          rw [ha1]; simp [Follows]
        · have ha1 : armedTimes r1.2 = [r1.1.scb.scheduled_run_time_] := ha.1
          rw [ha1]; exact ⟨ha.2, by simp [Follows]⟩

/-- A tick count within the range of `int64_t` is left as it is. -/
theorem sched_wrapTicks_range (z : Int) (h1 : -9223372036854775808 ≤ z)
    (h2 : z ≤ 9223372036854775807) : wrapTicks z = z := by
  simp only [wrapTicks]
  omega

/-- The `k`-th of a run of armings that starts at `t0` is at `t0 + k * interval`,
as long as no earlier one is at tick 0 and the sums are tick counts. -/
theorem sched_follows_index (interval : Int) (l : List Int) (t0 : Int)
    (h : Follows interval t0 l) (k : Nat) (hk : k < (t0 :: l).length)
    (h0 : ∀ j : Nat, j < k → t0 + j * interval ≠ 0)
    (hr : ∀ j : Nat, j ≤ k → -9223372036854775808 ≤ t0 + j * interval ∧
      t0 + j * interval ≤ 9223372036854775807) :
    (t0 :: l)[k]? = some (t0 + k * interval) := by
  induction l generalizing t0 k with
  | nil =>
    have : k = 0 := by simpa using hk
    subst this
    simp
  | cons t ts ih =>
    cases k with
    | zero => simp
    | succ k =>
      have hr1 := hr 1 (by omega)
      simp only [Nat.cast_one, one_mul] at hr1
      have ht : t = t0 + interval := by
        rw [h.1 (by simpa using h0 0 (Nat.succ_pos k))]
        exact sched_wrapTicks_range _ hr1.1 hr1.2
      have e : ∀ j : Nat, t + j * interval = t0 + ((j + 1 : Nat) : Int) * interval := by
        intro j
        rw [ht]
        push_cast
        ring
      have h2 := ih t h.2 k (by simpa using hk) (by
        intro j hj
        rw [e]
        exact h0 (j + 1) (by omega)) (by
        intro j hj
        rw [e]
        exact hr (j + 1) (by omega))
      simp only [List.getElem?_cons_succ]
      rw [h2, ht]
      congr 1
      push_cast
      ring

end ScheduleWorld

/-- C12, counterexample: a schedule with the interval `nanoseconds::max()`
whose first firing is armed at `Now() = 10`.  The user function returns true,
and the second arming adds the interval to the tick count 10 in `int64_t`: it
calls `Timer::Schedule` with -9223372036854775799, where `10 + 1 * interval`
is 9223372036854775817. -/
theorem schedule_arming_wraps_tick_count :
    (ScheduleWorld.DoPeriodically TimerImpl.new EventQueue.new 9223372036854775807 "" 10).2
      = [Obs.armed 10 0] ∧
    (ScheduleWorld.exec (fun _ => true)
      [ScheduleWorld.Ev.timerPass 10, ScheduleWorld.Ev.timerCall, ScheduleWorld.Ev.workerPass,
        ScheduleWorld.Ev.workerRun 10, ScheduleWorld.Ev.workerPass, ScheduleWorld.Ev.workerRun 11]
      (ScheduleWorld.DoPeriodically TimerImpl.new EventQueue.new 9223372036854775807 "" 10).1).map
        (fun r => ScheduleWorld.armedTimes r.2) = some [-9223372036854775799] ∧
    (-9223372036854775799 : Int) ≠ 10 + 1 * 9223372036854775807 := by
  refine ⟨rfl, rfl, by decide⟩

/-- C12, amended: for every schedule with interval `interval` whose first
firing `DoPeriodically` arms at `t0 = Now()`, over every sequence of steps of
the threads, whatever the times at which they run and whatever the user
function returns: no step fails, and the `k`-th arming (the first is `k = 0`)
calls `Timer::Schedule` with exactly `t0 + k * interval`, provided the times
`t0 + j * interval` up to the `k`-th are tick counts of the clock (`int64_t`)
and none of the earlier ones is tick 0, the default `time_point()`; that is so
for every `k` with `t0 + k * interval` at most `INT64_MAX` when `t0` is
positive and the interval is not negative.  Every arming after the first is at
the time before plus the interval as `int64_t` computes it, stores the
returned id in `current_timer_`, and the timer holds the entry under that id
and that time when no pending entry has the same time. -/
theorem schedule_arming_times (f : Nat → Bool) (timer : TimerImpl TimerJob)
    (q : EventQueue ScheduleTask) (interval : Int) (id : String) (t0 : Int)
    (evs : List ScheduleWorld.Ev) :
    (ScheduleWorld.DoPeriodically timer q interval id t0).2
      = [Obs.armed t0 timer.id_counter_] ∧
    (∃ r, ScheduleWorld.exec f evs (ScheduleWorld.DoPeriodically timer q interval id t0).1
        = some r ∧
      (∀ k : Nat, k < (t0 :: ScheduleWorld.armedTimes r.2).length →
        (∀ j : Nat, j < k → t0 + j * interval ≠ 0) →
        (∀ j : Nat, j ≤ k → -9223372036854775808 ≤ t0 + j * interval ∧
          t0 + j * interval ≤ 9223372036854775807) →
        (t0 :: ScheduleWorld.armedTimes r.2)[k]? = some (t0 + k * interval)) ∧
      (0 < t0 → 0 ≤ interval →
        ∀ k : Nat, k < (t0 :: ScheduleWorld.armedTimes r.2).length →
        t0 + k * interval ≤ 9223372036854775807 →
        (t0 :: ScheduleWorld.armedTimes r.2)[k]? = some (t0 + k * interval))) ∧
    (∀ (w : ScheduleWorld) (now : Int), w.scb.running_ = true →
      w.scb.scheduled_run_time_ ≠ 0 →
      (w.ScheduleNextRun now).2
        = [Obs.armed (wrapTicks (w.scb.scheduled_run_time_ + w.scb.interval_))
            w.timer.id_counter_] ∧
      (w.ScheduleNextRun now).1.scb.current_timer_ = some w.timer.id_counter_ ∧
      (w.ScheduleNextRun now).1.scb.scheduled_run_time_
        = wrapTicks (w.scb.scheduled_run_time_ + w.scb.interval_) ∧
      (w.timer.WellFormed →
        wrapTicks (w.scb.scheduled_run_time_ + w.scb.interval_)
          ∉ w.timer.tasks_.map Prod.fst →
        (wrapTicks (w.scb.scheduled_run_time_ + w.scb.interval_),
          (⟨w.timer.id_counter_, TimerJob.timerCallback⟩ : TimerImpl.Task TimerJob))
          ∈ (w.ScheduleNextRun now).1.timer.tasks_)) := by
  refine ⟨?_, ?_, ?_⟩
  · simp [ScheduleWorld.DoPeriodically, ScheduleWorld.ScheduleNextRun, TimerImpl.Schedule]
  · have hrun : (ScheduleWorld.DoPeriodically timer q interval id t0).1.scb.running_ = true := by
      simp [ScheduleWorld.DoPeriodically, ScheduleWorld.ScheduleNextRun]
    have hdone : (ScheduleWorld.DoPeriodically timer q interval id t0).1.done.result_ = none := by
      simp [ScheduleWorld.DoPeriodically, ScheduleWorld.ScheduleNextRun,
        PromiseControlBlock.new]
    have hint : (ScheduleWorld.DoPeriodically timer q interval id t0).1.scb.interval_
        = interval := by
      simp [ScheduleWorld.DoPeriodically, ScheduleWorld.ScheduleNextRun]
    have hsrt : (ScheduleWorld.DoPeriodically timer q interval id t0).1.scb.scheduled_run_time_
        = t0 := by
      simp [ScheduleWorld.DoPeriodically, ScheduleWorld.ScheduleNextRun]
    obtain ⟨r, h1, _, _, _, _, _, hf⟩ := ScheduleWorld.sched_exec_running f evs
      (ScheduleWorld.DoPeriodically timer q interval id t0).1 hrun hdone
    rw [hint, hsrt] at hf
    refine ⟨r, h1, ?_, ?_⟩
    · intro k hk h0 hr
      exact ScheduleWorld.sched_follows_index interval _ t0 hf k hk h0 hr
    · intro ht0 hi k hk hmax
      have hpos : ∀ j : Nat, 0 ≤ (j : Int) * interval := fun j =>
        Int.mul_nonneg (Int.ofNat_nonneg j) hi
      apply ScheduleWorld.sched_follows_index interval _ t0 hf k hk
      · intro j _
        have := hpos j
        omega
      · intro j hj
        have h1 := hpos j
        have h2 : (j : Int) * interval ≤ (k : Int) * interval :=
          Int.mul_le_mul_of_nonneg_right (by exact_mod_cast hj) hi
        constructor
        · omega
        · omega
  · intro w now hr h0
    refine ⟨?_, ?_, ?_, ?_⟩
    · simp [ScheduleWorld.ScheduleNextRun, hr, h0, TimerImpl.Schedule]
    · simp [ScheduleWorld.ScheduleNextRun, hr, h0, TimerImpl.Schedule]
    · simp [ScheduleWorld.ScheduleNextRun, hr, h0]
    · intro hwf hk
      have h3 := (TimerImpl.timer_schedule_fresh_time w.timer
        (wrapTicks (w.scb.scheduled_run_time_ + w.scb.interval_)) TimerJob.timerCallback
        hwf hk).1
      simpa [ScheduleWorld.ScheduleNextRun, hr, h0, TimerImpl.Schedule] using h3

/-! ## Schedule without `Cancel`: one firing in flight -/

namespace ScheduleWorld

theorem sched_timerWeight_insert (k : Int) (v : TimerImpl.Task TimerJob)
    (l : List (Int × TimerImpl.Task TimerJob)) :
    timerWeight l ≤ timerWeight (TimerImpl.mapInsert k v l) ∧
      timerWeight (TimerImpl.mapInsert k v l) ≤ timerWeight l + v.callback.weight := by
  induction l with
  | nil => simp [TimerImpl.mapInsert, timerWeight]
  | cons e rest ih =>
    by_cases h1 : k < e.1
    · simp only [TimerImpl.mapInsert, h1, if_true, timerWeight, List.map_cons, List.sum_cons]
      omega
    · by_cases h2 : k = e.1
      · have he : TimerImpl.mapInsert k v (e :: rest) = e :: rest := by
          simp [TimerImpl.mapInsert, h2]
        rw [he]
        omega
      · simp only [TimerImpl.mapInsert, h1, h2, if_false, timerWeight, List.map_cons,
          List.sum_cons]
        simp only [timerWeight] at ih
        omega

theorem sched_timerWeight_cancel (id : Nat) (l : List (Int × TimerImpl.Task TimerJob)) :
    timerWeight (TimerImpl.cancelLoop id l).1 ≤ timerWeight l := by
  induction l with
  | nil => simp [TimerImpl.cancelLoop]
  | cons e rest ih =>
    by_cases h : e.2.id = id
    · simp [TimerImpl.cancelLoop, h, timerWeight]
    · simp only [TimerImpl.cancelLoop, h, if_false, timerWeight, List.map_cons, List.sum_cons]
      simp only [timerWeight] at ih
      omega

theorem sched_queueWeight_mem (l : List (Task ScheduleTask)) (t : Task ScheduleTask)
    (h : t ∈ l) : t.f.weight ≤ queueWeight l := by
  induction l with
  | nil => simp at h
  | cons a rest ih =>
    simp only [queueWeight, List.map_cons, List.sum_cons]
    rcases List.mem_cons.mp h with h1 | h1
    · rw [h1]; omega
    · have := ih h1
      simp only [queueWeight] at this
      omega

theorem sched_hasContinuation_queued (w : ScheduleWorld) (b : Bool)
    (h : hasContinuation w b) : 0 < queuedCount w := by
  rcases h with ⟨t, ht, hf⟩ | h
  · have := sched_queueWeight_mem w.q.tasks_ t ht
    rw [hf] at this
    simp only [ScheduleTask.weight] at this
    simp only [queuedCount]
    omega
  · simp [queuedCount, heldWeight, h, ScheduleTask.weight]

theorem sched_queueWeight_zero (l : List (Task ScheduleTask)) (b : Bool)
    (h : queueWeight l = 0) : ¬ ∃ t ∈ l, t.f = ScheduleTask.continuation b := by
  rintro ⟨t, ht, hf⟩
  have := sched_queueWeight_mem l t ht
  rw [hf, h] at this
  simp [ScheduleTask.weight] at this

/-- A step that changes neither the flag, the done block nor the number of
threads in `Cancel`, and that does not add a firing, keeps the shape. -/
theorem sched_tokens_transfer (w w1 : ScheduleWorld) (ht : Tokens w)
    (hrun : w1.scb.running_ = w.scb.running_) (hdone : w1.done = w.done)
    (hcanc : w1.cancelling = w.cancelling)
    (hsum : armedCount w1 + queuedCount w1 ≤ armedCount w + queuedCount w)
    (hcur : w1.scb.current_timer_ = w.scb.current_timer_ ∨ w1.scb.current_timer_ = none)
    (hq : queuedCount w1 ≤ queuedCount w ∨ w1.scb.current_timer_ = none) : Tokens w1 := by
  obtain ⟨hs, hi, h1, h0, hc⟩ := ht
  refine ⟨?_, hcanc.trans hi, Nat.le_trans hsum h1, ?_, ?_⟩
  · simp only [Sound] at hs ⊢
    rw [hrun, hdone]
    exact hs
  · intro hr
    rw [hrun] at hr
    have h2 := h0 hr
    refine ⟨by omega, ?_⟩
    rcases hcur with h | h
    · rw [h]; exact h2.2
    · exact h
  · intro hpos
    rcases hq with h | h
    · have h2 := hc (by omega)
      rcases hcur with h3 | h3
      · rw [h3]; exact h2
      · exact h3
    · exact h

/-- A step that changes neither the flag nor the number of invocations nor the
pending continuations keeps what is known of the results. -/
theorem sched_results_transfer (f : Nat → Bool) (w w1 : ScheduleWorld) (hr : Results f w)
    (hrun : w1.scb.running_ = w.scb.running_) (hcount : w1.count = w.count)
    (hcont : ∀ b, hasContinuation w1 b ↔ hasContinuation w b) : Results f w1 := by
  obtain ⟨hv, hp, hl, hh⟩ := hr
  refine ⟨?_, ?_, ?_, ?_⟩
  · intro b hb
    rw [hcount]
    exact hv b ((hcont b).mp hb)
  · intro k hk
    rw [hcount] at hk
    exact hp k hk
  · intro h1 h2
    rw [hrun] at h1
    rw [hcount] at h2 ⊢
    rcases hl h1 h2 with h | ⟨b, h⟩
    · exact Or.inl h
    · exact Or.inr ⟨b, (hcont b).mpr h⟩
  · intro h1
    rw [hrun] at h1
    rw [hcount]
    exact hh h1

/-- The steps that neither invoke the user function nor run a continuation keep
the shape. -/
theorem sched_step_quiet (f : Nat → Bool) (w : ScheduleWorld) (e : Ev) (ht : Tokens w)
    (hr : Results f w) (he : Ev.isCancel e = false)
    (hrun : ∀ now, e = Ev.workerRun now →
      w.task = none ∨ w.task = some ScheduleTask.other) :
    ∀ r, step f w e = some r → Tokens r.1 ∧ Results f r.1 := by
  intro r hstep
  cases e with
  | cancelLock => simp [Ev.isCancel] at he
  | cancelFinish => simp [Ev.isCancel] at he
  | timerPass now =>
    cases htt : w.this_task with
    | some j =>
      simp [step, htt] at hstep
      subst hstep
      exact ⟨ht, hr⟩
    | none =>
      by_cases hrn : w.timer.run_ = true
      · cases hq : w.timer.tasks_ with
        | nil =>
          simp [step, htt, TimerImpl.pass, hrn, hq] at hstep
          subst hstep
          exact ⟨sched_tokens_transfer w _ ht rfl rfl rfl
            (by simp [armedCount, queuedCount, htt])
            (Or.inl rfl) (Or.inl (by simp [queuedCount])),
            sched_results_transfer f w _ hr rfl rfl (by intro b; simp [hasContinuation])⟩
        | cons a rest =>
          by_cases hd : a.1 ≤ now
          · simp [step, htt, TimerImpl.pass, hrn, hq, hd] at hstep
            subst hstep
            refine ⟨sched_tokens_transfer w _ ht rfl rfl rfl ?_ (Or.inl rfl)
              (Or.inl (by simp [queuedCount])),
              sched_results_transfer f w _ hr rfl rfl (by intro b; simp [hasContinuation])⟩
            simp only [armedCount, queuedCount, htt, hq, thisWeight, timerWeight,
              TimerImpl.mapErase, List.map_cons, List.sum_cons]
            simp
            omega
          · simp [step, htt, TimerImpl.pass, hrn, hq, hd] at hstep
            subst hstep
            exact ⟨sched_tokens_transfer w _ ht rfl rfl rfl
              (by simp [armedCount, queuedCount, htt])
              (Or.inl rfl) (Or.inl (by simp [queuedCount])),
              sched_results_transfer f w _ hr rfl rfl (by intro b; simp [hasContinuation])⟩
      · simp [step, htt, TimerImpl.pass, hrn] at hstep
        subst hstep
        exact ⟨sched_tokens_transfer w _ ht rfl rfl rfl
          (by simp [armedCount, queuedCount, htt])
          (Or.inl rfl) (Or.inl (by simp [queuedCount])),
          sched_results_transfer f w _ hr rfl rfl (by intro b; simp [hasContinuation])⟩
  | timerCall =>
    cases htt : w.this_task with
    | none =>
      simp [step, htt] at hstep
      subst hstep
      exact ⟨ht, hr⟩
    | some j =>
      cases j with
      | timerCallback =>
        simp [step, htt] at hstep
        subst hstep
        refine ⟨sched_tokens_transfer w _ ht rfl rfl rfl ?_ (Or.inr rfl) (Or.inr rfl),
          sched_results_transfer f w _ hr rfl rfl ?_⟩
        · simp only [armedCount, queuedCount, htt, thisWeight, TimerCallback,
            EventQueue.AddTask, queueWeight, List.map_append, List.sum_append, List.map_cons,
            List.map_nil, List.sum_cons, List.sum_nil, TimerJob.weight, ScheduleTask.weight]
          omega
        · intro b
          simp only [hasContinuation, TimerCallback, EventQueue.AddTask, List.mem_append,
            List.mem_singleton]
          constructor
          · rintro (⟨t, ht1 | ht1, ht2⟩ | h)
            · exact Or.inl ⟨t, ht1, ht2⟩
            · rw [ht1] at ht2; simp at ht2
            · exact Or.inr h
          · rintro (⟨t, ht1, ht2⟩ | h)
            · exact Or.inl ⟨t, Or.inl ht1, ht2⟩
            · exact Or.inr h
      | other =>
        simp [step, htt] at hstep
        subst hstep
        refine ⟨sched_tokens_transfer w _ ht rfl rfl rfl ?_ (Or.inl rfl)
          (Or.inl (by simp [queuedCount])),
          sched_results_transfer f w _ hr rfl rfl (by intro b; simp [hasContinuation])⟩
        simp [armedCount, queuedCount, htt, thisWeight, TimerJob.weight]
  | timerOther when =>
    simp [step] at hstep
    subst hstep
    refine ⟨sched_tokens_transfer w _ ht rfl rfl rfl ?_ (Or.inl rfl)
      (Or.inl (by simp [queuedCount])),
      sched_results_transfer f w _ hr rfl rfl (by intro b; simp [hasContinuation])⟩
    have := (sched_timerWeight_insert when ⟨w.timer.id_counter_, TimerJob.other⟩
      w.timer.tasks_).2
    simp only [TimerJob.weight] at this
    simp only [armedCount, queuedCount, TimerImpl.Schedule]
    omega
  | workerPass =>
    cases htt : w.task with
    | some j =>
      simp [step, htt] at hstep
      subst hstep
      exact ⟨ht, hr⟩
    | none =>
      by_cases hrn : w.q.t_ = true
      · cases hq : w.q.tasks_ with
        | nil =>
          by_cases hc : (!w.q.running_ && w.q.count_ == 0) = true
          · simp [step, htt, EventQueue.pass, hrn, hq, hc] at hstep
            subst hstep
            exact ⟨sched_tokens_transfer w _ ht rfl rfl rfl
              (by simp [armedCount, queuedCount, hq, htt]) (Or.inl rfl)
              (Or.inl (by simp [queuedCount, hq, htt])),
              sched_results_transfer f w _ hr rfl rfl
                (by intro b; simp [hasContinuation, hq, htt])⟩
          · simp [step, htt, EventQueue.pass, hrn, hq, hc] at hstep
            subst hstep
            exact ⟨sched_tokens_transfer w _ ht rfl rfl rfl
              (by simp [armedCount, queuedCount, hq, htt]) (Or.inl rfl)
              (Or.inl (by simp [queuedCount, hq, htt])),
              sched_results_transfer f w _ hr rfl rfl
                (by intro b; simp [hasContinuation, hq, htt])⟩
        | cons a rest =>
          simp [step, htt, EventQueue.pass, hrn, hq] at hstep
          subst hstep
          refine ⟨sched_tokens_transfer w _ ht rfl rfl rfl ?_ (Or.inl rfl) (Or.inl ?_),
            sched_results_transfer f w _ hr rfl rfl ?_⟩
          · simp only [armedCount, queuedCount, hq, htt, queueWeight, heldWeight, List.map_cons,
              List.sum_cons]
            omega
          · simp only [queuedCount, hq, htt, queueWeight, heldWeight, List.map_cons,
              List.sum_cons]
            omega
          · intro b
            simp only [hasContinuation, hq, htt, List.mem_cons, Option.some.injEq]
            constructor
            · rintro (⟨t, ht1, ht2⟩ | h)
              · exact Or.inl ⟨t, Or.inr ht1, ht2⟩
              · exact Or.inl ⟨a, Or.inl rfl, h⟩
            · rintro (⟨t, ht1 | ht1, ht2⟩ | h)
              · exact Or.inr (ht1 ▸ ht2)
              · exact Or.inl ⟨t, ht1, ht2⟩
              · exact absurd h (by simp)
      · simp [step, htt, EventQueue.pass, hrn] at hstep
        subst hstep
        exact ⟨sched_tokens_transfer w _ ht rfl rfl rfl (by simp [armedCount, queuedCount, htt])
          (Or.inl rfl) (Or.inl (by simp [queuedCount, htt])),
          sched_results_transfer f w _ hr rfl rfl (by intro b; simp [hasContinuation, htt])⟩
  | workerRun now =>
    rcases hrun now rfl with htt | htt
    · simp [step, htt] at hstep
      subst hstep
      exact ⟨ht, hr⟩
    · simp [step, htt] at hstep
      subst hstep
      exact ⟨sched_tokens_transfer w _ ht rfl rfl rfl
        (by simp [armedCount, queuedCount, htt, heldWeight, ScheduleTask.weight]) (Or.inl rfl)
        (Or.inl (by simp [queuedCount, htt, heldWeight, ScheduleTask.weight])),
        sched_results_transfer f w _ hr rfl rfl (by intro b; simp [hasContinuation, htt])⟩
  | enqueueOther id =>
    simp [step] at hstep
    subst hstep
    refine ⟨sched_tokens_transfer w _ ht rfl rfl rfl ?_ (Or.inl rfl) (Or.inl ?_),
      sched_results_transfer f w _ hr rfl rfl ?_⟩
    · simp [armedCount, queuedCount, EventQueue.AddTask, queueWeight, ScheduleTask.weight]
    · simp [queuedCount, EventQueue.AddTask, queueWeight, ScheduleTask.weight]
    · intro b
      simp only [hasContinuation, EventQueue.AddTask, List.mem_append, List.mem_singleton]
      constructor
      · rintro (⟨t, ht1 | ht1, ht2⟩ | h)
        · exact Or.inl ⟨t, ht1, ht2⟩
        · rw [ht1] at ht2; simp at ht2
        · exact Or.inr h
      · rintro (⟨t, ht1, ht2⟩ | h)
        · exact Or.inl ⟨t, Or.inl ht1, ht2⟩
        · exact Or.inr h
  | queueFinish =>
    simp [step] at hstep
    subst hstep
    exact ⟨sched_tokens_transfer w _ ht rfl rfl rfl
      (by simp [armedCount, queuedCount, EventQueue.Finish]) (Or.inl rfl)
      (Or.inl (by simp [queuedCount, EventQueue.Finish])),
      sched_results_transfer f w _ hr rfl rfl
        (by intro b; simp [hasContinuation, EventQueue.Finish])⟩

/-- The firing body on a schedule on which `Cancel` is not called. -/
theorem sched_step_firing (f : Nat → Bool) (w : ScheduleWorld) (now : Int) (ht : Tokens w)
    (hr : Results f w) (htask : w.task = some ScheduleTask.firing) :
    ∀ r, step f w (Ev.workerRun now) = some r → Tokens r.1 ∧ Results f r.1 := by
  intro r hstep
  obtain ⟨hs, hi, h1, h0, hc⟩ := ht
  obtain ⟨hv, hp, hl, hh⟩ := hr
  have hheld : queuedCount w = queueWeight w.q.tasks_ + 1 := by
    simp [queuedCount, htask, heldWeight, ScheduleTask.weight]
  have hrun : w.scb.running_ = true := by
    by_contra hn
    have := (h0 (by simpa using hn)).1
    omega
  have hqz : queueWeight w.q.tasks_ = 0 := by omega
  have hnone : ∀ b, ¬ hasContinuation w b := by
    intro b hb
    rcases hb with hb | hb
    · exact sched_queueWeight_zero _ b hqz hb
    · rw [htask] at hb; simp at hb
  rw [step, htask] at hstep
  simp only [sched_firing_running f { w with task := none } hrun, Option.some.injEq] at hstep
  subst hstep
  refine ⟨⟨?_, hi, ?_, ?_, ?_⟩, ⟨?_, ?_, ?_, ?_⟩⟩
  · simpa [Sound] using hs
  · have hw : ∀ b, (ScheduleTask.continuation b).weight = 1 := fun _ => rfl
    simp only [armedCount, queuedCount, EventQueue.Release, EventQueue.AddTask, EventQueue.Take,
      queueWeight, heldWeight, List.map_append, List.sum_append, List.map_cons, List.map_nil,
      List.sum_cons, List.sum_nil, hw]
    simp only [armedCount, queueWeight] at h1 hqz
    omega
  · intro hstop
    simp [hrun] at hstop
  · intro _
    exact hc (by omega)
  · intro b hb
    simp only [hasContinuation, EventQueue.Release, EventQueue.AddTask, EventQueue.Take,
      List.mem_append, List.mem_singleton] at hb
    rcases hb with ⟨t, ht1 | ht1, ht2⟩ | hb
    · exact absurd ⟨t, ht1, ht2⟩ (sched_queueWeight_zero _ b hqz)
    · rw [ht1] at ht2
      simp only [ScheduleTask.continuation.injEq] at ht2
      simp [ht2]
    · simp at hb
  · intro k hk
    simp only [] at hk
    by_cases hk2 : k + 1 < w.count
    · exact hp k hk2
    · have hk3 : k + 1 = w.count := by omega
      rcases hl hrun (by omega) with h | ⟨b, h⟩
      · have : w.count - 1 = k := by omega
        rw [this] at h
        exact h
      · exact absurd h (hnone b)
  · intro _ _
    refine Or.inr ⟨f w.count, Or.inl ⟨⟨"", ScheduleTask.continuation (f w.count)⟩, ?_, rfl⟩⟩
    simp [EventQueue.Release, EventQueue.AddTask, EventQueue.Take]
  · intro hstop
    simp [hrun] at hstop

/-- A continuation on a schedule on which `Cancel` is not called. -/
theorem sched_step_continuation (f : Nat → Bool) (w : ScheduleWorld) (now : Int)
    (ht : Tokens w) (hr : Results f w) (b : Bool)
    (htask : w.task = some (ScheduleTask.continuation b)) :
    ∀ r, step f w (Ev.workerRun now) = some r → Tokens r.1 ∧ Results f r.1 := by
  intro r hstep
  obtain ⟨hs, hi, h1, h0, hc⟩ := ht
  obtain ⟨hv, hp, hl, hh⟩ := hr
  have hheld : queuedCount w = queueWeight w.q.tasks_ + 1 := by
    simp [queuedCount, htask, heldWeight, ScheduleTask.weight]
  have hrun : w.scb.running_ = true := by
    by_contra hn
    have := (h0 (by simpa using hn)).1
    omega
  have hqz : queueWeight w.q.tasks_ = 0 := by omega
  have haz : armedCount w = 0 := by omega
  have hcur : w.scb.current_timer_ = none := hc (by omega)
  have hval := hv b (Or.inr htask)
  have hdone : w.done.result_ = none := hs.mp hrun
  rw [step, htask] at hstep
  cases b with
  | false =>
    simp only [continuation, Bool.not_false, if_true,
      sched_Finish_running { w with task := none } hrun hdone, Option.some.injEq] at hstep
    subst hstep
    refine ⟨⟨?_, hi, ?_, ?_, ?_⟩, ⟨?_, hp, ?_, ?_⟩⟩
    · simp [Sound]
    · simp only [armedCount, queuedCount, heldWeight] at haz ⊢
      simp only [queueWeight] at hqz
      simp only [queueWeight]
      omega
    · intro _
      refine ⟨?_, hcur⟩
      simp only [armedCount, queuedCount, heldWeight] at haz ⊢
      simp only [queueWeight] at hqz
      simp only [queueWeight]
      omega
    · intro _
      exact hcur
    · intro b2 hb
      simp only [hasContinuation] at hb
      rcases hb with hb | hb
      · exact absurd hb (sched_queueWeight_zero _ b2 hqz)
      · simp at hb
    · intro hrn
      simp at hrn
    · intro _
      exact ⟨hval.1, hval.2.symm⟩
  | true =>
    simp only [continuation, Bool.not_true, Bool.false_eq_true, if_false, ScheduleNextRun, hrun,
      Option.some.injEq] at hstep
    subst hstep
    have hins := (sched_timerWeight_insert
      (if w.scb.scheduled_run_time_ = 0 then now
        else wrapTicks (w.scb.scheduled_run_time_ + w.scb.interval_))
      ⟨w.timer.id_counter_, TimerJob.timerCallback⟩ w.timer.tasks_).2
    simp only [TimerJob.weight] at hins
    refine ⟨⟨?_, hi, ?_, ?_, ?_⟩, ⟨?_, hp, ?_, ?_⟩⟩
    · simp [Sound, hdone]
    · simp only [armedCount, queuedCount, heldWeight, TimerImpl.Schedule] at haz ⊢
      simp only [queueWeight] at hqz
      simp only [queueWeight]
      omega
    · intro hstop
      simp [hrun] at hstop
    · intro hpos
      simp only [queuedCount, heldWeight] at hpos
      omega
    · intro b2 hb
      simp only [hasContinuation] at hb
      rcases hb with hb | hb
      · exact absurd hb (sched_queueWeight_zero _ b2 hqz)
      · simp at hb
    · intro _ _
      exact Or.inl hval.2.symm
    · intro hstop
      simp [hrun] at hstop

/-- Every step other than those of `Cancel` keeps the shape. -/
theorem sched_step_steady (f : Nat → Bool) (w : ScheduleWorld) (e : Ev) (ht : Tokens w)
    (hr : Results f w) (he : Ev.isCancel e = false) :
    ∀ r, step f w e = some r → Tokens r.1 ∧ Results f r.1 := by
  by_cases hq : ∀ now, e = Ev.workerRun now →
      w.task = none ∨ w.task = some ScheduleTask.other
  · exact sched_step_quiet f w e ht hr he hq
  · push_neg at hq
    obtain ⟨now, he2, h1, h2⟩ := hq
    subst he2
    cases htask : w.task with
    | none => exact absurd htask h1
    | some t =>
      cases t with
      | firing => exact sched_step_firing f w now ht hr htask
      | continuation b => exact sched_step_continuation f w now ht hr b htask
      | other => exact absurd htask h2

/-- Every sequence of steps without `Cancel` keeps the shape. -/
theorem sched_exec_steady (f : Nat → Bool) (evs : List Ev) (w : ScheduleWorld) (ht : Tokens w)
    (hr : Results f w) (he : ∀ e ∈ evs, Ev.isCancel e = false) :
    ∀ r, exec f evs w = some r → Tokens r.1 ∧ Results f r.1 := by
  induction evs generalizing w with
  | nil =>
    intro r h
    simp only [exec, Option.some.injEq] at h
    subst h
    exact ⟨ht, hr⟩
  | cons e es ih =>
    intro r h
    cases hs : step f w e with
    | none => simp [exec, hs] at h
    | some r1 =>
      rw [sched_exec_cons f e es w r1 hs] at h
      cases hx : exec f es r1.1 with
      | none => simp [hx] at h
      | some r2 =>
        simp only [hx, Option.map_some', Option.some.injEq] at h
        subst h
        have h1 := sched_step_steady f w e ht hr (he e (List.mem_cons_self _ _)) r1 hs
        exact ih r1.1 h1.1 h1.2 (fun e2 h2 => he e2 (List.mem_cons_of_mem _ h2)) r2 hx

/-- The state that `DoPeriodically` leaves has the shape, when the timer and the
queue hold nothing of the new schedule. -/
theorem sched_start_steady (f : Nat → Bool) (timer : TimerImpl TimerJob)
    (q : EventQueue ScheduleTask) (interval : Int) (id : String) (t0 : Int)
    (htimer : ∀ e ∈ timer.tasks_, e.2.callback = TimerJob.other)
    (hq : ∀ t ∈ q.tasks_, t.f = ScheduleTask.other) :
    Tokens (DoPeriodically timer q interval id t0).1 ∧
      Results f (DoPeriodically timer q interval id t0).1 := by
  have htw : timerWeight timer.tasks_ = 0 := by
    simp only [timerWeight]
    apply List.sum_eq_zero
    intro x hx
    simp only [List.mem_map] at hx
    obtain ⟨e, he1, he2⟩ := hx
    rw [← he2, htimer e he1]
    rfl
  have hqw : queueWeight q.tasks_ = 0 := by
    simp only [queueWeight]
    apply List.sum_eq_zero
    intro x hx
    simp only [List.mem_map] at hx
    obtain ⟨e, he1, he2⟩ := hx
    rw [← he2, hq e he1]
    rfl
  have hins := (sched_timerWeight_insert t0 ⟨timer.id_counter_, TimerJob.timerCallback⟩
    timer.tasks_).2
  simp only [TimerJob.weight] at hins
  refine ⟨⟨?_, ?_, ?_, ?_, ?_⟩, ⟨?_, ?_, ?_, ?_⟩⟩
  · simp [Sound, DoPeriodically, ScheduleNextRun, PromiseControlBlock.new]
  · simp [DoPeriodically, ScheduleNextRun]
  · simp only [DoPeriodically, ScheduleNextRun, armedCount, queuedCount, thisWeight, heldWeight,
      TimerImpl.Schedule, EventQueue.Take]
    simp
    omega
  · intro h
    simp [DoPeriodically, ScheduleNextRun] at h
  · intro h
    simp only [DoPeriodically, ScheduleNextRun, queuedCount, heldWeight, EventQueue.Take] at h
    simp at h
    omega
  · intro b hb
    simp only [DoPeriodically, ScheduleNextRun, hasContinuation, EventQueue.Take] at hb
    simp at hb
    obtain ⟨t, ht1, ht2⟩ := hb
    rw [hq t ht1] at ht2
    simp at ht2
  · intro k hk
    simp [DoPeriodically, ScheduleNextRun] at hk
  · intro _ h
    simp [DoPeriodically, ScheduleNextRun] at h
  · intro h
    simp [DoPeriodically, ScheduleNextRun] at h

end ScheduleWorld

/-- C13, counterexample: a schedule with interval 5 armed at 10 whose user
function returns true.  After the first firing the worker holds the
continuation; a thread calls `Cancel`, whose first locked section finds no
timer id; the worker then runs the continuation, which arms the timer with id
1; the thread in `Cancel` then calls `Finish`, which resolves the done-promise,
and `Cancel` returns.  A later `Cancel` finds `current_timer_` set: it cancels
the timer entry and clears `current_timer_`, so it changes the control block. -/
theorem schedule_later_cancel_clears_timer :
    (ScheduleWorld.exec (fun _ => true)
      [ScheduleWorld.Ev.timerPass 10, ScheduleWorld.Ev.timerCall, ScheduleWorld.Ev.workerPass,
        ScheduleWorld.Ev.workerRun 10, ScheduleWorld.Ev.workerPass, ScheduleWorld.Ev.cancelLock,
        ScheduleWorld.Ev.workerRun 11, ScheduleWorld.Ev.cancelFinish]
      (ScheduleWorld.DoPeriodically TimerImpl.new EventQueue.new 5 "" 10).1).map
        (fun r => (r.1.scb.running_, r.1.scb.current_timer_, r.1.timer.pendingIds,
          r.2.countP Obs.isDone)) = some (false, some 1, [1], 1) ∧
    (ScheduleWorld.exec (fun _ => true)
      [ScheduleWorld.Ev.timerPass 10, ScheduleWorld.Ev.timerCall, ScheduleWorld.Ev.workerPass,
        ScheduleWorld.Ev.workerRun 10, ScheduleWorld.Ev.workerPass, ScheduleWorld.Ev.cancelLock,
        ScheduleWorld.Ev.workerRun 11, ScheduleWorld.Ev.cancelFinish,
        ScheduleWorld.Ev.cancelLock, ScheduleWorld.Ev.cancelFinish]
      (ScheduleWorld.DoPeriodically TimerImpl.new EventQueue.new 5 "" 10).1).map
        (fun r => (r.1.scb.running_, r.1.scb.current_timer_, r.1.timer.pendingIds,
          r.2.countP Obs.isDone)) = some (false, none, [], 1) := by
  refine ⟨rfl, rfl⟩

/-- C13, amended: for every schedule and every sequence of steps of the
threads (the two locked sections of every `Cancel`, timer firings, worker
passes, any results of the user function): no step fails, so `done_` is never
resolved twice; the done-promise is resolved at most once, and it is resolved
exactly when `running_` is false.  While the schedule runs, the step that
resolves it is the `Finish` of a `Cancel` or a continuation with the result
false, and each of these resolves it.  Once the schedule is stopped no later
step resolves it again or sets `running_`; the `Finish` of a later `Cancel`
changes nothing; its first locked section clears `current_timer_` and changes
nothing else of the control block, and changes neither the control block nor
the timer when `current_timer_` is clear, which is the case after the terminal
false return when `Cancel` was not called before. -/
theorem schedule_done_resolved_once (f : Nat → Bool) (timer : TimerImpl TimerJob)
    (q : EventQueue ScheduleTask) (interval : Int) (id : String) (t0 : Int)
    (evs : List ScheduleWorld.Ev) :
    ∃ r, ScheduleWorld.exec f evs (ScheduleWorld.DoPeriodically timer q interval id t0).1
        = some r ∧
      r.2.countP Obs.isDone ≤ 1 ∧
      (r.2.countP Obs.isDone = 1 ↔ r.1.scb.running_ = false) ∧
      (r.1.done.result_ = some () ↔ r.1.scb.running_ = false) ∧
      (r.1.scb.running_ = true → ∀ e, ∃ r1, ScheduleWorld.step f r.1 e = some r1 ∧
        (r1.2.countP Obs.isDone = 1 ↔ r1.1.scb.running_ = false) ∧
        (r1.1.scb.running_ = false ↔
          ((e = ScheduleWorld.Ev.cancelFinish ∧ 0 < r.1.cancelling) ∨
           (∃ now, e = ScheduleWorld.Ev.workerRun now ∧
              r.1.task = some (ScheduleTask.continuation false))))) ∧
      (r.1.scb.running_ = false →
        (∀ evs2, ∃ w2, ScheduleWorld.exec f evs2 r.1 = some (w2, []) ∧
          w2.scb.running_ = false ∧ w2.done = r.1.done) ∧
        (∃ w1, ScheduleWorld.step f r.1 ScheduleWorld.Ev.cancelLock = some (w1, []) ∧
          w1.scb = { r.1.scb with current_timer_ := none } ∧ w1.done = r.1.done ∧
          (r.1.scb.current_timer_ = none → w1.scb = r.1.scb ∧ w1.timer = r.1.timer)) ∧
        (∃ w1, ScheduleWorld.step f r.1 ScheduleWorld.Ev.cancelFinish = some (w1, []) ∧
          w1.scb = r.1.scb ∧ w1.timer = r.1.timer ∧ w1.done = r.1.done)) ∧
      ((∀ e ∈ evs, ScheduleWorld.Ev.isCancel e = false) →
        (∀ e ∈ timer.tasks_, e.2.callback = TimerJob.other) →
        (∀ t ∈ q.tasks_, t.f = ScheduleTask.other) →
        r.1.scb.running_ = false →
        r.1.scb.current_timer_ = none ∧ 0 < r.1.count ∧ f (r.1.count - 1) = false) := by
  have hrun : (ScheduleWorld.DoPeriodically timer q interval id t0).1.scb.running_ = true := by
    simp [ScheduleWorld.DoPeriodically, ScheduleWorld.ScheduleNextRun]
  have hdone : (ScheduleWorld.DoPeriodically timer q interval id t0).1.done.result_ = none := by
    simp [ScheduleWorld.DoPeriodically, ScheduleWorld.ScheduleNextRun,
      PromiseControlBlock.new]
  obtain ⟨r, h1, hs, _, _, _, hd, _⟩ := ScheduleWorld.sched_exec_running f evs
    (ScheduleWorld.DoPeriodically timer q interval id t0).1 hrun hdone
  have hsome : r.1.done.result_ = some () ↔ r.1.scb.running_ = false := by
    have hs2 : r.1.scb.running_ = true ↔ r.1.done.result_ = none := hs
    cases hres : r.1.done.result_ with
    | none =>
      have := hs2.mpr hres
      simp [this]
    | some u =>
      cases hb : r.1.scb.running_ with
      | false => simp
      | true =>
        have := hs2.mp hb
        rw [hres] at this
        simp at this
  refine ⟨r, h1, ?_, ?_, hsome, ?_, ?_, ?_⟩
  · rw [hd]; split <;> simp
  · rw [hd]
    by_cases hb : r.1.scb.running_ = false <;> simp [hb]
  · intro hr e
    obtain ⟨r1, k1, _, _, kp, _⟩ := ScheduleWorld.sched_step_running f r.1 e hr (hs.mp hr)
    refine ⟨r1, k1, ?_, ?_⟩
    · rcases kp with hp | hp | hp
      · simp [hp.2.1, hp.2.2.2]
      · simp [hp.2.1, hp.2.2.2]
      · simp [hp.2.1, hp.2.2.2.1]
    · constructor
      · intro hstop
        rcases kp with hp | hp | hp
        · rw [hp.2.2.2] at hstop; simp at hstop
        · rw [hp.2.2.2] at hstop; simp at hstop
        · exact hp.2.2.2.2
      · rintro (⟨he, hc⟩ | ⟨now, he, htask⟩)
        · subst he
          have hc2 : ¬ r.1.cancelling = 0 := by omega
          simp only [ScheduleWorld.step, hc2, if_false,
            ScheduleWorld.sched_Finish_running r.1 hr (hs.mp hr), Option.some.injEq] at k1
          rw [← k1]
        · subst he
          simp only [ScheduleWorld.step, htask, ScheduleWorld.continuation, Bool.not_false,
            if_true, ScheduleWorld.sched_Finish_running { r.1 with task := none } hr (hs.mp hr),
            Option.some.injEq] at k1
          rw [← k1]
  · intro hstop
    refine ⟨?_, ?_, ?_⟩
    · intro evs2
      obtain ⟨w2, k1, k2, _, k4, _, _⟩ := ScheduleWorld.sched_exec_stopped f evs2 r.1 hstop
      exact ⟨w2, k1, k2, k4⟩
    · have key : ∀ w : ScheduleWorld, ∃ w1,
          ScheduleWorld.step f w ScheduleWorld.Ev.cancelLock = some (w1, []) ∧
          w1.scb = { w.scb with current_timer_ := none } ∧ w1.done = w.done ∧
          (w.scb.current_timer_ = none → w1.scb = w.scb ∧ w1.timer = w.timer) := by
        intro w
        obtain ⟨tm, qq, ⟨iv, sid, run, srt, cur⟩, dn, cnt, tt, tk, cc⟩ := w
        cases cur <;> simp [ScheduleWorld.step, ScheduleWorld.CancelTimer]
      exact key r.1
    · by_cases hc : r.1.cancelling = 0
      · exact ⟨r.1, by simp [ScheduleWorld.step, hc], rfl, rfl, rfl⟩
      · exact ⟨{ r.1 with cancelling := r.1.cancelling - 1 },
          by simp [ScheduleWorld.step, hc, ScheduleWorld.sched_Finish_stopped r.1 hstop],
          rfl, rfl, rfl⟩
  · intro he htimer hq hstop
    have h0 := ScheduleWorld.sched_start_steady f timer q interval id t0 htimer hq
    have h2 := ScheduleWorld.sched_exec_steady f evs _ h0.1 h0.2 he r h1
    exact ⟨(h2.1.zero hstop).2, h2.2.halt hstop⟩

/-- C15: for every schedule, every sequence `pre` of steps of the threads and
every sequence `post` of later steps.  When a thread is inside `Cancel` after
`pre` (called through `Schedule::Cancel` or through the destructor of the
cancel trigger), its `Finish` leaves `running_` false, and `Cancel` returns;
from then on no step invokes the user function, arms a timer or resolves the
done-promise: nothing is observed in `post` and the number of invocations
stays what it was, so it stays 0 when no firing body ran before.  On a stopped
control block a firing body that the worker has popped returns without
calling the user function, a continuation does nothing, and `ScheduleNextRun`
arms no timer. -/
theorem schedule_no_call_after_cancel (f : Nat → Bool) (timer : TimerImpl TimerJob)
    (q : EventQueue ScheduleTask) (interval : Int) (id : String) (t0 : Int)
    (pre post : List ScheduleWorld.Ev) :
    (∃ r, ScheduleWorld.exec f pre (ScheduleWorld.DoPeriodically timer q interval id t0).1
        = some r ∧
      (0 < r.1.cancelling →
        ∃ r1, ScheduleWorld.step f r.1 ScheduleWorld.Ev.cancelFinish = some r1 ∧
          r1.1.scb.running_ = false ∧ r1.1.count = r.1.count ∧
          ∃ w2, ScheduleWorld.exec f post r1.1 = some (w2, []) ∧
            w2.scb.running_ = false ∧ w2.count = r.1.count ∧
            (r.1.count = 0 → w2.count = 0))) ∧
    (∀ w : ScheduleWorld, w.scb.running_ = false →
      (∀ now, w.task = some ScheduleTask.firing →
        ScheduleWorld.step f w (ScheduleWorld.Ev.workerRun now)
          = some ({ w with task := none }, [])) ∧
      (∀ now b, w.task = some (ScheduleTask.continuation b) →
        ScheduleWorld.step f w (ScheduleWorld.Ev.workerRun now)
          = some ({ w with task := none }, [])) ∧
      (∀ now, w.ScheduleNextRun now = (w, []))) := by
  have hrun : (ScheduleWorld.DoPeriodically timer q interval id t0).1.scb.running_ = true := by
    simp [ScheduleWorld.DoPeriodically, ScheduleWorld.ScheduleNextRun]
  have hdone : (ScheduleWorld.DoPeriodically timer q interval id t0).1.done.result_ = none := by
    simp [ScheduleWorld.DoPeriodically, ScheduleWorld.ScheduleNextRun,
      PromiseControlBlock.new]
  obtain ⟨r, h1, hs, _⟩ := ScheduleWorld.sched_exec_running f pre
    (ScheduleWorld.DoPeriodically timer q interval id t0).1 hrun hdone
  refine ⟨⟨r, h1, ?_⟩, ?_⟩
  · intro hc
    have hc2 : ¬ r.1.cancelling = 0 := by omega
    have hfin : ∃ r1, ScheduleWorld.step f r.1 ScheduleWorld.Ev.cancelFinish = some r1 ∧
        r1.1.scb.running_ = false ∧ r1.1.count = r.1.count := by
      by_cases hr : r.1.scb.running_ = true
      · simp [ScheduleWorld.step, hc2, ScheduleWorld.sched_Finish_running r.1 hr (hs.mp hr)]
      · have hr0 : r.1.scb.running_ = false := by simpa using hr
        simp [ScheduleWorld.step, hc2, ScheduleWorld.sched_Finish_stopped r.1 hr0, hr0]
    obtain ⟨r1, k1, k2, k3⟩ := hfin
    obtain ⟨w2, m1, m2, m3, _⟩ := ScheduleWorld.sched_exec_stopped f post r1.1 k2
    exact ⟨r1, k1, k2, k3, w2, m1, m2, m3.trans k3, fun h0 => by rw [m3, k3, h0]⟩
  · intro w hstop
    refine ⟨?_, ?_, ?_⟩
    · intro now htask
      simp [ScheduleWorld.step, htask,
        ScheduleWorld.sched_firing_stopped f { w with task := none } hstop]
    · intro now b htask
      cases b with
      | false =>
        simp [ScheduleWorld.step, htask, ScheduleWorld.continuation,
          ScheduleWorld.sched_Finish_stopped { w with task := none } hstop]
      | true =>
        simp [ScheduleWorld.step, htask, ScheduleWorld.continuation,
          ScheduleWorld.sched_ScheduleNextRun_stopped { w with task := none } now hstop]
    · intro now
      exact ScheduleWorld.sched_ScheduleNextRun_stopped w now hstop

/-- C15, at the test `NoopIfEventQueueIsDestroyed`: the schedule handle is
dropped right after `DoPeriodically`, `Finish` is called on the queue, and the
timer and the worker run afterwards: the user function is never invoked. -/
theorem schedule_no_call_after_cancel_witness :
    (ScheduleWorld.exec (fun _ => true)
      [ScheduleWorld.Ev.cancelLock, ScheduleWorld.Ev.cancelFinish, ScheduleWorld.Ev.queueFinish,
        ScheduleWorld.Ev.timerPass 10, ScheduleWorld.Ev.timerCall, ScheduleWorld.Ev.workerPass,
        ScheduleWorld.Ev.workerRun 10, ScheduleWorld.Ev.workerPass]
      (ScheduleWorld.DoPeriodically TimerImpl.new EventQueue.new 5000 "" 10).1).map
        (fun r => (r.1.count, r.2.countP Obs.isCalled, r.2.countP Obs.isDone))
      = some (0, 0, 1) ∧
    (∀ now, ScheduleWorld.ScheduleNextRun
        (⟨TimerImpl.new, EventQueue.new, ⟨5, "", false, 10, none⟩, ⟨some (), []⟩, 0, none, none,
          0⟩ : ScheduleWorld) now
      = (⟨TimerImpl.new, EventQueue.new, ⟨5, "", false, 10, none⟩, ⟨some (), []⟩, 0, none, none,
          0⟩, [])) :=
  ⟨rfl, ((schedule_no_call_after_cancel (fun _ => true) TimerImpl.new EventQueue.new 5 "" 10
    [] []).2 ⟨TimerImpl.new, EventQueue.new, ⟨5, "", false, 10, none⟩, ⟨some (), []⟩, 0, none,
      none, 0⟩ rfl).2.2⟩

/-! ## Schedule: a run to the terminal result -/

namespace ScheduleWorld

/-- One round from a ready state: the timer thread dispatches the entry and
calls the callback, the worker runs the firing body and then the
continuation. -/
theorem sched_round (f : Nat → Bool) (w : ScheduleWorld) (k : Nat) (h : Ready w k) :
    ∃ evs, (∀ e ∈ evs, Ev.isCancel e = false) ∧ ∃ r, exec f evs w = some r ∧
      r.1.count = k + 1 ∧
      (f k = true → Ready r.1 (k + 1)) ∧
      (f k = false → r.1.scb.running_ = false ∧ r.1.done.result_ = some ()) := by
  obtain ⟨⟨run, c, tasks⟩, ⟨qt, qr, qc, qa⟩, ⟨iv, sid, rn, srt, cur⟩, ⟨dres, ddeps⟩, cnt, tt, tk,
    cc⟩ := w
  obtain ⟨h1, ⟨t, i, h2⟩, h3, h4, h5, h6, h7, h8, h9⟩ := h
  simp only at h1 h2 h3 h4 h5 h6 h7 h8 h9
  subst h1 h2 h3 h4 h5 h6 h7 h8 h9
  refine ⟨[Ev.timerPass t, Ev.timerCall, Ev.workerPass, Ev.workerRun 0, Ev.workerPass,
    Ev.workerRun 0], by simp [Ev.isCancel], ?_⟩
  cases hf : f cnt with
  | false =>
    simp [exec, step, TimerImpl.pass, TimerImpl.mapErase, TimerCallback, EventQueue.pass,
      EventQueue.AddTask, EventQueue.Take, EventQueue.Release, sched_firing_running,
      continuation, hf, Finish, PromiseControlBlock.Resolve,
      PromiseControlBlock.NotifyDependents]
  | true =>
    simp [exec, step, TimerImpl.pass, TimerImpl.mapErase, TimerCallback, EventQueue.pass,
      EventQueue.AddTask, EventQueue.Take, EventQueue.Release, sched_firing_running,
      continuation, hf, ScheduleNextRun, TimerImpl.Schedule, TimerImpl.mapInsert, Ready]

/-- From a ready state with `k < n` invocations done, when the user function
returns true before its `n`-th invocation and false at it, the rounds lead to
the stopped schedule with `n` invocations and the done-promise resolved. -/
theorem sched_rounds (f : Nat → Bool) (n : Nat) (hf : ∀ j, j + 1 < n → f j = true)
    (hlast : f (n - 1) = false) (m : Nat) :
    ∀ (w : ScheduleWorld) (k : Nat), Ready w k → k + m + 1 = n →
    ∃ evs, (∀ e ∈ evs, Ev.isCancel e = false) ∧ ∃ r, exec f evs w = some r ∧
      r.1.count = n ∧ r.1.scb.running_ = false ∧ r.1.done.result_ = some () := by
  induction m with
  | zero =>
    intro w k h hk
    obtain ⟨evs, he, r, h1, h2, _, h4⟩ := sched_round f w k h
    have hk2 : n - 1 = k := by omega
    rw [hk2] at hlast
    exact ⟨evs, he, r, h1, by omega, (h4 hlast).1, (h4 hlast).2⟩
  | succ m ih =>
    intro w k h hk
    obtain ⟨evs, he, r, h1, h2, h3, _⟩ := sched_round f w k h
    have hfk : f k = true := hf k (by omega)
    obtain ⟨evs2, he2, r2, k1, k2, k3, k4⟩ := ih r.1 (k + 1) (h3 hfk) (by omega)
    refine ⟨evs ++ evs2, ?_, (r2.1, r.2 ++ r2.2), ?_, k2, k3, k4⟩
    · intro e hm
      rcases List.mem_append.mp hm with hm | hm
      · exact he e hm
      · exact he2 e hm
    · rw [sched_exec_append f evs evs2 w r h1, k1]
      rfl

end ScheduleWorld

/-- For every `n >= 1`, every interval and every user function that returns
true on its first `n - 1` invocations and false on its `n`-th, on a schedule
created while the timer and the queue hold nothing of it.  Over every
sequence of steps of the threads without `Cancel`: no step fails, the user
function has been invoked at most `n` times, the invocations are numbered
`0, 1, ...` in order, the done-promise is resolved only after the `n`-th
invocation and exactly when the schedule has stopped.  And when the timer
thread and the worker are alive and idle at the creation, the firings run to
the end: there is a sequence of steps after which the user function has been
invoked exactly `n` times and the done-promise is resolved, the resolution
coming last. -/
theorem schedule_invokes_until_false (f : Nat → Bool) (n : Nat) (hn : 1 ≤ n)
    (hf : ∀ j, j + 1 < n → f j = true) (hlast : f (n - 1) = false)
    (timer : TimerImpl TimerJob) (q : EventQueue ScheduleTask) (interval : Int) (id : String)
    (t0 : Int) (htimer : ∀ e ∈ timer.tasks_, e.2.callback = TimerJob.other)
    (hq : ∀ t ∈ q.tasks_, t.f = ScheduleTask.other) :
    (∀ evs, (∀ e ∈ evs, ScheduleWorld.Ev.isCancel e = false) →
      ∃ r, ScheduleWorld.exec f evs (ScheduleWorld.DoPeriodically timer q interval id t0).1
          = some r ∧
        r.1.count ≤ n ∧
        r.2.filterMap Obs.progress
          = (List.range r.1.count).map some ++
            (if r.1.scb.running_ = false then [none] else []) ∧
        (r.1.scb.running_ = false → r.1.count = n) ∧
        (r.1.done.result_ = some () ↔ r.1.scb.running_ = false)) ∧
    (timer.run_ = true → timer.tasks_ = [] → q.t_ = true → q.tasks_ = [] →
      ∃ evs, (∀ e ∈ evs, ScheduleWorld.Ev.isCancel e = false) ∧
        ∃ r, ScheduleWorld.exec f evs (ScheduleWorld.DoPeriodically timer q interval id t0).1
            = some r ∧
          r.1.count = n ∧ r.1.scb.running_ = false ∧ r.1.done.result_ = some () ∧
          r.2.filterMap Obs.progress = (List.range n).map some ++ [none]) := by
  have hrun : (ScheduleWorld.DoPeriodically timer q interval id t0).1.scb.running_ = true := by
    simp [ScheduleWorld.DoPeriodically, ScheduleWorld.ScheduleNextRun]
  have hdone : (ScheduleWorld.DoPeriodically timer q interval id t0).1.done.result_ = none := by
    simp [ScheduleWorld.DoPeriodically, ScheduleWorld.ScheduleNextRun,
      PromiseControlBlock.new]
  have hcount : (ScheduleWorld.DoPeriodically timer q interval id t0).1.count = 0 := by
    simp [ScheduleWorld.DoPeriodically, ScheduleWorld.ScheduleNextRun]
  have hsafe : ∀ evs, (∀ e ∈ evs, ScheduleWorld.Ev.isCancel e = false) →
      ∃ r, ScheduleWorld.exec f evs (ScheduleWorld.DoPeriodically timer q interval id t0).1
          = some r ∧
        r.1.count ≤ n ∧
        r.2.filterMap Obs.progress
          = (List.range r.1.count).map some ++
            (if r.1.scb.running_ = false then [none] else []) ∧
        (r.1.scb.running_ = false → r.1.count = n) ∧
        (r.1.done.result_ = some () ↔ r.1.scb.running_ = false) := by
    intro evs he
    obtain ⟨r, h1, hs, _, _, hp, _, _⟩ := ScheduleWorld.sched_exec_running f evs
      (ScheduleWorld.DoPeriodically timer q interval id t0).1 hrun hdone
    have h0 := ScheduleWorld.sched_start_steady f timer q interval id t0 htimer hq
    have h2 := ScheduleWorld.sched_exec_steady f evs _ h0.1 h0.2 he r h1
    have hle : r.1.count ≤ n := by
      by_contra hgt
      have := h2.2.past (n - 1) (by omega)
      rw [hlast] at this
      simp at this
    refine ⟨r, h1, hle, ?_, ?_, ?_⟩
    · rw [hp, hcount, Nat.sub_zero, List.range_eq_range']
    · intro hstop
      have hh := h2.2.halt hstop
      by_contra hne
      have := hf (r.1.count - 1) (by omega)
      rw [hh.2] at this
      simp at this
    · have hs2 : r.1.scb.running_ = true ↔ r.1.done.result_ = none := hs
      cases hres : r.1.done.result_ with
      | none =>
        have := hs2.mpr hres
        simp [this]
      | some u =>
        cases hb : r.1.scb.running_ with
        | false => simp
        | true =>
          have := hs2.mp hb
          rw [hres] at this
          simp at this
  refine ⟨hsafe, ?_⟩
  intro ht1 ht2 hq1 hq2
  have hready : ScheduleWorld.Ready (ScheduleWorld.DoPeriodically timer q interval id t0).1 0 := by
    obtain ⟨run, c, tasks⟩ := timer
    obtain ⟨qt, qr, qc, qa⟩ := q
    simp only at ht1 ht2 hq1 hq2
    subst ht1 ht2 hq1 hq2
    simp [ScheduleWorld.Ready, ScheduleWorld.DoPeriodically, ScheduleWorld.ScheduleNextRun,
      TimerImpl.Schedule, TimerImpl.mapInsert, EventQueue.Take, PromiseControlBlock.new]
  obtain ⟨evs, he, r, h1, h2, h3, h4⟩ := ScheduleWorld.sched_rounds f n hf hlast (n - 1)
    (ScheduleWorld.DoPeriodically timer q interval id t0).1 0 hready (by omega)
  refine ⟨evs, he, r, h1, h2, h3, h4, ?_⟩
  obtain ⟨r2, k1, _, k3, _, _⟩ := hsafe evs he
  rw [h1] at k1
  simp only [Option.some.injEq] at k1
  subst k1
  rw [k3, h2, h3]
  simp

/-- The test `TestZeroInterval`: interval 0 and a user function that returns
false at its 100th invocation. -/
theorem schedule_invokes_until_false_witness :
    ∃ evs, (∀ e ∈ evs, ScheduleWorld.Ev.isCancel e = false) ∧
      ∃ r, ScheduleWorld.exec (fun k => decide (k + 1 ≠ 100)) evs
          (ScheduleWorld.DoPeriodically TimerImpl.new EventQueue.new 0 "" 7).1 = some r ∧
        r.1.count = 100 ∧ r.1.scb.running_ = false ∧ r.1.done.result_ = some () ∧
        r.2.filterMap Obs.progress = (List.range 100).map some ++ [none] :=
  (schedule_invokes_until_false (fun k => decide (k + 1 ≠ 100)) 100 (by decide)
    (by intro j hj; simp; omega) (by simp) TimerImpl.new EventQueue.new 0 "" 7
    (by simp [TimerImpl.new]) (by simp [EventQueue.new])).2 rfl rfl rfl rfl

namespace ScheduleWorld

/-- On a schedule of which no firing is in flight (no entry of it in the timer
or held by the timer thread, no task of it in the FIFO or held by the worker),
a step other than those of `Cancel` lets nothing be observed and changes
neither that nor the control block, the done-promise or the number of
invocations. -/
theorem sched_step_stalled (f : Nat → Bool) (w : ScheduleWorld) (e : Ev)
    (h0 : armedCount w + queuedCount w = 0) (he : Ev.isCancel e = false) :
    ∃ r, step f w e = some r ∧ r.2 = [] ∧ armedCount r.1 + queuedCount r.1 = 0 ∧
      r.1.count = w.count ∧ r.1.scb = w.scb ∧ r.1.done = w.done := by
  have ha : timerWeight w.timer.tasks_ = 0 ∧ thisWeight w.this_task = 0 ∧
      queueWeight w.q.tasks_ = 0 ∧ heldWeight w.task = 0 := by
    simp only [armedCount, queuedCount] at h0
    omega
  obtain ⟨h1, h2, h3, h4⟩ := ha
  cases e with
  | cancelLock => simp [Ev.isCancel] at he
  | cancelFinish => simp [Ev.isCancel] at he
  | timerPass now =>
    cases htt : w.this_task with
    | some j => exact ⟨(w, []), by simp [step, htt], rfl, h0, rfl, rfl, rfl⟩
    | none =>
      by_cases hrn : w.timer.run_ = true
      · cases hq : w.timer.tasks_ with
        | nil =>
          refine ⟨({ w with timer := w.timer }, []), by simp [step, htt, TimerImpl.pass, hrn, hq],
            rfl, h0, rfl, rfl, rfl⟩
        | cons a rest =>
          by_cases hd : a.1 ≤ now
          · refine ⟨(⟨{ w.timer with tasks_ := TimerImpl.mapErase a.1 w.timer.tasks_ }, w.q,
                w.scb, w.done, w.count, some a.2.callback, w.task, w.cancelling⟩, []),
              by simp [step, htt, TimerImpl.pass, hrn, hq, hd], rfl, ?_, rfl, rfl, rfl⟩
            rw [hq] at h1
            simp only [armedCount, queuedCount, hq, thisWeight, timerWeight,
              TimerImpl.mapErase, List.map_cons, List.sum_cons] at h1 ⊢
            simp
            omega
          · refine ⟨({ w with timer := w.timer }, []),
              by simp [step, htt, TimerImpl.pass, hrn, hq, hd], rfl, h0, rfl, rfl, rfl⟩
      · refine ⟨({ w with timer := w.timer }, []), by simp [step, htt, TimerImpl.pass, hrn],
          rfl, h0, rfl, rfl, rfl⟩
  | timerCall =>
    cases htt : w.this_task with
    | none => exact ⟨(w, []), by simp [step, htt], rfl, h0, rfl, rfl, rfl⟩
    | some j =>
      cases j with
      | timerCallback =>
        rw [htt] at h2
        simp [thisWeight, TimerJob.weight] at h2
      | other =>
        refine ⟨({ w with this_task := none }, []), by simp [step, htt], rfl, ?_, rfl, rfl, rfl⟩
        simp only [armedCount, queuedCount, thisWeight]
        omega
  | timerOther when =>
    refine ⟨({ w with timer := (w.timer.Schedule when TimerJob.other).1 }, []),
      by simp [step], rfl, ?_, rfl, rfl, rfl⟩
    have := (sched_timerWeight_insert when ⟨w.timer.id_counter_, TimerJob.other⟩
      w.timer.tasks_).2
    simp only [TimerJob.weight] at this
    simp only [armedCount, queuedCount, TimerImpl.Schedule]
    omega
  | workerPass =>
    cases htt : w.task with
    | some j => exact ⟨(w, []), by simp [step, htt], rfl, h0, rfl, rfl, rfl⟩
    | none =>
      by_cases hrn : w.q.t_ = true
      · cases hq : w.q.tasks_ with
        | nil =>
          by_cases hc : (!w.q.running_ && w.q.count_ == 0) = true
          · refine ⟨({ w with q := { w.q with t_ := false } }, []),
              by simp [step, htt, EventQueue.pass, hrn, hq, hc], rfl, ?_, rfl, rfl, rfl⟩
            simp only [armedCount, queuedCount, hq, htt, heldWeight, queueWeight, List.map_nil,
              List.sum_nil]
            omega
          · refine ⟨({ w with q := w.q }, []),
              by simp [step, htt, EventQueue.pass, hrn, hq, hc], rfl, h0, rfl, rfl, rfl⟩
        | cons a rest =>
          refine ⟨({ w with q := { w.q with tasks_ := rest }, task := some a.f }, []),
            by simp [step, htt, EventQueue.pass, hrn, hq], rfl, ?_, rfl, rfl, rfl⟩
          rw [hq] at h3
          simp only [armedCount, queuedCount, heldWeight, queueWeight, List.map_cons,
            List.sum_cons] at h3 ⊢
          omega
      · refine ⟨({ w with q := w.q }, []), by simp [step, htt, EventQueue.pass, hrn],
          rfl, h0, rfl, rfl, rfl⟩
  | workerRun now =>
    cases htt : w.task with
    | none => exact ⟨(w, []), by simp [step, htt], rfl, h0, rfl, rfl, rfl⟩
    | some j =>
      cases j with
      | firing =>
        rw [htt] at h4
        simp [heldWeight, ScheduleTask.weight] at h4
      | continuation b =>
        rw [htt] at h4
        simp [heldWeight, ScheduleTask.weight] at h4
      | other =>
        refine ⟨({ w with task := none }, []), by simp [step, htt], rfl, ?_, rfl, rfl, rfl⟩
        simp only [armedCount, queuedCount, heldWeight]
        omega
  | enqueueOther id =>
    refine ⟨({ w with q := w.q.AddTask ScheduleTask.other id }, []), by simp [step], rfl, ?_,
      rfl, rfl, rfl⟩
    simp only [armedCount, queuedCount, EventQueue.AddTask, queueWeight, List.map_append,
      List.sum_append, List.map_cons, List.map_nil, List.sum_cons, List.sum_nil,
      ScheduleTask.weight] at h3 ⊢
    omega
  | queueFinish =>
    refine ⟨({ w with q := w.q.Finish }, []), by simp [step], rfl, ?_, rfl, rfl, rfl⟩
    simp only [armedCount, queuedCount, EventQueue.Finish] at h0 ⊢
    omega

/-- Such a schedule stays as it is over every sequence of steps without
`Cancel`. -/
theorem sched_exec_stalled (f : Nat → Bool) (evs : List Ev) (w : ScheduleWorld)
    (h0 : armedCount w + queuedCount w = 0) (he : ∀ e ∈ evs, Ev.isCancel e = false) :
    ∃ r, exec f evs w = some r ∧ r.2 = [] ∧ armedCount r.1 + queuedCount r.1 = 0 ∧
      r.1.count = w.count ∧ r.1.scb = w.scb ∧ r.1.done = w.done := by
  induction evs generalizing w with
  | nil => exact ⟨(w, []), rfl, rfl, h0, rfl, rfl, rfl⟩
  | cons e es ih =>
    obtain ⟨r1, a1, a2, a3, a4, a5, a6⟩ := sched_step_stalled f w e h0
      (he e (List.mem_cons_self _ _))
    obtain ⟨r2, b1, b2, b3, b4, b5, b6⟩ := ih r1.1 a3
      (fun x hx => he x (List.mem_cons_of_mem _ hx))
    refine ⟨(r2.1, r1.2 ++ r2.2), ?_, by rw [a2, b2]; rfl, b3, b4.trans a4, b5.trans a5,
      b6.trans a6⟩
    rw [sched_exec_cons f e es w r1 a1, b1]
    rfl

end ScheduleWorld

/-- C14, the failing input: `DoPeriodically(f, 5ns)` with a user function that
returns true at its first call and false at its second (`n = 2`), armed at
`Now() = 10` on an idle timer and queue.  After the first invocation another
client of the process-wide timer calls `Timer::Schedule(15, g)`; the
continuation then calls `Timer::Schedule(15, ...)` for the second firing, and
`std::map::insert` stores nothing at the key that is taken.  The timer
dispatches `g`; no entry of the schedule is left.  The user function has been
invoked once, the schedule is running with the id 2 in `current_timer_`, which
names no pending entry, and the done-promise is unresolved; and over every
later sequence of steps without `Cancel` the user function is not invoked a
second time and the done-promise stays unresolved. -/
theorem schedule_stalls_when_time_is_taken :
    (ScheduleWorld.exec (fun k => decide (k = 0))
      [ScheduleWorld.Ev.timerPass 10, ScheduleWorld.Ev.timerCall, ScheduleWorld.Ev.workerPass,
        ScheduleWorld.Ev.workerRun 10, ScheduleWorld.Ev.timerOther 15,
        ScheduleWorld.Ev.workerPass, ScheduleWorld.Ev.workerRun 11,
        ScheduleWorld.Ev.timerPass 15, ScheduleWorld.Ev.timerCall]
      (ScheduleWorld.DoPeriodically TimerImpl.new EventQueue.new 5 "" 10).1).map
        (fun r => (r.1.count, r.1.scb.running_, r.1.done.result_, r.1.scb.current_timer_,
          r.1.timer.pendingIds, r.1.q.tasks_.length, r.2.filterMap Obs.progress))
      = some (1, true, none, some 2, [], 0, [some 0]) ∧
    ∀ evs, (∀ e ∈ evs, ScheduleWorld.Ev.isCancel e = false) →
      ∃ r, ScheduleWorld.exec (fun k => decide (k = 0))
          ([ScheduleWorld.Ev.timerPass 10, ScheduleWorld.Ev.timerCall,
            ScheduleWorld.Ev.workerPass, ScheduleWorld.Ev.workerRun 10,
            ScheduleWorld.Ev.timerOther 15, ScheduleWorld.Ev.workerPass,
            ScheduleWorld.Ev.workerRun 11, ScheduleWorld.Ev.timerPass 15,
            ScheduleWorld.Ev.timerCall] ++ evs)
          (ScheduleWorld.DoPeriodically TimerImpl.new EventQueue.new 5 "" 10).1 = some r ∧
        r.1.count = 1 ∧ r.1.scb.running_ = true ∧ r.1.done.result_ = none ∧
        r.2.filterMap Obs.progress = [some 0] := by
  refine ⟨rfl, ?_⟩
  intro evs he
  have hx : (ScheduleWorld.exec (fun k => decide (k = 0))
      [ScheduleWorld.Ev.timerPass 10, ScheduleWorld.Ev.timerCall, ScheduleWorld.Ev.workerPass,
        ScheduleWorld.Ev.workerRun 10, ScheduleWorld.Ev.timerOther 15,
        ScheduleWorld.Ev.workerPass, ScheduleWorld.Ev.workerRun 11,
        ScheduleWorld.Ev.timerPass 15, ScheduleWorld.Ev.timerCall]
      (ScheduleWorld.DoPeriodically TimerImpl.new EventQueue.new 5 "" 10).1).map
        (fun r => (ScheduleWorld.armedCount r.1 + ScheduleWorld.queuedCount r.1, r.1.count,
          r.1.scb.running_, r.1.done.result_, r.2.filterMap Obs.progress))
      = some (0, 1, true, none, [some 0]) := rfl
  cases h : ScheduleWorld.exec (fun k => decide (k = 0))
      [ScheduleWorld.Ev.timerPass 10, ScheduleWorld.Ev.timerCall, ScheduleWorld.Ev.workerPass,
        ScheduleWorld.Ev.workerRun 10, ScheduleWorld.Ev.timerOther 15,
        ScheduleWorld.Ev.workerPass, ScheduleWorld.Ev.workerRun 11,
        ScheduleWorld.Ev.timerPass 15, ScheduleWorld.Ev.timerCall]
      (ScheduleWorld.DoPeriodically TimerImpl.new EventQueue.new 5 "" 10).1 with
  | none =>
    rw [h] at hx
    simp at hx
  | some r0 =>
    rw [h] at hx
    simp only [Option.map_some', Option.some.injEq, Prod.mk.injEq] at hx
    obtain ⟨x1, x2, x3, x4, x5⟩ := hx
    obtain ⟨r, b1, b2, _, b4, b5, b6⟩ := ScheduleWorld.sched_exec_stalled
      (fun k => decide (k = 0)) evs r0.1 x1 he
    refine ⟨(r.1, r0.2 ++ r.2), ?_, b4.trans x2, ?_, ?_, ?_⟩
    · rw [ScheduleWorld.sched_exec_append _ _ evs _ r0 h, b1]
      rfl
    · show r.1.scb.running_ = true
      rw [b5]
      exact x3
    · show r.1.done.result_ = none
      rw [b6]
      exact x4
    · show (r0.2 ++ r.2).filterMap Obs.progress = [some 0]
      rw [b2, List.append_nil]
      exact x5

/-! ## Topic: `Publish` -/

namespace TopicWorld

theorem topic_publishLoop_rest (v : Int) (l : List SId) (w : TopicWorld) :
    (publishLoop v l w).topics = w.topics ∧ (publishLoop v l w).blocks = w.blocks ∧
    (publishLoop v l w).blockCount = w.blockCount ∧
    (publishLoop v l w).received = w.received ∧ (publishLoop v l w).heard = w.heard ∧
    (publishLoop v l w).removing = w.removing := by
  induction l generalizing w with
  | nil => simp [publishLoop]
  | cons s rest ih =>
    have h := ih (w.AddTask (w.blocks s).q (TopicTask.delivery v s) (w.blocks s).id)
    simpa [publishLoop, AddTask] using h

/-- The loop of `Publish` appends to each queue the deliveries for the blocks
of the list that have this queue, in list order, and changes nothing else. -/
theorem topic_publishLoop_queue (v : Int) (l : List SId) (w : TopicWorld) (q : QId) :
    (publishLoop v l w).queues q =
      { w.queues q with
        tasks_ := (w.queues q).tasks_ ++
          (l.filter fun s => decide ((w.blocks s).q = q)).map
            fun s => ⟨(w.blocks s).id, TopicTask.delivery v s⟩ } := by
  induction l generalizing w with
  | nil => simp [publishLoop]
  | cons s rest ih =>
    have h := ih (w.AddTask (w.blocks s).q (TopicTask.delivery v s) (w.blocks s).id)
    simp only [publishLoop, h]
    by_cases hq : (w.blocks s).q = q
    · simp [AddTask, EventQueue.AddTask, hq, List.filter_cons]
    · simp [AddTask, EventQueue.AddTask, hq, List.filter_cons, Function.update_noteq (Ne.symm hq)]

/-- What `Publish` leaves in each queue. -/
theorem topic_Publish_queue (w : TopicWorld) (cur : QId) (t : TId) (v : Int) (q : QId) :
    (w.Publish cur t v).queues q =
      { w.queues q with
        tasks_ := (w.queues q).tasks_ ++
          ((w.topics t).filter fun s => decide ((w.blocks s).q = q)).map
            (fun s => ⟨(w.blocks s).id, TopicTask.delivery v s⟩) ++
          (if q = cur then [⟨"", TopicTask.fanIn⟩] else []) } := by
  by_cases hq : q = cur
  · subst hq
    simp [Publish, AddTask, EventQueue.AddTask, topic_publishLoop_queue]
  · simp [Publish, AddTask, EventQueue.AddTask, topic_publishLoop_queue, hq,
      Function.update_noteq hq]

theorem topic_Publish_rest (w : TopicWorld) (cur : QId) (t : TId) (v : Int) :
    (w.Publish cur t v).topics = w.topics ∧ (w.Publish cur t v).blocks = w.blocks ∧
    (w.Publish cur t v).blockCount = w.blockCount ∧
    (w.Publish cur t v).received = w.received ∧ (w.Publish cur t v).heard = w.heard ∧
    (w.Publish cur t v).removing = w.removing := by
  have h := topic_publishLoop_rest v (w.topics t) w
  simpa [Publish, AddTask] using h

end TopicWorld

/-- C19: for every state of the topics and queues, `Publish(v)` on topic `t`
from queue `cur` appends to each queue exactly the delivery tasks for `v` of
the blocks in the list of `t` that have this queue, one per entry, in list
order, followed on `cur` by the fan-in task; it changes nothing else of the
queues, no list, no block, and calls no listener.  With an empty list the only
task enqueued is the fan-in task on `cur`.  The end of `Publish` for an empty
list, run on a queue `cur` that is idle, returns a new unresolved promise, and
the next pass of the worker of `cur` resolves it. -/
theorem publish_enqueues_one_delivery_per_subscription (w : TopicWorld) (cur : QId) (t : TId)
    (v : Int) :
    (∀ q, ((w.Publish cur t v).queues q).tasks_ =
        (w.queues q).tasks_ ++
          ((w.topics t).filter fun s => decide ((w.blocks s).q = q)).map
            (fun s => ⟨(w.blocks s).id, TopicTask.delivery v s⟩) ++
          (if q = cur then [⟨"", TopicTask.fanIn⟩] else [])) ∧
    (∀ q, ((w.Publish cur t v).queues q).running_ = (w.queues q).running_ ∧
      ((w.Publish cur t v).queues q).count_ = (w.queues q).count_ ∧
      ((w.Publish cur t v).queues q).t_ = (w.queues q).t_) ∧
    ((w.Publish cur t v).topics = w.topics ∧ (w.Publish cur t v).blocks = w.blocks ∧
      (w.Publish cur t v).received = w.received ∧ (w.Publish cur t v).heard = w.heard) ∧
    (w.topics t = [] → ∀ q, ((w.Publish cur t v).queues q).tasks_ =
        (w.queues q).tasks_ ++ (if q = cur then [⟨"", TopicTask.fanIn⟩] else [])) ∧
    (∀ u : World, (u.queues cur).tasks_ = [] → (u.queues cur).t_ = true →
      ∃ u1 : World, Prog.run (some cur) (publishPromise cur []) u
          = some (u1, (u.pcbCount : Int)) ∧
        u1.pcbs u.pcbCount = ⟨none, []⟩ ∧ u1.got = u.got ∧
        ∃ u2 : World, u1.workerStep cur = some u2 ∧ u2.pcbs u.pcbCount = ⟨some 0, []⟩ ∧
          u2.got = u.got) := by
  refine ⟨?_, ?_, ?_, ?_, ?_⟩
  · intro q
    rw [TopicWorld.topic_Publish_queue]
  · intro q
    rw [TopicWorld.topic_Publish_queue]
    exact ⟨rfl, rfl, rfl⟩
  · have h := TopicWorld.topic_Publish_rest w cur t v
    exact ⟨h.1, h.2.1, h.2.2.2.1, h.2.2.2.2.1⟩
  · intro ht q
    rw [TopicWorld.topic_Publish_queue]
    simp [ht]
  · intro u hq ht
    obtain ⟨queues, pcbs, pcbCount, cells, cellCount, got⟩ := u
    simp only at hq ht
    simp [publishPromise, resolvePublishPromiseWhenRecipientsDone, Prog.run,
      World.CreateResolver, World.newPcb, World.Enqueue, World.AddTask, World.setQueue,
      EventQueue.AddTask, hq, World.workerStep, EventQueue.pass, ht, Closure.run,
      World.Resolve, World.setPcb, World.calls, PromiseControlBlock.Resolve,
      PromiseControlBlock.new, PromiseControlBlock.NotifyDependents]

/-! ## Topic: a subscription that stays subscribed -/

namespace TopicWorld

theorem topic_filterMap_deliveries (v : Int) (s : SId) (l : List SId) (id : SId → String) :
    (l.map fun s1 => (⟨id s1, TopicTask.delivery v s1⟩ : Task TopicTask)).filterMap
      (deliveryFor s) = List.replicate (l.count s) v := by
  induction l with
  | nil => simp
  | cons a rest ih =>
    by_cases h : a = s
    · subst h
      simp [deliveryFor, List.filterMap_cons, ih, List.replicate_succ]
    · have h2 : ¬ (a == s) = true := by simpa using h
      simp [deliveryFor, List.filterMap_cons, h, ih, List.count_cons, h2]

/-- `Publish` on topic `t` appends to the deliveries for `s` in queue `q` one
delivery per occurrence of `s` in the list of `t`, when `q` is the queue of
`s`. -/
theorem topic_Publish_pending (w : TopicWorld) (cur : QId) (t : TId) (v : Int) (s : SId)
    (q : QId) :
    (w.Publish cur t v).pendingFor s q =
      w.pendingFor s q ++
        (if (w.blocks s).q = q then List.replicate ((w.topics t).count s) v else []) := by
  simp only [pendingFor, topic_Publish_queue, List.filterMap_append,
    topic_filterMap_deliveries]
  have hfan : List.filterMap (deliveryFor s)
      (if q = cur then [(⟨"", TopicTask.fanIn⟩ : Task TopicTask)] else []) = [] := by
    split <;> simp [deliveryFor]
  rw [hfan, List.append_nil]
  congr 1
  by_cases hq : (w.blocks s).q = q
  · rw [if_pos hq, List.count_filter (by simpa using hq)]
  · rw [if_neg hq]
    have : s ∉ (w.topics t).filter fun s1 => decide ((w.blocks s1).q = q) := by
      intro hm
      have := (List.mem_filter.mp hm).2
      simp at this
      exact hq this
    rw [List.count_eq_zero_of_not_mem this]
    rfl

theorem topic_step_publish_subscribed (w : TopicWorld) (s : SId) (t : TId) (qs : QId)
    (hs : Subscribed w s t qs) (cur : QId) (t1 : TId) (v : Int) :
    Subscribed (w.Publish cur t1 v) s t qs ∧
      (w.Publish cur t1 v).stream s qs = w.stream s qs ++ (if t1 = t then [v] else []) := by
  have hr := topic_Publish_rest w cur t1 v
  refine ⟨⟨?_, ?_, ?_, ?_, ?_, ?_, ?_, ?_⟩, ?_⟩
  · rw [hr.2.1]; exact hs.block
  · rw [hr.2.2.1]; exact hs.lt
  · rw [hr.1]; exact hs.once
  · rw [hr.1]; exact hs.only
  · rw [hr.1, hr.2.2.1]; exact hs.fresh
  · rw [hr.2.2.2.2.2]; exact hs.staying
  · rw [hr.2.1]; exact hs.spared
  · intro q hq
    rw [topic_Publish_pending, hs.other q hq, hs.block.2, if_neg (Ne.symm hq)]
    rfl
  · simp only [stream, topic_Publish_pending, hr.2.2.2.2.1, hs.block.2, if_true]
    by_cases ht : t1 = t
    · subst ht
      simp [hs.once]
    · have : (w.topics t1).count s = 0 := List.count_eq_zero_of_not_mem (hs.only t1 ht)
      simp [ht, this]

theorem topic_step_subscribe_subscribed (w : TopicWorld) (s : SId) (t : TId) (qs : QId)
    (hs : Subscribed w s t qs) (cur : QId) (t1 : TId) (listener : Int → List Act)
    (id : String) (hl : ∀ k, ∀ a ∈ listener k, Act.spares s a) :
    Subscribed (w.Subscribe cur t1 listener id).1 s t qs ∧
      (w.Subscribe cur t1 listener id).1.stream s qs = w.stream s qs := by
  have hne : s ≠ w.blockCount := Nat.ne_of_lt hs.lt
  refine ⟨⟨?_, ?_, ?_, ?_, ?_, ?_, ?_, ?_⟩, ?_⟩
  · simpa [Subscribe, Add, Function.update_noteq hne] using hs.block
  · simp only [Subscribe, Add]
    exact Nat.lt_succ_of_lt hs.lt
  · by_cases ht : t = t1
    · subst ht
      have h2 : ¬ (w.blockCount == s) = true := by simpa using Ne.symm hne
      simp [Subscribe, Add, List.count_append, List.count_cons, h2, hs.once]
    · simpa [Subscribe, Add, Function.update_noteq ht] using hs.once
  · intro t2 ht2
    by_cases ht : t2 = t1
    · subst ht
      simp only [Subscribe, Add, Function.update_same, List.mem_append, List.mem_singleton,
        not_or]
      exact ⟨hs.only t2 ht2, hne⟩
    · simpa [Subscribe, Add, Function.update_noteq ht] using hs.only t2 ht2
  · intro t2 s1 hm
    by_cases ht : t2 = t1
    · subst ht
      simp only [Subscribe, Add, Function.update_same, List.mem_append, List.mem_singleton] at hm
      simp only [Subscribe, Add]
      rcases hm with hm | hm
      · exact Nat.lt_succ_of_lt (hs.fresh t2 s1 hm)
      · rw [hm]; exact Nat.lt_succ_self _
    · simp only [Subscribe, Add, Function.update_noteq ht] at hm
      simp only [Subscribe, Add]
      exact Nat.lt_succ_of_lt (hs.fresh t2 s1 hm)
  · simpa [Subscribe, Add] using hs.staying
  · intro s1 k a ha
    by_cases h1 : s1 = w.blockCount
    · subst h1
      simp only [Subscribe, Add, Function.update_same] at ha
      exact hl k a ha
    · simp only [Subscribe, Add, Function.update_noteq h1] at ha
      exact hs.spared s1 k a ha
  · intro q hq
    simpa [Subscribe, Add, pendingFor] using hs.other q hq
  · simp [stream, Subscribe, Add, pendingFor]

theorem topic_unsubscribeLock_subscribed (w : TopicWorld) (s : SId) (t : TId) (qs : QId)
    (hs : Subscribed w s t qs) (s1 : SId) (h1 : s1 ≠ s) :
    Subscribed (w.unsubscribeLock s1) s t qs ∧
      (w.unsubscribeLock s1).heard = w.heard ∧ (w.unsubscribeLock s1).queues = w.queues ∧
      (w.unsubscribeLock s1).received s = w.received s := by
  cases ht : (w.blocks s1).topic with
  | none =>
    have : w.unsubscribeLock s1 = w := by simp [unsubscribeLock, ht]
    rw [this]
    exact ⟨hs, rfl, rfl, rfl⟩
  | some t1 =>
    have hw : w.unsubscribeLock s1 =
        { w with blocks := Function.update w.blocks s1 { w.blocks s1 with topic := none }
                 removing := w.removing ++ [(t1, s1)] } := by
      simp [unsubscribeLock, ht]
    rw [hw]
    refine ⟨⟨?_, hs.lt, hs.once, hs.only, hs.fresh, ?_, ?_, ?_⟩, rfl, rfl, rfl⟩
    · simpa [Function.update_noteq (Ne.symm h1)] using hs.block
    · intro t2 hm
      simp only [List.mem_append, List.mem_singleton, Prod.mk.injEq] at hm
      rcases hm with hm | hm
      · exact hs.staying t2 hm
      · exact h1 hm.2.symm
    · intro s2 k a ha
      by_cases h2 : s2 = s1
      · subst h2
        simp only [Function.update_same] at ha
        exact hs.spared s2 k a ha
      · simp only [Function.update_noteq h2] at ha
        exact hs.spared s2 k a ha
    · intro q hq
      simpa [pendingFor] using hs.other q hq

theorem topic_unsubscribeRemove_subscribed (w : TopicWorld) (s : SId) (t : TId) (qs : QId)
    (hs : Subscribed w s t qs) (t1 : TId) (s1 : SId) :
    Subscribed (w.unsubscribeRemove t1 s1) s t qs ∧
      (w.unsubscribeRemove t1 s1).heard = w.heard ∧
      (w.unsubscribeRemove t1 s1).queues = w.queues ∧
      (w.unsubscribeRemove t1 s1).received s = w.received s := by
  by_cases hm : (t1, s1) ∈ w.removing
  · have h1 : s1 ≠ s := by
      intro h
      rw [h] at hm
      exact hs.staying t1 hm
    have hw : w.unsubscribeRemove t1 s1 =
        { w with topics := Function.update w.topics t1 ((w.topics t1).erase s1)
                 removing := w.removing.erase (t1, s1) } := by
      simp [unsubscribeRemove, hm, Remove]
    rw [hw]
    refine ⟨⟨hs.block, hs.lt, ?_, ?_, ?_, ?_, hs.spared, ?_⟩, rfl, rfl, rfl⟩
    · by_cases ht : t = t1
      · subst ht
        simp only [Function.update_same]
        rw [List.count_erase_of_ne (Ne.symm h1)]
        exact hs.once
      · simpa [Function.update_noteq ht] using hs.once
    · intro t2 ht2
      by_cases ht : t2 = t1
      · subst ht
        simp only [Function.update_same]
        intro hmem
        exact hs.only t2 ht2 (List.mem_of_mem_erase hmem)
      · simpa [Function.update_noteq ht] using hs.only t2 ht2
    · intro t2 s2 hmem
      by_cases ht : t2 = t1
      · subst ht
        simp only [Function.update_same] at hmem
        exact hs.fresh t2 s2 (List.mem_of_mem_erase hmem)
      · simp only [Function.update_noteq ht] at hmem
        exact hs.fresh t2 s2 hmem
    · intro t2 hmem
      exact hs.staying t2 (List.mem_of_mem_erase hmem)
    · intro q hq
      simpa [pendingFor] using hs.other q hq
  · have : w.unsubscribeRemove t1 s1 = w := by simp [unsubscribeRemove, hm]
    rw [this]
    exact ⟨hs, rfl, rfl, rfl⟩

theorem topic_Unsubscribe_subscribed (w : TopicWorld) (s : SId) (t : TId) (qs : QId)
    (hs : Subscribed w s t qs) (s1 : SId) (h1 : s1 ≠ s) :
    Subscribed (w.Unsubscribe s1) s t qs ∧
      (w.Unsubscribe s1).heard = w.heard ∧ (w.Unsubscribe s1).queues = w.queues ∧
      (w.Unsubscribe s1).received s = w.received s := by
  cases ht : (w.blocks s1).topic with
  | none =>
    have : w.Unsubscribe s1 = w := by simp [Unsubscribe, ht]
    rw [this]
    exact ⟨hs, rfl, rfl, rfl⟩
  | some t1 =>
    have hw : w.Unsubscribe s1 = (w.unsubscribeLock s1).unsubscribeRemove t1 s1 := by
      simp [Unsubscribe, ht]
    rw [hw]
    obtain ⟨k1, k2, k3, k4⟩ := topic_unsubscribeLock_subscribed w s t qs hs s1 h1
    obtain ⟨m1, m2, m3, m4⟩ := topic_unsubscribeRemove_subscribed _ s t qs k1 t1 s1
    exact ⟨m1, m2.trans k2, m3.trans k3, m4.trans k4⟩

/-- The statements of a listener that spares `s` keep `s` subscribed and touch
neither the queues nor what the listener of `s` heard. -/
theorem topic_acts_subscribed (acts : List Act) (w : TopicWorld) (s : SId) (t : TId) (qs : QId)
    (hs : Subscribed w s t qs) (b : SId) (ha : ∀ a ∈ acts, Act.spares s a) :
    Subscribed (acts.foldl (act b) w) s t qs ∧
      (acts.foldl (act b) w).heard = w.heard ∧ (acts.foldl (act b) w).queues = w.queues := by
  induction acts generalizing w with
  | nil => exact ⟨hs, rfl, rfl⟩
  | cons a rest ih =>
    have hstep : Subscribed (act b w a) s t qs ∧ (act b w a).heard = w.heard ∧
        (act b w a).queues = w.queues := by
      cases a with
      | push k =>
        refine ⟨⟨hs.block, hs.lt, hs.once, hs.only, hs.fresh, hs.staying, hs.spared, ?_⟩,
          rfl, rfl⟩
        intro q hq
        simpa [act, pendingFor] using hs.other q hq
      | unsubscribe s1 =>
        have h1 : s1 ≠ s := ha (Act.unsubscribe s1) (List.mem_cons_self _ _)
        obtain ⟨k1, k2, k3, _⟩ := topic_Unsubscribe_subscribed w s t qs hs s1 h1
        exact ⟨k1, k2, k3⟩
    obtain ⟨k1, k2, k3⟩ := ih (act b w a) hstep.1 (fun x hx => ha x (List.mem_cons_of_mem _ hx))
    exact ⟨k1, k2.trans hstep.2.1, k3.trans hstep.2.2⟩

end TopicWorld

namespace TopicWorld

theorem topic_Unsubscribe_queues (w : TopicWorld) (s1 : SId) :
    (w.Unsubscribe s1).queues = w.queues := by
  cases ht : (w.blocks s1).topic with
  | none => simp [Unsubscribe, ht]
  | some t1 =>
    simp only [Unsubscribe, ht, unsubscribeLock, unsubscribeRemove, Remove]
    split <;> rfl

theorem topic_acts_queues (acts : List Act) (w : TopicWorld) (b : SId) :
    (acts.foldl (act b) w).queues = w.queues := by
  induction acts generalizing w with
  | nil => rfl
  | cons a rest ih =>
    rw [List.foldl_cons, ih]
    cases a with
    | push k => rfl
    | unsubscribe s1 => exact topic_Unsubscribe_queues w s1

theorem topic_deliver_queues (w : TopicWorld) (v : Int) (b : SId) :
    (w.deliver v b).queues = w.queues := by
  cases ht : (w.blocks b).topic with
  | none => simp [deliver, ht]
  | some t1 =>
    simp only [deliver, ht]
    rw [topic_acts_queues]

/-- A worker pass changes the queues as the pass of the loop does: the
listener it may call does not touch them. -/
theorem topic_workerStep_queues (w : TopicWorld) (q : QId) :
    (w.workerStep q).queues = Function.update w.queues q (w.queues q).pass.1 := by
  simp only [workerStep]
  cases hp : (w.queues q).pass with
  | mk s p =>
    cases p with
    | popped task => cases hf : task.f <;> simp [hf, topic_deliver_queues]
    | stopped => simp
    | exited => simp
    | waiting => simp

/-- A delivery keeps `s` subscribed; the listener of `s` hears the value when
the delivery is for `s`. -/
theorem topic_deliver_subscribed (w : TopicWorld) (s : SId) (t : TId) (qs : QId)
    (hs : Subscribed w s t qs) (v : Int) (b : SId) :
    Subscribed (w.deliver v b) s t qs ∧
      (w.deliver v b).heard s = w.heard s ++ (if b = s then [v] else []) := by
  have hbase : ∀ h : SId → List Int, Subscribed { w with heard := h } s t qs := by
    intro h
    refine ⟨hs.block, hs.lt, hs.once, hs.only, hs.fresh, hs.staying, hs.spared, ?_⟩
    intro q hq
    simpa [pendingFor] using hs.other q hq
  cases ht : (w.blocks b).topic with
  | none =>
    have hne : b ≠ s := by
      intro h
      rw [h, hs.block.1] at ht
      simp at ht
    simp [deliver, ht, hne, hs]
  | some t1 =>
    simp only [deliver, ht]
    obtain ⟨k1, k2, _⟩ := topic_acts_subscribed ((w.blocks b).listener v)
      { w with heard := Function.update w.heard b (w.heard b ++ [v]) } s t qs (hbase _) b
      (hs.spared b v)
    refine ⟨k1, ?_⟩
    rw [k2]
    by_cases hb : b = s
    · subst hb
      simp
    · simp [hb, Function.update_noteq (Ne.symm hb)]

/-- A worker pass keeps `s` subscribed and moves at most the head delivery for
`s` from its queue to what its listener heard. -/
theorem topic_workerStep_subscribed (w : TopicWorld) (s : SId) (t : TId) (qs : QId)
    (hs : Subscribed w s t qs) (q : QId) :
    Subscribed (w.workerStep q) s t qs ∧ (w.workerStep q).stream s qs = w.stream s qs := by
  have hset : ∀ s1 : EventQueue TopicTask,
      (q ≠ qs → s1.tasks_.filterMap (deliveryFor s) = []) →
      Subscribed { w with queues := Function.update w.queues q s1 } s t qs := by
    intro s1 h1
    refine ⟨hs.block, hs.lt, hs.once, hs.only, hs.fresh, hs.staying, hs.spared, ?_⟩
    intro q2 hq2
    by_cases h2 : q2 = q
    · subst h2
      simpa [pendingFor] using h1 hq2
    · simpa [pendingFor, Function.update_noteq h2] using hs.other q2 hq2
  have hkeep : ∀ s1 : EventQueue TopicTask, s1.tasks_ = (w.queues q).tasks_ →
      Subscribed { w with queues := Function.update w.queues q s1 } s t qs ∧
      ({ w with queues := Function.update w.queues q s1 } : TopicWorld).stream s qs
        = w.stream s qs := by
    intro s1 h1
    refine ⟨hset s1 (fun hq => by rw [h1]; exact hs.other q hq), ?_⟩
    by_cases hq : qs = q
    · subst hq
      simp [stream, pendingFor, h1]
    · simp [stream, pendingFor, Function.update_noteq hq]
  by_cases htr : (w.queues q).t_ = true
  · cases hq : (w.queues q).tasks_ with
    | nil =>
      by_cases hc : (!(w.queues q).running_ && (w.queues q).count_ == 0) = true
      · have : w.workerStep q
            = { w with queues := Function.update w.queues q { w.queues q with t_ := false } } := by
          simp [workerStep, EventQueue.pass, htr, hq, hc]
        rw [this]
        exact hkeep _ rfl
      · have : w.workerStep q
            = { w with queues := Function.update w.queues q (w.queues q) } := by
          simp [workerStep, EventQueue.pass, htr, hq, hc]
        rw [this]
        exact hkeep _ rfl
    | cons task rest =>
      have hrest : q ≠ qs → rest.filterMap (deliveryFor s) = [] := by
        intro hne
        have := hs.other q hne
        simp only [pendingFor, hq, List.filterMap_cons] at this
        split at this
        · exact this
        · simp at this
      cases hf : task.f with
      | delivery v b =>
        have hw : w.workerStep q
            = ({ w with queues := Function.update w.queues q { w.queues q with tasks_ := rest } }
                : TopicWorld).deliver v b := by
          simp [workerStep, EventQueue.pass, htr, hq, hf]
        rw [hw]
        have h0 := hset { w.queues q with tasks_ := rest } hrest
        obtain ⟨k1, k2⟩ := topic_deliver_subscribed _ s t qs h0 v b
        refine ⟨k1, ?_⟩
        simp only [stream, k2, pendingFor, topic_deliver_queues]
        by_cases hq2 : qs = q
        · subst hq2
          by_cases hb : b = s
          · subst hb
            simp [hq, List.filterMap_cons, deliveryFor, hf]
          · simp [hq, List.filterMap_cons, deliveryFor, hf, hb]
        · have hb : b ≠ s := by
            intro hb
            have := hs.other q (Ne.symm hq2)
            simp [pendingFor, hq, List.filterMap_cons, deliveryFor, hf, hb] at this
          simp [hb, Function.update_noteq hq2]
      | fanIn =>
        have hw : w.workerStep q
            = { w with queues := Function.update w.queues q { w.queues q with tasks_ := rest } } := by
          simp [workerStep, EventQueue.pass, htr, hq, hf]
        rw [hw]
        refine ⟨hset _ hrest, ?_⟩
        by_cases hq2 : qs = q
        · subst hq2
          simp [stream, pendingFor, hq, List.filterMap_cons, deliveryFor, hf]
        · simp [stream, pendingFor, Function.update_noteq hq2]
      | other =>
        have hw : w.workerStep q
            = { w with queues := Function.update w.queues q { w.queues q with tasks_ := rest } } := by
          simp [workerStep, EventQueue.pass, htr, hq, hf]
        rw [hw]
        refine ⟨hset _ hrest, ?_⟩
        by_cases hq2 : qs = q
        · subst hq2
          simp [stream, pendingFor, hq, List.filterMap_cons, deliveryFor, hf]
        · simp [stream, pendingFor, Function.update_noteq hq2]
  · have : w.workerStep q = { w with queues := Function.update w.queues q (w.queues q) } := by
      simp [workerStep, EventQueue.pass, htr]
    rw [this]
    exact hkeep _ rfl

theorem topic_published_append (t : TId) (xs ys : List Ev) :
    published t (xs ++ ys) = published t xs ++ published t ys := by
  induction xs with
  | nil => rfl
  | cons e es ih =>
    cases e with
    | publish cur t1 v =>
      by_cases h : t1 = t <;> simp [published, h, ih]
    | _ => simpa [published] using ih

/-- Every step that spares `s` keeps it subscribed and appends to its stream
exactly what the step publishes on its topic. -/
theorem topic_step_subscribed (w : TopicWorld) (s : SId) (t : TId) (qs : QId)
    (hs : Subscribed w s t qs) (e : Ev) (he : Ev.spares s e) :
    Subscribed (w.step e) s t qs ∧
      (w.step e).stream s qs = w.stream s qs ++ published t [e] := by
  cases e with
  | publish cur t1 v =>
    have h := topic_step_publish_subscribed w s t qs hs cur t1 v
    refine ⟨h.1, ?_⟩
    rw [step, h.2]
    by_cases ht : t1 = t <;> simp [published, ht]
  | subscribe cur t1 listener id =>
    have h := topic_step_subscribe_subscribed w s t qs hs cur t1 listener id he
    exact ⟨h.1, by simpa [published, step] using h.2⟩
  | unsubscribeLock s1 =>
    obtain ⟨k1, k2, k3, _⟩ := topic_unsubscribeLock_subscribed w s t qs hs s1 he
    exact ⟨k1, by simp [step, stream, pendingFor, k2, k3, published]⟩
  | unsubscribeRemove t1 s1 =>
    obtain ⟨k1, k2, k3, _⟩ := topic_unsubscribeRemove_subscribed w s t qs hs t1 s1
    exact ⟨k1, by simp [step, stream, pendingFor, k2, k3, published]⟩
  | worker q =>
    have h := topic_workerStep_subscribed w s t qs hs q
    exact ⟨h.1, by simpa [published, step] using h.2⟩
  | enqueueOther q id =>
    have hpend : ∀ q2, (w.AddTask q TopicTask.other id).pendingFor s q2 = w.pendingFor s q2 := by
      intro q2
      by_cases h2 : q2 = q
      · subst h2
        simp [pendingFor, AddTask, EventQueue.AddTask, List.filterMap_append, deliveryFor]
      · simp [pendingFor, AddTask, Function.update_noteq h2]
    refine ⟨⟨hs.block, hs.lt, hs.once, hs.only, hs.fresh, hs.staying, hs.spared, ?_⟩, ?_⟩
    · intro q2 hq2
      rw [step, hpend]
      exact hs.other q2 hq2
    · simp only [step, stream, hpend, published, List.append_nil]
      rfl
  | finish q =>
    have hpend : ∀ q2, ({ w with queues := Function.update w.queues q (w.queues q).Finish }
        : TopicWorld).pendingFor s q2 = w.pendingFor s q2 := by
      intro q2
      by_cases h2 : q2 = q
      · subst h2
        simp [pendingFor, EventQueue.Finish]
      · simp [pendingFor, Function.update_noteq h2]
    refine ⟨⟨hs.block, hs.lt, hs.once, hs.only, hs.fresh, hs.staying, hs.spared, ?_⟩, ?_⟩
    · intro q2 hq2
      rw [step, hpend]
      exact hs.other q2 hq2
    · simp only [step, stream, hpend, published, List.append_nil]

/-- Over every sequence of steps that spare `s`, the values its listener heard
followed by the deliveries that wait in its queue are the stream at the start
followed by the values published on its topic, in publish order. -/
theorem topic_exec_subscribed (evs : List Ev) (w : TopicWorld) (s : SId) (t : TId) (qs : QId)
    (hs : Subscribed w s t qs) (he : ∀ e ∈ evs, Ev.spares s e) :
    Subscribed (exec evs w) s t qs ∧
      (exec evs w).stream s qs = w.stream s qs ++ published t evs := by
  induction evs generalizing w with
  | nil => exact ⟨hs, by simp [exec, published]⟩
  | cons e es ih =>
    obtain ⟨k1, k2⟩ := topic_step_subscribed w s t qs hs e (he e (List.mem_cons_self _ _))
    obtain ⟨m1, m2⟩ := ih (w.step e) k1 (fun x hx => he x (List.mem_cons_of_mem _ hx))
    refine ⟨m1, ?_⟩
    rw [exec, m2, k2, List.append_assoc, ← topic_published_append]
    rfl

end TopicWorld

namespace TopicWorld

theorem topic_exec_append (xs ys : List Ev) (w : TopicWorld) :
    exec (xs ++ ys) w = exec ys (exec xs w) := by
  induction xs generalizing w with
  | nil => rfl
  | cons x xs ih => simp [exec, ih]

theorem topic_published_workers (t : TId) (q : QId) (n : Nat) :
    published t (List.replicate n (Ev.worker q)) = [] := by
  induction n with
  | zero => rfl
  | succ n ih => simpa [List.replicate_succ, published] using ih

theorem topic_workers_empty (n : Nat) (w : TopicWorld) (q : QId)
    (h : (w.queues q).tasks_ = []) :
    ((exec (List.replicate n (Ev.worker q)) w).queues q).tasks_ = [] := by
  induction n generalizing w with
  | zero => exact h
  | succ n ih =>
    rw [List.replicate_succ, exec]
    apply ih
    rw [step, topic_workerStep_queues, Function.update_same]
    simp only [EventQueue.pass, h]
    split
    · split
      · rfl
      · exact h
    · exact h

/-- A worker that is in its loop pops one task per pass. -/
theorem topic_workers_drop (n : Nat) (w : TopicWorld) (q : QId) (h : (w.queues q).t_ = true) :
    ((exec (List.replicate n (Ev.worker q)) w).queues q).tasks_ = (w.queues q).tasks_.drop n := by
  induction n generalizing w with
  | zero => rfl
  | succ n ih =>
    cases hq : (w.queues q).tasks_ with
    | nil => simpa using topic_workers_empty (n + 1) w q hq
    | cons a rest =>
      rw [List.replicate_succ, exec]
      have hstep : (w.step (Ev.worker q)).queues q = { w.queues q with tasks_ := rest } := by
        rw [step, topic_workerStep_queues, Function.update_same]
        simp [EventQueue.pass, h, hq]
      rw [ih (w.step (Ev.worker q)) (by rw [hstep]; exact h), hstep]
      simp

/-- The state right after the first `Subscribe` of a program: the new
subscription is subscribed, and nothing is published for it yet. -/
theorem topic_init_subscribed (qs : QId) (t : TId) (listener : Int → List Act) (id : String)
    (hl : ∀ k, ∀ a ∈ listener k, Act.spares 0 a) :
    Subscribed (init.Subscribe qs t listener id).1 0 t qs ∧
      (init.Subscribe qs t listener id).1.stream 0 qs = [] := by
  refine ⟨⟨?_, ?_, ?_, ?_, ?_, ?_, ?_, ?_⟩, ?_⟩
  · simp [Subscribe, Add, init]
  · simp [Subscribe, Add, init]
  · simp [Subscribe, Add, init]
  · intro t1 ht1
    simp [Subscribe, Add, init, Function.update_noteq ht1]
  · intro t1 s1 hm
    by_cases ht : t1 = t
    · subst ht
      simp only [Subscribe, Add, init, Function.update_same, List.nil_append,
        List.mem_singleton] at hm
      simp [Subscribe, Add, init, hm]
    · simp [Subscribe, Add, init, Function.update_noteq ht] at hm
  · simp [Subscribe, Add, init]
  · intro s1 k a ha
    by_cases h1 : s1 = 0
    · subst h1
      simp only [Subscribe, Add, init, Function.update_same] at ha
      exact hl k a ha
    · simp [Subscribe, Add, init, Function.update_noteq h1] at ha
  · intro q _
    simp [Subscribe, Add, init, pendingFor, EventQueue.new]
  · simp [stream, Subscribe, Add, init, pendingFor, EventQueue.new]

end TopicWorld

/-- C20: for every state in which the subscription `s` is subscribed to topic
`t` with delivery queue `qs`, and every sequence of steps of the threads in
which nobody unsubscribes `s` (publishes on any topic from any queue, other
subscriptions coming and going, worker passes, other tasks, `Finish`).  The
values the listener of `s` has been called with, followed by the values of the
deliveries waiting in its queue, are what they were at the start followed by
the values published on `t`, in publish order: every published value is
delivered once, in order and without gaps, and no delivery for `s` is in
another queue.  When the worker of `qs` is in its loop, enough of its passes
make the listener hear all of them. -/
theorem subscriber_hears_in_publish_order (w : TopicWorld) (s : SId) (t : TId) (qs : QId)
    (hs : TopicWorld.Subscribed w s t qs) (evs : List TopicWorld.Ev)
    (hsp : ∀ e ∈ evs, TopicWorld.Ev.spares s e) :
    (TopicWorld.exec evs w).heard s ++ (TopicWorld.exec evs w).pendingFor s qs
      = (w.heard s ++ w.pendingFor s qs) ++ TopicWorld.published t evs ∧
    (∀ q, q ≠ qs → (TopicWorld.exec evs w).pendingFor s q = []) ∧
    (((TopicWorld.exec evs w).queues qs).t_ = true →
      ∀ n, ((TopicWorld.exec evs w).queues qs).tasks_.length ≤ n →
        (TopicWorld.exec (evs ++ List.replicate n (TopicWorld.Ev.worker qs)) w).heard s
          = (w.heard s ++ w.pendingFor s qs) ++ TopicWorld.published t evs) := by
  obtain ⟨k1, k2⟩ := TopicWorld.topic_exec_subscribed evs w s t qs hs hsp
  refine ⟨k2, k1.other, ?_⟩
  intro ht n hn
  have hsp2 : ∀ e ∈ evs ++ List.replicate n (TopicWorld.Ev.worker qs),
      TopicWorld.Ev.spares s e := by
    intro e he
    rcases List.mem_append.mp he with he | he
    · exact hsp e he
    · rw [(List.mem_replicate.mp he).2]
      trivial
  obtain ⟨_, m2⟩ := TopicWorld.topic_exec_subscribed _ w s t qs hs hsp2
  have hdrop := TopicWorld.topic_workers_drop n (TopicWorld.exec evs w) qs ht
  rw [List.drop_of_length_le hn] at hdrop
  rw [TopicWorld.topic_published_append, TopicWorld.topic_published_workers,
    List.append_nil] at m2
  have m3 : (TopicWorld.exec (evs ++ List.replicate n (TopicWorld.Ev.worker qs)) w).stream s qs
      = (TopicWorld.exec (evs ++ List.replicate n (TopicWorld.Ev.worker qs)) w).heard s := by
    simp only [TopicWorld.stream, TopicWorld.pendingFor]
    rw [TopicWorld.topic_exec_append, hdrop]
    simp
  rw [← m3, m2]
  rfl

/-- C20, at the test `LongerSubscription`: the consumer subscribes on queue 1,
the publisher publishes 0 to 10 from queue 2, and the worker of queue 1 makes
eleven passes. -/
theorem subscriber_hears_in_publish_order_witness :
    (TopicWorld.exec ((List.range 11).map (fun k => TopicWorld.Ev.publish 2 0 k) ++
        List.replicate 11 (TopicWorld.Ev.worker 1))
      (TopicWorld.init.Subscribe 1 0 (fun k => [Act.push k]) "").1).heard 0
      = ((TopicWorld.init.Subscribe 1 0 (fun k => [Act.push k]) "").1.heard 0 ++
          (TopicWorld.init.Subscribe 1 0 (fun k => [Act.push k]) "").1.pendingFor 0 1) ++
        TopicWorld.published 0 ((List.range 11).map (fun k => TopicWorld.Ev.publish 2 0 k)) :=
  (subscriber_hears_in_publish_order
    (TopicWorld.init.Subscribe 1 0 (fun k => [Act.push k]) "").1 0 0 1
    (TopicWorld.topic_init_subscribed 1 0 (fun k => [Act.push k]) ""
      (by intro k a ha; simp at ha; subst ha; trivial)).1
    ((List.range 11).map (fun k => TopicWorld.Ev.publish 2 0 k))
    (by intro e he; simp at he; obtain ⟨k, _, hk⟩ := he; subst hk; trivial)).2.2
    rfl 11 (by decide)

/-! ## Topic: `Unsubscribe` -/

namespace TopicWorld

theorem topic_init_listed : Listed init := by
  refine ⟨?_, ?_, ?_, ?_, ?_, ?_⟩ <;> simp [init]

theorem topic_Subscribe_listed (w : TopicWorld) (h : Listed w) (cur : QId) (t : TId)
    (listener : Int → List Act) (id : String) : Listed (w.Subscribe cur t listener id).1 := by
  have hnew : w.blockCount ∉ w.topics t := fun hm => Nat.lt_irrefl _ (h.fresh t _ hm)
  refine ⟨?_, ?_, ?_, ?_, ?_, ?_⟩
  · intro t1 s hm
    simp only [Subscribe, Add] at hm ⊢
    by_cases ht : t1 = t
    · subst ht
      simp only [Function.update_same, List.mem_append, List.mem_singleton] at hm
      rcases hm with hm | hm
      · exact Nat.lt_succ_of_lt (h.fresh t1 s hm)
      · rw [hm]; exact Nat.lt_succ_self _
    · simp only [Function.update_noteq ht] at hm
      exact Nat.lt_succ_of_lt (h.fresh t1 s hm)
  · intro t1
    simp only [Subscribe, Add]
    by_cases ht : t1 = t
    · subst ht
      simp only [Function.update_same]
      exact List.Nodup.append (h.nodup t1) (List.nodup_singleton _)
        (by simpa using hnew)
    · simp only [Function.update_noteq ht]
      exact h.nodup t1
  · intro t1 s hm
    simp only [Subscribe, Add] at hm ⊢
    by_cases ht : t1 = t
    · subst ht
      simp only [Function.update_same, List.mem_append, List.mem_singleton] at hm
      rcases hm with hm | hm
      · have hne : s ≠ w.blockCount := Nat.ne_of_lt (h.fresh t1 s hm)
        simpa [Function.update_noteq hne] using h.owner t1 s hm
      · subst hm
        simp
    · simp only [Function.update_noteq ht] at hm
      have hne : s ≠ w.blockCount := Nat.ne_of_lt (h.fresh t1 s hm)
      simpa [Function.update_noteq hne] using h.owner t1 s hm
  · intro t1 s hm
    simp only [Subscribe, Add] at hm ⊢
    have hp := h.pending t1 s hm
    have hne : s ≠ w.blockCount := Nat.ne_of_lt hp.2
    exact ⟨by simpa [Function.update_noteq hne] using hp.1, Nat.lt_succ_of_lt hp.2⟩
  · simpa [Subscribe, Add] using h.single
  · intro s hs
    simp only [Subscribe, Add] at hs ⊢
    by_cases hne : s = w.blockCount
    · rw [hne]; exact Nat.lt_succ_self _
    · simp only [Function.update_noteq hne] at hs
      exact Nat.lt_succ_of_lt (h.alloc s hs)

theorem topic_unsubscribeLock_listed (w : TopicWorld) (h : Listed w) (s : SId) :
    Listed (w.unsubscribeLock s) := by
  cases ht : (w.blocks s).topic with
  | none =>
    have : w.unsubscribeLock s = w := by simp [unsubscribeLock, ht]
    rw [this]
    exact h
  | some t =>
    have hw : w.unsubscribeLock s =
        { w with blocks := Function.update w.blocks s { w.blocks s with topic := none }
                 removing := w.removing ++ [(t, s)] } := by
      simp [unsubscribeLock, ht]
    rw [hw]
    have hnot : ∀ t1, (t1, s) ∉ w.removing := by
      intro t1 hm
      have := (h.pending t1 s hm).1
      rw [ht] at this
      simp at this
    refine ⟨h.fresh, h.nodup, ?_, ?_, ?_, ?_⟩
    · intro t1 s1 hm
      by_cases hs : s1 = s
      · subst hs
        rcases h.owner t1 s1 hm with ho | ho
        · rw [ht] at ho
          simp only [Option.some.injEq] at ho
          subst ho
          right
          simp
        · exact absurd ho (hnot t1)
      · rcases h.owner t1 s1 hm with ho | ho
        · left
          simpa [Function.update_noteq hs] using ho
        · right
          simp [ho]
    · intro t1 s1 hm
      simp only [List.mem_append, List.mem_singleton, Prod.mk.injEq] at hm
      rcases hm with hm | hm
      · have hs : s1 ≠ s := by
          intro hs
          rw [hs] at hm
          exact hnot t1 hm
        have hp := h.pending t1 s1 hm
        exact ⟨by simpa [Function.update_noteq hs] using hp.1, hp.2⟩
      · rw [hm.2]
        exact ⟨by simp, h.alloc s (by rw [ht]; simp)⟩
    · simp only [List.map_append, List.map_cons, List.map_nil]
      apply List.Nodup.append h.single (List.nodup_singleton _)
      intro x hx hx2
      simp only [List.mem_singleton] at hx2
      simp only [List.mem_map] at hx
      obtain ⟨p, hp, hps⟩ := hx
      apply hnot p.1
      rw [← hx2, ← hps]
      exact hp
    · intro s1 hs1
      by_cases hs : s1 = s
      · subst hs
        simp at hs1
      · simp only [Function.update_noteq hs] at hs1
        exact h.alloc s1 hs1

theorem topic_unsubscribeRemove_listed (w : TopicWorld) (h : Listed w) (t : TId) (s : SId) :
    Listed (w.unsubscribeRemove t s) := by
  by_cases hm : (t, s) ∈ w.removing
  · have hw : w.unsubscribeRemove t s =
        { w with topics := Function.update w.topics t ((w.topics t).erase s)
                 removing := w.removing.erase (t, s) } := by
      simp [unsubscribeRemove, hm, Remove]
    rw [hw]
    refine ⟨?_, ?_, ?_, ?_, ?_, h.alloc⟩
    · intro t1 s1 hmem
      by_cases ht : t1 = t
      · subst ht
        simp only [Function.update_same] at hmem
        exact h.fresh t1 s1 (List.mem_of_mem_erase hmem)
      · simp only [Function.update_noteq ht] at hmem
        exact h.fresh t1 s1 hmem
    · intro t1
      by_cases ht : t1 = t
      · subst ht
        simp only [Function.update_same]
        exact (h.nodup t1).erase s
      · simp only [Function.update_noteq ht]
        exact h.nodup t1
    · intro t1 s1 hmem
      by_cases ht : t1 = t
      · subst ht
        simp only [Function.update_same] at hmem
        have hne : s1 ≠ s := ((h.nodup t1).mem_erase_iff.mp hmem).1
        rcases h.owner t1 s1 (List.mem_of_mem_erase hmem) with ho | ho
        · exact Or.inl ho
        · right
          exact (List.mem_erase_of_ne (by simp [hne])).mpr ho
      · simp only [Function.update_noteq ht] at hmem
        rcases h.owner t1 s1 hmem with ho | ho
        · exact Or.inl ho
        · right
          exact (List.mem_erase_of_ne (by simp [ht])).mpr ho
    · intro t1 s1 hmem
      exact h.pending t1 s1 (List.mem_of_mem_erase hmem)
    · exact h.single.sublist ((List.erase_sublist _ _).map Prod.snd)
  · have : w.unsubscribeRemove t s = w := by simp [unsubscribeRemove, hm]
    rw [this]
    exact h

theorem topic_Unsubscribe_listed (w : TopicWorld) (h : Listed w) (s : SId) :
    Listed (w.Unsubscribe s) := by
  cases ht : (w.blocks s).topic with
  | none =>
    have : w.Unsubscribe s = w := by simp [Unsubscribe, ht]
    rw [this]
    exact h
  | some t =>
    have hw : w.Unsubscribe s = (w.unsubscribeLock s).unsubscribeRemove t s := by
      simp [Unsubscribe, ht]
    rw [hw]
    exact topic_unsubscribeRemove_listed _ (topic_unsubscribeLock_listed w h s) t s

theorem topic_acts_listed (acts : List Act) (w : TopicWorld) (h : Listed w) (b : SId) :
    Listed (acts.foldl (act b) w) := by
  induction acts generalizing w with
  | nil => exact h
  | cons a rest ih =>
    apply ih
    cases a with
    | push k => exact ⟨h.fresh, h.nodup, h.owner, h.pending, h.single, h.alloc⟩
    | unsubscribe s1 => exact topic_Unsubscribe_listed w h s1

theorem topic_queues_listed (w : TopicWorld) (h : Listed w)
    (qs : QId → EventQueue TopicTask) : Listed { w with queues := qs } :=
  ⟨h.fresh, h.nodup, h.owner, h.pending, h.single, h.alloc⟩

theorem topic_deliver_listed (w : TopicWorld) (h : Listed w) (v : Int) (b : SId) :
    Listed (w.deliver v b) := by
  cases ht : (w.blocks b).topic with
  | none => simpa [deliver, ht] using h
  | some t1 =>
    simp only [deliver, ht]
    apply topic_acts_listed
    exact ⟨h.fresh, h.nodup, h.owner, h.pending, h.single, h.alloc⟩

theorem topic_workerStep_listed (w : TopicWorld) (h : Listed w) (q : QId) :
    Listed (w.workerStep q) := by
  simp only [workerStep]
  cases hp : (w.queues q).pass with
  | mk s p =>
    cases p with
    | popped task =>
      cases hf : task.f with
      | delivery v b =>
        simp only [hf]
        exact topic_deliver_listed _ (topic_queues_listed w h _) v b
      | fanIn => simpa [hf] using topic_queues_listed w h _
      | other => simpa [hf] using topic_queues_listed w h _
    | stopped => exact topic_queues_listed w h _
    | exited => exact topic_queues_listed w h _
    | waiting => exact topic_queues_listed w h _

/-- Every step keeps the shape of the reachable states. -/
theorem topic_step_listed (w : TopicWorld) (h : Listed w) (e : Ev) : Listed (w.step e) := by
  cases e with
  | publish cur t v =>
    have hr := topic_Publish_rest w cur t v
    refine ⟨?_, ?_, ?_, ?_, ?_, ?_⟩
    · rw [step, hr.1, hr.2.2.1]; exact h.fresh
    · rw [step, hr.1]; exact h.nodup
    · rw [step, hr.1, hr.2.1, hr.2.2.2.2.2]; exact h.owner
    · rw [step, hr.2.1, hr.2.2.1, hr.2.2.2.2.2]; exact h.pending
    · rw [step, hr.2.2.2.2.2]; exact h.single
    · rw [step, hr.2.1, hr.2.2.1]; exact h.alloc
  | subscribe cur t listener id => exact topic_Subscribe_listed w h cur t listener id
  | unsubscribeLock s => exact topic_unsubscribeLock_listed w h s
  | unsubscribeRemove t s => exact topic_unsubscribeRemove_listed w h t s
  | worker q => exact topic_workerStep_listed w h q
  | enqueueOther q id => exact topic_queues_listed w h _
  | finish q => exact topic_queues_listed w h _

theorem topic_exec_listed (evs : List Ev) (w : TopicWorld) (h : Listed w) :
    Listed (exec evs w) := by
  induction evs generalizing w with
  | nil => exact h
  | cons e es ih => exact ih (w.step e) (topic_step_listed w h e)

end TopicWorld

namespace TopicWorld

/-- `Unsubscribe` allocates nothing, calls no listener, adds nothing to a list
and sets no back-pointer. -/
theorem topic_Unsubscribe_shrinks (w : TopicWorld) (s1 : SId) :
    (w.Unsubscribe s1).blockCount = w.blockCount ∧ (w.Unsubscribe s1).heard = w.heard ∧
    (∀ t x, x ∈ (w.Unsubscribe s1).topics t → x ∈ w.topics t) ∧
    (∀ s, (w.blocks s).topic = none → ((w.Unsubscribe s1).blocks s).topic = none) := by
  cases ht : (w.blocks s1).topic with
  | none => simp [Unsubscribe, ht]
  | some t1 =>
    have hw : w.Unsubscribe s1 =
        { w with blocks := Function.update w.blocks s1 { w.blocks s1 with topic := none }
                 topics := Function.update w.topics t1 ((w.topics t1).erase s1)
                 removing := (w.removing ++ [(t1, s1)]).erase (t1, s1) } := by
      simp [Unsubscribe, ht, unsubscribeLock, unsubscribeRemove, Remove]
    rw [hw]
    refine ⟨rfl, rfl, ?_, ?_⟩
    · intro t x hx
      by_cases h : t = t1
      · subst h
        simp only [Function.update_same] at hx
        exact List.mem_of_mem_erase hx
      · simpa [Function.update_noteq h] using hx
    · intro s hs
      by_cases h : s = s1
      · subst h
        simp
      · simpa [Function.update_noteq h] using hs

theorem topic_acts_shrinks (acts : List Act) (w : TopicWorld) (b : SId) :
    (acts.foldl (act b) w).blockCount = w.blockCount ∧
    (acts.foldl (act b) w).heard = w.heard ∧
    (∀ t x, x ∈ (acts.foldl (act b) w).topics t → x ∈ w.topics t) ∧
    (∀ s, (w.blocks s).topic = none → ((acts.foldl (act b) w).blocks s).topic = none) := by
  induction acts generalizing w with
  | nil => exact ⟨rfl, rfl, fun _ _ h => h, fun _ h => h⟩
  | cons a rest ih =>
    obtain ⟨k1, k2, k3, k4⟩ := ih (act b w a)
    have hstep : (act b w a).blockCount = w.blockCount ∧ (act b w a).heard = w.heard ∧
        (∀ t x, x ∈ (act b w a).topics t → x ∈ w.topics t) ∧
        (∀ s, (w.blocks s).topic = none → ((act b w a).blocks s).topic = none) := by
      cases a with
      | push k => exact ⟨rfl, rfl, fun _ _ h => h, fun _ h => h⟩
      | unsubscribe s1 => exact topic_Unsubscribe_shrinks w s1
    exact ⟨k1.trans hstep.1, k2.trans hstep.2.1, fun t x hx => hstep.2.2.1 t x (k3 t x hx),
      fun s hs => k4 s (hstep.2.2.2 s hs)⟩

/-- A delivery allocates nothing, adds nothing to a list, sets no back-pointer,
and does not call the listener of a block whose back-pointer is null. -/
theorem topic_deliver_shrinks (w : TopicWorld) (v : Int) (b : SId) :
    (w.deliver v b).blockCount = w.blockCount ∧
    (∀ t x, x ∈ (w.deliver v b).topics t → x ∈ w.topics t) ∧
    (∀ s, (w.blocks s).topic = none →
      ((w.deliver v b).blocks s).topic = none ∧ (w.deliver v b).heard s = w.heard s) := by
  cases ht : (w.blocks b).topic with
  | none =>
    have : w.deliver v b = w := by simp [deliver, ht]
    rw [this]
    exact ⟨rfl, fun _ _ h => h, fun _ h => ⟨h, rfl⟩⟩
  | some t1 =>
    simp only [deliver, ht]
    obtain ⟨k1, k2, k3, k4⟩ := topic_acts_shrinks ((w.blocks b).listener v)
      { w with heard := Function.update w.heard b (w.heard b ++ [v]) } b
    refine ⟨k1, k3, ?_⟩
    intro s hs
    refine ⟨k4 s hs, ?_⟩
    rw [k2]
    have hne : s ≠ b := by
      intro h
      rw [h, ht] at hs
      simp at hs
    simp [Function.update_noteq hne]

theorem topic_workerStep_shrinks (w : TopicWorld) (q : QId) :
    (w.workerStep q).blockCount = w.blockCount ∧
    (∀ t x, x ∈ (w.workerStep q).topics t → x ∈ w.topics t) ∧
    (∀ s, (w.blocks s).topic = none →
      ((w.workerStep q).blocks s).topic = none ∧ (w.workerStep q).heard s = w.heard s) := by
  simp only [workerStep]
  cases hp : (w.queues q).pass with
  | mk s p =>
    cases p with
    | popped task =>
      cases hf : task.f with
      | delivery v b =>
        simp only [hf]
        exact topic_deliver_shrinks _ v b
      | fanIn => simp [hf]
      | other => simp [hf]
    | stopped => simp
    | exited => simp
    | waiting => simp

/-- Once the back-pointer of `s` is null it stays null and the listener of `s`
is not called again; once `s` is in no list it stays in no list. -/
theorem topic_step_off (w : TopicWorld) (s : SId) (e : Ev) :
    (Cleared w s → Cleared (w.step e) s ∧ (w.step e).heard s = w.heard s) ∧
    (Gone w s → Gone (w.step e) s) := by
  cases e with
  | publish cur t v =>
    have hr := topic_Publish_rest w cur t v
    refine ⟨fun h => ⟨?_, ?_⟩, fun h => ?_⟩
    · simp only [step, Cleared, hr.2.1, hr.2.2.1]; exact h
    · simp only [step, hr.2.2.2.2.1]
    · simp only [step, Gone, hr.1, hr.2.2.1]; exact h
  | subscribe cur t listener id =>
    refine ⟨fun h => ⟨?_, rfl⟩, fun h => ?_⟩
    · have hne : s ≠ w.blockCount := Nat.ne_of_lt h.1
      exact ⟨Nat.lt_succ_of_lt h.1, by simpa [step, Subscribe, Add, Function.update_noteq hne] using h.2⟩
    · have hne : s ≠ w.blockCount := Nat.ne_of_lt h.1
      refine ⟨Nat.lt_succ_of_lt h.1, ?_⟩
      intro t1
      by_cases ht : t1 = t
      · subst ht
        simp only [step, Subscribe, Add, Function.update_same, List.mem_append,
          List.mem_singleton, not_or]
        exact ⟨h.2 t1, hne⟩
      · simpa [step, Subscribe, Add, Function.update_noteq ht] using h.2 t1
  | unsubscribeLock s1 =>
    cases ht : (w.blocks s1).topic with
    | none =>
      have : w.step (Ev.unsubscribeLock s1) = w := by simp [step, unsubscribeLock, ht]
      rw [this]
      exact ⟨fun h => ⟨h, rfl⟩, fun h => h⟩
    | some t1 =>
      refine ⟨fun h => ⟨⟨?_, ?_⟩, ?_⟩, fun h => ?_⟩
      · simpa [step, unsubscribeLock, ht] using h.1
      · by_cases hs : s = s1
        · subst hs
          simp [step, unsubscribeLock, ht]
        · simpa [step, unsubscribeLock, ht, Function.update_noteq hs] using h.2
      · simp [step, unsubscribeLock, ht]
      · simpa [step, unsubscribeLock, ht, Gone] using h
  | unsubscribeRemove t1 s1 =>
    by_cases hm : (t1, s1) ∈ w.removing
    · refine ⟨fun h => ⟨?_, ?_⟩, fun h => ⟨?_, ?_⟩⟩
      · simpa [step, unsubscribeRemove, hm, Remove, Cleared] using h
      · simp [step, unsubscribeRemove, hm, Remove]
      · simpa [step, unsubscribeRemove, hm, Remove] using h.1
      · intro t
        by_cases ht : t = t1
        · subst ht
          simp only [step, unsubscribeRemove, hm, Remove, if_true, Function.update_same]
          intro hmem
          exact h.2 t (List.mem_of_mem_erase hmem)
        · simpa [step, unsubscribeRemove, hm, Remove, Function.update_noteq ht] using h.2 t
    · have : w.step (Ev.unsubscribeRemove t1 s1) = w := by simp [step, unsubscribeRemove, hm]
      rw [this]
      exact ⟨fun h => ⟨h, rfl⟩, fun h => h⟩
  | worker q =>
    obtain ⟨k1, k2, k3⟩ := topic_workerStep_shrinks w q
    refine ⟨fun h => ⟨⟨?_, (k3 s h.2).1⟩, (k3 s h.2).2⟩, fun h => ⟨?_, ?_⟩⟩
    · simp only [step, k1]; exact h.1
    · simp only [step, k1]; exact h.1
    · intro t hmem
      exact h.2 t (k2 t s hmem)
  | enqueueOther q id => exact ⟨fun h => ⟨h, rfl⟩, fun h => h⟩
  | finish q => exact ⟨fun h => ⟨h, rfl⟩, fun h => h⟩

theorem topic_exec_off (evs : List Ev) (w : TopicWorld) (s : SId) :
    (Cleared w s → Cleared (exec evs w) s ∧ (exec evs w).heard s = w.heard s) ∧
    (Gone w s → Gone (exec evs w) s) := by
  induction evs generalizing w with
  | nil => exact ⟨fun h => ⟨h, rfl⟩, fun h => h⟩
  | cons e es ih =>
    have h1 := topic_step_off w s e
    have h2 := ih (w.step e)
    refine ⟨fun h => ?_, fun h => ?_⟩
    · obtain ⟨k1, k2⟩ := h1.1 h
      obtain ⟨m1, m2⟩ := h2.1 k1
      exact ⟨m1, m2.trans k2⟩
    · exact h2.2 (h1.2 h)

/-- The `Remove` of the thread that cleared the back-pointer of `s` takes `s`
out of every list. -/
theorem topic_unsubscribeRemove_gone (w : TopicWorld) (h : Listed w) (t : TId) (s : SId)
    (hm : (t, s) ∈ w.removing) :
    Gone (w.unsubscribeRemove t s) s ∧ Cleared (w.unsubscribeRemove t s) s := by
  have hp := h.pending t s hm
  have hw : w.unsubscribeRemove t s =
      { w with topics := Function.update w.topics t ((w.topics t).erase s)
               removing := w.removing.erase (t, s) } := by
    simp [unsubscribeRemove, hm, Remove]
  rw [hw]
  refine ⟨⟨hp.2, ?_⟩, ⟨hp.2, hp.1⟩⟩
  intro t1
  by_cases ht : t1 = t
  · subst ht
    simp only [Function.update_same]
    intro hmem
    exact ((h.nodup t1).mem_erase_iff.mp hmem).1 rfl
  · simp only [Function.update_noteq ht]
    intro hmem
    rcases h.owner t1 s hmem with ho | ho
    · rw [hp.1] at ho
      simp at ho
    · have hinj := List.inj_on_of_nodup_map h.single ho hm rfl
      simp only [Prod.mk.injEq] at hinj
      exact ht hinj.1

end TopicWorld

/-! ## Topic: runs of consecutive values -/

namespace TopicWorld

theorem topic_counting_self (a : Nat) : counting a a = [] := by
  simp [counting]

theorem topic_counting_cons (a b : Nat) (h : a < b) :
    counting a b = (a : Int) :: counting (a + 1) b := by
  have hb : b - a = (b - (a + 1)) + 1 := by omega
  simp only [counting]
  rw [hb, List.range'_succ]
  simp

theorem topic_counting_snoc (a b : Nat) (h : a ≤ b) :
    counting a b ++ [(b : Int)] = counting a (b + 1) := by
  have hb : b + 1 - a = (b - a) + 1 := by omega
  simp only [counting]
  rw [hb, List.range'_concat]
  simp
  omega

theorem topic_counting_length (a b : Nat) : (counting a b).length = b - a := by
  simp [counting]

theorem topic_counting_nil (a b : Nat) (h : counting a b = []) : b ≤ a := by
  have := topic_counting_length a b
  rw [h] at this
  simp at this
  omega

end TopicWorld

/-! ## Topic: the moves of a worker inside a delivery -/

namespace DeliveryWorld

theorem deliv_exec_append (xs ys : List TopicWorld.Ev) (w : DeliveryWorld) :
    exec (xs ++ ys) w = exec ys (exec xs w) := by
  induction xs generalizing w with
  | nil => rfl
  | cons x xs ih => simp [exec, ih]

/-- A step of a thread other than a worker is the step of `TopicWorld` and
leaves the moves of every worker as they are. -/
theorem deliv_step_base (w : DeliveryWorld) (e : TopicWorld.Ev)
    (h : ∀ q, e ≠ TopicWorld.Ev.worker q) :
    (w.step e).base = w.base.step e ∧ (w.step e).todo = w.todo := by
  cases e with
  | worker q => exact absurd rfl (h q)
  | publish cur t v => exact ⟨rfl, rfl⟩
  | subscribe cur t listener id => exact ⟨rfl, rfl⟩
  | unsubscribeLock s => exact ⟨rfl, rfl⟩
  | unsubscribeRemove t s => exact ⟨rfl, rfl⟩
  | enqueueOther q id => exact ⟨rfl, rfl⟩
  | finish q => exact ⟨rfl, rfl⟩

/-- A move of the worker of `q` leaves the moves of the other workers as they
are. -/
theorem deliv_workerStep_todo (w : DeliveryWorld) (q q1 : QId) (h : q1 ≠ q) :
    (w.workerStep q).todo q1 = w.todo q1 := by
  simp only [workerStep]
  cases hq : w.todo q with
  | cons m rest => simp [Function.update_noteq h]
  | nil =>
    cases hp : (w.base.queues q).pass with
    | mk u p =>
      cases p with
      | popped task =>
        cases hf : task.f with
        | delivery v b =>
          cases ht : (w.base.blocks b).topic <;>
            simp [hf, ht, Function.update_noteq h, setQueue]
        | fanIn => simp [hf, setQueue]
        | other => simp [hf, setQueue]
      | stopped => rfl
      | exited => rfl
      | waiting => rfl

/-- Only the worker of `q` changes the moves it owes. -/
theorem deliv_step_todo (w : DeliveryWorld) (e : TopicWorld.Ev) (q : QId)
    (h : e ≠ TopicWorld.Ev.worker q) : (w.step e).todo q = w.todo q := by
  cases e with
  | worker q1 =>
    have hne : q ≠ q1 := fun x => h (by rw [x])
    exact deliv_workerStep_todo w q1 q hne
  | publish cur t v => rfl
  | subscribe cur t listener id => rfl
  | unsubscribeLock s => rfl
  | unsubscribeRemove t s => rfl
  | enqueueOther q id => rfl
  | finish q => rfl

theorem deliv_exec_todo (evs : List TopicWorld.Ev) (w : DeliveryWorld) (q : QId)
    (h : ∀ e ∈ evs, e ≠ TopicWorld.Ev.worker q) : (exec evs w).todo q = w.todo q := by
  induction evs generalizing w with
  | nil => rfl
  | cons e es ih =>
    simp only [exec]
    rw [ih _ (fun x hx => h x (List.mem_cons_of_mem _ hx)),
      deliv_step_todo w e q (h e (List.mem_cons_self _ _))]

/-- What a move inside a delivery leaves alone: it allocates nothing, touches
no queue and no thread inside `Unsubscribe`, adds nothing to a list and sets no
back-pointer. -/
theorem deliv_runMove_shrinks (w : TopicWorld) (m : Move) :
    (runMove w m).1.blockCount = w.blockCount ∧ (runMove w m).1.queues = w.queues ∧
    (runMove w m).1.removing = w.removing ∧
    (∀ t x, x ∈ (runMove w m).1.topics t → x ∈ w.topics t) ∧
    (∀ s, (w.blocks s).topic = none → ((runMove w m).1.blocks s).topic = none) ∧
    (∀ s, ((runMove w m).1.blocks s).q = (w.blocks s).q ∧
      ((runMove w m).1.blocks s).listener = (w.blocks s).listener) := by
  cases m with
  | call v b => simp [runMove]
  | stmt b a =>
    cases a with
    | push k => simp [runMove]
    | unsubscribe s1 =>
      cases ht : (w.blocks s1).topic with
      | none => simp [runMove, ht]
      | some t =>
        have e : runMove w (Move.stmt b (Act.unsubscribe s1))
            = (⟨w.queues, w.topics, Function.update w.blocks s1
                ⟨none, (w.blocks s1).q, (w.blocks s1).listener, (w.blocks s1).id⟩,
                w.blockCount, w.received, w.heard, w.removing⟩, [Move.remove t s1]) := by
          simp [runMove, ht]
        rw [e]
        refine ⟨rfl, rfl, rfl, fun _ _ h => h, ?_, ?_⟩
        · intro s hs
          by_cases h : s = s1
          · subst h; simp
          · simpa [Function.update_noteq h] using hs
        · intro s
          by_cases h : s = s1
          · subst h; simp
          · simp [Function.update_noteq h]
  | remove t s1 =>
    have e : runMove w (Move.remove t s1) = (w.Remove t s1, []) := rfl
    rw [e]
    refine ⟨rfl, rfl, rfl, ?_, fun _ h => h, fun _ => ⟨rfl, rfl⟩⟩
    intro t1 x hx
    simp only [TopicWorld.Remove] at hx
    by_cases h : t1 = t
    · subst h
      simp only [Function.update_same] at hx
      exact List.mem_of_mem_erase hx
    · simpa [Function.update_noteq h] using hx

/-- A pass that pops a task finds the worker in its loop and the task at the
head of the FIFO. -/
theorem deliv_pass_popped {α : Type} (q : EventQueue α) (u : EventQueue α) (task : Task α)
    (h : q.pass = (u, EventQueue.Pass.popped task)) :
    q.t_ = true ∧ ∃ rest, q.tasks_ = task :: rest ∧ u = { q with tasks_ := rest } := by
  by_cases ht : q.t_ = true
  · cases hts : q.tasks_ with
    | nil =>
      by_cases hc : (!q.running_ && q.count_ == 0) = true <;>
        simp [EventQueue.pass, ht, hts, hc] at h
    | cons a rest =>
      rw [EventQueue.pass, if_pos ht, hts] at h
      simp only [Prod.mk.injEq, EventQueue.Pass.popped.injEq] at h
      exact ⟨ht, rest, by rw [h.2], h.1.symm⟩
  · simp [EventQueue.pass, ht] at h

/-- A pass that pops no task leaves the FIFO as it is. -/
theorem deliv_pass_idle {α : Type} (q : EventQueue α)
    (h : ∀ task, q.pass.2 ≠ EventQueue.Pass.popped task) :
    q.pass.1.tasks_ = q.tasks_ := by
  by_cases ht : q.t_ = true
  · cases hts : q.tasks_ with
    | nil =>
      by_cases hc : (!q.running_ && q.count_ == 0) = true <;>
        simp [EventQueue.pass, ht, hts, hc]
    | cons a rest =>
      exact absurd (by simp [EventQueue.pass, ht, hts]) (h a)
  · simp [EventQueue.pass, ht]

/-- The state after a move of a worker: the state after the move it owes, or
one pass of its loop, after which it owes nothing or, past the check of a
delivery, the call of the listener. -/
theorem deliv_workerStep_cases (w : DeliveryWorld) (q : QId) :
    (∃ m rest, w.todo q = m :: rest ∧ (w.workerStep q).base = (runMove w.base m).1 ∧
      (w.workerStep q).todo q = (runMove w.base m).2 ++ rest) ∨
    (w.todo q = [] ∧
      (w.workerStep q).base = (w.setQueue q (w.base.queues q).pass.1).base ∧
      ((w.workerStep q).todo q = [] ∨
        ∃ id v b rest, (w.base.queues q).tasks_ = ⟨id, TopicTask.delivery v b⟩ :: rest ∧
          (w.base.queues q).t_ = true ∧
          (w.base.queues q).pass.1 = { w.base.queues q with tasks_ := rest } ∧
          (w.base.blocks b).topic ≠ none ∧ (w.workerStep q).todo q = [Move.call v b])) := by
  cases hq : w.todo q with
  | cons m rest =>
    left
    exact ⟨m, rest, rfl, by simp [workerStep, hq], by simp [workerStep, hq]⟩
  | nil =>
    right
    refine ⟨rfl, ?_⟩
    cases hp : (w.base.queues q).pass with
    | mk u p =>
      cases p with
      | popped task =>
        obtain ⟨ht, rest, hts, hu⟩ := deliv_pass_popped _ u task hp
        obtain ⟨id, f⟩ := task
        cases f with
        | delivery v b =>
          cases hb : (w.base.blocks b).topic with
          | none => exact ⟨by simp [workerStep, hq, hp, hb], Or.inl (by
              simp [workerStep, hq, hp, hb, setQueue])⟩
          | some t1 =>
            refine ⟨by simp [workerStep, hq, hp, hb], Or.inr ⟨id, v, b, rest, hts, ht, hu, ?_, ?_⟩⟩
            · rw [hb]; simp
            · simp [workerStep, hq, hp, hb]
        | fanIn => exact ⟨by simp [workerStep, hq, hp], Or.inl (by simp [workerStep, hq, hp, setQueue])⟩
        | other => exact ⟨by simp [workerStep, hq, hp], Or.inl (by simp [workerStep, hq, hp, setQueue])⟩
      | stopped => exact ⟨by simp [workerStep, hq, hp], Or.inl (by simp [workerStep, hq, hp, setQueue])⟩
      | exited => exact ⟨by simp [workerStep, hq, hp], Or.inl (by simp [workerStep, hq, hp, setQueue])⟩
      | waiting => exact ⟨by simp [workerStep, hq, hp], Or.inl (by simp [workerStep, hq, hp, setQueue])⟩

end DeliveryWorld

namespace DeliveryWorld

theorem deliv_init_listed : Listed init := by
  refine ⟨?_, ?_, ?_⟩ <;> simp [init, TopicWorld.init]

/-- A change of the queues keeps the shape. -/
theorem deliv_queues_listed (w : DeliveryWorld) (h : Listed w)
    (qs : QId → EventQueue TopicTask) :
    Listed { w with base := { w.base with queues := qs } } :=
  ⟨h.fresh, h.nodup, h.owner⟩

theorem deliv_setQueue_listed (w : DeliveryWorld) (h : Listed w) (q : QId)
    (u : EventQueue TopicTask) : Listed (w.setQueue q u) :=
  ⟨h.fresh, h.nodup, h.owner⟩

theorem deliv_Subscribe_listed (w : DeliveryWorld) (h : Listed w) (cur : QId) (t : TId)
    (listener : Int → List Act) (id : String) :
    Listed { w with base := (w.base.Subscribe cur t listener id).1 } := by
  have hnew : w.base.blockCount ∉ w.base.topics t :=
    fun hm => Nat.lt_irrefl _ (h.fresh t _ hm)
  refine ⟨?_, ?_, ?_⟩
  · intro t1 s hm
    simp only [TopicWorld.Subscribe, TopicWorld.Add] at hm ⊢
    by_cases ht : t1 = t
    · subst ht
      simp only [Function.update_same, List.mem_append, List.mem_singleton] at hm
      rcases hm with hm | hm
      · exact Nat.lt_succ_of_lt (h.fresh t1 s hm)
      · rw [hm]; exact Nat.lt_succ_self _
    · simp only [Function.update_noteq ht] at hm
      exact Nat.lt_succ_of_lt (h.fresh t1 s hm)
  · intro t1
    simp only [TopicWorld.Subscribe, TopicWorld.Add]
    by_cases ht : t1 = t
    · subst ht
      simp only [Function.update_same]
      exact List.Nodup.append (h.nodup t1) (List.nodup_singleton _)
        (by simpa using hnew)
    · simp only [Function.update_noteq ht]
      exact h.nodup t1
  · intro t1 s hm
    simp only [TopicWorld.Subscribe, TopicWorld.Add] at hm ⊢
    by_cases ht : t1 = t
    · subst ht
      simp only [Function.update_same, List.mem_append, List.mem_singleton] at hm
      rcases hm with hm | hm
      · have hne : s ≠ w.base.blockCount := Nat.ne_of_lt (h.fresh t1 s hm)
        simpa [Function.update_noteq hne] using h.owner t1 s hm
      · subst hm
        simp
    · simp only [Function.update_noteq ht] at hm
      have hne : s ≠ w.base.blockCount := Nat.ne_of_lt (h.fresh t1 s hm)
      simpa [Function.update_noteq hne] using h.owner t1 s hm

theorem deliv_unsubscribeLock_listed (w : DeliveryWorld) (h : Listed w) (s : SId) :
    Listed { w with base := w.base.unsubscribeLock s } := by
  cases ht : (w.base.blocks s).topic with
  | none =>
    have : w.base.unsubscribeLock s = w.base := by simp [TopicWorld.unsubscribeLock, ht]
    rw [this]
    exact h
  | some t =>
    refine ⟨?_, ?_, ?_⟩
    · simpa [TopicWorld.unsubscribeLock, ht] using h.fresh
    · simpa [TopicWorld.unsubscribeLock, ht] using h.nodup
    · intro t1 s1 hm
      have hm1 : s1 ∈ w.base.topics t1 := by
        simpa [TopicWorld.unsubscribeLock, ht] using hm
      simp only [TopicWorld.unsubscribeLock, ht]
      by_cases hs : s1 = s
      · subst hs
        rcases h.owner t1 s1 hm1 with ho | ho | ho
        · rw [ht] at ho
          simp only [Option.some.injEq] at ho
          subst ho
          right; left
          simp
        · right; left
          simp [ho]
        · exact Or.inr (Or.inr ho)
      · rcases h.owner t1 s1 hm1 with ho | ho | ho
        · left
          simpa [Function.update_noteq hs] using ho
        · right; left
          simp [ho]
        · exact Or.inr (Or.inr ho)

theorem deliv_unsubscribeRemove_listed (w : DeliveryWorld) (h : Listed w) (t : TId) (s : SId) :
    Listed { w with base := w.base.unsubscribeRemove t s } := by
  by_cases hm : (t, s) ∈ w.base.removing
  · have hw : w.base.unsubscribeRemove t s =
        { w.base with topics := Function.update w.base.topics t ((w.base.topics t).erase s)
                      removing := w.base.removing.erase (t, s) } := by
      simp [TopicWorld.unsubscribeRemove, hm, TopicWorld.Remove]
    rw [hw]
    refine ⟨?_, ?_, ?_⟩
    · intro t1 s1 hmem
      by_cases ht : t1 = t
      · subst ht
        simp only [Function.update_same] at hmem
        exact h.fresh t1 s1 (List.mem_of_mem_erase hmem)
      · simp only [Function.update_noteq ht] at hmem
        exact h.fresh t1 s1 hmem
    · intro t1
      by_cases ht : t1 = t
      · subst ht
        simp only [Function.update_same]
        exact (h.nodup t1).erase s
      · simp only [Function.update_noteq ht]
        exact h.nodup t1
    · intro t1 s1 hmem
      by_cases ht : t1 = t
      · subst ht
        simp only [Function.update_same] at hmem
        have hne : s1 ≠ s := ((h.nodup t1).mem_erase_iff.mp hmem).1
        rcases h.owner t1 s1 (List.mem_of_mem_erase hmem) with ho | ho | ho
        · exact Or.inl ho
        · right; left
          exact (List.mem_erase_of_ne (by simp [hne])).mpr ho
        · exact Or.inr (Or.inr ho)
      · simp only [Function.update_noteq ht] at hmem
        rcases h.owner t1 s1 hmem with ho | ho | ho
        · exact Or.inl ho
        · right; left
          exact (List.mem_erase_of_ne (by simp [ht])).mpr ho
        · exact Or.inr (Or.inr ho)
  · have : w.base.unsubscribeRemove t s = w.base := by
      simp [TopicWorld.unsubscribeRemove, hm]
    rw [this]
    exact h

/-- A move of a worker keeps the shape. -/
theorem deliv_workerStep_listed (w : DeliveryWorld) (h : Listed w) (q : QId) :
    Listed (w.workerStep q) := by
  have hother : ∀ q1, q1 ≠ q → (w.workerStep q).todo q1 = w.todo q1 :=
    fun q1 hq1 => deliv_workerStep_todo w q q1 hq1
  rcases deliv_workerStep_cases w q with ⟨m, rest, hq, hb, ht⟩ | ⟨hq, hb, ht⟩
  · -- a move inside a delivery
    have hkeep : ∀ t s q0, Move.remove t s ∈ w.todo q0 → Move.remove t s ≠ m →
        Move.remove t s ∈ (w.workerStep q).todo q0 := by
      intro t s q0 hm hne
      by_cases hq0 : q0 = q
      · subst hq0
        rw [ht]
        rw [hq] at hm
        rcases List.mem_cons.mp hm with e | e
        · exact absurd e hne
        · exact List.mem_append_right _ e
      · rw [hother q0 hq0]
        exact hm
    cases m with
    | call v b =>
      refine ⟨?_, ?_, ?_⟩
      · rw [hb]; exact h.fresh
      · rw [hb]; exact h.nodup
      · intro t s hm
        rw [hb] at hm ⊢
        rcases h.owner t s hm with ho | ho | ⟨q0, ho⟩
        · exact Or.inl ho
        · exact Or.inr (Or.inl ho)
        · exact Or.inr (Or.inr ⟨q0, hkeep t s q0 ho (by simp)⟩)
    | stmt b a =>
      cases a with
      | push k =>
        refine ⟨?_, ?_, ?_⟩
        · rw [hb]; exact h.fresh
        · rw [hb]; exact h.nodup
        · intro t s hm
          rw [hb] at hm ⊢
          rcases h.owner t s hm with ho | ho | ⟨q0, ho⟩
          · exact Or.inl ho
          · exact Or.inr (Or.inl ho)
          · exact Or.inr (Or.inr ⟨q0, hkeep t s q0 ho (by simp)⟩)
      | unsubscribe s1 =>
        cases hs1 : (w.base.blocks s1).topic with
        | none =>
          have e : runMove w.base (Move.stmt b (Act.unsubscribe s1)) = (w.base, []) := by
            simp [runMove, hs1]
          rw [e] at hb ht
          refine ⟨?_, ?_, ?_⟩
          · rw [hb]; exact h.fresh
          · rw [hb]; exact h.nodup
          · intro t s hm
            rw [hb] at hm ⊢
            rcases h.owner t s hm with ho | ho | ⟨q0, ho⟩
            · exact Or.inl ho
            · exact Or.inr (Or.inl ho)
            · exact Or.inr (Or.inr ⟨q0, hkeep t s q0 ho (by simp)⟩)
        | some t1 =>
          have e : runMove w.base (Move.stmt b (Act.unsubscribe s1))
              = (⟨w.base.queues, w.base.topics, Function.update w.base.blocks s1
                  ⟨none, (w.base.blocks s1).q, (w.base.blocks s1).listener,
                    (w.base.blocks s1).id⟩,
                  w.base.blockCount, w.base.received, w.base.heard, w.base.removing⟩,
                  [Move.remove t1 s1]) := by
            simp [runMove, hs1]
          rw [e] at hb ht
          refine ⟨?_, ?_, ?_⟩
          · rw [hb]; exact h.fresh
          · rw [hb]; exact h.nodup
          · intro t s hm
            rw [hb] at hm ⊢
            by_cases hs : s = s1
            · subst hs
              rcases h.owner t s hm with ho | ho | ⟨q0, ho⟩
              · rw [hs1] at ho
                simp only [Option.some.injEq] at ho
                subst ho
                exact Or.inr (Or.inr ⟨q, by rw [ht]; simp⟩)
              · exact Or.inr (Or.inl ho)
              · exact Or.inr (Or.inr ⟨q0, hkeep t s q0 ho (by simp)⟩)
            · rcases h.owner t s hm with ho | ho | ⟨q0, ho⟩
              · left
                simpa [Function.update_noteq hs] using ho
              · exact Or.inr (Or.inl ho)
              · exact Or.inr (Or.inr ⟨q0, hkeep t s q0 ho (by simp)⟩)
    | remove t1 s1 =>
      have e : runMove w.base (Move.remove t1 s1) = (w.base.Remove t1 s1, []) := rfl
      rw [e] at hb ht
      refine ⟨?_, ?_, ?_⟩
      · intro t s hm
        rw [hb] at hm ⊢
        simp only [TopicWorld.Remove] at hm ⊢
        by_cases htt : t = t1
        · subst htt
          simp only [Function.update_same] at hm
          exact h.fresh t s (List.mem_of_mem_erase hm)
        · simp only [Function.update_noteq htt] at hm
          exact h.fresh t s hm
      · intro t
        rw [hb]
        simp only [TopicWorld.Remove]
        by_cases htt : t = t1
        · subst htt
          simp only [Function.update_same]
          exact (h.nodup t).erase s1
        · simp only [Function.update_noteq htt]
          exact h.nodup t
      · intro t s hm
        rw [hb] at hm ⊢
        simp only [TopicWorld.Remove] at hm ⊢
        have hmem : s ∈ w.base.topics t ∧ (t = t1 → s ≠ s1) := by
          by_cases htt : t = t1
          · subst htt
            simp only [Function.update_same] at hm
            exact ⟨List.mem_of_mem_erase hm, fun _ => ((h.nodup t).mem_erase_iff.mp hm).1⟩
          · simp only [Function.update_noteq htt] at hm
            exact ⟨hm, fun x => absurd x htt⟩
        rcases h.owner t s hmem.1 with ho | ho | ⟨q0, ho⟩
        · exact Or.inl ho
        · exact Or.inr (Or.inl ho)
        · refine Or.inr (Or.inr ⟨q0, hkeep t s q0 ho ?_⟩)
          intro x
          simp only [Move.remove.injEq] at x
          exact hmem.2 x.1 x.2
  · -- one pass of the loop
    refine ⟨?_, ?_, ?_⟩
    · rw [hb]; exact h.fresh
    · rw [hb]; exact h.nodup
    · intro t s hm
      rw [hb] at hm ⊢
      rcases h.owner t s hm with ho | ho | ⟨q0, ho⟩
      · exact Or.inl ho
      · exact Or.inr (Or.inl ho)
      · have hq0 : q0 ≠ q := by
          intro x
          rw [x, hq] at ho
          exact absurd ho (List.not_mem_nil _)
        exact Or.inr (Or.inr ⟨q0, by rw [hother q0 hq0]; exact ho⟩)

/-- Every step keeps the shape of the reachable states. -/
theorem deliv_step_listed (w : DeliveryWorld) (h : Listed w) (e : TopicWorld.Ev) :
    Listed (w.step e) := by
  cases e with
  | publish cur t v =>
    have hr := TopicWorld.topic_Publish_rest w.base cur t v
    refine ⟨?_, ?_, ?_⟩
    · simp only [step]; rw [hr.1, hr.2.2.1]; exact h.fresh
    · simp only [step]; rw [hr.1]; exact h.nodup
    · simp only [step]; rw [hr.1, hr.2.1, hr.2.2.2.2.2]; exact h.owner
  | subscribe cur t listener id => exact deliv_Subscribe_listed w h cur t listener id
  | unsubscribeLock s => exact deliv_unsubscribeLock_listed w h s
  | unsubscribeRemove t s => exact deliv_unsubscribeRemove_listed w h t s
  | worker q => exact deliv_workerStep_listed w h q
  | enqueueOther q id => exact deliv_queues_listed w h _
  | finish q => exact deliv_setQueue_listed w h _ _

theorem deliv_exec_listed (evs : List TopicWorld.Ev) (w : DeliveryWorld) (h : Listed w) :
    Listed (exec evs w) := by
  induction evs generalizing w with
  | nil => exact h
  | cons e es ih => exact ih _ (deliv_step_listed w h e)

end DeliveryWorld

namespace DeliveryWorld

/-- Once the back-pointer of `s` is null it stays null, and once `s` is in no
list it stays in no list, whatever step a thread makes. -/
theorem deliv_step_off (w : DeliveryWorld) (s : SId) (e : TopicWorld.Ev) :
    (TopicWorld.Cleared w.base s → TopicWorld.Cleared (w.step e).base s) ∧
    (TopicWorld.Gone w.base s → TopicWorld.Gone (w.step e).base s) := by
  cases e with
  | publish cur t v =>
    have h := TopicWorld.topic_step_off w.base s (TopicWorld.Ev.publish cur t v)
    exact ⟨fun hc => (h.1 hc).1, h.2⟩
  | subscribe cur t listener id =>
    have h := TopicWorld.topic_step_off w.base s (TopicWorld.Ev.subscribe cur t listener id)
    exact ⟨fun hc => (h.1 hc).1, h.2⟩
  | unsubscribeLock s1 =>
    have h := TopicWorld.topic_step_off w.base s (TopicWorld.Ev.unsubscribeLock s1)
    exact ⟨fun hc => (h.1 hc).1, h.2⟩
  | unsubscribeRemove t s1 =>
    have h := TopicWorld.topic_step_off w.base s (TopicWorld.Ev.unsubscribeRemove t s1)
    exact ⟨fun hc => (h.1 hc).1, h.2⟩
  | enqueueOther q id =>
    have h := TopicWorld.topic_step_off w.base s (TopicWorld.Ev.enqueueOther q id)
    exact ⟨fun hc => (h.1 hc).1, h.2⟩
  | finish q =>
    have h := TopicWorld.topic_step_off w.base s (TopicWorld.Ev.finish q)
    exact ⟨fun hc => (h.1 hc).1, h.2⟩
  | worker q =>
    simp only [step]
    rcases deliv_workerStep_cases w q with ⟨m, rest, _, hb, _⟩ | ⟨_, hb, _⟩
    · obtain ⟨k1, _, _, k4, k5, _⟩ := deliv_runMove_shrinks w.base m
      rw [hb]
      constructor
      · intro hc
        exact ⟨by rw [k1]; exact hc.1, k5 s hc.2⟩
      · intro hg
        exact ⟨by rw [k1]; exact hg.1, fun t hm => hg.2 t (k4 t s hm)⟩
    · rw [hb]
      exact ⟨fun hc => hc, fun hg => hg⟩

theorem deliv_exec_off (evs : List TopicWorld.Ev) (w : DeliveryWorld) (s : SId) :
    (TopicWorld.Cleared w.base s → TopicWorld.Cleared (exec evs w).base s) ∧
    (TopicWorld.Gone w.base s → TopicWorld.Gone (exec evs w).base s) := by
  induction evs generalizing w with
  | nil => exact ⟨fun h => h, fun h => h⟩
  | cons e es ih =>
    have h1 := deliv_step_off w s e
    have h2 := ih (w.step e)
    exact ⟨fun h => h2.1 (h1.1 h), fun h => h2.2 (h1.2 h)⟩

/-- A step of a thread other than a worker calls no listener. -/
theorem deliv_base_heard (w : TopicWorld) (e : TopicWorld.Ev)
    (h : ∀ q, e ≠ TopicWorld.Ev.worker q) :
    (w.step e).heard = w.heard ∧ (w.step e).received = w.received := by
  cases e with
  | worker q => exact absurd rfl (h q)
  | publish cur t v =>
    have hr := TopicWorld.topic_Publish_rest w cur t v
    exact ⟨hr.2.2.2.2.1, hr.2.2.2.1⟩
  | subscribe cur t listener id => simp [TopicWorld.step, TopicWorld.Subscribe, TopicWorld.Add]
  | unsubscribeLock s =>
    cases ht : (w.blocks s).topic <;> simp [TopicWorld.step, TopicWorld.unsubscribeLock, ht]
  | unsubscribeRemove t s =>
    by_cases hm : (t, s) ∈ w.removing <;>
      simp [TopicWorld.step, TopicWorld.unsubscribeRemove, hm, TopicWorld.Remove]
  | enqueueOther q id => simp [TopicWorld.step, TopicWorld.AddTask]
  | finish q => simp [TopicWorld.step]

/-- The listener of `s` is called by one move only: the call that a worker owes
after the check of a delivery for `s`. -/
theorem deliv_step_heard (w : DeliveryWorld) (e : TopicWorld.Ev) (s : SId) :
    (w.step e).base.heard s = w.base.heard s ∨
    ∃ q v rest, e = TopicWorld.Ev.worker q ∧ w.todo q = Move.call v s :: rest ∧
      (w.step e).base.heard s = w.base.heard s ++ [v] := by
  by_cases he : ∀ q, e ≠ TopicWorld.Ev.worker q
  · left
    rw [(deliv_step_base w e he).1, (deliv_base_heard w.base e he).1]
  · push_neg at he
    obtain ⟨q, he⟩ := he
    subst he
    simp only [step]
    rcases deliv_workerStep_cases w q with ⟨m, rest, hq, hb, _⟩ | ⟨_, hb, _⟩
    · cases m with
      | call v b =>
        by_cases hbs : b = s
        · subst hbs
          right
          exact ⟨q, v, rest, rfl, hq, by rw [hb]; simp [runMove]⟩
        · left
          rw [hb]
          simp [runMove, Function.update_noteq (Ne.symm hbs)]
      | stmt b a =>
        left
        rw [hb]
        cases a with
        | push k => simp [runMove]
        | unsubscribe s1 => cases ht : (w.base.blocks s1).topic <;> simp [runMove, ht]
      | remove t s1 =>
        left
        rw [hb]
        simp [runMove, TopicWorld.Remove]
    · left
      rw [hb]
      rfl

/-- The moves that take the place of a move hold no call of a listener. -/
theorem deliv_runMove_calls (w : TopicWorld) (m : Move) (s : SId) :
    (runMove w m).2.filterMap (Move.callFor s) = [] := by
  cases m with
  | call v b =>
    simp only [runMove, List.filterMap_map]
    apply List.filterMap_eq_nil_iff.mpr
    intro a _
    rfl
  | stmt b a =>
    cases a with
    | push k => simp [runMove]
    | unsubscribe s1 =>
      cases ht : (w.blocks s1).topic <;> simp [runMove, ht, Move.callFor]
  | remove t s1 => simp [runMove]

/-- While the back-pointer of `s` is null and no worker owes a call of its
listener, no step calls the listener of `s` and no worker comes to owe one. -/
theorem deliv_step_quiet (w : DeliveryWorld) (s : SId) (e : TopicWorld.Ev)
    (hc : TopicWorld.Cleared w.base s) (hq : ∀ q, inFlight w s q = []) :
    (∀ q, inFlight (w.step e) s q = []) ∧ (w.step e).base.heard s = w.base.heard s := by
  constructor
  · intro q1
    by_cases he : e = TopicWorld.Ev.worker q1
    · subst he
      simp only [step, inFlight]
      rcases deliv_workerStep_cases w q1 with ⟨m, rest, hm, _, ht⟩ | ⟨_, _, ht | ht⟩
      · rw [ht, List.filterMap_append, deliv_runMove_calls]
        have := hq q1
        simp only [inFlight, hm, List.filterMap_cons] at this
        cases hcf : Move.callFor s m with
        | none =>
          rw [hcf] at this
          simpa using this
        | some v =>
          rw [hcf] at this
          simp at this
      · rw [ht]
        rfl
      · obtain ⟨id, v, b, rest, _, _, _, hb, ht⟩ := ht
        rw [ht]
        have hbs : b ≠ s := by
          intro x
          rw [x] at hb
          exact hb hc.2
        simp [Move.callFor, hbs]
    · have := hq q1
      simp only [inFlight] at this ⊢
      rw [deliv_step_todo w e q1 he]
      exact this
  · rcases deliv_step_heard w e s with h | ⟨q, v, rest, _, hm, _⟩
    · exact h
    · have := hq q
      simp [inFlight, hm, Move.callFor] at this

theorem deliv_exec_quiet (evs : List TopicWorld.Ev) (w : DeliveryWorld) (s : SId)
    (hc : TopicWorld.Cleared w.base s) (hq : ∀ q, inFlight w s q = []) :
    (exec evs w).base.heard s = w.base.heard s := by
  induction evs generalizing w with
  | nil => rfl
  | cons e es ih =>
    have h1 := deliv_step_quiet w s e hc hq
    simp only [exec]
    rw [ih (w.step e) ((deliv_step_off w s e).1 hc) h1.1, h1.2]

end DeliveryWorld

namespace DeliveryWorld

/-- One pass of the loop of a worker that is in no delivery: it pops nothing;
or it pops a task that is no delivery or a delivery whose check finds the
back-pointer null, and the task is done; or it pops a delivery whose check
finds the back-pointer set, and the worker owes the call of the listener. -/
theorem deliv_workerStep_pass (w : DeliveryWorld) (q : QId) (hq : w.todo q = []) :
    (∃ s1 : EventQueue TopicTask, s1.tasks_ = (w.base.queues q).tasks_ ∧
      w.workerStep q = w.setQueue q s1) ∨
    (∃ task rest, (w.base.queues q).tasks_ = task :: rest ∧ (w.base.queues q).t_ = true ∧
      (((∀ v b, task.f = TopicTask.delivery v b → (w.base.blocks b).topic = none) ∧
        w.workerStep q = w.setQueue q { w.base.queues q with tasks_ := rest }) ∨
       (∃ v b, task.f = TopicTask.delivery v b ∧ (w.base.blocks b).topic ≠ none ∧
        w.workerStep q =
          { base := (w.setQueue q { w.base.queues q with tasks_ := rest }).base
            todo := Function.update w.todo q [Move.call v b] }))) := by
  by_cases ht : (w.base.queues q).t_ = true
  · cases hts : (w.base.queues q).tasks_ with
    | nil =>
      left
      by_cases hc : (!(w.base.queues q).running_ && (w.base.queues q).count_ == 0) = true
      · exact ⟨{ w.base.queues q with t_ := false }, by simp [hts],
          by simp [workerStep, hq, EventQueue.pass, ht, hts, hc]⟩
      · exact ⟨w.base.queues q, by simp [hts],
          by simp [workerStep, hq, EventQueue.pass, ht, hts, hc]⟩
    | cons task rest =>
      right
      refine ⟨task, rest, rfl, ht, ?_⟩
      cases hf : task.f with
      | delivery v b =>
        cases hb : (w.base.blocks b).topic with
        | none =>
          left
          refine ⟨?_, by simp [workerStep, hq, EventQueue.pass, ht, hts, hf, hb]⟩
          intro v1 b1 h1
          simp only [TopicTask.delivery.injEq] at h1
          rw [← h1.2]
          exact hb
        | some t1 =>
          right
          exact ⟨v, b, rfl, by rw [hb]; simp,
            by simp [workerStep, hq, EventQueue.pass, ht, hts, hf, hb]⟩
      | fanIn =>
        left
        exact ⟨fun v1 b1 h1 => by simp at h1,
          by simp [workerStep, hq, EventQueue.pass, ht, hts, hf]⟩
      | other =>
        left
        exact ⟨fun v1 b1 h1 => by simp at h1,
          by simp [workerStep, hq, EventQueue.pass, ht, hts, hf]⟩
  · left
    exact ⟨w.base.queues q, rfl, by simp [workerStep, hq, EventQueue.pass, ht]⟩

theorem deliv_boundedStart (qc : QId) (t : TId) (bound : Nat) :
    Bounded (boundedStart qc t bound) qc t bound 0 := by
  refine ⟨0, 0, Nat.le_refl _, ?_, ?_, ?_, ?_, ?_, ?_, ?_, ?_,
    Or.inl ⟨?_, ?_, rfl, Nat.zero_le _, ?_, rfl⟩⟩
  · simp [boundedStart, TopicWorld.boundedStart, TopicWorld.Subscribe, TopicWorld.Add,
      TopicWorld.init, TopicWorld.pendingFor, EventQueue.new, TopicWorld.counting]
  · intro q _
    simp [boundedStart, TopicWorld.boundedStart, TopicWorld.Subscribe, TopicWorld.Add,
      TopicWorld.init, TopicWorld.pendingFor, EventQueue.new]
  · intro s hs
    simp [boundedStart, TopicWorld.boundedStart, TopicWorld.Subscribe, TopicWorld.Add,
      TopicWorld.init, Function.update_noteq hs]
  · simp [boundedStart, TopicWorld.boundedStart, TopicWorld.Subscribe, TopicWorld.Add,
      TopicWorld.init]
  · simp [boundedStart, TopicWorld.boundedStart, TopicWorld.Subscribe, TopicWorld.Add,
      TopicWorld.init]
  · intro t1 ht1
    simp [boundedStart, TopicWorld.boundedStart, TopicWorld.Subscribe, TopicWorld.Add,
      TopicWorld.init, Function.update_noteq ht1]
  · simp [boundedStart, TopicWorld.boundedStart, TopicWorld.Subscribe, TopicWorld.Add,
      TopicWorld.init]
  · intro q _
    rfl
  · simp [boundedStart, TopicWorld.boundedStart, TopicWorld.Subscribe, TopicWorld.Add,
      TopicWorld.init]
  · simp [boundedStart, TopicWorld.boundedStart, TopicWorld.Subscribe, TopicWorld.Add,
      TopicWorld.init]
  · simp [boundedStart, TopicWorld.boundedStart, TopicWorld.Subscribe, TopicWorld.Add,
      TopicWorld.init, TopicWorld.counting]

/-- A change of one queue that keeps the deliveries for the consumer. -/
theorem deliv_setQueue_bounded (w : DeliveryWorld) (qc : QId) (t : TId) (bound m : Nat)
    (hb : Bounded w qc t bound m) (q : QId) (u : EventQueue TopicTask)
    (h : u.tasks_.filterMap (TopicWorld.deliveryFor 0) = w.base.pendingFor 0 q) :
    Bounded (w.setQueue q u) qc t bound m := by
  obtain ⟨a, b, hab, hpend, hoth, hblk, hq, hl, htop, hrem, htodo, hph⟩ := hb
  have hp : ∀ q2, (w.setQueue q u).base.pendingFor 0 q2 = w.base.pendingFor 0 q2 := by
    intro q2
    by_cases h2 : q2 = q
    · subst h2
      simp [TopicWorld.pendingFor, setQueue, h]
    · simp [TopicWorld.pendingFor, setQueue, Function.update_noteq h2]
  refine ⟨a, b, hab, ?_, ?_, hblk, hq, hl, htop, hrem, htodo, hph⟩
  · rw [hp]; exact hpend
  · intro q2 hne
    rw [hp]; exact hoth q2 hne

/-- A publish of the next value `m` on the topic of the consumer: while the
block of the consumer is in the list a delivery for `m` is enqueued. -/
theorem deliv_publish_bounded (w : DeliveryWorld) (qc : QId) (t : TId) (bound m : Nat)
    (hb : Bounded w qc t bound m) (cur : QId) :
    Bounded { w with base := w.base.Publish cur t m } qc t bound (m + 1) := by
  obtain ⟨a, b, hab, hpend, hoth, hblk, hq, hl, htop, hrem, htodo, hph⟩ := hb
  have hr := TopicWorld.topic_Publish_rest w.base cur t (m : Int)
  have hin : w.base.topics t = [0] → b = m →
      (w.base.Publish cur t m).pendingFor 0 qc = TopicWorld.counting a (m + 1) ∧
      ∀ q, q ≠ qc → (w.base.Publish cur t m).pendingFor 0 q = [] := by
    intro h2 h3
    subst h3
    constructor
    · rw [TopicWorld.topic_Publish_pending, hpend, hq, if_pos rfl, h2]
      simp only [List.count_singleton_self, List.replicate_one]
      exact TopicWorld.topic_counting_snoc a b hab
    · intro q hne
      rw [TopicWorld.topic_Publish_pending, hoth q hne, hq, if_neg (Ne.symm hne)]
      rfl
  have hframe : ∀ b1, a ≤ b1 →
      (w.base.Publish cur t m).pendingFor 0 qc = TopicWorld.counting a b1 →
      (∀ q, q ≠ qc → (w.base.Publish cur t m).pendingFor 0 q = []) →
      Phase { w with base := w.base.Publish cur t m } qc t bound (m + 1) a b1 →
      Bounded { w with base := w.base.Publish cur t m } qc t bound (m + 1) := by
    intro b1 h1 h2 h3 h4
    refine ⟨a, b1, h1, h2, h3, ?_, ?_, ?_, ?_, ?_, htodo, h4⟩
    · show ∀ s, s ≠ 0 → ((w.base.Publish cur t m).blocks s).topic = none
      rw [hr.2.1]; exact hblk
    · show ((w.base.Publish cur t m).blocks 0).q = qc
      rw [hr.2.1]; exact hq
    · show ((w.base.Publish cur t m).blocks 0).listener = _
      rw [hr.2.1]; exact hl
    · show ∀ t1, t1 ≠ t → (w.base.Publish cur t m).topics t1 = []
      rw [hr.1]; exact htop
    · show (w.base.Publish cur t m).removing = []
      rw [hr.2.2.2.2.2]; exact hrem
  rcases hph with ⟨h1, h2, h3, h4, h5, h6⟩ | ⟨c, hc, hcb, h1, h2, h3, h5, h6⟩ |
    ⟨c, hc, hcb, h1, h2, h3, h5, h6⟩ | ⟨hc, h1, h2, h3, h5, h6⟩ | ⟨h1, h2, h3, h5, h6⟩ |
    ⟨h1, h2, h5, h6⟩
  · obtain ⟨k1, k2⟩ := hin h2 h3
    refine hframe (m + 1) (by omega) k1 k2 (Or.inl ⟨?_, ?_, rfl, h4, ?_, h6⟩)
    · show ((w.base.Publish cur t m).blocks 0).topic = some t
      rw [hr.2.1]; exact h1
    · show (w.base.Publish cur t m).topics t = [0]
      rw [hr.1]; exact h2
    · show (w.base.Publish cur t m).received 0 = _
      rw [hr.2.2.2.1]; exact h5
  · obtain ⟨k1, k2⟩ := hin h2 h3
    refine hframe (m + 1) (by omega) k1 k2 (Or.inr (Or.inl ⟨c, hc, hcb, ?_, ?_, rfl, ?_, h6⟩))
    · show ((w.base.Publish cur t m).blocks 0).topic = some t
      rw [hr.2.1]; exact h1
    · show (w.base.Publish cur t m).topics t = [0]
      rw [hr.1]; exact h2
    · show (w.base.Publish cur t m).received 0 = _
      rw [hr.2.2.2.1]; exact h5
  · obtain ⟨k1, k2⟩ := hin h2 h3
    refine hframe (m + 1) (by omega) k1 k2
      (Or.inr (Or.inr (Or.inl ⟨c, hc, hcb, ?_, ?_, rfl, ?_, h6⟩)))
    · show ((w.base.Publish cur t m).blocks 0).topic = some t
      rw [hr.2.1]; exact h1
    · show (w.base.Publish cur t m).topics t = [0]
      rw [hr.1]; exact h2
    · show (w.base.Publish cur t m).received 0 = _
      rw [hr.2.2.2.1]; exact h5
  · obtain ⟨k1, k2⟩ := hin h2 h3
    refine hframe (m + 1) (by omega) k1 k2
      (Or.inr (Or.inr (Or.inr (Or.inl ⟨hc, ?_, ?_, rfl, ?_, h6⟩))))
    · show ((w.base.Publish cur t m).blocks 0).topic = some t
      rw [hr.2.1]; exact h1
    · show (w.base.Publish cur t m).topics t = [0]
      rw [hr.1]; exact h2
    · show (w.base.Publish cur t m).received 0 = _
      rw [hr.2.2.2.1]; exact h5
  · obtain ⟨k1, k2⟩ := hin h2 h3
    refine hframe (m + 1) (by omega) k1 k2
      (Or.inr (Or.inr (Or.inr (Or.inr (Or.inl ⟨?_, ?_, rfl, ?_, h6⟩)))))
    · show ((w.base.Publish cur t m).blocks 0).topic = none
      rw [hr.2.1]; exact h1
    · show (w.base.Publish cur t m).topics t = [0]
      rw [hr.1]; exact h2
    · show (w.base.Publish cur t m).received 0 = _
      rw [hr.2.2.2.1]; exact h5
  · refine hframe b hab ?_ ?_
      (Or.inr (Or.inr (Or.inr (Or.inr (Or.inr ⟨?_, ?_, ?_, h6⟩)))))
    · rw [TopicWorld.topic_Publish_pending, hpend, h2]
      simp
    · intro q hne
      rw [TopicWorld.topic_Publish_pending, hoth q hne, h2]
      simp
    · show ((w.base.Publish cur t m).blocks 0).topic = none
      rw [hr.2.1]; exact h1
    · show (w.base.Publish cur t m).topics t = []
      rw [hr.1]; exact h2
    · show (w.base.Publish cur t m).received 0 = _
      rw [hr.2.2.2.1]; exact h5

/-- A publish on another topic, which has no subscription. -/
theorem deliv_publish_other_bounded (w : DeliveryWorld) (qc : QId) (t : TId) (bound m : Nat)
    (hb : Bounded w qc t bound m) (cur : QId) (t1 : TId) (v : Int) (ht : t1 ≠ t) :
    Bounded { w with base := w.base.Publish cur t1 v } qc t bound m := by
  obtain ⟨a, b, hab, hpend, hoth, hblk, hq, hl, htop, hrem, htodo, hph⟩ := hb
  have hr := TopicWorld.topic_Publish_rest w.base cur t1 v
  refine ⟨a, b, hab, ?_, ?_, ?_, ?_, ?_, ?_, ?_, htodo, ?_⟩
  · show (w.base.Publish cur t1 v).pendingFor 0 qc = _
    rw [TopicWorld.topic_Publish_pending, hpend, htop t1 ht]
    simp
  · intro q hne
    show (w.base.Publish cur t1 v).pendingFor 0 q = _
    rw [TopicWorld.topic_Publish_pending, hoth q hne, htop t1 ht]
    simp
  · show ∀ s, s ≠ 0 → ((w.base.Publish cur t1 v).blocks s).topic = none
    rw [hr.2.1]; exact hblk
  · show ((w.base.Publish cur t1 v).blocks 0).q = qc
    rw [hr.2.1]; exact hq
  · show ((w.base.Publish cur t1 v).blocks 0).listener = _
    rw [hr.2.1]; exact hl
  · show ∀ t2, t2 ≠ t → (w.base.Publish cur t1 v).topics t2 = []
    rw [hr.1]; exact htop
  · show (w.base.Publish cur t1 v).removing = []
    rw [hr.2.2.2.2.2]; exact hrem
  · simp only [Phase]
    rw [hr.1, hr.2.1, hr.2.2.2.1]
    exact hph

end DeliveryWorld

namespace DeliveryWorld

/-- A move of a worker in the tests with a bounded consumer. -/
theorem deliv_workerStep_bounded (w : DeliveryWorld) (qc : QId) (t : TId) (bound m : Nat)
    (hb : Bounded w qc t bound m) (q : QId) :
    Bounded (w.workerStep q) qc t bound m := by
  have hb0 := hb
  obtain ⟨a, b, hab, hpend, hoth, hblk, hq, hl, htop, hrem, htodo, hph⟩ := hb
  have hother : ∀ q1, q1 ≠ q → (w.workerStep q).todo q1 = w.todo q1 :=
    fun q1 hq1 => deliv_workerStep_todo w q q1 hq1
  cases htd : w.todo q with
  | nil =>
    -- one pass of the loop
    have hdone : ∀ task rest, (w.base.queues q).tasks_ = task :: rest →
        TopicWorld.deliveryFor 0 task = none →
        Bounded (w.setQueue q { w.base.queues q with tasks_ := rest }) qc t bound m := by
      intro task rest hts hd
      apply deliv_setQueue_bounded w qc t bound m hb0
      simp [TopicWorld.pendingFor, hts, List.filterMap_cons, hd]
    rcases deliv_workerStep_pass w q htd with ⟨s1, hs1, hw⟩ | ⟨task, rest, hts, htr, hw⟩
    · rw [hw]
      apply deliv_setQueue_bounded w qc t bound m hb0
      simp [TopicWorld.pendingFor, hs1]
    · have hhead : ∀ v, task.f = TopicTask.delivery v 0 →
          q = qc ∧ a < b ∧ v = (a : Int) ∧
            rest.filterMap (TopicWorld.deliveryFor 0) = TopicWorld.counting (a + 1) b := by
        intro v hf
        have hqq : q = qc := by
          by_contra hne
          have := hoth q hne
          simp [TopicWorld.pendingFor, hts, List.filterMap_cons, TopicWorld.deliveryFor,
            hf] at this
        subst hqq
        have hp : (v : Int) :: rest.filterMap (TopicWorld.deliveryFor 0)
            = TopicWorld.counting a b := by
          rw [← hpend]
          simp [TopicWorld.pendingFor, hts, List.filterMap_cons, TopicWorld.deliveryFor, hf]
        have hlt : a < b := by
          rcases Nat.lt_or_ge a b with h | h
          · exact h
          · have : b = a := by omega
            subst this
            rw [TopicWorld.topic_counting_self] at hp
            simp at hp
        rw [TopicWorld.topic_counting_cons a b hlt] at hp
        exact ⟨rfl, hlt, (List.cons.inj hp).1, (List.cons.inj hp).2⟩
      rcases hw with ⟨hnone, hw⟩ | ⟨v, s, hf, hsome, hw⟩
      · rw [hw]
        cases hf : task.f with
        | delivery v s =>
          by_cases hs : s = 0
          · subst hs
            obtain ⟨hqq, hlt, hv, hrest⟩ := hhead v hf
            subst hqq
            have h0 := hnone v 0 hf
            have hp6 : w.base.topics t = [] ∧
                w.base.received 0 = TopicWorld.counting 0 bound ∧ w.todo q = [] := by
              rcases hph with ⟨h1, _⟩ | ⟨c, _, _, h1, _⟩ | ⟨c, _, _, h1, _⟩ | ⟨_, h1, _⟩ |
                ⟨_, _, _, _, h6⟩ | ⟨_, h2, h5, h6⟩
              · rw [h0] at h1; simp at h1
              · rw [h0] at h1; simp at h1
              · rw [h0] at h1; simp at h1
              · rw [h0] at h1; simp at h1
              · rw [htd] at h6; simp at h6
              · exact ⟨h2, h5, h6⟩
            refine ⟨a + 1, b, hlt, ?_, ?_, hblk, hq, hl, htop, hrem, htodo,
              Or.inr (Or.inr (Or.inr (Or.inr (Or.inr ⟨h0, hp6.1, hp6.2.1, hp6.2.2⟩))))⟩
            · simp [TopicWorld.pendingFor, setQueue, hrest]
            · intro q2 hne
              simpa [TopicWorld.pendingFor, setQueue, Function.update_noteq hne] using hoth q2 hne
          · exact hdone task rest hts (by simp [TopicWorld.deliveryFor, hf, hs])
        | fanIn => exact hdone task rest hts (by simp [TopicWorld.deliveryFor, hf])
        | other => exact hdone task rest hts (by simp [TopicWorld.deliveryFor, hf])
      · rw [hw]
        have hs : s = 0 := by
          by_contra hne
          exact hsome (hblk s hne)
        subst hs
        obtain ⟨hqq, hlt, hv, hrest⟩ := hhead v hf
        subst hqq
        subst hv
        have hp1 : (w.base.blocks 0).topic = some t ∧ w.base.topics t = [0] ∧ b = m ∧
            a ≤ bound ∧ w.base.received 0 = TopicWorld.counting 0 a := by
          rcases hph with ⟨h1, h2, h3, h4, h5, _⟩ | ⟨c, _, _, _, _, _, _, h6⟩ |
            ⟨c, _, _, _, _, _, _, h6⟩ | ⟨_, _, _, _, _, h6⟩ | ⟨_, _, _, _, h6⟩ | ⟨h1, _⟩
          · exact ⟨h1, h2, h3, h4, h5⟩
          · rw [htd] at h6; simp at h6
          · rw [htd] at h6; simp at h6
          · rw [htd] at h6; simp at h6
          · rw [htd] at h6; simp at h6
          · exact absurd h1 hsome
        refine ⟨a + 1, b, hlt, ?_, ?_, hblk, hq, hl, htop, hrem, ?_,
          Or.inr (Or.inl ⟨a, rfl, hp1.2.2.2.1, hp1.1, hp1.2.1, hp1.2.2.1, hp1.2.2.2.2, ?_⟩)⟩
        · simp [TopicWorld.pendingFor, setQueue, hrest]
        · intro q2 hne
          simpa [TopicWorld.pendingFor, setQueue, Function.update_noteq hne] using hoth q2 hne
        · intro q2 hne
          simpa [Function.update_noteq hne] using htodo q2 hne
        · simp
  | cons mv rest =>
    -- a move inside a delivery: the worker is the one of the consumer
    have hqq : q = qc := by
      by_contra hne
      rw [htodo q hne] at htd
      simp at htd
    subst hqq
    have hw : w.workerStep q = { base := (runMove w.base mv).1
                                 todo := Function.update w.todo q
                                   ((runMove w.base mv).2 ++ rest) } := by
      simp [workerStep, htd]
    have htodo2 : ∀ q2, q2 ≠ q → (w.workerStep q).todo q2 = [] := by
      intro q2 hne
      rw [hother q2 hne]
      exact htodo q2 hne
    rcases hph with ⟨_, _, _, _, _, h6⟩ | ⟨c, hc, hcb, h1, h2, h3, h5, h6⟩ |
      ⟨c, hc, hcb, h1, h2, h3, h5, h6⟩ | ⟨hc, h1, h2, h3, h5, h6⟩ | ⟨h1, h2, h3, h5, h6⟩ |
      ⟨_, _, _, h6⟩
    · rw [htd] at h6; simp at h6
    · -- the call of the listener
      rw [htd] at h6
      simp only [List.cons.injEq] at h6
      obtain ⟨hm, hr⟩ := h6
      subst hm hr
      by_cases hbd : c = bound
      · subst hbd
        have hw2 : w.workerStep q
            = { base := { w.base with
                  heard := Function.update w.base.heard 0 (w.base.heard 0 ++ [(c : Int)]) }
                todo := Function.update w.todo q [Move.stmt 0 (Act.unsubscribe 0)] } := by
          rw [hw]
          simp [runMove, hl, TopicWorld.boundedListener]
        rw [hw2]
        refine ⟨a, b, hab, hpend, hoth, hblk, hq, hl, htop, hrem, ?_,
          Or.inr (Or.inr (Or.inr (Or.inl ⟨hc, h1, h2, h3, h5, by simp⟩)))⟩
        intro q2 hne
        simpa [Function.update_noteq hne] using htodo q2 hne
      · have hbd2 : ¬ ((c : Int) = (bound : Int)) := by
          intro h
          exact hbd (by exact_mod_cast h)
        have hw2 : w.workerStep q
            = { base := { w.base with
                  heard := Function.update w.base.heard 0 (w.base.heard 0 ++ [(c : Int)]) }
                todo := Function.update w.todo q [Move.stmt 0 (Act.push c)] } := by
          rw [hw]
          simp [runMove, hl, TopicWorld.boundedListener, hbd2]
        rw [hw2]
        refine ⟨a, b, hab, hpend, hoth, hblk, hq, hl, htop, hrem, ?_,
          Or.inr (Or.inr (Or.inl ⟨c, hc, by omega, h1, h2, h3, h5, by simp⟩))⟩
        intro q2 hne
        simpa [Function.update_noteq hne] using htodo q2 hne
    · -- the statement that records the value
      rw [htd] at h6
      simp only [List.cons.injEq] at h6
      obtain ⟨hm, hr⟩ := h6
      subst hm hr
      have hw2 : w.workerStep q
          = { base := { w.base with
                received := Function.update w.base.received 0
                  (w.base.received 0 ++ [(c : Int)]) }
              todo := Function.update w.todo q [] } := by
        rw [hw]
        simp [runMove]
      rw [hw2]
      refine ⟨a, b, hab, hpend, hoth, hblk, hq, hl, htop, hrem, ?_,
        Or.inl ⟨h1, h2, h3, by omega, ?_, by simp⟩⟩
      · intro q2 hne
        simpa [Function.update_noteq hne] using htodo q2 hne
      · simp only [Function.update_same, h5]
        rw [← hc]
        exact TopicWorld.topic_counting_snoc 0 c (Nat.zero_le _)
    · -- the locked section of `Unsubscribe`
      rw [htd] at h6
      simp only [List.cons.injEq] at h6
      obtain ⟨hm, hr⟩ := h6
      subst hm hr
      have hw2 : w.workerStep q
          = { base := ⟨w.base.queues, w.base.topics, Function.update w.base.blocks 0
                  ⟨none, (w.base.blocks 0).q, (w.base.blocks 0).listener,
                    (w.base.blocks 0).id⟩,
                  w.base.blockCount, w.base.received, w.base.heard, w.base.removing⟩
              todo := Function.update w.todo q [Move.remove t 0] } := by
        rw [hw]
        simp [runMove, h1]
      rw [hw2]
      refine ⟨a, b, hab, hpend, hoth, ?_, ?_, ?_, htop, hrem, ?_,
        Or.inr (Or.inr (Or.inr (Or.inr (Or.inl ⟨by simp, h2, h3, h5, by simp⟩))))⟩
      · intro s hs
        simpa [Function.update_noteq hs] using hblk s hs
      · simpa using hq
      · simpa using hl
      · intro q2 hne
        simpa [Function.update_noteq hne] using htodo q2 hne
    · -- the call of `Remove`
      rw [htd] at h6
      simp only [List.cons.injEq] at h6
      obtain ⟨hm, hr⟩ := h6
      subst hm hr
      have hw2 : w.workerStep q
          = { base := w.base.Remove t 0
              todo := Function.update w.todo q [] } := by
        rw [hw]
        simp [runMove]
      rw [hw2]
      refine ⟨a, b, hab, hpend, hoth, hblk, hq, hl, ?_, hrem, ?_,
        Or.inr (Or.inr (Or.inr (Or.inr (Or.inr ⟨h1, ?_, h5, by simp⟩))))⟩
      · intro t1 ht1
        simpa [TopicWorld.Remove, Function.update_noteq ht1] using htop t1 ht1
      · intro q2 hne
        simpa [Function.update_noteq hne] using htodo q2 hne
      · simp [TopicWorld.Remove, h2]
    · rw [htd] at h6; simp at h6

/-- The steps of the tests with a bounded consumer, when they publish the values
`m, m + 1, ..., m + k - 1` on the topic of the consumer. -/
theorem deliv_exec_bounded (evs : List TopicWorld.Ev) (w : DeliveryWorld) (qc : QId) (t : TId)
    (bound m k : Nat) (hb : Bounded w qc t bound m) (hpl : ∀ e ∈ evs, TopicWorld.Ev.plain e)
    (hpub : TopicWorld.published t evs = TopicWorld.counting m (m + k)) :
    Bounded (exec evs w) qc t bound (m + k) := by
  induction evs generalizing w m k with
  | nil =>
    have hk : m + k ≤ m := TopicWorld.topic_counting_nil m (m + k)
      (by simpa [TopicWorld.published] using hpub.symm)
    have : k = 0 := by omega
    subst this
    exact hb
  | cons e es ih =>
    have hes : ∀ e1 ∈ es, TopicWorld.Ev.plain e1 :=
      fun e1 h1 => hpl e1 (List.mem_cons_of_mem _ h1)
    have he : TopicWorld.Ev.plain e := hpl e (List.mem_cons_self _ _)
    cases e with
    | publish cur t1 v =>
      by_cases ht : t1 = t
      · subst ht
        simp only [TopicWorld.published, if_true] at hpub
        have hk : 0 < k := by
          rcases Nat.eq_zero_or_pos k with h | h
          · subst h
            rw [Nat.add_zero, TopicWorld.topic_counting_self] at hpub
            simp at hpub
          · exact h
        rw [TopicWorld.topic_counting_cons m (m + k) (by omega)] at hpub
        have hv : v = (m : Int) := (List.cons.inj hpub).1
        have hmk : m + 1 + (k - 1) = m + k := by omega
        have hrest : TopicWorld.published t1 es
            = TopicWorld.counting (m + 1) (m + 1 + (k - 1)) := by
          rw [hmk]
          exact (List.cons.inj hpub).2
        subst hv
        have h1 := ih { w with base := w.base.Publish cur t1 (m : Int) } (m + 1) (k - 1)
          (deliv_publish_bounded w qc t1 bound m hb cur) hes hrest
        rw [hmk] at h1
        exact h1
      · simp only [TopicWorld.published, if_neg ht] at hpub
        exact ih { w with base := w.base.Publish cur t1 v } m k
          (deliv_publish_other_bounded w qc t bound m hb cur t1 v ht) hes hpub
    | subscribe cur t1 listener id => exact absurd he (by simp [TopicWorld.Ev.plain])
    | unsubscribeLock s => exact absurd he (by simp [TopicWorld.Ev.plain])
    | unsubscribeRemove t1 s => exact absurd he (by simp [TopicWorld.Ev.plain])
    | worker q =>
      simp only [TopicWorld.published] at hpub
      exact ih (w.workerStep q) m k (deliv_workerStep_bounded w qc t bound m hb q) hes hpub
    | enqueueOther q id =>
      simp only [TopicWorld.published] at hpub
      refine ih _ m k ?_ hes hpub
      have : w.step (TopicWorld.Ev.enqueueOther q id)
          = w.setQueue q ((w.base.queues q).AddTask TopicTask.other id) := rfl
      rw [this]
      apply deliv_setQueue_bounded w qc t bound m hb
      simp [TopicWorld.pendingFor, EventQueue.AddTask, List.filterMap_append,
        TopicWorld.deliveryFor]
    | finish q =>
      simp only [TopicWorld.published] at hpub
      refine ih _ m k ?_ hes hpub
      have : w.step (TopicWorld.Ev.finish q) = w.setQueue q (w.base.queues q).Finish := rfl
      rw [this]
      apply deliv_setQueue_bounded w qc t bound m hb
      simp [TopicWorld.pendingFor, EventQueue.Finish]

/-- What the bounded consumer has recorded, read off the shape of the state. -/
theorem deliv_bounded_received (w : DeliveryWorld) (qc : QId) (t : TId) (bound m : Nat)
    (hb : Bounded w qc t bound m) :
    (∃ a, a ≤ bound ∧ w.base.received 0 = TopicWorld.counting 0 a) ∧
    (bound < m → w.base.pendingFor 0 qc = [] → w.todo qc = [] →
      w.base.received 0 = TopicWorld.counting 0 bound) := by
  obtain ⟨a, b, hab, hpend, hoth, hblk, hq, hl, htop, hrem, htodo, hph⟩ := hb
  rcases hph with ⟨h1, h2, h3, h4, h5, h6⟩ | ⟨c, hc, hcb, h1, h2, h3, h5, h6⟩ |
    ⟨c, hc, hcb, h1, h2, h3, h5, h6⟩ | ⟨hc, h1, h2, h3, h5, h6⟩ | ⟨h1, h2, h3, h5, h6⟩ |
    ⟨h1, h2, h5, h6⟩
  · refine ⟨⟨a, h4, h5⟩, ?_⟩
    intro hlt he _
    rw [hpend] at he
    have := TopicWorld.topic_counting_nil a b he
    omega
  · exact ⟨⟨c, hcb, h5⟩, fun _ _ ht => by rw [h6] at ht; simp at ht⟩
  · exact ⟨⟨c, by omega, h5⟩, fun _ _ ht => by rw [h6] at ht; simp at ht⟩
  · exact ⟨⟨bound, Nat.le_refl _, h5⟩, fun _ _ _ => h5⟩
  · exact ⟨⟨bound, Nat.le_refl _, h5⟩, fun _ _ _ => h5⟩
  · exact ⟨⟨bound, Nat.le_refl _, h5⟩, fun _ _ _ => h5⟩

end DeliveryWorld

namespace DeliveryWorld

theorem deliv_weight_pos (w : TopicWorld) (m : Move) : 0 < Move.weight w m := by
  cases m with
  | call v b => simp [Move.weight]
  | stmt b a => cases a <;> simp [Move.weight]
  | remove t s => simp [Move.weight]

theorem deliv_stmts_weight (W : TopicWorld) (s : SId) (l : List Act) :
    ((l.map (Move.weight W ∘ Move.stmt s)).sum) ≤ 2 * l.length := by
  induction l with
  | nil => simp
  | cons x xs ih =>
    simp only [List.map_cons, List.sum_cons, List.length_cons, Function.comp]
    simp only [Function.comp] at ih
    cases x <;> simp only [Move.weight] <;> omega

/-- A worker with no backlog has an empty FIFO and is in no delivery. -/
theorem deliv_backlog_zero (w : DeliveryWorld) (q : QId) (h : backlog w q = 0) :
    (w.base.queues q).tasks_ = [] ∧ w.todo q = [] := by
  simp only [backlog] at h
  constructor
  · apply List.eq_nil_of_length_eq_zero
    omega
  · cases htd : w.todo q with
    | nil => rfl
    | cons m rest =>
      rw [htd] at h
      have := deliv_weight_pos w.base m
      simp only [List.map_cons, List.sum_cons] at h
      omega

/-- In the tests with a bounded consumer, a move of its worker, while it is in
its loop and has a backlog, makes the backlog smaller. -/
theorem deliv_workerStep_backlog (w : DeliveryWorld) (qc : QId) (t : TId) (bound m : Nat)
    (hb : Bounded w qc t bound m) (ht : (w.base.queues qc).t_ = true)
    (hpos : 0 < backlog w qc) :
    backlog (w.workerStep qc) qc < backlog w qc ∧
      ((w.workerStep qc).base.queues qc).t_ = true := by
  obtain ⟨a, b, hab, hpend, hoth, hblk, hq, hl, htop, hrem, htodo, hph⟩ := hb
  cases htd : w.todo qc with
  | nil =>
    cases hts : (w.base.queues qc).tasks_ with
    | nil => simp [backlog, htd, hts] at hpos
    | cons task rest =>
      have hdone : w.workerStep qc = w.setQueue qc { w.base.queues qc with tasks_ := rest } →
          backlog (w.workerStep qc) qc < backlog w qc ∧
            ((w.workerStep qc).base.queues qc).t_ = true := by
        intro hw
        rw [hw]
        simp only [backlog, setQueue, Function.update_same, htd, hts, List.length_cons,
          List.map_nil, List.sum_nil]
        exact ⟨by omega, ht⟩
      cases hf : task.f with
      | delivery v s =>
        cases hs : (w.base.blocks s).topic with
        | none =>
          exact hdone (by simp [workerStep, htd, EventQueue.pass, ht, hts, hf, hs])
        | some t1 =>
          have hs0 : s = 0 := by
            by_contra hne
            rw [hblk s hne] at hs
            simp at hs
          subst hs0
          have hw : w.workerStep qc =
              { base := (w.setQueue qc { w.base.queues qc with tasks_ := rest }).base
                todo := Function.update w.todo qc [Move.call v 0] } := by
            simp [workerStep, htd, EventQueue.pass, ht, hts, hf, hs]
          rw [hw]
          have hlen : ((w.base.blocks 0).listener v).length = 1 := by
            rw [hl]
            simp only [TopicWorld.boundedListener]
            split <;> rfl
          simp only [backlog, setQueue, Function.update_same, htd, hts, List.length_cons,
            List.map_cons, List.map_nil, List.sum_cons, List.sum_nil, Move.weight, hlen]
          exact ⟨by omega, ht⟩
      | fanIn => exact hdone (by simp [workerStep, htd, EventQueue.pass, ht, hts, hf])
      | other => exact hdone (by simp [workerStep, htd, EventQueue.pass, ht, hts, hf])
  | cons mv rest =>
    have hw : w.workerStep qc = { base := (runMove w.base mv).1
                                  todo := Function.update w.todo qc
                                    ((runMove w.base mv).2 ++ rest) } := by
      simp [workerStep, htd]
    have hsh := deliv_runMove_shrinks w.base mv
    rw [hw]
    simp only [backlog, Function.update_same, htd, hsh.2.1, List.map_cons, List.sum_cons,
      List.map_append, List.sum_append]
    refine ⟨?_, ht⟩
    have hrest : ((rest.map (Move.weight (runMove w.base mv).1)).sum)
        = (rest.map (Move.weight w.base)).sum := by
      rcases hph with ⟨_, _, _, _, _, h6⟩ | ⟨c, _, _, _, _, _, _, h6⟩ |
        ⟨c, _, _, _, _, _, _, h6⟩ | ⟨_, _, _, _, _, h6⟩ | ⟨_, _, _, _, h6⟩ | ⟨_, _, _, h6⟩ <;>
        (rw [htd] at h6; simp at h6) <;> (try rw [h6.2]) <;> rfl
    rw [hrest]
    have hmv : (((runMove w.base mv).2.map (Move.weight (runMove w.base mv).1)).sum)
        < Move.weight w.base mv := by
      cases mv with
      | call v s =>
        simp only [runMove, Move.weight, List.map_map]
        exact Nat.lt_succ_of_le (deliv_stmts_weight _ s ((w.base.blocks s).listener v))
      | stmt s x =>
        cases x with
        | push k => simp [runMove, Move.weight]
        | unsubscribe s1 =>
          cases hs1 : (w.base.blocks s1).topic <;> simp [runMove, hs1, Move.weight]
      | remove t1 s1 => simp [runMove, Move.weight]
    omega

/-- In the tests with a bounded consumer, as many moves of its worker as its
backlog empty its FIFO and end the delivery it is in. -/
theorem deliv_drain (n : Nat) (w : DeliveryWorld) (qc : QId) (t : TId) (bound m : Nat)
    (hb : Bounded w qc t bound m)
    (ht : (w.base.queues qc).t_ = true ∨ backlog w qc = 0) (hn : backlog w qc ≤ n) :
    (exec (List.replicate n (TopicWorld.Ev.worker qc)) w).base.pendingFor 0 qc = [] ∧
      (exec (List.replicate n (TopicWorld.Ev.worker qc)) w).todo qc = [] := by
  induction n generalizing w with
  | zero =>
    have h0 := deliv_backlog_zero w qc (by omega)
    simp only [List.replicate, exec]
    exact ⟨by simp [TopicWorld.pendingFor, h0.1], h0.2⟩
  | succ n ih =>
    simp only [List.replicate, exec, step]
    have hb1 := deliv_workerStep_bounded w qc t bound m hb qc
    by_cases hz : backlog w qc = 0
    · have h0 := deliv_backlog_zero w qc hz
      have hz1 : backlog (w.workerStep qc) qc = 0 := by
        rcases deliv_workerStep_pass w qc h0.2 with ⟨s1, hs1, hw⟩ | ⟨task, rest, hts, _⟩
        · rw [hw]
          simp [backlog, setQueue, hs1, h0.1, h0.2]
        · rw [h0.1] at hts
          simp at hts
      exact ih (w.workerStep qc) hb1 (Or.inr hz1) (by omega)
    · have htt : (w.base.queues qc).t_ = true := by
        rcases ht with h | h
        · exact h
        · exact absurd h hz
      have hs := deliv_workerStep_backlog w qc t bound m hb htt (by omega)
      exact ih (w.workerStep qc) hb1 (Or.inl hs.2) (by omega)

end DeliveryWorld

/-- C18, counterexample: a subscription on queue 1 to topic 0; a thread calls
`Unsubscribe` and leaves the locked section with the back-pointer cleared, its
`Remove` still to come; a second call of `Unsubscribe` on the same subscription
finds the back-pointer null and returns at once.  The block is still in the
list of the topic, and a `Publish(7)` made now enqueues a delivery for it.  The
worker of queue 1 then drops this delivery without calling the listener. -/
theorem unsubscribe_returns_while_remove_pending :
    (DeliveryWorld.exec [TopicWorld.Ev.subscribe 1 0 (fun k => [Act.push k]) "",
        TopicWorld.Ev.unsubscribeLock 0, TopicWorld.Ev.unsubscribeLock 0]
      DeliveryWorld.init).base.topics 0 = [0] ∧
    ((DeliveryWorld.exec [TopicWorld.Ev.subscribe 1 0 (fun k => [Act.push k]) "",
        TopicWorld.Ev.unsubscribeLock 0, TopicWorld.Ev.unsubscribeLock 0]
      DeliveryWorld.init).base.blocks 0).topic = none ∧
    (DeliveryWorld.exec [TopicWorld.Ev.subscribe 1 0 (fun k => [Act.push k]) "",
        TopicWorld.Ev.unsubscribeLock 0, TopicWorld.Ev.unsubscribeLock 0]
      DeliveryWorld.init).base.pendingFor 0 1 = [] ∧
    (DeliveryWorld.exec [TopicWorld.Ev.subscribe 1 0 (fun k => [Act.push k]) "",
        TopicWorld.Ev.unsubscribeLock 0, TopicWorld.Ev.unsubscribeLock 0,
        TopicWorld.Ev.publish 2 0 7]
      DeliveryWorld.init).base.pendingFor 0 1 = [7] ∧
    (DeliveryWorld.exec [TopicWorld.Ev.subscribe 1 0 (fun k => [Act.push k]) "",
        TopicWorld.Ev.unsubscribeLock 0, TopicWorld.Ev.unsubscribeLock 0,
        TopicWorld.Ev.publish 2 0 7, TopicWorld.Ev.worker 1]
      DeliveryWorld.init).base.heard 0 = [] := by
  refine ⟨?_, ?_, ?_, ?_, ?_⟩ <;> rfl

/-- C18, amended: in every state that the steps of the threads reach from the
initial one, once a call of `Unsubscribe` on the subscription `s` has returned
(the back-pointer of `s` is null) and no other call of `Unsubscribe` on `s`, by
a thread or by a listener that a worker runs, is between its locked section and
its `Remove`, the block of `s` is in no list, and it stays so whatever the
threads do next: every later `Publish`, on any topic from any queue, enqueues no
delivery for `s` on any queue; and when no worker is between the check of a
delivery for `s` and the call of the listener, the listener of `s` is not called
again.  In the tests with a bounded consumer (the listener unsubscribes or drops
its handle on the value `bound` and records every other value), whatever the
interleaving of the publishes of `0, 1, ..., N - 1` with the moves of the
workers, other tasks and `Finish`: the consumer has always recorded
`0, ..., a - 1` for some `a <= bound`; when more than `bound` values were
published, no delivery waits in its queue and its worker is in no delivery, it
has recorded exactly `0, ..., bound - 1`, which are `bound` values; and while
its worker is in its loop enough moves of the worker bring this about. -/
theorem unsubscribe_returned_removes_subscription (pre : List TopicWorld.Ev) (s : SId)
    (hc : TopicWorld.Cleared (DeliveryWorld.exec pre DeliveryWorld.init).base s)
    (hr : ∀ t, (t, s) ∉ (DeliveryWorld.exec pre DeliveryWorld.init).base.removing)
    (hw : ∀ q t, Move.remove t s ∉ (DeliveryWorld.exec pre DeliveryWorld.init).todo q)
    (post : List TopicWorld.Ev) :
    (∀ t, s ∉ (DeliveryWorld.exec (pre ++ post) DeliveryWorld.init).base.topics t) ∧
    (∀ cur t v q,
      ((DeliveryWorld.exec (pre ++ post) DeliveryWorld.init).base.Publish cur t v).pendingFor s q
        = (DeliveryWorld.exec (pre ++ post) DeliveryWorld.init).base.pendingFor s q) ∧
    ((∀ q, DeliveryWorld.inFlight (DeliveryWorld.exec pre DeliveryWorld.init) s q = []) →
      (DeliveryWorld.exec (pre ++ post) DeliveryWorld.init).base.heard s
        = (DeliveryWorld.exec pre DeliveryWorld.init).base.heard s) ∧
    (∀ (qc : QId) (t : TId) (bound N : Nat) (evs : List TopicWorld.Ev),
      (∀ e ∈ evs, TopicWorld.Ev.plain e) →
      TopicWorld.published t evs = TopicWorld.counting 0 N →
      (∃ a, a ≤ bound ∧
        (DeliveryWorld.exec evs (DeliveryWorld.boundedStart qc t bound)).base.received 0
          = TopicWorld.counting 0 a) ∧
      (bound < N →
        (DeliveryWorld.exec evs (DeliveryWorld.boundedStart qc t bound)).base.pendingFor 0 qc
          = [] →
        (DeliveryWorld.exec evs (DeliveryWorld.boundedStart qc t bound)).todo qc = [] →
        (DeliveryWorld.exec evs (DeliveryWorld.boundedStart qc t bound)).base.received 0
            = TopicWorld.counting 0 bound ∧
          ((DeliveryWorld.exec evs (DeliveryWorld.boundedStart qc t bound)).base.received 0).length
            = bound) ∧
      (bound < N →
        ((DeliveryWorld.exec evs (DeliveryWorld.boundedStart qc t bound)).base.queues qc).t_
          = true →
        ∀ n, DeliveryWorld.backlog (DeliveryWorld.exec evs (DeliveryWorld.boundedStart qc t bound))
            qc ≤ n →
          (DeliveryWorld.exec (evs ++ List.replicate n (TopicWorld.Ev.worker qc))
              (DeliveryWorld.boundedStart qc t bound)).base.received 0
            = TopicWorld.counting 0 bound)) := by
  have hl := DeliveryWorld.deliv_exec_listed pre DeliveryWorld.init DeliveryWorld.deliv_init_listed
  have hg : TopicWorld.Gone (DeliveryWorld.exec pre DeliveryWorld.init).base s := by
    refine ⟨hc.1, ?_⟩
    intro t hm
    rcases hl.owner t s hm with ho | ho | ⟨q, ho⟩
    · rw [hc.2] at ho
      simp at ho
    · exact hr t ho
    · exact hw q t ho
  have hoff := DeliveryWorld.deliv_exec_off post (DeliveryWorld.exec pre DeliveryWorld.init) s
  have hg2 := hoff.2 hg
  rw [← DeliveryWorld.deliv_exec_append] at hg2
  refine ⟨hg2.2, ?_, ?_, ?_⟩
  · intro cur t v q
    rw [TopicWorld.topic_Publish_pending,
      List.count_eq_zero_of_not_mem (hg2.2 t)]
    simp
  · intro hq
    rw [DeliveryWorld.deliv_exec_append]
    exact DeliveryWorld.deliv_exec_quiet post _ s hc hq
  · intro qc t bound N evs hpl hpub
    have hstart := DeliveryWorld.deliv_boundedStart qc t bound
    have hpub0 : TopicWorld.published t evs = TopicWorld.counting 0 (0 + N) := by
      rw [Nat.zero_add]; exact hpub
    have hb := DeliveryWorld.deliv_exec_bounded evs _ qc t bound 0 N hstart hpl hpub0
    rw [Nat.zero_add] at hb
    have hrec := DeliveryWorld.deliv_bounded_received _ qc t bound N hb
    refine ⟨hrec.1, ?_, ?_⟩
    · intro hlt he htd
      have h := hrec.2 hlt he htd
      refine ⟨h, ?_⟩
      rw [h, TopicWorld.topic_counting_length]
      rfl
    · intro hlt ht n hn
      have hd := DeliveryWorld.deliv_drain n _ qc t bound N hb (Or.inl ht) hn
      have hpl2 : ∀ e ∈ List.replicate n (TopicWorld.Ev.worker qc), TopicWorld.Ev.plain e := by
        intro e he
        rw [(List.mem_replicate.mp he).2]
        trivial
      have hpub2 : TopicWorld.published t (List.replicate n (TopicWorld.Ev.worker qc))
          = TopicWorld.counting N (N + 0) := by
        rw [TopicWorld.topic_published_workers, Nat.add_zero, TopicWorld.topic_counting_self]
      have hb2 := DeliveryWorld.deliv_exec_bounded _ _ qc t bound N 0 hb hpl2 hpub2
      rw [Nat.add_zero] at hb2
      rw [DeliveryWorld.deliv_exec_append]
      exact (DeliveryWorld.deliv_bounded_received _ qc t bound N hb2).2 hlt hd.1 hd.2

/-- C18, at a run of the test `StreamUnsubscribeIsImmediate` with bound 3: the
consumer subscribes on queue 1, the publisher publishes 0 to 5 from queue 2 and
waits for the worker of queue 1 after each value (the check, the call of the
listener and its statement are one move each).  The listener unsubscribes on
the value 3; after that the block is in no list, the publishes of 4 and 5
enqueue nothing for it, and the consumer has recorded 0, 1, 2. -/
theorem unsubscribe_returned_removes_subscription_witness :
    (∀ t, 0 ∉ (DeliveryWorld.exec
        ([TopicWorld.Ev.subscribe 1 0 (TopicWorld.boundedListener 3 0) "",
          TopicWorld.Ev.publish 2 0 0, TopicWorld.Ev.worker 1, TopicWorld.Ev.worker 1,
          TopicWorld.Ev.worker 1,
          TopicWorld.Ev.publish 2 0 1, TopicWorld.Ev.worker 1, TopicWorld.Ev.worker 1,
          TopicWorld.Ev.worker 1,
          TopicWorld.Ev.publish 2 0 2, TopicWorld.Ev.worker 1, TopicWorld.Ev.worker 1,
          TopicWorld.Ev.worker 1,
          TopicWorld.Ev.publish 2 0 3, TopicWorld.Ev.worker 1, TopicWorld.Ev.worker 1,
          TopicWorld.Ev.worker 1, TopicWorld.Ev.worker 1] ++
         [TopicWorld.Ev.publish 2 0 4, TopicWorld.Ev.worker 1,
          TopicWorld.Ev.publish 2 0 5, TopicWorld.Ev.worker 1])
        DeliveryWorld.init).base.topics t) ∧
    ((DeliveryWorld.exec
        [TopicWorld.Ev.publish 2 0 0, TopicWorld.Ev.worker 1, TopicWorld.Ev.worker 1,
          TopicWorld.Ev.worker 1,
          TopicWorld.Ev.publish 2 0 1, TopicWorld.Ev.worker 1, TopicWorld.Ev.worker 1,
          TopicWorld.Ev.worker 1,
          TopicWorld.Ev.publish 2 0 2, TopicWorld.Ev.worker 1, TopicWorld.Ev.worker 1,
          TopicWorld.Ev.worker 1,
          TopicWorld.Ev.publish 2 0 3, TopicWorld.Ev.worker 1, TopicWorld.Ev.worker 1,
          TopicWorld.Ev.worker 1, TopicWorld.Ev.worker 1,
          TopicWorld.Ev.publish 2 0 4, TopicWorld.Ev.worker 1,
          TopicWorld.Ev.publish 2 0 5, TopicWorld.Ev.worker 1]
        (DeliveryWorld.boundedStart 1 0 (3 : Nat))).base.received 0 = TopicWorld.counting 0 3 ∧
      ((DeliveryWorld.exec
        [TopicWorld.Ev.publish 2 0 0, TopicWorld.Ev.worker 1, TopicWorld.Ev.worker 1,
          TopicWorld.Ev.worker 1,
          TopicWorld.Ev.publish 2 0 1, TopicWorld.Ev.worker 1, TopicWorld.Ev.worker 1,
          TopicWorld.Ev.worker 1,
          TopicWorld.Ev.publish 2 0 2, TopicWorld.Ev.worker 1, TopicWorld.Ev.worker 1,
          TopicWorld.Ev.worker 1,
          TopicWorld.Ev.publish 2 0 3, TopicWorld.Ev.worker 1, TopicWorld.Ev.worker 1,
          TopicWorld.Ev.worker 1, TopicWorld.Ev.worker 1,
          TopicWorld.Ev.publish 2 0 4, TopicWorld.Ev.worker 1,
          TopicWorld.Ev.publish 2 0 5, TopicWorld.Ev.worker 1]
        (DeliveryWorld.boundedStart 1 0 (3 : Nat))).base.received 0).length = 3) :=
  have h := unsubscribe_returned_removes_subscription
      [TopicWorld.Ev.subscribe 1 0 (TopicWorld.boundedListener 3 0) "",
        TopicWorld.Ev.publish 2 0 0, TopicWorld.Ev.worker 1, TopicWorld.Ev.worker 1,
        TopicWorld.Ev.worker 1,
        TopicWorld.Ev.publish 2 0 1, TopicWorld.Ev.worker 1, TopicWorld.Ev.worker 1,
        TopicWorld.Ev.worker 1,
        TopicWorld.Ev.publish 2 0 2, TopicWorld.Ev.worker 1, TopicWorld.Ev.worker 1,
        TopicWorld.Ev.worker 1,
        TopicWorld.Ev.publish 2 0 3, TopicWorld.Ev.worker 1, TopicWorld.Ev.worker 1,
        TopicWorld.Ev.worker 1, TopicWorld.Ev.worker 1] 0
      ⟨by decide, rfl⟩
      (fun t h => by
        have e : (DeliveryWorld.exec
          [TopicWorld.Ev.subscribe 1 0 (TopicWorld.boundedListener 3 0) "",
            TopicWorld.Ev.publish 2 0 0, TopicWorld.Ev.worker 1, TopicWorld.Ev.worker 1,
            TopicWorld.Ev.worker 1,
            TopicWorld.Ev.publish 2 0 1, TopicWorld.Ev.worker 1, TopicWorld.Ev.worker 1,
            TopicWorld.Ev.worker 1,
            TopicWorld.Ev.publish 2 0 2, TopicWorld.Ev.worker 1, TopicWorld.Ev.worker 1,
            TopicWorld.Ev.worker 1,
            TopicWorld.Ev.publish 2 0 3, TopicWorld.Ev.worker 1, TopicWorld.Ev.worker 1,
            TopicWorld.Ev.worker 1, TopicWorld.Ev.worker 1]
          DeliveryWorld.init).base.removing = [] := rfl
        rw [e] at h
        exact absurd h (List.not_mem_nil _))
      (fun q t h => by
        have e : (DeliveryWorld.exec
          [TopicWorld.Ev.subscribe 1 0 (TopicWorld.boundedListener 3 0) "",
            TopicWorld.Ev.publish 2 0 0, TopicWorld.Ev.worker 1, TopicWorld.Ev.worker 1,
            TopicWorld.Ev.worker 1,
            TopicWorld.Ev.publish 2 0 1, TopicWorld.Ev.worker 1, TopicWorld.Ev.worker 1,
            TopicWorld.Ev.worker 1,
            TopicWorld.Ev.publish 2 0 2, TopicWorld.Ev.worker 1, TopicWorld.Ev.worker 1,
            TopicWorld.Ev.worker 1,
            TopicWorld.Ev.publish 2 0 3, TopicWorld.Ev.worker 1, TopicWorld.Ev.worker 1,
            TopicWorld.Ev.worker 1, TopicWorld.Ev.worker 1]
          DeliveryWorld.init).todo q = [] := by
          by_cases hq : q = 1
          · subst hq
            rfl
          · rw [DeliveryWorld.deliv_exec_todo _ _ q (by simpa [eq_comm] using hq)]
            rfl
        rw [e] at h
        exact absurd h (List.not_mem_nil _))
      [TopicWorld.Ev.publish 2 0 4, TopicWorld.Ev.worker 1,
        TopicWorld.Ev.publish 2 0 5, TopicWorld.Ev.worker 1]
  ⟨h.1, (h.2.2.2 1 0 3 6
      [TopicWorld.Ev.publish 2 0 0, TopicWorld.Ev.worker 1, TopicWorld.Ev.worker 1,
        TopicWorld.Ev.worker 1,
        TopicWorld.Ev.publish 2 0 1, TopicWorld.Ev.worker 1, TopicWorld.Ev.worker 1,
        TopicWorld.Ev.worker 1,
        TopicWorld.Ev.publish 2 0 2, TopicWorld.Ev.worker 1, TopicWorld.Ev.worker 1,
        TopicWorld.Ev.worker 1,
        TopicWorld.Ev.publish 2 0 3, TopicWorld.Ev.worker 1, TopicWorld.Ev.worker 1,
        TopicWorld.Ev.worker 1, TopicWorld.Ev.worker 1,
        TopicWorld.Ev.publish 2 0 4, TopicWorld.Ev.worker 1,
        TopicWorld.Ev.publish 2 0 5, TopicWorld.Ev.worker 1]
      (by simp [TopicWorld.Ev.plain]) rfl).2.1 (by decide) rfl rfl⟩

/-! ## PromiseControlBlock: what `Resolve` calls -/

/-- C25: `Resolve(v)` on an unresolved block returns, stores `v`, calls the
pending continuations with `v` in the order of the list, each once, and leaves
the list empty; the list of a block on which only `Then` was called holds the
continuations in registration order, so registering `ds` and then resolving
calls exactly `ds` in order; and after any `Resolve` or `Then` that returned,
the pending list of a resolved block is empty. -/
theorem resolve_calls_pending_in_registration_order {T δ : Type}
    (p : PromiseControlBlock T δ) (v : T) :
    (p.result_ = none →
      p.Resolve v = some (⟨some v, []⟩, p.dependents_.map fun d => (d, v))) ∧
    (∀ ds : List δ,
      PromiseControlBlock.exec (ds.map PromiseControlBlock.Op.andThen)
          (PromiseControlBlock.new : PromiseControlBlock T δ) = some (⟨none, ds⟩, []) ∧
      PromiseControlBlock.exec
          (ds.map PromiseControlBlock.Op.andThen ++ [PromiseControlBlock.Op.resolve v])
          (PromiseControlBlock.new : PromiseControlBlock T δ)
        = some (⟨some v, []⟩, ds.map fun d => (d, v))) ∧
    (∀ (op : PromiseControlBlock.Op T δ) (r : PromiseControlBlock T δ × List (δ × T)),
      p.step op = some r → r.1.result_.isSome = true → r.1.dependents_ = []) := by
  refine ⟨?_, ?_, ?_⟩
  · intro h
    obtain ⟨res, ds⟩ := p
    simp only at h
    subst h
    exact PromiseControlBlock.pcb_Resolve_unresolved ds v
  · intro ds
    have h1 := PromiseControlBlock.pcb_exec_thens_unresolved (T := T) [] ds
    simp only [List.nil_append] at h1
    refine ⟨h1, ?_⟩
    rw [PromiseControlBlock.pcb_exec_append]
    simp only [PromiseControlBlock.new] at h1 ⊢
    rw [h1]
    simp [PromiseControlBlock.exec, PromiseControlBlock.step,
      PromiseControlBlock.pcb_Resolve_unresolved]
  · intro op r hr hres
    cases op with
    | resolve w =>
      cases hp : p.result_ with
      | some u => simp [PromiseControlBlock.step, PromiseControlBlock.Resolve, hp] at hr
      | none =>
        simp [PromiseControlBlock.step, PromiseControlBlock.Resolve, hp,
          PromiseControlBlock.NotifyDependents] at hr
        subst hr
        rfl
    | andThen d =>
      cases hp : p.result_ with
      | some u =>
        simp [PromiseControlBlock.step, PromiseControlBlock.Then, hp,
          PromiseControlBlock.NotifyDependents] at hr
        subst hr
        rfl
      | none =>
        simp [PromiseControlBlock.step, PromiseControlBlock.Then, hp] at hr
        subst hr
        simp [hp] at hres

/-! ## Topic: the check of the delivery task -/

namespace TopicWorld

theorem topic_Unsubscribe_null (w : TopicWorld) (s : SId) (h : (w.blocks s).topic = none) :
    w.Unsubscribe s = w ∧ w.unsubscribeLock s = w := by
  simp [Unsubscribe, unsubscribeLock, h]

theorem topic_Unsubscribe_clears (w : TopicWorld) (s : SId) :
    ((w.Unsubscribe s).blocks s).topic = none := by
  cases ht : (w.blocks s).topic with
  | none => simp [Unsubscribe, ht]
  | some t => simp [Unsubscribe, ht, unsubscribeLock, unsubscribeRemove, Remove]

theorem topic_budget_le (w : TopicWorld) (h : Listed w) (s : SId) : removeBudget w s ≤ 1 := by
  unfold removeBudget
  split
  · exact Nat.le_refl _
  · exact List.nodup_iff_count_le_one.mp h.single s

/-- A whole `Unsubscribe` spends what it removes. -/
theorem topic_Unsubscribe_budget (w : TopicWorld) (h : Listed w) (s s1 : SId) :
    actRemoves s w (Act.unsubscribe s1) + removeBudget (w.Unsubscribe s1) s
      ≤ removeBudget w s := by
  cases ht : (w.blocks s1).topic with
  | none =>
    have : w.Unsubscribe s1 = w := (topic_Unsubscribe_null w s1 ht).1
    rw [this]
    simp [actRemoves, ht]
  | some t1 =>
    have hnot : (t1, s1) ∉ w.removing := by
      intro hm
      have := (h.pending t1 s1 hm).1
      rw [ht] at this
      simp at this
    have hs1 : s1 ∉ w.removing.map Prod.snd := by
      intro hm
      obtain ⟨x, hx, hx2⟩ := List.mem_map.mp hm
      have := (h.pending x.1 s1 (by rw [← hx2]; exact hx)).1
      rw [ht] at this
      simp at this
    have hw : w.Unsubscribe s1 =
        { w with blocks := Function.update w.blocks s1 { w.blocks s1 with topic := none }
                 topics := Function.update w.topics t1 ((w.topics t1).erase s1)
                 removing := w.removing } := by
      have he : (w.removing ++ [(t1, s1)]).erase (t1, s1) = w.removing := by
        rw [List.erase_append_right _ hnot]
        simp
      simp [Unsubscribe, ht, unsubscribeLock, unsubscribeRemove, Remove, he]
    rw [hw]
    by_cases hs : s1 = s
    · subst hs
      have hlt : s1 < w.blockCount := h.alloc s1 (by rw [ht]; simp)
      simp [actRemoves, ht, removeBudget, Nat.not_le.mpr hlt,
        List.count_eq_zero_of_not_mem hs1]
    · have hs2 : s ≠ s1 := fun e => hs e.symm
      simp [actRemoves, hs, removeBudget, Function.update_noteq hs2]

theorem topic_acts_budget (acts : List Act) (w : TopicWorld) (h : Listed w) (s b : SId) :
    actsRemoves s b acts w + removeBudget (acts.foldl (act b) w) s ≤ removeBudget w s := by
  induction acts generalizing w with
  | nil => simp [actsRemoves]
  | cons a rest ih =>
    simp only [actsRemoves, List.foldl_cons]
    cases a with
    | push k =>
      have hl : Listed (act b w (Act.push k)) := topic_acts_listed [Act.push k] w h b
      have := ih (act b w (Act.push k)) hl
      have hb : removeBudget (act b w (Act.push k)) s = removeBudget w s := rfl
      simp only [actRemoves]
      omega
    | unsubscribe s1 =>
      have hl : Listed (w.Unsubscribe s1) := topic_Unsubscribe_listed w h s1
      have h1 := ih (act b w (Act.unsubscribe s1)) hl
      have h2 := topic_Unsubscribe_budget w h s s1
      simp only [act] at h1 ⊢
      omega

end TopicWorld

namespace TopicWorld

theorem topic_count_erase_snd (l : List (TId × SId)) (t : TId) (s1 s : SId)
    (h : (t, s1) ∈ l) :
    ((l.erase (t, s1)).map Prod.snd).count s + (if s1 = s then 1 else 0)
      = (l.map Prod.snd).count s := by
  induction l with
  | nil => simp at h
  | cons x rest ih =>
    by_cases hx : x = (t, s1)
    · subst hx
      simp only [List.erase_cons_head, List.map_cons, List.count_cons]
      by_cases hs : s1 = s <;> simp [hs]
    · have hm : (t, s1) ∈ rest := by
        rcases List.mem_cons.mp h with h1 | h1
        · exact absurd h1.symm hx
        · exact h1
      have hb : ¬ (x == (t, s1)) = true := by simpa using hx
      rw [List.erase_cons_tail hb]
      simp only [List.map_cons, List.count_cons]
      have := ih hm
      omega

theorem topic_heard_listed (w : TopicWorld) (h : Listed w) (hd : SId → List Int) :
    Listed { w with heard := hd } :=
  ⟨h.fresh, h.nodup, h.owner, h.pending, h.single, h.alloc⟩

/-- Every step spends what it removes. -/
theorem topic_step_budget (w : TopicWorld) (h : Listed w) (s : Nat) (e : Ev) :
    e.removes s w + removeBudget (w.step e) s ≤ removeBudget w s := by
  cases e with
  | publish cur t v =>
    have hr := topic_Publish_rest w cur t v
    simp only [Ev.removes, step, removeBudget, hr.2.1, hr.2.2.1, hr.2.2.2.2.2]
    omega
  | subscribe cur t listener id =>
    simp only [Ev.removes, step, Subscribe, Add, removeBudget, Nat.zero_add]
    by_cases hs : s = w.blockCount
    · subst hs
      simp
    · simp only [Function.update_noteq hs]
      by_cases hlt : s < w.blockCount
      · have h1 : ¬ w.blockCount ≤ s := by omega
        have h2 : ¬ w.blockCount + 1 ≤ s := by omega
        simp [h1, h2]
      · have h1 : w.blockCount ≤ s := by omega
        have h2 : w.blockCount + 1 ≤ s := by omega
        simp [h1, h2]
  | unsubscribeLock s1 =>
    cases ht : (w.blocks s1).topic with
    | none =>
      have : w.step (Ev.unsubscribeLock s1) = w := by simp [step, unsubscribeLock, ht]
      rw [this]
      simp [Ev.removes]
    | some t1 =>
      have hs1 : s1 ∉ w.removing.map Prod.snd := by
        intro hm
        obtain ⟨x, hx, hx2⟩ := List.mem_map.mp hm
        have := (h.pending x.1 s1 (by rw [← hx2]; exact hx)).1
        rw [ht] at this
        simp at this
      have hlt : s1 < w.blockCount := h.alloc s1 (by rw [ht]; simp)
      by_cases hs : s1 = s
      · subst hs
        simp [Ev.removes, step, unsubscribeLock, ht, removeBudget, Nat.not_le.mpr hlt,
          List.count_eq_zero_of_not_mem hs1]
      · have hs2 : s ≠ s1 := fun e => hs e.symm
        have hc : List.count s [s1] = 0 := by simp [List.count_cons, hs]
        simp [Ev.removes, step, unsubscribeLock, ht, removeBudget,
          Function.update_noteq hs2, hs, hc]
  | unsubscribeRemove t1 s1 =>
    by_cases hm : (t1, s1) ∈ w.removing
    · have hp := h.pending t1 s1 hm
      have hc := topic_count_erase_snd w.removing t1 s1 s hm
      by_cases hs : s1 = s
      · subst hs
        simp only [if_true] at hc
        simp [Ev.removes, step, unsubscribeRemove, hm, Remove, removeBudget, hp.1,
          Nat.not_le.mpr hp.2]
        omega
      · simp only [if_neg hs, Nat.add_zero] at hc
        simp [Ev.removes, step, unsubscribeRemove, hm, Remove, removeBudget, hs, hc]
    · have : w.step (Ev.unsubscribeRemove t1 s1) = w := by simp [step, unsubscribeRemove, hm]
      rw [this]
      simp [Ev.removes, hm]
  | worker q =>
    simp only [Ev.removes, step, workerStep]
    cases hp : (w.queues q).pass with
    | mk u p =>
      cases p with
      | popped task =>
        cases hf : task.f with
        | delivery v b =>
          simp only [hf]
          have hl : Listed { w with queues := Function.update w.queues q u } :=
            topic_queues_listed w h _
          cases hb : (w.blocks b).topic with
          | none => simp [deliverRemoves, deliver, hb, removeBudget]
          | some t1 =>
            simp only [deliverRemoves, deliver, hb]
            have k := topic_acts_budget ((w.blocks b).listener v) _
              (topic_heard_listed _ hl (Function.update w.heard b (w.heard b ++ [v]))) s b
            exact k
        | fanIn => simp [hf, removeBudget]
        | other => simp [hf, removeBudget]
      | stopped => simp [removeBudget]
      | exited => simp [removeBudget]
      | waiting => simp [removeBudget]
  | enqueueOther q id => simp [Ev.removes, step, AddTask, removeBudget]
  | finish q => simp [Ev.removes, step, removeBudget]

theorem topic_exec_budget (evs : List Ev) (w : TopicWorld) (h : Listed w) (s : Nat) :
    removes s evs w + removeBudget (exec evs w) s ≤ removeBudget w s := by
  induction evs generalizing w with
  | nil => simp [removes, exec]
  | cons e es ih =>
    have h1 := topic_step_budget w h s e
    have h2 := ih (w.step e) (topic_step_listed w h e)
    simp only [removes, exec]
    omega

/-- Two calls of `Unsubscribe` by client threads and one by the listener on the
same subscription call `Remove` once. -/
theorem topic_removes_twice :
    removes 0 [Ev.subscribe 1 0 (fun _ => [Act.unsubscribe 0]) "", Ev.publish 2 0 7,
      Ev.unsubscribeLock 0, Ev.unsubscribeLock 0, Ev.unsubscribeRemove 0 0, Ev.worker 1,
      Ev.unsubscribeLock 0, Ev.unsubscribeRemove 0 0] init = 1 ∧
    removes 0 [Ev.subscribe 1 0 (fun _ => [Act.unsubscribe 0]) "", Ev.publish 2 0 7,
      Ev.worker 1, Ev.unsubscribeLock 0, Ev.unsubscribeRemove 0 0] init = 1 := by
  constructor <;> rfl

end TopicWorld

/-- C22: `Unsubscribe` on a block whose back-pointer is null changes nothing,
as a whole call and as its locked section; `Unsubscribe` after `Unsubscribe`
leaves the state of a single `Unsubscribe`, for every state; and over every
sequence of steps of the threads from the initial state (subscriptions,
publishes, calls of `Unsubscribe` by client threads, by listeners and by
dropped handles, in any interleaving) `Remove` is called for the block of a
subscription at most once. -/
theorem unsubscribe_idempotent (w : TopicWorld) (s : SId) :
    ((w.blocks s).topic = none → w.Unsubscribe s = w ∧ w.unsubscribeLock s = w) ∧
    (w.Unsubscribe s).Unsubscribe s = w.Unsubscribe s ∧
    (∀ evs, TopicWorld.removes s evs TopicWorld.init ≤ 1) ∧
    (TopicWorld.Listed w → ∀ evs, TopicWorld.removes s evs w ≤ 1) := by
  have hgen : ∀ u : TopicWorld, TopicWorld.Listed u → ∀ evs, TopicWorld.removes s evs u ≤ 1 := by
    intro u hu evs
    have h1 := TopicWorld.topic_exec_budget evs u hu s
    have h2 := TopicWorld.topic_budget_le u hu s
    omega
  exact ⟨TopicWorld.topic_Unsubscribe_null w s,
    (TopicWorld.topic_Unsubscribe_null _ s (TopicWorld.topic_Unsubscribe_clears w s)).1,
    hgen _ TopicWorld.topic_init_listed, hgen w⟩

/-! ## The program state: what every call into the library keeps -/

namespace World

theorem stable_thenEach (P : World → Prop) (hP : Stable P) (cur : Option QId)
    (f : Int → Prog) (ps : List PId) (w w1 : World) (h : P w)
    (hr : thenEach cur f ps w = some w1) : P w1 := by
  induction ps generalizing w with
  | nil =>
    simp only [thenEach, Option.some.injEq] at hr
    subst hr
    exact h
  | cons p ps ih =>
    simp only [thenEach] at hr
    cases ht : w.ThenHere cur p f "" with
    | none => simp [ht] at hr
    | some r =>
      simp only [ht] at hr
      refine ih r.1 ?_ hr
      cases cur with
      | none => simp [ThenHere] at ht
      | some q =>
        simp only [ThenHere] at ht
        exact hP.andThen w p q f "" r h ht

theorem stable_run (P : World → Prop) (hP : Stable P) (code : Prog) (cur : Option QId)
    (w : World) (r : World × Int) (h : P w) (hr : Prog.run cur code w = some r) : P r.1 := by
  induction code generalizing w with
  | ret v =>
    simp only [Prog.run, Option.some.injEq] at hr
    subst hr
    exact h
  | push k rest ih =>
    simp only [Prog.run] at hr
    exact ih _ (hP.got w _ h) hr
  | enqueue q f id k _ ihk =>
    simp only [Prog.run] at hr
    refine ihk _ _ ?_ hr
    exact hP.addTask _ q _ id (hP.newPcb w h)
  | enqueueWithResolver q body id k _ ihk =>
    simp only [Prog.run] at hr
    refine ihk _ _ ?_ hr
    exact hP.addTask _ q _ id (hP.newPcb w h)
  | createResolver id k ihk =>
    simp only [Prog.run] at hr
    exact ihk _ _ (hP.newPcb w h) hr
  | createResolvedPromise v id k ihk =>
    simp only [Prog.run] at hr
    cases hc : w.CreateResolvedPromise v with
    | none => simp [hc] at hr
    | some r1 =>
      simp only [hc] at hr
      refine ihk _ _ ?_ hr
      simp only [CreateResolvedPromise, CreateResolver] at hc
      cases hres : w.newPcb.1.Resolve w.newPcb.2 v with
      | none => simp [hres] at hc
      | some w2 =>
        simp only [hres, Option.some.injEq] at hc
        subst hc
        exact hP.resolve _ _ v w2 (hP.newPcb w h) hres
  | thenOn p q f id k _ ihk =>
    simp only [Prog.run] at hr
    cases ht : w.Then p q f id with
    | none => simp [ht] at hr
    | some r1 =>
      simp only [ht] at hr
      exact ihk _ _ (hP.andThen w p q f id r1 h ht) hr
  | thenHere p f id k _ ihk =>
    simp only [Prog.run] at hr
    cases ht : w.ThenHere cur p f id with
    | none => simp [ht] at hr
    | some r1 =>
      simp only [ht] at hr
      refine ihk _ _ ?_ hr
      cases hc : cur with
      | none => simp [ThenHere, hc] at ht
      | some q =>
        simp only [ThenHere, hc] at ht
        exact hP.andThen w p q f id r1 h ht
  | resolve p v rest ih =>
    simp only [Prog.run] at hr
    cases hres : w.Resolve p v with
    | none => simp [hres] at hr
    | some w1 =>
      simp only [hres] at hr
      exact ih _ (hP.resolve w p v w1 h hres) hr
  | decr c k ihk =>
    simp only [Prog.run] at hr
    exact ihk _ _ (hP.decr w c h) hr
  | resolveAll id ps k ihk =>
    simp only [Prog.run] at hr
    cases ha : w.ResolveAll cur ps with
    | none => simp [ha] at hr
    | some r1 =>
      simp only [ha] at hr
      refine ihk _ _ ?_ hr
      simp only [ResolveAll, CreateResolver] at ha
      cases he : thenEach cur (resolveAllBody (w.newPcb.1.newCell ps.length).2 w.newPcb.2) ps
          (w.newPcb.1.newCell ps.length).1 with
      | none => simp [he] at ha
      | some w3 =>
        simp only [he, Option.some.injEq] at ha
        subst ha
        exact stable_thenEach P hP _ _ _ _ _ (hP.newCell _ _ (hP.newPcb w h)) he
  | finish q rest ih =>
    simp only [Prog.run] at hr
    exact ih _ (hP.finish w q h) hr

theorem stable_closure (P : World → Prop) (hP : Stable P) (c : Closure) (cur : Option QId)
    (w w1 : World) (h : P w) (hr : Closure.run cur c w = some w1) : P w1 := by
  cases c with
  | enqueueBody f pcb =>
    simp only [Closure.run] at hr
    cases hf : Prog.run cur f w with
    | none => simp [hf] at hr
    | some r =>
      simp only [hf] at hr
      exact hP.resolve r.1 pcb r.2 w1 (stable_run P hP f cur w r h hf) hr
  | thenBody f resolver value =>
    simp only [Closure.run] at hr
    cases hf : Prog.run cur (f value) w with
    | none => simp [hf] at hr
    | some r =>
      simp only [hf] at hr
      exact hP.resolve r.1 resolver r.2 w1 (stable_run P hP (f value) cur w r h hf) hr
  | withResolverBody resolve resolver =>
    simp only [Closure.run] at hr
    cases hf : Prog.run cur (resolve resolver) w with
    | none => simp [hf] at hr
    | some r =>
      simp only [hf, Option.some.injEq] at hr
      subst hr
      exact stable_run P hP (resolve resolver) cur w r h hf

/-- A property that every call into the library and every pass of a worker
under its lock keeps holds after every step. -/
theorem stable_step (P : World → Prop) (hP : Stable P) (w w1 : World)
    (hpass : ∀ q, P w → P (w.setQueue q (w.queues q).pass.1))
    (e : Ev) (h : P w) (hr : w.step e = some w1) : P w1 := by
  cases e with
  | client cur code =>
    simp only [step] at hr
    cases hc : Prog.run cur code w with
    | none => simp [hc] at hr
    | some r =>
      simp only [hc, Option.map_some', Option.some.injEq] at hr
      subst hr
      exact stable_run P hP code cur w r h hc
  | worker q =>
    simp only [step, workerStep] at hr
    have h1 := hpass q h
    cases hp : (w.queues q).pass with
    | mk s p =>
      rw [hp] at h1 hr
      cases p with
      | popped task => exact stable_closure P hP task.f (some q) _ w1 h1 hr
      | stopped =>
        simp only [Option.some.injEq] at hr
        subst hr
        exact h1
      | exited =>
        simp only [Option.some.injEq] at hr
        subst hr
        exact h1
      | waiting =>
        simp only [Option.some.injEq] at hr
        subst hr
        exact h1

theorem stable_exec (P : World → Prop) (hP : Stable P)
    (hpass : ∀ w q, P w → P (w.setQueue q (w.queues q).pass.1))
    (evs : List Ev) (w w1 : World) (h : P w) (hr : exec evs w = some w1) : P w1 := by
  induction evs generalizing w with
  | nil =>
    simp only [exec, Option.some.injEq] at hr
    subst hr
    exact h
  | cons e es ih =>
    simp only [exec] at hr
    cases hs : w.step e with
    | none => simp [hs] at hr
    | some w2 =>
      simp only [hs] at hr
      exact ih w2 (stable_step P hP w w2 (hpass w) e h hs) hr

end World

/-! ## The program state: pending continuations hold their queue -/

namespace World

theorem held_sumTo_le (f g : Nat → Nat) (n : Nat) (h : ∀ p, p < n → f p ≤ g p) :
    sumTo f n ≤ sumTo g n := by
  induction n with
  | zero => simp [sumTo]
  | succ n ih =>
    have h1 := ih fun p hp => h p (Nat.lt_succ_of_lt hp)
    have h2 := h n (Nat.lt_succ_self n)
    simp only [sumTo]
    omega

theorem held_sumTo_update_ge (f : Nat → Nat) (p x n : Nat) (h : n ≤ p) :
    sumTo (Function.update f p x) n = sumTo f n := by
  induction n with
  | zero => simp [sumTo]
  | succ n ih =>
    have hne : n ≠ p := by omega
    simp only [sumTo, Function.update_noteq hne]
    rw [ih (by omega)]

theorem held_sumTo_update (f : Nat → Nat) (p x n : Nat) (h : p < n) :
    sumTo (Function.update f p x) n + f p = sumTo f n + x := by
  induction n with
  | zero => omega
  | succ n ih =>
    by_cases hp : p = n
    · subst hp
      simp only [sumTo, Function.update_same]
      rw [held_sumTo_update_ge f p x p (Nat.le_refl _)]
      omega
    · have hne : n ≠ p := fun e => hp e.symm
      simp only [sumTo, Function.update_noteq hne]
      have := ih (by omega)
      omega

theorem held_sumTo_ext (f : Nat → Nat) (n m : Nat) (h : ∀ p, n ≤ p → f p = 0) (hnm : n ≤ m) :
    sumTo f m = sumTo f n := by
  induction m with
  | zero =>
    have : n = 0 := by omega
    subst this
    rfl
  | succ m ih =>
    by_cases hm : n = m + 1
    · subst hm
      rfl
    · simp only [sumTo]
      rw [ih (by omega), h m (by omega)]
      rfl

theorem held_extend (w : World) (n m : Nat) (h : HeldAt w n) (hnm : n ≤ m) : HeldAt w m := by
  refine ⟨fun p hp => h.1 p (by omega), ?_⟩
  intro q
  have hz : ∀ p, n ≤ p → w.pendingOn q p = 0 := by
    intro p hp
    simp [pendingOn, h.1 p hp]
  rw [held_sumTo_ext _ n m hz hnm]
  exact h.2 q

/-- The blocks lose continuations or keep them, and no counter decreases. -/
theorem held_of_le (w u : World) (h : Held w)
    (hp : ∀ p, (u.pcbs p).dependents_ = (w.pcbs p).dependents_ ∨ (u.pcbs p).dependents_ = [])
    (hq : ∀ q, (w.queues q).count_ ≤ (u.queues q).count_) : Held u := by
  obtain ⟨n, h1, h2⟩ := h
  refine ⟨n, ?_, ?_⟩
  · intro p hn
    rcases hp p with e | e
    · rw [e]; exact h1 p hn
    · exact e
  · intro q
    have hle : sumTo (u.pendingOn q) n ≤ sumTo (w.pendingOn q) n := by
      apply held_sumTo_le
      intro p _
      rcases hp p with e | e <;> simp [pendingOn, e]
    have := h2 q
    have := hq q
    omega

/-- The block `p` is replaced and each counter moves by the change of the
number of continuations pending on `p` for its queue. -/
theorem held_of_update (w u : World) (p : Nat) (s : PromiseControlBlock Int Dependent)
    (h : Held w) (hp : u.pcbs = Function.update w.pcbs p s)
    (hq : ∀ q, (w.queues q).count_
        + ((s.dependents_.filter fun d => decide (d.q = q)).length : Int)
        - (w.pendingOn q p : Int) ≤ (u.queues q).count_) : Held u := by
  obtain ⟨n, hn⟩ := h
  have hm := held_extend w n (max n (p + 1)) hn (Nat.le_max_left _ _)
  have hlt : p < max n (p + 1) := by
    have := Nat.le_max_right n (p + 1)
    omega
  refine ⟨max n (p + 1), ?_, ?_⟩
  · intro p1 h1
    have hne : p1 ≠ p := by omega
    rw [hp, Function.update_noteq hne]
    exact hm.1 p1 h1
  · intro q
    have hf : u.pendingOn q = Function.update (w.pendingOn q) p
        (s.dependents_.filter fun d => decide (d.q = q)).length := by
      funext p1
      by_cases h1 : p1 = p
      · subst h1
        simp [pendingOn, hp]
      · simp [pendingOn, hp, Function.update_noteq h1]
    rw [hf]
    have h3 := held_sumTo_update (w.pendingOn q) p
      (s.dependents_.filter fun d => decide (d.q = q)).length _ hlt
    have h4 := hm.2 q
    have h5 := hq q
    omega

end World

namespace World

theorem held_calls_length (ds : List Dependent) (v : Int) (q : QId) :
    ((ds.map fun d => (d, v)).filter fun c => decide (c.1.q = q)).length
      = (ds.filter fun d => decide (d.q = q)).length := by
  induction ds with
  | nil => rfl
  | cons d ds ih =>
    by_cases h : d.q = q <;> simp [List.filter_cons, h, ih]

theorem held_Resolve (w : World) (p : PId) (v : Int) (w1 : World) (h : Held w)
    (hr : w.Resolve p v = some w1) : Held w1 := by
  cases hres : (w.pcbs p).result_ with
  | some u => simp [Resolve, PromiseControlBlock.Resolve, hres] at hr
  | none =>
    have hp : w.pcbs p = ⟨none, (w.pcbs p).dependents_⟩ := by
      rw [← hres]
    rw [world_Resolve_unresolved w p v _ hp, Option.some.injEq] at hr
    subst hr
    apply held_of_update w _ p ⟨some v, []⟩ h
    · rw [(world_calls_rest _ _).1]
      rfl
    · intro q
      rw [world_calls_queues]
      simp only [setPcb, held_calls_length, pendingOn, List.filter_nil, List.length_nil]
      omega

theorem held_Then (w : World) (p : PId) (q : QId) (f : Int → Prog) (id : String)
    (r : World × PId) (h : Held w) (hr : w.Then p q f id = some r) : Held r.1 := by
  have h1 : Held w.newPcb.1 := by
    apply held_of_le w _ h
    · intro p1
      by_cases hp : p1 = w.pcbCount
      · subst hp
        right
        simp [newPcb, PromiseControlBlock.new]
      · left
        simp [newPcb, Function.update_noteq hp]
    · intro q1
      exact Int.le_refl _
  simp only [Then] at hr
  cases hres : (w.newPcb.1.pcbs p).result_ with
  | none =>
    have hp : w.newPcb.1.pcbs p = ⟨none, (w.newPcb.1.pcbs p).dependents_⟩ := by
      rw [← hres]
    rw [hp, PromiseControlBlock.pcb_Then_unresolved] at hr
    simp only [Option.some.injEq] at hr
    subst hr
    apply held_of_update w.newPcb.1 _ p
      ⟨none, (w.newPcb.1.pcbs p).dependents_ ++ [⟨q, f, w.newPcb.2, id⟩]⟩ h1
    · simp [calls, Take, setQueue, setPcb]
    · intro q1
      by_cases hq : q1 = q
      · subst hq
        simp [calls, Take, setQueue, setPcb, EventQueue.Take, pendingOn, List.filter_append]
        omega
      · have hq2 : ¬ q = q1 := fun e => hq e.symm
        simp [calls, Take, setQueue, setPcb, pendingOn, List.filter_append,
          Function.update_noteq hq, hq2]
  | some u =>
    have hp : w.newPcb.1.pcbs p = ⟨some u, (w.newPcb.1.pcbs p).dependents_⟩ := by
      rw [← hres]
    rw [hp, PromiseControlBlock.pcb_Then_resolved] at hr
    simp only [Option.some.injEq] at hr
    subst hr
    apply held_of_update w.newPcb.1 _ p ⟨some u, []⟩ h1
    · rw [(world_calls_rest _ _).1]
      simp [Take, setQueue, setPcb]
    · intro q1
      rw [world_calls_queues]
      by_cases hq : q1 = q
      · subst hq
        simp [Take, setQueue, setPcb, EventQueue.Take, pendingOn, held_calls_length,
          List.filter_append]
      · have hq2 : ¬ q = q1 := fun e => hq e.symm
        simp [Take, setQueue, setPcb, pendingOn, held_calls_length, List.filter_append,
          Function.update_noteq hq, hq2]

theorem held_stable : Stable Held := by
  refine ⟨?_, ?_, ?_, ?_, ?_, ?_, held_Resolve, held_Then⟩
  · intro w g h
    exact held_of_le w _ h (fun _ => Or.inl rfl) (fun _ => Int.le_refl _)
  · intro w c h
    exact held_of_le w _ h (fun _ => Or.inl rfl) (fun _ => Int.le_refl _)
  · intro w h
    apply held_of_le w _ h
    · intro p1
      by_cases hp : p1 = w.pcbCount
      · subst hp
        right
        simp [newPcb, PromiseControlBlock.new]
      · left
        simp [newPcb, Function.update_noteq hp]
    · intro q1
      exact Int.le_refl _
  · intro w n h
    exact held_of_le w _ h (fun _ => Or.inl rfl) (fun _ => Int.le_refl _)
  · intro w q f id h
    refine held_of_le w _ h (fun _ => Or.inl rfl) ?_
    intro q1
    by_cases hq : q1 = q
    · subst hq
      simp [AddTask, setQueue, EventQueue.AddTask]
    · simp [AddTask, setQueue, Function.update_noteq hq]
  · intro w q h
    refine held_of_le w _ h (fun _ => Or.inl rfl) ?_
    intro q1
    by_cases hq : q1 = q
    · subst hq
      simp [Finish, setQueue, EventQueue.Finish]
    · simp [Finish, setQueue, Function.update_noteq hq]

theorem held_pass (w : World) (q : QId) (h : Held w) :
    Held (w.setQueue q (w.queues q).pass.1) := by
  refine held_of_le w _ h (fun _ => Or.inl rfl) ?_
  intro q1
  by_cases hq : q1 = q
  · subst hq
    simp only [setQueue, Function.update_same, EventQueue.pass]
    split
    · split
      · split <;> exact Int.le_refl _
      · exact Int.le_refl _
    · exact Int.le_refl _
  · simp [setQueue, Function.update_noteq hq]

theorem held_init : Held init :=
  ⟨0, fun _ _ => rfl, fun _ => by simp [sumTo, init, EventQueue.new]⟩

theorem held_exec (evs : List Ev) (w w1 : World) (h : Held w) (hr : exec evs w = some w1) :
    Held w1 :=
  stable_exec Held held_stable held_pass evs w w1 h hr

end World

/-! ## The counter `count_` of a queue -/

namespace ScheduleWorld

/-- No step of a schedule changes the counter of its queue: the `Take` and the
`Release` of the `Then` in the firing body cancel. -/
theorem sched_step_hold (f : Nat → Bool) (w : ScheduleWorld) (e : Ev)
    (r : ScheduleWorld × List Obs) (h : step f w e = some r) : r.1.q.count_ = w.q.count_ := by
  cases e with
  | cancelLock =>
    simp only [step, Option.some.injEq] at h
    subst h
    cases hc : w.scb.current_timer_ <;> simp [CancelTimer, hc]
  | cancelFinish =>
    by_cases hc : w.cancelling = 0
    · simp [step, hc] at h
      subst h
      rfl
    · by_cases hrun : w.scb.running_ = true
      · cases hd : w.done.Resolve () with
        | none => simp [step, hc, Finish, hrun, hd] at h
        | some r1 =>
          simp [step, hc, Finish, hrun, hd] at h
          subst h
          rfl
      · simp [step, hc, Finish, hrun] at h
        subst h
        rfl
  | timerPass now =>
    cases ht : w.this_task with
    | some j =>
      simp [step, ht] at h
      subst h
      rfl
    | none =>
      simp only [step, ht] at h
      cases hp : w.timer.pass now with
      | mk s p =>
        rw [hp] at h
        cases p <;> simp at h <;> subst h <;> rfl
  | timerCall =>
    cases ht : w.this_task with
    | none =>
      simp [step, ht] at h
      subst h
      rfl
    | some j =>
      cases j with
      | timerCallback =>
        simp [step, ht] at h
        subst h
        simp [TimerCallback, EventQueue.AddTask]
      | other =>
        simp [step, ht] at h
        subst h
        rfl
  | timerOther when =>
    simp [step] at h
    subst h
    rfl
  | workerPass =>
    cases ht : w.task with
    | some j =>
      simp [step, ht] at h
      subst h
      rfl
    | none =>
      simp only [step, ht] at h
      by_cases htr : w.q.t_ = true
      · cases hq : w.q.tasks_ with
        | nil =>
          by_cases hc : (!w.q.running_ && w.q.count_ == 0) = true
          · simp [EventQueue.pass, htr, hq, hc] at h
            subst h
            rfl
          · simp [EventQueue.pass, htr, hq, hc] at h
            subst h
            rfl
        | cons t rest =>
          simp [EventQueue.pass, htr, hq] at h
          subst h
          rfl
      · simp [EventQueue.pass, htr] at h
        subst h
        rfl
  | workerRun now =>
    cases ht : w.task with
    | none =>
      simp [step, ht] at h
      subst h
      rfl
    | some j =>
      cases j with
      | firing =>
        by_cases hrun : w.scb.running_ = true
        · simp [step, ht, firing, hrun, sched_callThen] at h
          subst h
          simp [EventQueue.Take, EventQueue.AddTask, EventQueue.Release]
        · simp [step, ht, firing, hrun] at h
          subst h
          rfl
      | continuation b =>
        cases b with
        | true =>
          simp [step, ht, continuation] at h
          subst h
          by_cases hrun : w.scb.running_ = true <;> simp [ScheduleNextRun, hrun]
        | false =>
          by_cases hrun : w.scb.running_ = true
          · cases hd : w.done.Resolve () with
            | none => simp [step, ht, continuation, Finish, hrun, hd] at h
            | some r1 =>
              simp [step, ht, continuation, Finish, hrun, hd] at h
              subst h
              rfl
          · simp [step, ht, continuation, Finish, hrun] at h
            subst h
            rfl
      | other =>
        simp [step, ht] at h
        subst h
        rfl
  | enqueueOther id =>
    simp [step] at h
    subst h
    simp [EventQueue.AddTask]
  | queueFinish =>
    simp [step] at h
    subst h
    simp [EventQueue.Finish]

theorem sched_exec_hold (f : Nat → Bool) (evs : List Ev) (w : ScheduleWorld)
    (r : ScheduleWorld × List Obs) (h : exec f evs w = some r) : r.1.q.count_ = w.q.count_ := by
  induction evs generalizing w r with
  | nil =>
    simp only [exec, Option.some.injEq] at h
    subst h
    rfl
  | cons e es ih =>
    cases hs : step f w e with
    | none => simp [exec, hs] at h
    | some r1 =>
      rw [sched_exec_cons f e es w r1 hs] at h
      cases he : exec f es r1.1 with
      | none => simp [he] at h
      | some r2 =>
        simp only [he, Option.map_some', Option.some.injEq] at h
        subst h
        rw [ih r1.1 r2 he, sched_step_hold f w e r1 hs]

end ScheduleWorld

/-- C24: in every state that steps of client threads (any client code: `Enqueue`,
`Then`, `Resolve`, `ResolveAll`, `Finish`, ...) and passes of workers reach from
the initial state, the counter `count_` of every queue is at least the number
of continuations registered and not yet called whose target it is, so it is
never negative.  A `Then` on an unresolved block makes one `Take` on its target
and registers one continuation; a `Then` on a resolved block makes one `Take`
and one `Release`; a `Resolve` makes one `Release` per pending continuation on
its target and clears the list, so no continuation releases twice.  The
constructor of a `ScheduleControlBlock` makes one `Take` on its queue; no step
of the schedule releases it (the `Take` and `Release` of the `Then` in the
firing body cancel), and the destructor, which asserts `!running_`, makes the
one `Release`. -/
theorem outstanding_count_never_negative (evs : List World.Ev) (w : World)
    (h : World.exec evs World.init = some w) :
    (∀ q, 0 ≤ (w.queues q).count_) ∧
    (∃ n, (∀ p, n ≤ p → (w.pcbs p).dependents_ = []) ∧
      ∀ q, ((World.sumTo (w.pendingOn q) n : Nat) : Int) ≤ (w.queues q).count_) ∧
    (∀ (u : World) (p : PId) (q : QId) (f : Int → Prog) (id : String) (r : World × PId),
      u.Then p q f id = some r → p ≠ u.pcbCount → (u.pcbs p).result_ = none →
      (r.1.queues q).count_ = (u.queues q).count_ + 1 ∧
      (∀ q1, q1 ≠ q → (r.1.queues q1).count_ = (u.queues q1).count_) ∧
      (r.1.pcbs p).dependents_ = (u.pcbs p).dependents_ ++ [⟨q, f, r.2, id⟩]) ∧
    (∀ (u : World) (p : PId) (q : QId) (f : Int → Prog) (id : String) (r : World × PId)
      (v : Int),
      u.Then p q f id = some r → p ≠ u.pcbCount → u.pcbs p = ⟨some v, []⟩ →
      (∀ q1, (r.1.queues q1).count_ = (u.queues q1).count_) ∧
      (r.1.pcbs p).dependents_ = []) ∧
    (∀ (u : World) (p : PId) (v : Int) (u1 : World), u.Resolve p v = some u1 →
      (∀ q, (u1.queues q).count_ = (u.queues q).count_ - (u.pendingOn q p : Int)) ∧
      (u1.pcbs p).dependents_ = []) ∧
    (∀ (f : Nat → Bool) (evs2 : List ScheduleWorld.Ev) (timer : TimerImpl TimerJob)
      (q0 : EventQueue ScheduleTask) (interval : Int) (id : String) (now : Int)
      (r : ScheduleWorld × List Obs),
      ScheduleWorld.exec f evs2 (ScheduleWorld.DoPeriodically timer q0 interval id now).1
        = some r →
      r.1.q.count_ = q0.count_ + 1 ∧
      ∀ w2, r.1.Destructor = some w2 →
        w2.q.count_ = q0.count_ ∧ r.1.scb.running_ = false) := by
  have hh := World.held_exec evs World.init w World.held_init h
  refine ⟨?_, hh, ?_, ?_, ?_, ?_⟩
  · intro q
    obtain ⟨n, _, h2⟩ := hh
    have := h2 q
    omega
  · intro u p q f id r hr hp hres
    have hpp : u.pcbs p = ⟨none, (u.pcbs p).dependents_⟩ := by
      rw [← hres]
    rw [World.world_Then_unresolved u p q f id _ hpp hp, Option.some.injEq] at hr
    subst hr
    refine ⟨?_, ?_, ?_⟩
    · simp [World.Take, World.setQueue, World.setPcb, World.newPcb, EventQueue.Take]
    · intro q1 hq1
      simp [World.Take, World.setQueue, World.setPcb, World.newPcb,
        Function.update_noteq hq1]
    · simp [World.Take, World.setQueue, World.setPcb, World.newPcb]
  · intro u p q f id r v hr hp hres
    rw [World.world_Then_resolved u p q f id v [] hres hp, Option.some.injEq] at hr
    subst hr
    refine ⟨?_, ?_⟩
    · intro q1
      rw [World.world_calls_queues]
      by_cases hq : q1 = q
      · subst hq
        simp [World.Take, World.setQueue, World.setPcb, World.newPcb, EventQueue.Take]
      · have hq2 : ¬ q = q1 := fun e => hq e.symm
        simp [World.Take, World.setQueue, World.setPcb, World.newPcb,
          Function.update_noteq hq, hq2]
    · rw [(World.world_calls_rest _ _).1]
      simp [World.Take, World.setQueue, World.setPcb, World.newPcb]
  · intro u p v u1 hr
    cases hres : (u.pcbs p).result_ with
    | some x => simp [World.Resolve, PromiseControlBlock.Resolve, hres] at hr
    | none =>
      have hpp : u.pcbs p = ⟨none, (u.pcbs p).dependents_⟩ := by
        rw [← hres]
      rw [World.world_Resolve_unresolved u p v _ hpp, Option.some.injEq] at hr
      subst hr
      refine ⟨?_, ?_⟩
      · intro q
        rw [World.world_calls_queues]
        simp [World.setPcb, World.held_calls_length, World.pendingOn]
      · rw [(World.world_calls_rest _ _).1]
        simp [World.setPcb]
  · intro f evs2 timer q0 interval id now r hr
    have hc := ScheduleWorld.sched_exec_hold f evs2 _ r hr
    have h0 : (ScheduleWorld.DoPeriodically timer q0 interval id now).1.q.count_
        = q0.count_ + 1 := by
      simp [ScheduleWorld.DoPeriodically, ScheduleWorld.ScheduleNextRun, EventQueue.Take]
    refine ⟨hc.trans h0, ?_⟩
    intro w2 hd
    by_cases hrun : r.1.scb.running_ = true
    · simp [ScheduleWorld.Destructor, hrun] at hd
    · simp [ScheduleWorld.Destructor, hrun] at hd
      subst hd
      refine ⟨?_, by simpa using hrun⟩
      simp only [EventQueue.Release]
      rw [hc, h0]
      omega

/-- C24, at a run on the fresh fixture: a client thread creates a resolver and
registers a continuation for queue 1, another resolves it, and the worker of
queue 1 runs the downstream task. -/
theorem outstanding_count_never_negative_witness :
    0 ≤ (((World.exec
      [World.Ev.client none (Prog.createResolver "" fun p =>
          Prog.thenOn p 1 pushArg "" fun _ => Prog.ret 0),
        World.Ev.client none (Prog.resolve 0 7 (Prog.ret 0)),
        World.Ev.worker 1] World.init).getD World.init).queues 1).count_ :=
  (outstanding_count_never_negative
    [World.Ev.client none (Prog.createResolver "" fun p =>
        Prog.thenOn p 1 pushArg "" fun _ => Prog.ret 0),
      World.Ev.client none (Prog.resolve 0 7 (Prog.ret 0)),
      World.Ev.worker 1] _ rfl).1 1

/-! ## The program state: a block that stays unresolved -/

namespace World

theorem grows_refl (p : PId) (w : World) : Grows p w w :=
  ⟨Nat.le_refl _, fun _ => ⟨fun h => h, fun _ d hd => hd⟩⟩

theorem grows_trans (p : Nat) (w u x : World) (h1 : Grows p w u) (h2 : Grows p u x) :
    Grows p w x := by
  refine ⟨Nat.le_trans h1.1 h2.1, ?_⟩
  intro hp
  have hp2 : p < u.pcbCount := Nat.lt_of_lt_of_le hp h1.1
  obtain ⟨a1, b1⟩ := h1.2 hp
  obtain ⟨a2, b2⟩ := h2.2 hp2
  refine ⟨fun h => a2 (a1 h), ?_⟩
  intro hx d hd
  have hu : (u.pcbs p).result_ = none := by
    cases hr : (u.pcbs p).result_ with
    | none => rfl
    | some v =>
      have := a2 (by simp [hr])
      rw [hx] at this
      simp at this
  exact b2 hx d (b1 hu d hd)

theorem grows_of_same (p : PId) (w u : World) (hc : u.pcbCount = w.pcbCount)
    (hp : u.pcbs = w.pcbs) : Grows p w u := by
  refine ⟨by rw [hc], fun _ => ?_⟩
  rw [hp]
  exact ⟨fun h => h, fun _ d hd => hd⟩

theorem grows_newPcb (p : Nat) (w : World) : Grows p w w.newPcb.1 := by
  refine ⟨by simp [newPcb], ?_⟩
  intro hp
  have hne : p ≠ w.pcbCount := Nat.ne_of_lt hp
  simp only [newPcb, Function.update_noteq hne]
  exact ⟨fun h => h, fun _ d hd => hd⟩

theorem grows_Resolve (p : Nat) (w : World) (p1 : PId) (v : Int) (w1 : World)
    (hr : w.Resolve p1 v = some w1) : Grows p w w1 := by
  cases hres : (w.pcbs p1).result_ with
  | some u => simp [Resolve, PromiseControlBlock.Resolve, hres] at hr
  | none =>
    have hp : w.pcbs p1 = ⟨none, (w.pcbs p1).dependents_⟩ := by
      rw [← hres]
    rw [world_Resolve_unresolved w p1 v _ hp, Option.some.injEq] at hr
    subst hr
    have hr := world_calls_rest ((w.pcbs p1).dependents_.map fun d => (d, v))
      (w.setPcb p1 ⟨some v, []⟩)
    refine ⟨by rw [hr.2.1]; exact Nat.le_refl _, fun _ => ?_⟩
    rw [hr.1]
    by_cases h1 : p = p1
    · subst h1
      simp [setPcb]
    · simp only [setPcb, Function.update_noteq h1]
      exact ⟨fun h => h, fun _ d hd => hd⟩

theorem grows_Then (p : Nat) (w : World) (p1 : PId) (q : QId) (f : Int → Prog) (id : String)
    (r : World × PId) (hr : w.Then p1 q f id = some r) : Grows p w r.1 := by
  simp only [Then] at hr
  cases hres : (w.newPcb.1.pcbs p1).result_ with
  | none =>
    have hp : w.newPcb.1.pcbs p1 = ⟨none, (w.newPcb.1.pcbs p1).dependents_⟩ := by
      rw [← hres]
    rw [hp, PromiseControlBlock.pcb_Then_unresolved] at hr
    simp only [Option.some.injEq] at hr
    subst hr
    refine ⟨by simp [calls, Take, setQueue, setPcb, newPcb], ?_⟩
    intro hlt
    have hne : p ≠ w.pcbCount := Nat.ne_of_lt hlt
    by_cases h1 : p = p1
    · subst h1
      simp only [newPcb, Function.update_noteq hne] at hres
      simp [calls, Take, setQueue, setPcb, newPcb, Function.update_noteq hne, hres]
      intro d hd
      exact Or.inl hd
    · simp only [calls, List.foldl_nil, Take, setQueue, setPcb, newPcb,
        Function.update_noteq h1, Function.update_noteq hne]
      exact ⟨fun h => h, fun _ d hd => hd⟩
  | some u =>
    have hp : w.newPcb.1.pcbs p1 = ⟨some u, (w.newPcb.1.pcbs p1).dependents_⟩ := by
      rw [← hres]
    rw [hp, PromiseControlBlock.pcb_Then_resolved] at hr
    simp only [Option.some.injEq] at hr
    subst hr
    have hrest := world_calls_rest
      (((w.newPcb.1.pcbs p1).dependents_ ++ [(⟨q, f, w.newPcb.2, id⟩ : Dependent)]).map
        fun d => (d, u))
      ((w.newPcb.1.setPcb p1 ⟨some u, []⟩).Take q)
    refine ⟨by rw [hrest.2.1]; simp [Take, setQueue, setPcb, newPcb], ?_⟩
    intro hlt
    have hne : p ≠ w.pcbCount := Nat.ne_of_lt hlt
    rw [hrest.1]
    by_cases h1 : p = p1
    · subst h1
      simp [Take, setQueue, setPcb]
    · simp only [Take, setQueue, setPcb, newPcb, Function.update_noteq h1,
        Function.update_noteq hne]
      exact ⟨fun h => h, fun _ d hd => hd⟩

theorem grows_stable (p : Nat) (w0 : World) : Stable (fun u => Grows p w0 u) := by
  refine ⟨?_, ?_, ?_, ?_, ?_, ?_, ?_, ?_⟩
  · intro w g h
    exact grows_trans p w0 w _ h (grows_of_same p w _ rfl rfl)
  · intro w c h
    exact grows_trans p w0 w _ h (grows_of_same p w _ rfl rfl)
  · intro w h
    exact grows_trans p w0 w _ h (grows_newPcb p w)
  · intro w n h
    exact grows_trans p w0 w _ h (grows_of_same p w _ rfl rfl)
  · intro w q f id h
    exact grows_trans p w0 w _ h (grows_of_same p w _ rfl rfl)
  · intro w _ h
    exact grows_trans p w0 w _ h (grows_of_same p w _ rfl rfl)
  · intro w p1 v w1 h hr
    exact grows_trans p w0 w _ h (grows_Resolve p w p1 v w1 hr)
  · intro w p1 q f id r h hr
    exact grows_trans p w0 w _ h (grows_Then p w p1 q f id r hr)

theorem grows_step (p : Nat) (w w1 : World) (e : Ev) (hr : w.step e = some w1) :
    Grows p w w1 :=
  stable_step (fun u => Grows p w u) (grows_stable p w) w w1
    (fun _ h => grows_trans p w w _ h (grows_of_same p w _ rfl rfl)) e
    (grows_refl p w) hr

theorem grows_exec (p : Nat) (evs : List Ev) (w w1 : World) (hr : exec evs w = some w1) :
    Grows p w w1 :=
  stable_exec (fun u => Grows p w u) (grows_stable p w)
    (fun u _ h => grows_trans p w u _ h (grows_of_same p u _ rfl rfl)) evs w w1
    (grows_refl p w) hr

/-- No call into the library stops the worker of a queue. -/
theorem alive_stable (q : QId) : Stable (fun u => (u.queues q).t_ = true) := by
  refine ⟨?_, ?_, ?_, ?_, ?_, ?_, ?_, ?_⟩
  · intro w g h; exact h
  · intro w c h; exact h
  · intro w h; exact h
  · intro w n h; exact h
  · intro w q1 f id h
    by_cases hq : q = q1
    · subst hq
      simpa [AddTask, setQueue, EventQueue.AddTask] using h
    · simpa [AddTask, setQueue, Function.update_noteq hq] using h
  · intro w q1 h
    by_cases hq : q = q1
    · subst hq
      simpa [Finish, setQueue, EventQueue.Finish] using h
    · simpa [Finish, setQueue, Function.update_noteq hq] using h
  · intro w p1 v w1 h hr
    cases hres : (w.pcbs p1).result_ with
    | some u => simp [Resolve, PromiseControlBlock.Resolve, hres] at hr
    | none =>
      have hp : w.pcbs p1 = ⟨none, (w.pcbs p1).dependents_⟩ := by
        rw [← hres]
      rw [world_Resolve_unresolved w p1 v _ hp, Option.some.injEq] at hr
      subst hr
      rw [world_calls_queues]
      simpa [setPcb] using h
  · intro w p1 q1 f id r h hr
    simp only [Then] at hr
    cases hc : (w.newPcb.1.pcbs p1).Then ⟨q1, f, w.newPcb.2, id⟩ with
    | none => simp [hc] at hr
    | some sc =>
      simp only [hc, Option.some.injEq] at hr
      subst hr
      rw [world_calls_queues]
      by_cases hq : q = q1
      · subst hq
        simpa [Take, setQueue, setPcb, newPcb, EventQueue.Take] using h
      · simpa [Take, setQueue, setPcb, newPcb, Function.update_noteq hq] using h

theorem held_sumTo_ge (f : Nat → Nat) (p n : Nat) (h : p < n) : f p ≤ sumTo f n := by
  induction n with
  | zero => omega
  | succ n ih =>
    simp only [sumTo]
    by_cases hp : p = n
    · subst hp
      omega
    · have := ih (by omega)
      omega

/-- A continuation with target `q` that is pending on a block holds `q`. -/
theorem held_pending (w : World) (h : Held w) (p : Nat) (d : Dependent) (q : QId)
    (hd : d ∈ (w.pcbs p).dependents_) (hq : d.q = q) : 1 ≤ (w.queues q).count_ := by
  obtain ⟨n, h1, h2⟩ := h
  have hp : p < n := by
    by_contra hn
    rw [h1 p (by omega)] at hd
    simp at hd
  have h3 : 1 ≤ w.pendingOn q p := by
    simp only [pendingOn]
    apply List.length_pos_of_mem (a := d)
    simp [List.mem_filter, hd, hq]
  have h4 := held_sumTo_ge (w.pendingOn q) p n hp
  have h5 := h2 q
  omega

end World

namespace World

/-- A step does not stop the worker of a queue that is held. -/
theorem alive_step (w w1 : World) (e : Ev) (q : QId) (hc : 1 ≤ (w.queues q).count_)
    (ht : (w.queues q).t_ = true) (hs : w.step e = some w1) : (w1.queues q).t_ = true := by
  refine stable_step (fun u => (u.queues q).t_ = true) (alive_stable q) w w1 ?_ e ht hs
  intro q1 _
  by_cases hq : q = q1
  · subst hq
    have hne : ((w.queues q).count_ == 0) = false := by
      simp only [beq_eq_false_iff_ne, ne_eq]
      omega
    simp only [setQueue, Function.update_same, EventQueue.pass, ht, if_true, hne,
      Bool.and_false]
    cases (w.queues q).tasks_ <;> simp [ht]
  · simpa [setQueue, Function.update_noteq hq] using ht

/-- While the block `p` stays unresolved, the continuation `d` stays pending
on it, its target queue stays held and the worker of the target stays in its
loop. -/
theorem alive_exec (evs : List Ev) (w w2 : World) (p : Nat) (d : Dependent) (q : QId)
    (hw : Held w) (hp : p < w.pcbCount) (hd : d ∈ (w.pcbs p).dependents_) (hq : d.q = q)
    (he : exec evs w = some w2) (hn : (w2.pcbs p).result_ = none) :
    d ∈ (w2.pcbs p).dependents_ ∧ 1 ≤ (w2.queues q).count_ ∧
      ((w.queues q).t_ = true → (w2.queues q).t_ = true) := by
  induction evs generalizing w with
  | nil =>
    simp only [exec, Option.some.injEq] at he
    subst he
    exact ⟨hd, held_pending w hw p d q hd hq, fun h => h⟩
  | cons e es ih =>
    simp only [exec] at he
    cases hs : w.step e with
    | none => simp [hs] at he
    | some w1 =>
      simp only [hs] at he
      have g1 := grows_step p w w1 e hs
      have g2 := grows_exec p es w1 w2 he
      have hp1 : p < w1.pcbCount := Nat.lt_of_lt_of_le hp g1.1
      have hn1 : (w1.pcbs p).result_ = none := by
        cases hr : (w1.pcbs p).result_ with
        | none => rfl
        | some v =>
          have := (g2.2 hp1).1 (by simp [hr])
          rw [hn] at this
          simp at this
      have hd1 := (g1.2 hp).2 hn1 d hd
      have hw1 : Held w1 := stable_step Held held_stable w w1 (fun q1 h => held_pass w q1 h) e hw hs
      obtain ⟨k1, k2, k3⟩ := ih w1 hw1 hp1 hd1 he
      refine ⟨k1, k2, fun ht => k3 ?_⟩
      exact alive_step w w1 e q (held_pending w hw p d q hd hq) ht hs

end World

/-- C30: in a state in which every pending continuation holds its queue (every
state reached from the initial one), `Then(q, f)` on an allocated block `p`; if
after whatever steps of client threads and workers follow `p` is unresolved,
then `p` was never resolved, the continuation is still pending, the `Take` of
`Then` has not been matched by a `Release`: the counter of `q` is at least 1,
the exit condition of the worker of `q` does not hold, also after `Finish`, the
pass of the worker does not leave the loop, and a worker that was in its loop
when `Then` returned still is. -/
theorem unresolved_then_holds_queue_forever (w : World) (p : Nat) (q : QId)
    (f : Int → Prog) (id : String) (r : World × PId) (evs : List World.Ev) (w2 : World)
    (hw : World.Held w) (hp : p < w.pcbCount) (hr : w.Then p q f id = some r)
    (he : World.exec evs r.1 = some w2) (hn : (w2.pcbs p).result_ = none) :
    (w.pcbs p).result_ = none ∧
    (⟨q, f, r.2, id⟩ : Dependent) ∈ (w2.pcbs p).dependents_ ∧
    1 ≤ (w2.queues q).count_ ∧
    (!((w2.Finish q).queues q).running_ && ((w2.Finish q).queues q).count_ == 0) = false ∧
    (((w2.Finish q).queues q).t_ = true →
      ((w2.Finish q).workerStep q).map (fun u => (u.queues q).t_) ≠ some false) ∧
    ((r.1.queues q).t_ = true → (w2.queues q).t_ = true) := by
  have g1 := World.grows_Then p w p q f id r hr
  have g2 := World.grows_exec p evs r.1 w2 he
  have hp1 : p < r.1.pcbCount := Nat.lt_of_lt_of_le hp g1.1
  have hn1 : (r.1.pcbs p).result_ = none := by
    cases hx : (r.1.pcbs p).result_ with
    | none => rfl
    | some v =>
      have := (g2.2 hp1).1 (by simp [hx])
      rw [hn] at this
      simp at this
  have hn0 : (w.pcbs p).result_ = none := by
    cases hx : (w.pcbs p).result_ with
    | none => rfl
    | some v =>
      have := (g1.2 hp).1 (by simp [hx])
      rw [hn1] at this
      simp at this
  have hpp : w.pcbs p = ⟨none, (w.pcbs p).dependents_⟩ := by
    rw [← hn0]
  have hne : p ≠ w.pcbCount := Nat.ne_of_lt hp
  have hr2 := hr
  rw [World.world_Then_unresolved w p q f id _ hpp hne, Option.some.injEq] at hr2
  have hd : (⟨q, f, r.2, id⟩ : Dependent) ∈ (r.1.pcbs p).dependents_ := by
    rw [← hr2]
    simp [World.Take, World.setQueue, World.setPcb, World.newPcb]
  have hw1 : World.Held r.1 := World.held_Then w p q f id r hw hr
  obtain ⟨k1, k2, k3⟩ := World.alive_exec evs r.1 w2 p _ q hw1 hp1 hd rfl he hn
  have hcf : ((w2.Finish q).queues q).count_ = (w2.queues q).count_ := by
    simp [World.Finish, World.setQueue, EventQueue.Finish]
  have hne0 : (((w2.Finish q).queues q).count_ == 0) = false := by
    simp only [beq_eq_false_iff_ne, ne_eq]
    omega
  refine ⟨hn0, k1, k2, by simp [hne0], ?_, k3⟩
  intro ht
  cases hs : (w2.Finish q).workerStep q with
  | none => simp
  | some u =>
    have := World.alive_step (w2.Finish q) u (World.Ev.worker q) q (by omega) ht hs
    simp [this]

/-- C30, on the fresh fixture: a client creates a resolver, registers a
continuation for queue 1 on its promise and drops both handles; then
`Finish` is called on queue 1 and its worker makes two passes.  The counter of
queue 1 is still 1 and the worker is still in its loop. -/
theorem unresolved_then_holds_queue_forever_witness :
    1 ≤ (((World.exec
        [World.Ev.client none (Prog.finish 1 (Prog.ret 0)), World.Ev.worker 1, World.Ev.worker 1]
        ((World.init.CreateResolver.1.Then 0 1 pushArg "").getD (World.init, 0)).1).getD
          World.init).queues 1).count_ ∧
    (((World.exec
        [World.Ev.client none (Prog.finish 1 (Prog.ret 0)), World.Ev.worker 1, World.Ev.worker 1]
        ((World.init.CreateResolver.1.Then 0 1 pushArg "").getD (World.init, 0)).1).getD
          World.init).queues 1).t_ = true :=
  have h := unresolved_then_holds_queue_forever World.init.CreateResolver.1 0 1 pushArg ""
    ((World.init.CreateResolver.1.Then 0 1 pushArg "").getD (World.init, 0))
    [World.Ev.client none (Prog.finish 1 (Prog.ret 0)), World.Ev.worker 1, World.Ev.worker 1]
    ((World.exec
        [World.Ev.client none (Prog.finish 1 (Prog.ret 0)), World.Ev.worker 1, World.Ev.worker 1]
        ((World.init.CreateResolver.1.Then 0 1 pushArg "").getD (World.init, 0)).1).getD
          World.init)
    (World.held_stable.newPcb World.init World.held_init) (by decide) rfl rfl rfl
  ⟨h.2.2.1, h.2.2.2.2.2 rfl⟩

/-! ## `Then`: where the `Release` is -/

/-- C23, counterexample: on the fresh fixture a client creates a resolver and
registers `Then(q1, f)` on its promise, where `f` pushes its argument: the
counter of queue 1 is 1.  `Resolve(7)` calls the continuation, after which the
counter of queue 1 is 0 again while the downstream task is still in the FIFO,
`f` has not run and the promise of `Then` is unresolved.  The pass of the
worker that runs the task leaves the counter at 0. -/
theorem then_release_precedes_downstream_task :
    (World.init.CreateResolver.1.Then 0 1 pushArg "").map
        (fun r => ((r.1.queues 1).count_, (r.1.queues 1).tasks_.length)) = some (1, 0) ∧
    ((World.init.CreateResolver.1.Then 0 1 pushArg "").bind fun r => r.1.Resolve 0 7).map
        (fun w => ((w.queues 1).count_, (w.queues 1).tasks_.length, w.got,
          (w.pcbs 1).result_)) = some (0, 1, [], none) ∧
    (((World.init.CreateResolver.1.Then 0 1 pushArg "").bind fun r =>
        r.1.Resolve 0 7).bind fun w => w.workerStep 1).map
        (fun w => ((w.queues 1).count_, (w.queues 1).tasks_.length, w.got,
          (w.pcbs 1).result_)) = some (0, 0, [7], some 0) := by
  refine ⟨?_, ?_, ?_⟩ <;> rfl

/-- C23, amended: `Then(q, f)` on an unresolved allocated block `p`, in a state
in which every pending continuation holds its queue, makes one `Take` on `q`
and registers the continuation.  While `p` stays unresolved, whatever the
threads do, the continuation stays pending and the counter of `q` stays at
least 1.  The `Resolve` of `p` calls the continuation, which adds the
downstream task to the FIFO of `q` and then makes the `Release`: when
`Resolve` returns the task is in the FIFO, the counter is released, and `f` has
not run and the promise of `Then` is untouched.  The downstream task body is
`resolver.Resolve(f(value))` and makes no `Release`: for an `f` that only
returns a value it changes no queue.  A worker in its loop whose FIFO is not
empty pops a task and does not leave the loop. -/
theorem then_release_follows_enqueue (w : World) (p : Nat) (q : QId) (f : Int → Prog)
    (id : String) (r : World × PId) (hw : World.Held w) (hp : p < w.pcbCount)
    (hres : (w.pcbs p).result_ = none) (hr : w.Then p q f id = some r) :
    ((r.1.queues q).count_ = (w.queues q).count_ + 1 ∧
      (r.1.queues q).tasks_ = (w.queues q).tasks_ ∧ r.2 = w.pcbCount ∧
      (r.1.pcbs p).dependents_ = (w.pcbs p).dependents_ ++ [⟨q, f, r.2, id⟩]) ∧
    (∀ evs w2, World.exec evs r.1 = some w2 → (w2.pcbs p).result_ = none →
      (⟨q, f, r.2, id⟩ : Dependent) ∈ (w2.pcbs p).dependents_ ∧ 1 ≤ (w2.queues q).count_ ∧
      ∀ v, ∃ w3, w2.Resolve p v = some w3 ∧
        (⟨id, Closure.thenBody f r.2 v⟩ : Task Closure) ∈ (w3.queues q).tasks_ ∧
        (w3.queues q).count_ = (w2.queues q).count_ - (w2.pendingOn q p : Int) ∧
        1 ≤ w2.pendingOn q p ∧
        w3.got = w2.got ∧ w3.pcbs r.2 = w2.pcbs r.2) ∧
    (∀ (u : World) (cur : Option QId) (v : Int),
      Closure.run cur (Closure.thenBody f r.2 v) u
        = (Prog.run cur (f v) u).bind fun r1 => r1.1.Resolve r.2 r1.2) ∧
    (∀ (u : World) (cur : Option QId) (v x : Int), f v = Prog.ret x →
      u.pcbs r.2 = ⟨none, []⟩ →
      Closure.run cur (Closure.thenBody f r.2 v) u = some (u.setPcb r.2 ⟨some x, []⟩)) ∧
    (∀ (s : EventQueue Closure) (t : Task Closure) (rest : List (Task Closure)),
      s.t_ = true → s.tasks_ = t :: rest →
      s.pass = ({ s with tasks_ := rest }, EventQueue.Pass.popped t)) := by
  have hpp : w.pcbs p = ⟨none, (w.pcbs p).dependents_⟩ := by
    rw [← hres]
  have hne : p ≠ w.pcbCount := Nat.ne_of_lt hp
  have hr2 := hr
  rw [World.world_Then_unresolved w p q f id _ hpp hne, Option.some.injEq] at hr2
  have hout : r.2 = w.pcbCount := by rw [← hr2]
  have hd : (r.1.pcbs p).dependents_ = (w.pcbs p).dependents_ ++ [⟨q, f, r.2, id⟩] := by
    rw [← hr2]
    simp [World.Take, World.setQueue, World.setPcb, World.newPcb]
  have g1 := World.grows_Then p w p q f id r hr
  have hp1 : p < r.1.pcbCount := Nat.lt_of_lt_of_le hp g1.1
  have hw1 : World.Held r.1 := World.held_Then w p q f id r hw hr
  refine ⟨⟨?_, ?_, hout, hd⟩, ?_, ?_, ?_, ?_⟩
  · rw [← hr2]
    simp [World.Take, World.setQueue, World.setPcb, World.newPcb, EventQueue.Take]
  · rw [← hr2]
    simp [World.Take, World.setQueue, World.setPcb, World.newPcb, EventQueue.Take]
  · intro evs w2 he hn
    have hmem : (⟨q, f, r.2, id⟩ : Dependent) ∈ (r.1.pcbs p).dependents_ := by
      rw [hd]
      simp
    obtain ⟨k1, k2, _⟩ := World.alive_exec evs r.1 w2 p _ q hw1 hp1 hmem rfl he hn
    refine ⟨k1, k2, ?_⟩
    intro v
    have hp2 : w2.pcbs p = ⟨none, (w2.pcbs p).dependents_⟩ := by
      rw [← hn]
    refine ⟨_, World.world_Resolve_unresolved w2 p v _ hp2, ?_, ?_, ?_, ?_, ?_⟩
    · rw [World.world_calls_queues]
      simp only [List.mem_append, List.mem_map, List.mem_filter]
      right
      exact ⟨(⟨q, f, r.2, id⟩, v), ⟨⟨_, k1, rfl⟩, by simp⟩, rfl⟩
    · rw [World.world_calls_queues]
      simp [World.setPcb, World.held_calls_length, World.pendingOn]
    · simp only [World.pendingOn]
      apply List.length_pos_of_mem (a := (⟨q, f, r.2, id⟩ : Dependent))
      simp [List.mem_filter, k1]
    · rw [(World.world_calls_rest _ _).2.2.2.2]
      rfl
    · rw [(World.world_calls_rest _ _).1]
      have hne2 : r.2 ≠ p := by
        rw [hout]
        exact fun e => hne e.symm
      simp [World.setPcb, Function.update_noteq hne2]
  · intro u cur v
    simp only [Closure.run]
    cases Prog.run cur (f v) u <;> rfl
  · intro u cur v x hf hu
    simp [Closure.run, hf, Prog.run, World.Resolve, hu, PromiseControlBlock.Resolve,
      PromiseControlBlock.NotifyDependents, World.calls]
  · intro s t rest ht hq
    simp [EventQueue.pass, ht, hq]

/-- C23, amended, on the fresh fixture: a client creates a resolver and
registers a continuation for queue 1 that returns its argument plus one. -/
theorem then_release_follows_enqueue_witness :
    (((World.init.CreateResolver.1.Then 0 1 addOne "").getD (World.init, 0)).1.queues 1).count_
      = (World.init.CreateResolver.1.queues 1).count_ + 1 ∧
    ∃ w3, ((World.init.CreateResolver.1.Then 0 1 addOne "").getD (World.init, 0)).1.Resolve 0 7
        = some w3 ∧
      (⟨"", Closure.thenBody addOne 1 7⟩ : Task Closure) ∈ (w3.queues 1).tasks_ ∧
      (w3.queues 1).count_ = 0 :=
  have h := then_release_follows_enqueue World.init.CreateResolver.1 0 1 addOne ""
    ((World.init.CreateResolver.1.Then 0 1 addOne "").getD (World.init, 0))
    (World.held_stable.newPcb World.init World.held_init) (by decide) rfl rfl
  ⟨h.1.1, by
    obtain ⟨w3, k1, k2, k3, _⟩ := (h.2.1 [] _ rfl rfl).2.2 7
    exact ⟨w3, k1, k2, by rw [k3]; rfl⟩⟩

/-! ## The mutexes a thread holds when it calls client code -/

/-- C27, counterexample: the firing body of a running schedule calls the
periodic function with `mu_` of the `ScheduleControlBlock` held, and a periodic
function that calls `Cancel` on its own schedule locks that mutex again on the
same thread and never returns. -/
theorem firing_calls_periodic_under_mutex :
    (Locking.firingBody true Code.skip).run [] = some [(Callback.periodic, [Mu.schedule])] ∧
    (Locking.firingBody true (Locking.Cancel false true)).run [] = none := by
  constructor <;> rfl

/-- C27, amended: the delivery task calls the listener of a subscription with
no mutex held, whatever the listener does, so a listener that calls
`Unsubscribe` on its own subscription returns.  The firing body of a running
schedule calls the periodic function with `mu_` of the `ScheduleControlBlock`
held and no other mutex, whatever the function does: a periodic function that
calls `Cancel` on its own schedule never returns, while `Cancel` on a thread
that holds no mutex returns; a firing body that finds the schedule stopped and
the continuation, which runs as a task of its own, call no callback and
return. -/
theorem callbacks_and_control_block_mutexes (body : Code)
    (calls : List (Callback × List Mu)) :
    ((Locking.deliveryBody true body).run [] = some calls →
      calls.head? = some (Callback.listener, [])) ∧
    (∀ subscribed, (Locking.deliveryBody true (Locking.Unsubscribe subscribed)).run []
      = some [(Callback.listener, [])]) ∧
    (Locking.deliveryBody false body).run [] = some [] ∧
    ((Locking.firingBody true body).run [] = some calls →
      calls.head? = some (Callback.periodic, [Mu.schedule])) ∧
    (∀ hasTimer running,
      (Locking.firingBody true (Locking.Cancel hasTimer running)).run [] = none) ∧
    (∀ hasTimer running, (Locking.Cancel hasTimer running).run [] = some []) ∧
    (Locking.firingBody false body).run [] = some [] ∧
    (∀ keep_running running,
      (Locking.continuationBody keep_running running).run [] = some []) := by
  refine ⟨?_, ?_, ?_, ?_, ?_, ?_, ?_, ?_⟩
  · intro h
    simp only [Locking.deliveryBody, Code.run, List.not_mem_nil, if_false, if_true,
      List.nil_append] at h
    cases hb : body.run [] with
    | none => simp [hb] at h
    | some r =>
      simp [hb] at h
      subst h
      rfl
  · intro subscribed
    cases subscribed <;> rfl
  · rfl
  · intro h
    simp only [Locking.firingBody, Code.run, List.not_mem_nil, if_false, if_true] at h
    cases hb : body.run [Mu.schedule] with
    | none => simp [hb] at h
    | some r =>
      simp [hb, Locking.Then, Code.run] at h
      subst h
      rfl
  · intro hasTimer running
    cases hasTimer <;> cases running <;> rfl
  · intro hasTimer running
    cases hasTimer <;> cases running <;> rfl
  · rfl
  · intro keep_running running
    cases keep_running <;> cases running <;> rfl

/-! ## A block whose resolver nobody holds -/

namespace World

theorem avoids_same (p : PId) (w u : World) (h : Avoids p w) (hq : u.queues = w.queues)
    (hp : u.pcbs = w.pcbs) (hc : u.pcbCount = w.pcbCount) : Avoids p u := by
  obtain ⟨h1, h2, h3, h4⟩ := h
  refine ⟨by rw [hc]; exact h1, by rw [hp]; exact h2, ?_, ?_⟩
  · rw [hq]; exact h3
  · rw [hp]; exact h4

theorem avoids_newPcb (p : PId) (w : World) (h : Avoids p w) :
    Avoids p w.newPcb.1 ∧ w.newPcb.2 ≠ p := by
  obtain ⟨h1, h2, h3, h4⟩ := h
  have hne : p ≠ w.pcbCount := Nat.ne_of_lt h1
  refine ⟨⟨Nat.lt_succ_of_lt h1, ?_, h3, ?_⟩, fun e => hne e.symm⟩
  · simpa [newPcb, Function.update_noteq hne] using h2
  · intro p1 d hd
    by_cases hp : p1 = w.pcbCount
    · subst hp
      simp [newPcb, PromiseControlBlock.new] at hd
    · simp only [newPcb, Function.update_noteq hp] at hd
      exact h4 p1 d hd

theorem avoids_tasks (p : PId) (w : World) (h : Avoids p w) (q : QId)
    (s : EventQueue Closure)
    (hs : ∀ t ∈ s.tasks_, t ∈ (w.queues q).tasks_ ∨ t.f.avoids p) :
    Avoids p (w.setQueue q s) := by
  obtain ⟨h1, h2, h3, h4⟩ := h
  refine ⟨h1, h2, ?_, h4⟩
  intro q1 t ht
  by_cases hq : q1 = q
  · subst hq
    simp only [setQueue, Function.update_same] at ht
    rcases hs t ht with k | k
    · exact h3 q1 t k
    · exact k
  · simp only [setQueue, Function.update_noteq hq] at ht
    exact h3 q1 t ht

theorem avoids_AddTask (p : PId) (w : World) (h : Avoids p w) (q : QId) (c : Closure)
    (id : String) (hc : c.avoids p) : Avoids p (w.AddTask q c id) := by
  apply avoids_tasks p w h
  intro t ht
  simp only [EventQueue.AddTask, List.mem_append, List.mem_singleton] at ht
  rcases ht with k | k
  · exact Or.inl k
  · right
    rw [k]
    exact hc

theorem avoids_calls (p : PId) (cs : List (Dependent × Int)) (w : World) (h : Avoids p w)
    (hcs : ∀ c ∈ cs, c.1.resolver ≠ p ∧ ∀ v, (c.1.f v).avoids p) : Avoids p (w.calls cs) := by
  induction cs generalizing w with
  | nil => exact h
  | cons c cs ih =>
    simp only [calls, List.foldl_cons]
    apply ih
    · have hc := hcs c (List.mem_cons_self _ _)
      have h1 := avoids_AddTask p w h c.1.q (Closure.thenBody c.1.f c.1.resolver c.2) c.1.id
        ⟨hc.1, hc.2 c.2⟩
      simp only [call, Release]
      apply avoids_tasks p _ h1
      intro t ht
      exact Or.inl ht
    · intro c1 h1
      exact hcs c1 (List.mem_cons_of_mem _ h1)

theorem avoids_Resolve (p : PId) (w : World) (h : Avoids p w) (p1 : PId) (v : Int)
    (w1 : World) (hne : p1 ≠ p) (hr : w.Resolve p1 v = some w1) : Avoids p w1 := by
  cases hres : (w.pcbs p1).result_ with
  | some u => simp [Resolve, PromiseControlBlock.Resolve, hres] at hr
  | none =>
    have hp : w.pcbs p1 = ⟨none, (w.pcbs p1).dependents_⟩ := by
      rw [← hres]
    rw [world_Resolve_unresolved w p1 v _ hp, Option.some.injEq] at hr
    subst hr
    obtain ⟨h1, h2, h3, h4⟩ := h
    apply avoids_calls
    · refine ⟨h1, ?_, h3, ?_⟩
      · have hne2 : p ≠ p1 := fun e => hne e.symm
        simpa [setPcb, Function.update_noteq hne2] using h2
      · intro p2 d hd
        by_cases hp2 : p2 = p1
        · subst hp2
          simp [setPcb] at hd
        · simp only [setPcb, Function.update_noteq hp2] at hd
          exact h4 p2 d hd
    · intro c hc
      obtain ⟨d, hd, hdc⟩ := List.mem_map.mp hc
      rw [← hdc]
      exact h4 p1 d hd

theorem avoids_Then (p : PId) (w : World) (h : Avoids p w) (p1 : PId) (q : QId)
    (f : Int → Prog) (id : String) (r : World × PId) (hf : ∀ v, (f v).avoids p)
    (hr : w.Then p1 q f id = some r) : Avoids p r.1 ∧ r.2 ≠ p := by
  obtain ⟨hn, hout⟩ := avoids_newPcb p w h
  obtain ⟨h1, h2, h3, h4⟩ := hn
  simp only [Then] at hr
  have htake : ∀ s : PromiseControlBlock Int Dependent,
      s.result_ = (w.newPcb.1.pcbs p1).result_ →
      (∀ d ∈ s.dependents_, d.resolver ≠ p ∧ ∀ v, (d.f v).avoids p) →
      Avoids p ((w.newPcb.1.setPcb p1 s).Take q) := by
    intro s hs hd
    have hb : Avoids p (w.newPcb.1.setPcb p1 s) := by
      refine ⟨h1, ?_, h3, ?_⟩
      · by_cases hp : p = p1
        · subst hp
          simp only [setPcb, Function.update_same]
          rw [hs]
          exact h2
        · simpa [setPcb, Function.update_noteq hp] using h2
      · intro p2 d hd2
        by_cases hp2 : p2 = p1
        · subst hp2
          simp only [setPcb, Function.update_same] at hd2
          exact hd d hd2
        · simp only [setPcb, Function.update_noteq hp2] at hd2
          exact h4 p2 d hd2
    simp only [Take]
    apply avoids_tasks p _ hb
    intro t ht
    exact Or.inl ht
  have hnew : ∀ d ∈ (w.newPcb.1.pcbs p1).dependents_ ++ [(⟨q, f, w.newPcb.2, id⟩ : Dependent)],
      d.resolver ≠ p ∧ ∀ v, (d.f v).avoids p := by
    intro d hd
    rcases List.mem_append.mp hd with k | k
    · exact h4 p1 d k
    · simp only [List.mem_singleton] at k
      rw [k]
      exact ⟨hout, hf⟩
  cases hres : (w.newPcb.1.pcbs p1).result_ with
  | none =>
    have hp : w.newPcb.1.pcbs p1 = ⟨none, (w.newPcb.1.pcbs p1).dependents_⟩ := by
      rw [← hres]
    rw [hp, PromiseControlBlock.pcb_Then_unresolved] at hr
    simp only [Option.some.injEq] at hr
    subst hr
    refine ⟨?_, hout⟩
    simp only [calls, List.foldl_nil]
    exact htake _ hres.symm hnew
  | some u =>
    have hp : w.newPcb.1.pcbs p1 = ⟨some u, (w.newPcb.1.pcbs p1).dependents_⟩ := by
      rw [← hres]
    rw [hp, PromiseControlBlock.pcb_Then_resolved] at hr
    simp only [Option.some.injEq] at hr
    subst hr
    refine ⟨?_, hout⟩
    apply avoids_calls
    · exact htake ⟨some u, []⟩ hres.symm (by simp)
    · intro c hc
      obtain ⟨d, hd, hdc⟩ := List.mem_map.mp hc
      rw [← hdc]
      exact hnew d hd

end World

namespace World

theorem avoids_thenEach (p : PId) (cur : Option QId) (f : Int → Prog) (ps : List PId)
    (w w1 : World) (h : Avoids p w) (hf : ∀ v, (f v).avoids p)
    (hr : thenEach cur f ps w = some w1) : Avoids p w1 := by
  induction ps generalizing w with
  | nil =>
    simp only [thenEach, Option.some.injEq] at hr
    subst hr
    exact h
  | cons p1 ps ih =>
    simp only [thenEach] at hr
    cases ht : w.ThenHere cur p1 f "" with
    | none => simp [ht] at hr
    | some r =>
      simp only [ht] at hr
      refine ih r.1 ?_ hr
      cases cur with
      | none => simp [ThenHere] at ht
      | some q =>
        simp only [ThenHere] at ht
        exact (avoids_Then p w h p1 q f "" r hf ht).1

theorem avoids_run (p : PId) (code : Prog) (cur : Option QId) (w : World) (r : World × Int)
    (hc : code.avoids p) (h : Avoids p w) (hr : Prog.run cur code w = some r) :
    Avoids p r.1 := by
  induction code generalizing w with
  | ret v =>
    simp only [Prog.run, Option.some.injEq] at hr
    subst hr
    exact h
  | push k rest ih =>
    simp only [Prog.run] at hr
    simp only [Prog.avoids] at hc
    refine ih _ hc ?_ hr
    exact avoids_same p w _ h rfl rfl rfl
  | enqueue q f id k _ ihk =>
    simp only [Prog.run] at hr
    simp only [Prog.avoids] at hc
    obtain ⟨hn, hout⟩ := avoids_newPcb p w h
    refine ihk _ _ (hc.2 _ hout) ?_ hr
    exact avoids_AddTask p _ hn q _ id ⟨hout, hc.1⟩
  | enqueueWithResolver q body id k _ ihk =>
    simp only [Prog.run] at hr
    simp only [Prog.avoids] at hc
    obtain ⟨hn, hout⟩ := avoids_newPcb p w h
    refine ihk _ _ (hc.2 _ hout) ?_ hr
    exact avoids_AddTask p _ hn q _ id ⟨hout, hc.1 _ hout⟩
  | createResolver id k ihk =>
    simp only [Prog.run] at hr
    simp only [Prog.avoids] at hc
    obtain ⟨hn, hout⟩ := avoids_newPcb p w h
    exact ihk _ _ (hc _ hout) hn hr
  | createResolvedPromise v id k ihk =>
    simp only [Prog.run] at hr
    simp only [Prog.avoids] at hc
    obtain ⟨hn, hout⟩ := avoids_newPcb p w h
    cases hcr : w.CreateResolvedPromise v with
    | none => simp [hcr] at hr
    | some r1 =>
      simp only [hcr] at hr
      simp only [CreateResolvedPromise, CreateResolver] at hcr
      cases hres : w.newPcb.1.Resolve w.newPcb.2 v with
      | none => simp [hres] at hcr
      | some w2 =>
        simp only [hres, Option.some.injEq] at hcr
        subst hcr
        exact ihk _ _ (hc _ hout) (avoids_Resolve p _ hn _ v w2 hout hres) hr
  | thenOn p1 q f id k _ ihk =>
    simp only [Prog.run] at hr
    simp only [Prog.avoids] at hc
    cases ht : w.Then p1 q f id with
    | none => simp [ht] at hr
    | some r1 =>
      simp only [ht] at hr
      obtain ⟨k1, k2⟩ := avoids_Then p w h p1 q f id r1 hc.1 ht
      exact ihk _ _ (hc.2 _ k2) k1 hr
  | thenHere p1 f id k _ ihk =>
    simp only [Prog.run] at hr
    simp only [Prog.avoids] at hc
    cases ht : w.ThenHere cur p1 f id with
    | none => simp [ht] at hr
    | some r1 =>
      simp only [ht] at hr
      cases hcur : cur with
      | none => simp [ThenHere, hcur] at ht
      | some q =>
        simp only [ThenHere, hcur] at ht
        obtain ⟨k1, k2⟩ := avoids_Then p w h p1 q f id r1 hc.1 ht
        exact ihk _ _ (hc.2 _ k2) k1 hr
  | resolve p1 v rest ih =>
    simp only [Prog.run] at hr
    simp only [Prog.avoids] at hc
    cases hres : w.Resolve p1 v with
    | none => simp [hres] at hr
    | some w1 =>
      simp only [hres] at hr
      exact ih _ hc.2 (avoids_Resolve p w h p1 v w1 hc.1 hres) hr
  | decr c k ihk =>
    simp only [Prog.run] at hr
    simp only [Prog.avoids] at hc
    refine ihk _ _ (hc _) ?_ hr
    exact avoids_same p w _ h rfl rfl rfl
  | resolveAll id ps k ihk =>
    simp only [Prog.run] at hr
    simp only [Prog.avoids] at hc
    obtain ⟨hn, hout⟩ := avoids_newPcb p w h
    cases ha : w.ResolveAll cur ps with
    | none => simp [ha] at hr
    | some r1 =>
      simp only [ha] at hr
      simp only [ResolveAll, CreateResolver] at ha
      cases he : thenEach cur (resolveAllBody (w.newPcb.1.newCell ps.length).2 w.newPcb.2) ps
          (w.newPcb.1.newCell ps.length).1 with
      | none => simp [he] at ha
      | some w3 =>
        simp only [he, Option.some.injEq] at ha
        subst ha
        refine ihk _ _ (hc _ hout) ?_ hr
        refine avoids_thenEach p cur _ ps _ w3 ?_ ?_ he
        · exact avoids_same p _ _ hn rfl rfl rfl
        intro v
        simp only [resolveAllBody, Prog.avoids]
        intro n
        split
        · simp only [Prog.avoids]
          exact ⟨hout, trivial⟩
        · simp only [Prog.avoids]
  | finish q rest ih =>
    simp only [Prog.run] at hr
    simp only [Prog.avoids] at hc
    refine ih _ hc ?_ hr
    simp only [Finish]
    apply avoids_tasks p w h
    intro t ht
    exact Or.inl ht

theorem avoids_closure (p : PId) (c : Closure) (cur : Option QId) (w w1 : World)
    (hc : c.avoids p) (h : Avoids p w) (hr : Closure.run cur c w = some w1) : Avoids p w1 := by
  cases c with
  | enqueueBody f pcb =>
    simp only [Closure.run] at hr
    simp only [Closure.avoids] at hc
    cases hf : Prog.run cur f w with
    | none => simp [hf] at hr
    | some r =>
      simp only [hf] at hr
      exact avoids_Resolve p r.1 (avoids_run p f cur w r hc.2 h hf) pcb r.2 w1 hc.1 hr
  | thenBody f resolver value =>
    simp only [Closure.run] at hr
    simp only [Closure.avoids] at hc
    cases hf : Prog.run cur (f value) w with
    | none => simp [hf] at hr
    | some r =>
      simp only [hf] at hr
      exact avoids_Resolve p r.1 (avoids_run p (f value) cur w r hc.2 h hf) resolver r.2 w1
        hc.1 hr
  | withResolverBody resolve resolver =>
    simp only [Closure.run] at hr
    simp only [Closure.avoids] at hc
    cases hf : Prog.run cur (resolve resolver) w with
    | none => simp [hf] at hr
    | some r =>
      simp only [hf, Option.some.injEq] at hr
      subst hr
      exact avoids_run p (resolve resolver) cur w r hc.2 h hf

theorem avoids_step (p : PId) (w w1 : World) (e : Ev) (he : e.avoids p) (h : Avoids p w)
    (hr : w.step e = some w1) : Avoids p w1 := by
  cases e with
  | client cur code =>
    simp only [step] at hr
    cases hc : Prog.run cur code w with
    | none => simp [hc] at hr
    | some r =>
      simp only [hc, Option.map_some', Option.some.injEq] at hr
      subst hr
      exact avoids_run p code cur w r he h hc
  | worker q =>
    simp only [step, workerStep] at hr
    by_cases htr : (w.queues q).t_ = true
    · cases hq : (w.queues q).tasks_ with
      | nil =>
        have hs : ∀ s : EventQueue Closure, s.tasks_ = [] → Avoids p (w.setQueue q s) := by
          intro s hs
          apply avoids_tasks p w h
          intro t ht
          rw [hs] at ht
          simp at ht
        by_cases hc : (!(w.queues q).running_ && (w.queues q).count_ == 0) = true
        · simp [EventQueue.pass, htr, hq, hc] at hr
          subst hr
          exact hs _ rfl
        · simp [EventQueue.pass, htr, hq, hc] at hr
          subst hr
          exact hs _ hq
      | cons t rest =>
        simp only [EventQueue.pass, htr, hq, if_true] at hr
        have ht : t.f.avoids p := h.2.2.1 q t (by rw [hq]; exact List.mem_cons_self _ _)
        refine avoids_closure p t.f (some q) _ w1 ht ?_ hr
        apply avoids_tasks p w h
        intro t1 ht1
        left
        rw [hq]
        exact List.mem_cons_of_mem _ ht1
    · simp [EventQueue.pass, htr] at hr
      subst hr
      apply avoids_tasks p w h
      intro t ht
      exact Or.inl ht

theorem avoids_exec (p : PId) (evs : List Ev) (w w1 : World) (he : ∀ e ∈ evs, e.avoids p)
    (h : Avoids p w) (hr : exec evs w = some w1) : Avoids p w1 := by
  induction evs generalizing w with
  | nil =>
    simp only [exec, Option.some.injEq] at hr
    subst hr
    exact h
  | cons e es ih =>
    simp only [exec] at hr
    cases hs : w.step e with
    | none => simp [hs] at hr
    | some w2 =>
      simp only [hs] at hr
      exact ih w2 (fun e1 h1 => he e1 (List.mem_cons_of_mem _ h1))
        (avoids_step p w w2 e (he e (List.mem_cons_self _ _)) h hs) hr

end World

/-- C29: `ResolveAll` with no input promise, in a state in which no task and
no pending continuation refers to the block that the call allocates, returns.
The returned promise is a new unresolved block without a pending continuation,
the shared counter is 0, and the call changes nothing else: no task is
enqueued, no continuation is registered on any block, no queue is held.  After
it, whatever steps the threads make, client code that does not resolve the
block (the client holds the promise, which has no `Resolve`, and every other
handle it gets is a handle of another block) and worker passes in any order,
the promise is unresolved. -/
theorem resolveAll_of_nothing_is_never_resolved (w : World) (cur : Option QId)
    (hw : World.Unheld w.pcbCount w) :
    w.ResolveAll cur [] = some ((w.newPcb.1.newCell 0).1, w.pcbCount) ∧
    (w.newPcb.1.newCell 0).1.pcbs w.pcbCount = ⟨none, []⟩ ∧
    (w.newPcb.1.newCell 0).1.cells w.cellCount = 0 ∧
    (w.newPcb.1.newCell 0).1.queues = w.queues ∧
    (∀ p1, p1 ≠ w.pcbCount → (w.newPcb.1.newCell 0).1.pcbs p1 = w.pcbs p1) ∧
    (w.newPcb.1.newCell 0).1.got = w.got ∧
    (∀ evs w2, (∀ e ∈ evs, World.Ev.avoids w.pcbCount e) →
      World.exec evs (w.newPcb.1.newCell 0).1 = some w2 →
      (w2.pcbs w.pcbCount).result_ = none) := by
  refine ⟨?_, ?_, ?_, ?_, ?_, ?_, ?_⟩
  · simp [World.ResolveAll, World.CreateResolver, World.thenEach, World.newPcb,
      World.newCell]
  · simp [World.newPcb, World.newCell, PromiseControlBlock.new]
  · simp [World.newPcb, World.newCell]
  · rfl
  · intro p1 hp1
    simp [World.newPcb, World.newCell, Function.update_noteq hp1]
  · rfl
  · intro evs w2 hev he
    have h0 : World.Avoids w.pcbCount (w.newPcb.1.newCell 0).1 := by
      refine ⟨?_, ?_, hw.1, ?_⟩
      · simp [World.newPcb, World.newCell]
      · simp [World.newPcb, World.newCell, PromiseControlBlock.new]
      · intro p1 d hd
        by_cases hp : p1 = w.pcbCount
        · subst hp
          simp [World.newPcb, World.newCell, PromiseControlBlock.new] at hd
        · simp only [World.newPcb, World.newCell, Function.update_noteq hp] at hd
          exact hw.2 p1 d hd
    exact (World.avoids_exec w.pcbCount evs _ w2 hev h0 he).2.1

/-- C29, on the fresh fixture: `ResolveAll` with no input returns the promise
0; a client registers a continuation for queue 1 on it, creates and resolves a
promise of its own, and calls `Finish` on queue 1, and the worker of queue 1
makes two passes.  The promise 0 is unresolved. -/
theorem resolveAll_of_nothing_is_never_resolved_witness :
    (((World.exec
        [World.Ev.client none (Prog.thenOn 0 1 pushArg "" fun _ =>
            Prog.createResolver "" fun r => Prog.resolve r 5 (Prog.finish 1 (Prog.ret 0))),
          World.Ev.worker 1, World.Ev.worker 1]
        (World.init.newPcb.1.newCell 0).1).getD World.init).pcbs 0).result_ = none :=
  (resolveAll_of_nothing_is_never_resolved World.init none
      ⟨fun _ t ht => by simp [World.init, EventQueue.new] at ht,
       fun _ d hd => by simp [World.init, PromiseControlBlock.new] at hd⟩).2.2.2.2.2.2
    [World.Ev.client none (Prog.thenOn 0 1 pushArg "" fun _ =>
        Prog.createResolver "" fun r => Prog.resolve r 5 (Prog.finish 1 (Prog.ret 0))),
      World.Ev.worker 1, World.Ev.worker 1]
    ((World.exec
        [World.Ev.client none (Prog.thenOn 0 1 pushArg "" fun _ =>
            Prog.createResolver "" fun r => Prog.resolve r 5 (Prog.finish 1 (Prog.ret 0))),
          World.Ev.worker 1, World.Ev.worker 1]
        (World.init.newPcb.1.newCell 0).1).getD World.init)
    (by
      intro e he
      simp only [List.mem_cons, List.mem_singleton, List.not_mem_nil, or_false] at he
      rcases he with h | h | h
      · subst h
        simp only [World.Ev.avoids, Prog.avoids, pushArg]
        refine ⟨fun _ => trivial, fun out _ r hr => ⟨hr, trivial⟩⟩
      · subst h; trivial
      · subst h; trivial)
    rfl

/-! ## `ResolveAll` among the steps of all threads -/

namespace World

theorem all_unrun_congr (w u : World) (out : Nat) (i : Nat)
    (h : ∀ j, j < i → (u.pcbs (out + 1 + j)).result_ = (w.pcbs (out + 1 + j)).result_) :
    allUnrun u out i = allUnrun w out i := by
  simp only [allUnrun]
  apply List.countP_congr
  intro j hj
  rw [h j (List.mem_range.mp hj)]

theorem all_unrun_succ (w : World) (out : Nat) (i : Nat) :
    allUnrun w out (i + 1) =
      allUnrun w out i + (if (w.pcbs (out + 1 + i)).result_ = none then 1 else 0) := by
  simp only [allUnrun, List.range_succ, List.countP_append, List.countP_cons, List.countP_nil]
  cases (w.pcbs (out + 1 + i)).result_ <;> simp

theorem all_tasks_mono (q : QId) (ps : List Nat) (out : Nat) (c : Nat) (i i1 : Nat) (w : World)
    (hi : i ≤ i1) (h : AllTasks q ps out c i w) : AllTasks q ps out c i1 w := by
  intro q1 t ht
  rcases h q1 t ht with k | ⟨k1, j, v, hj, k2⟩
  · exact Or.inl k
  · exact Or.inr ⟨k1, j, v, Nat.lt_of_lt_of_le hj hi, k2⟩

theorem all_deps_mono (q : QId) (ps : List Nat) (out : Nat) (c : Nat) (i i1 : Nat) (w : World)
    (hi : i ≤ i1) (h : AllDeps q ps out c i w) : AllDeps q ps out c i1 w := by
  intro p1 d hd
  rcases h p1 d hd with k | ⟨j, hj, k1, k2⟩
  · exact Or.inl k
  · exact Or.inr ⟨j, Nat.lt_of_lt_of_le hj hi, k1, k2⟩

/-- A step that keeps the shape of the tasks and of the pending continuations,
the places at which the continuations of `ResolveAll` wait, the counter and the
results of the blocks of the call, keeps the shape of the state. -/
theorem all_frame (q : QId) (ps : List Nat) (out : Nat) (c : Nat) (i : Nat) (w u : World)
    (h : AllJoin q ps out c i w) (ht : AllTasks q ps out c i u) (hd : AllDeps q ps out c i u)
    (hw : ∀ j, j < i → allWaiting u q ps out j = allWaiting w q ps out j)
    (hc : u.cells c = w.cells c)
    (hr : ∀ p, out ≤ p → p ≤ out + i → (u.pcbs p).result_ = (w.pcbs p).result_)
    (hn : w.pcbCount ≤ u.pcbCount) (hm : w.cellCount ≤ u.cellCount) :
    AllJoin q ps out c i u := by
  refine ⟨h.hi, Nat.le_trans h.count hn, Nat.lt_of_lt_of_le h.cellc hm, h.inputs, ht, hd,
    ?_, ?_, ?_⟩
  · intro j hj
    rw [hw j hj, hr (out + 1 + j) (by omega) (by omega)]
    exact h.once j hj
  · rw [hc, h.cell, all_unrun_congr w u out i (fun j hj => hr (out + 1 + j) (by omega) (by omega))]
  · rw [hr out (Nat.le_refl _) (by omega), hc]
    exact h.outp

theorem all_eq_nat {a b : Nat} (h : a = b) : a = b := h

/-- An item with a resolver among the blocks of the call is none that holds
nothing of the call. -/
theorem all_outside_target (lo hi : Nat) (c : Nat) (f : Closure) (r : Nat)
    (h : f.outside lo hi c) (h1 : lo ≤ r) (h2 : r ≤ hi) : f.target ≠ r := by
  cases f with
  | enqueueBody g pcb =>
    simp only [Closure.outside, Closure.target, Apart] at h ⊢
    have h3 := h.1
    intro h4
    have h5 := all_eq_nat h4
    omega
  | thenBody g resolver value =>
    simp only [Closure.outside, Closure.target, Apart] at h ⊢
    have h3 := h.1
    intro h4
    have h5 := all_eq_nat h4
    omega
  | withResolverBody g resolver =>
    simp only [Closure.outside, Closure.target, Apart] at h ⊢
    have h3 := h.1
    intro h4
    have h5 := all_eq_nat h4
    omega

/-- The tasks of the first `i` continuations are told apart by their
resolvers. -/
theorem all_tasks_target (q : QId) (ps : List Nat) (out : Nat) (c : Nat) (i : Nat) (w : World)
    (h : AllTasks q ps out c i w) (q1 : QId) (t : Task Closure)
    (ht : t ∈ (w.queues q1).tasks_) (j : Nat) (hj : j < ps.length)
    (hr : t.f.target = out + 1 + j) :
    q1 = q ∧ j < i ∧ ∃ v, t = taskOf (allDep q out c j, v) := by
  rcases h q1 t ht with k | ⟨k1, j1, v, hj1, k2⟩
  · exact absurd hr (all_outside_target _ _ c t.f _ k (by omega) (by omega))
  · rw [k2] at hr
    simp only [taskOf, allDep, Closure.target] at hr
    have h4 := all_eq_nat hr
    have : j1 = j := by omega
    subst this
    exact ⟨k1, hj1, v, k2⟩

/-- The first `i` continuations are told apart by their resolvers. -/
theorem all_deps_resolver (q : QId) (ps : List Nat) (out : Nat) (c : Nat) (i : Nat) (w : World)
    (h : AllDeps q ps out c i w) (p1 : Nat) (d : Dependent)
    (hd : d ∈ (w.pcbs p1).dependents_) (j : Nat) (hj : j < ps.length)
    (hr : (d.resolver : Nat) = out + 1 + j) :
    j < i ∧ ps[j]? = some p1 ∧ d = allDep q out c j := by
  rcases h p1 d hd with k | ⟨j1, hj1, k1, k2⟩
  · have h3 := k.1
    have h4 := all_eq_nat hr
    simp only [Apart] at h3
    omega
  · rw [k2] at hr
    simp only [allDep] at hr
    have h4 := all_eq_nat hr
    have : j1 = j := by omega
    subst this
    exact ⟨hj1, k1, k2⟩

end World

namespace World

/-- A closure that holds nothing of the call is not counted among the tasks of
its continuations. -/
theorem all_countP_outside (ps : List Nat) (out c : Nat) (l : List (Task Closure)) (j : Nat)
    (hj : j < ps.length) (h : ∀ t ∈ l, t.f.outside out (out + ps.length) c) :
    l.countP (fun t => decide (t.f.target = out + 1 + j)) = 0 := by
  rw [List.countP_eq_zero]
  intro t ht
  have := all_outside_target out (out + ps.length) c t.f (out + 1 + j) (h t ht)
    (by omega) (by omega)
  simpa using this

theorem all_same (q : QId) (ps : List Nat) (out c i : Nat) (w u : World)
    (h : AllJoin q ps out c i w) (hq : u.queues = w.queues) (hp : u.pcbs = w.pcbs)
    (hc : u.cells c = w.cells c) (hn : w.pcbCount ≤ u.pcbCount)
    (hm : w.cellCount ≤ u.cellCount) : AllJoin q ps out c i u := by
  apply all_frame q ps out c i w u h
  · intro q1 t ht
    rw [hq] at ht
    exact h.tasks q1 t ht
  · intro p1 d hd
    rw [hp] at hd
    exact h.deps p1 d hd
  · intro j _
    simp only [allWaiting, hq, hp]
  · exact hc
  · intro p _ _
    rw [hp]
  · exact hn
  · exact hm

theorem all_newPcb (q : QId) (ps : List Nat) (out c i : Nat) (w : World)
    (h : AllJoin q ps out c i w) : AllJoin q ps out c i w.newPcb.1 := by
  have hcount := h.count
  apply all_frame q ps out c i w _ h
  · exact h.tasks
  · intro p1 d hd
    by_cases hp : p1 = w.pcbCount
    · subst hp
      simp [newPcb, PromiseControlBlock.new] at hd
    · simp only [newPcb, Function.update_noteq hp] at hd
      exact h.deps p1 d hd
  · intro j hj
    have hlt : j < ps.length := Nat.lt_of_lt_of_le hj h.hi
    have hin := h.inputs ps[j] (List.getElem_mem _)
    have hne : (ps[j]?).getD 0 ≠ w.pcbCount := by
      rw [List.getElem?_eq_getElem hlt]
      simp only [Option.getD_some]
      intro e
      have e2 := all_eq_nat e
      omega
    simp only [allWaiting, newPcb, Function.update_noteq hne]
  · rfl
  · intro p hp1 hp2
    have hne : p ≠ w.pcbCount := by
      intro e
      have e2 := all_eq_nat e
      omega
    simp only [newPcb, Function.update_noteq hne]
  · simp [newPcb]
  · simp [newPcb]

/-- A change of one queue that leaves the tasks of the continuations of the
call in its FIFO and adds only tasks that hold nothing of the call. -/
theorem all_setQueue (q : QId) (ps : List Nat) (out c i : Nat) (w : World)
    (h : AllJoin q ps out c i w) (q1 : QId) (s : EventQueue Closure)
    (hs : ∀ t ∈ s.tasks_, t ∈ (w.queues q1).tasks_ ∨ t.f.outside out (out + ps.length) c)
    (hc : ∀ j, j < i → s.tasks_.countP (fun t => decide (t.f.target = out + 1 + j))
      = (w.queues q1).tasks_.countP (fun t => decide (t.f.target = out + 1 + j))) :
    AllJoin q ps out c i (w.setQueue q1 s) := by
  apply all_frame q ps out c i w _ h
  · intro q2 t ht
    by_cases hq : q2 = q1
    · subst hq
      simp only [setQueue, Function.update_same] at ht
      rcases hs t ht with k | k
      · exact h.tasks q2 t k
      · exact Or.inl k
    · simp only [setQueue, Function.update_noteq hq] at ht
      exact h.tasks q2 t ht
  · exact h.deps
  · intro j hj
    by_cases hq : q = q1
    · subst hq
      simp only [allWaiting, setQueue, Function.update_same, hc j hj]
    · simp only [allWaiting, setQueue, Function.update_noteq hq]
  · rfl
  · intro p _ _
    rfl
  · exact Nat.le_refl _
  · exact Nat.le_refl _

theorem all_queue_same (q : QId) (ps : List Nat) (out c i : Nat) (w : World)
    (h : AllJoin q ps out c i w) (q1 : QId) (s : EventQueue Closure)
    (hs : s.tasks_ = (w.queues q1).tasks_) : AllJoin q ps out c i (w.setQueue q1 s) := by
  apply all_setQueue q ps out c i w h q1 s
  · intro t ht
    rw [hs] at ht
    exact Or.inl ht
  · intro j _
    rw [hs]

theorem all_AddTask (q : QId) (ps : List Nat) (out c i : Nat) (w : World)
    (h : AllJoin q ps out c i w) (q1 : QId) (f : Closure) (id : String)
    (hf : f.outside out (out + ps.length) c) : AllJoin q ps out c i (w.AddTask q1 f id) := by
  apply all_setQueue q ps out c i w h q1
  · intro t ht
    simp only [EventQueue.AddTask, List.mem_append, List.mem_singleton] at ht
    rcases ht with k | k
    · exact Or.inl k
    · right
      rw [k]
      exact hf
  · intro j hj
    have hlt : j < ps.length := Nat.lt_of_lt_of_le hj h.hi
    simp only [EventQueue.AddTask, List.countP_append]
    rw [all_countP_outside ps out c [⟨id, f⟩] j hlt (by simpa using hf)]
    rfl

theorem all_pop (q : QId) (ps : List Nat) (out c i : Nat) (w : World)
    (h : AllJoin q ps out c i w) (q1 : QId) (s : EventQueue Closure) (t : Task Closure)
    (hs : (w.queues q1).tasks_ = t :: s.tasks_)
    (ht : t.f.outside out (out + ps.length) c) : AllJoin q ps out c i (w.setQueue q1 s) := by
  apply all_setQueue q ps out c i w h q1
  · intro t1 ht1
    left
    rw [hs]
    exact List.mem_cons_of_mem _ ht1
  · intro j hj
    have hlt : j < ps.length := Nat.lt_of_lt_of_le hj h.hi
    rw [hs, List.countP_cons]
    have := all_countP_outside ps out c [t] j hlt (by simpa using ht)
    simp only [List.countP_cons, List.countP_nil, Nat.zero_add] at this
    rw [this]
    rfl

/-- The tasks that a notification appends to the FIFO of `q`, counted by their
resolver: as many as there are such continuations, when these all target
`q`. -/
theorem all_countP_calls (q : QId) (r : Nat) (v : Int) (ds : List Dependent)
    (hq : ∀ d ∈ ds, (d.resolver : Nat) = r → d.q = q) :
    ((((ds.map fun d => (d, v)).filter fun c => decide (c.1.q = q)).map taskOf).countP
        fun t => decide (t.f.target = r))
      = ds.countP fun d => decide ((d.resolver : Nat) = r) := by
  rw [List.countP_map, List.filter_map, List.countP_map, List.countP_filter]
  apply List.countP_congr
  intro d hd
  simp only [Function.comp, taskOf, Closure.target, Bool.and_eq_true, decide_eq_true_eq]
  exact ⟨fun h => h.1, fun h => ⟨h, hq d hd h⟩⟩

end World

namespace World

/-- Between two of its continuations registered on other inputs, a block has no
pending continuation of the call. -/
theorem all_countP_other (q : QId) (ps : List Nat) (out c i : Nat) (w : World)
    (hd : AllDeps q ps out c i w) (p1 : Nat) (j : Nat) (hj : j < ps.length)
    (hne : ps[j]? ≠ some p1) :
    (w.pcbs p1).dependents_.countP (fun d => decide ((d.resolver : Nat) = out + 1 + j)) = 0 := by
  rw [List.countP_eq_zero]
  intro d hdm
  simp only [decide_eq_true_eq]
  intro hr
  exact hne (all_deps_resolver q ps out c i w hd p1 d hdm j hj hr).2.1

/-- A notification: the block `p1` is left with the result `res` and no pending
continuation, and the continuations `ds` are called with `v`.  The tasks and
the pending continuations keep their shape, and each continuation of the call
waits where it did or has moved from its input to the FIFO of `q`. -/
theorem all_notify_shape (q : QId) (ps : List Nat) (out c i : Nat) (w : World)
    (hts : AllTasks q ps out c i w) (hdp : AllDeps q ps out c i w) (hi : i ≤ ps.length)
    (p1 : Nat) (res : Option Int) (ds : List Dependent) (v : Int)
    (hds : ∀ d ∈ ds, d.outside out (out + ps.length) c ∨
      ∃ j, j < i ∧ ps[j]? = some p1 ∧ d = allDep q out c j) :
    AllTasks q ps out c i ((w.setPcb p1 ⟨res, []⟩).calls (ds.map fun d => (d, v))) ∧
    AllDeps q ps out c i ((w.setPcb p1 ⟨res, []⟩).calls (ds.map fun d => (d, v))) ∧
    (∀ j, j < i →
      allWaiting ((w.setPcb p1 ⟨res, []⟩).calls (ds.map fun d => (d, v))) q ps out j
          + (w.pcbs p1).dependents_.countP (fun d => decide ((d.resolver : Nat) = out + 1 + j))
        = allWaiting w q ps out j
          + ds.countP (fun d => decide ((d.resolver : Nat) = out + 1 + j))) ∧
    ((w.setPcb p1 ⟨res, []⟩).calls (ds.map fun d => (d, v))).cells = w.cells ∧
    (∀ p, (((w.setPcb p1 ⟨res, []⟩).calls (ds.map fun d => (d, v))).pcbs p).result_
      = if p = p1 then res else (w.pcbs p).result_) ∧
    ((w.setPcb p1 ⟨res, []⟩).calls (ds.map fun d => (d, v))).pcbCount = w.pcbCount ∧
    ((w.setPcb p1 ⟨res, []⟩).calls (ds.map fun d => (d, v))).cellCount = w.cellCount ∧
    (∀ q1, (((w.setPcb p1 ⟨res, []⟩).calls (ds.map fun d => (d, v))).queues q1).t_
      = (w.queues q1).t_) := by
  have hrest := world_calls_rest (ds.map fun d => (d, v)) (w.setPcb p1 ⟨res, []⟩)
  have hqs := world_calls_queues (ds.map fun d => (d, v)) (w.setPcb p1 ⟨res, []⟩)
  refine ⟨?_, ?_, ?_, ?_, ?_, ?_, ?_, ?_⟩
  · intro q2 t ht
    rw [hqs q2] at ht
    simp only [List.mem_append, List.mem_map, List.mem_filter, decide_eq_true_eq] at ht
    rcases ht with k | ⟨cd, ⟨⟨d, hd, hcd⟩, hq2⟩, ht⟩
    · exact hts q2 t k
    · subst hcd
      rcases hds d hd with k | ⟨j, hj, _, k2⟩
      · left
        rw [← ht]
        exact ⟨k.1, k.2 v⟩
      · right
        rw [← ht, k2]
        simp only [k2, allDep] at hq2
        exact ⟨hq2.symm, j, v, hj, rfl⟩
  · intro p2 d hd
    rw [hrest.1] at hd
    by_cases hp : p2 = p1
    · subst hp
      simp [setPcb] at hd
    · simp only [setPcb, Function.update_noteq hp] at hd
      exact hdp p2 d hd
  · intro j hj
    have hlt : j < ps.length := Nat.lt_of_lt_of_le hj hi
    have hcalls := all_countP_calls q (out + 1 + j) v ds (by
      intro d hd hr
      rcases hds d hd with k | ⟨j1, _, _, k2⟩
      · have h3 := k.1
        have h4 := all_eq_nat hr
        simp only [Apart] at h3
        omega
      · rw [k2]
        rfl)
    simp only [allWaiting]
    rw [hqs q, hrest.1]
    simp only [List.countP_append, hcalls]
    by_cases hp : (ps[j]?).getD 0 = p1
    · rw [hp]
      simp only [setPcb, Function.update_same, List.countP_nil]
      omega
    · simp only [setPcb, Function.update_noteq hp]
      have hne : ps[j]? ≠ some p1 := by
        intro e
        rw [e] at hp
        exact hp rfl
      rw [all_countP_other q ps out c i w hdp p1 j hlt hne]
      omega
  · rw [hrest.2.2.1]
    rfl
  · intro p
    rw [hrest.1]
    by_cases hp : p = p1
    · subst hp
      simp only [setPcb, Function.update_same, if_true]
    · simp only [setPcb, Function.update_noteq hp, if_neg hp]
  · rw [hrest.2.1]
    rfl
  · rw [hrest.2.2.2.1]
    rfl
  · intro q1
    rw [hqs q1]
    rfl

theorem all_notify (q : QId) (ps : List Nat) (out c i : Nat) (w : World)
    (h : AllJoin q ps out c i w) (p1 : Nat) (res : Option Int) (ds : List Dependent) (v : Int)
    (hds : ∀ d ∈ ds, d.outside out (out + ps.length) c ∨
      ∃ j, j < i ∧ ps[j]? = some p1 ∧ d = allDep q out c j)
    (hcnt : ∀ j, j < i → ds.countP (fun d => decide ((d.resolver : Nat) = out + 1 + j))
      = (w.pcbs p1).dependents_.countP (fun d => decide ((d.resolver : Nat) = out + 1 + j)))
    (hres : out ≤ p1 → p1 ≤ out + i → res = (w.pcbs p1).result_) :
    AllJoin q ps out c i ((w.setPcb p1 ⟨res, []⟩).calls (ds.map fun d => (d, v))) := by
  obtain ⟨k1, k2, k3, k4, k5, k6, k7, _⟩ :=
    all_notify_shape q ps out c i w h.tasks h.deps h.hi p1 res ds v hds
  apply all_frame q ps out c i w _ h k1 k2
  · intro j hj
    have h3 := k3 j hj
    rw [hcnt j hj] at h3
    omega
  · rw [k4]
  · intro p hp1 hp2
    rw [k5 p]
    by_cases hp : p = p1
    · subst hp
      rw [if_pos rfl]
      exact hres hp1 hp2
    · rw [if_neg hp]
  · rw [k6]
  · rw [k7]

/-- A registration: one more pending continuation, which holds nothing of the
call, on the block `p1`. -/
theorem all_register (q : QId) (ps : List Nat) (out c i : Nat) (w : World)
    (h : AllJoin q ps out c i w) (p1 : Nat) (d : Dependent)
    (hd : d.outside out (out + ps.length) c) :
    AllJoin q ps out c i
      (w.setPcb p1 ⟨(w.pcbs p1).result_, (w.pcbs p1).dependents_ ++ [d]⟩) := by
  apply all_frame q ps out c i w _ h
  · exact h.tasks
  · intro p2 d2 hd2
    by_cases hp : p2 = p1
    · subst hp
      simp only [setPcb, Function.update_same, List.mem_append, List.mem_singleton] at hd2
      rcases hd2 with k | k
      · exact h.deps p2 d2 k
      · left
        rw [k]
        exact hd
    · simp only [setPcb, Function.update_noteq hp] at hd2
      exact h.deps p2 d2 hd2
  · intro j hj
    have hlt : j < ps.length := Nat.lt_of_lt_of_le hj h.hi
    simp only [allWaiting]
    by_cases hp : (ps[j]?).getD 0 = p1
    · rw [hp]
      simp only [setPcb, Function.update_same, List.countP_append, List.countP_cons,
        List.countP_nil]
      have hne : ¬ ((d.resolver : Nat) = out + 1 + j) := by
        intro e
        have h3 := hd.1
        have h4 := all_eq_nat e
        simp only [Apart] at h3
        omega
      simp [hne]
    · simp only [setPcb, Function.update_noteq hp]
  · rfl
  · intro p _ _
    by_cases hp : p = p1
    · subst hp
      simp only [setPcb, Function.update_same]
    · simp only [setPcb, Function.update_noteq hp]
  · exact Nat.le_refl _
  · exact Nat.le_refl _

/-- `Resolve` on a block that is none of the blocks of the call. -/
theorem all_Resolve (q : QId) (ps : List Nat) (out c i : Nat) (w : World)
    (h : AllJoin q ps out c i w) (p1 : Nat) (v : Int) (w1 : World)
    (hp : Apart out (out + i) p1) (hr : w.Resolve p1 v = some w1) :
    AllJoin q ps out c i w1 := by
  cases hres : (w.pcbs p1).result_ with
  | some u => simp [Resolve, PromiseControlBlock.Resolve, hres] at hr
  | none =>
    have hpc : w.pcbs p1 = ⟨none, (w.pcbs p1).dependents_⟩ := by
      rw [← hres]
    rw [world_Resolve_unresolved w p1 v _ hpc, Option.some.injEq] at hr
    subst hr
    apply all_notify q ps out c i w h p1 (some v) _ v
    · intro d hd
      exact h.deps p1 d hd
    · intro j _
      rfl
    · intro h1 h2
      simp only [Apart] at hp
      omega

/-- `Then` with a closure that holds nothing of the call, on any block. -/
theorem all_Then (q : QId) (ps : List Nat) (out c : Nat) (w : World)
    (h : AllJoin q ps out c ps.length w) (p1 : Nat) (q1 : QId) (f : Int → Prog)
    (id : String) (r : World × PId) (hf : ∀ v, (f v).outside out (out + ps.length) c)
    (hr : w.Then p1 q1 f id = some r) :
    AllJoin q ps out c ps.length r.1 ∧ out + ps.length < r.2 := by
  have hn := all_newPcb q ps out c ps.length w h
  have hcount := h.count
  have hd : Dependent.outside out (out + ps.length) c
      (⟨q1, f, w.pcbCount, id⟩ : Dependent) := by
    refine ⟨?_, hf⟩
    simp only [Apart]
    omega
  simp only [Then] at hr
  cases hres : (w.newPcb.1.pcbs p1).result_ with
  | none =>
    have hp : w.newPcb.1.pcbs p1 = ⟨none, (w.newPcb.1.pcbs p1).dependents_⟩ := by
      rw [← hres]
    rw [hp, PromiseControlBlock.pcb_Then_unresolved] at hr
    simp only [Option.some.injEq] at hr
    subst hr
    refine ⟨?_, by simp only [newPcb]; omega⟩
    simp only [calls, List.foldl_nil, Take]
    apply all_queue_same
    · have h2 := all_register q ps out c ps.length _ hn p1 _ hd
      rw [hres] at h2
      exact h2
    · rfl
  | some u =>
    have hp : w.newPcb.1.pcbs p1 = ⟨some u, (w.newPcb.1.pcbs p1).dependents_⟩ := by
      rw [← hres]
    rw [hp, PromiseControlBlock.pcb_Then_resolved] at hr
    simp only [Option.some.injEq] at hr
    subst hr
    refine ⟨?_, by simp only [newPcb]; omega⟩
    have ht : AllJoin q ps out c ps.length (w.newPcb.1.Take q1) := by
      simp only [Take]
      exact all_queue_same q ps out c ps.length _ hn q1 _ rfl
    have hn2 := all_notify q ps out c ps.length _ ht p1 (some u)
      ((w.newPcb.1.pcbs p1).dependents_ ++ [(⟨q1, f, w.pcbCount, id⟩ : Dependent)]) u
      (by
        intro d hdm
        rcases List.mem_append.mp hdm with k | k
        · exact hn.deps p1 d k
        · rw [List.mem_singleton] at k
          rw [k]
          exact Or.inl hd)
      (by
        intro j hj
        simp only [List.countP_append, List.countP_cons, List.countP_nil]
        have hne : ¬ ((w.pcbCount : Nat) = out + 1 + j) := by omega
        simp only [hne, decide_False]
        rfl)
      (by
        intro _ _
        exact hres.symm)
    exact hn2

end World

namespace World

theorem all_thenEach (q : QId) (ps : List Nat) (out c : Nat) (cur : Option QId)
    (f : Int → Prog) (ps1 : List PId) (w w1 : World) (h : AllJoin q ps out c ps.length w)
    (hf : ∀ v, (f v).outside out (out + ps.length) c)
    (hr : thenEach cur f ps1 w = some w1) : AllJoin q ps out c ps.length w1 := by
  induction ps1 generalizing w with
  | nil =>
    simp only [thenEach, Option.some.injEq] at hr
    subst hr
    exact h
  | cons p1 ps1 ih =>
    simp only [thenEach] at hr
    cases ht : w.ThenHere cur p1 f "" with
    | none => simp [ht] at hr
    | some r =>
      simp only [ht] at hr
      refine ih r.1 ?_ hr
      cases cur with
      | none => simp [ThenHere] at ht
      | some q1 =>
        simp only [ThenHere] at ht
        exact (all_Then q ps out c w h p1 q1 f "" r hf ht).1

/-- Client code that holds nothing of the call keeps the shape of the state. -/
theorem all_run (q : QId) (ps : List Nat) (out c : Nat) (code : Prog) (cur : Option QId)
    (w : World) (r : World × Int) (hc : code.outside out (out + ps.length) c)
    (h : AllJoin q ps out c ps.length w) (hr : Prog.run cur code w = some r) :
    AllJoin q ps out c ps.length r.1 := by
  induction code generalizing w with
  | ret v =>
    simp only [Prog.run, Option.some.injEq] at hr
    subst hr
    exact h
  | push k rest ih =>
    simp only [Prog.run] at hr
    simp only [Prog.outside] at hc
    refine ih _ hc ?_ hr
    exact all_same q ps out c _ w _ h rfl rfl rfl (Nat.le_refl _) (Nat.le_refl _)
  | enqueue q1 f id k _ ihk =>
    simp only [Prog.run] at hr
    simp only [Prog.outside] at hc
    have hcount := h.count
    have hlt : out + ps.length < w.pcbCount := by omega
    refine ihk _ _ (hc.2 _ hlt) ?_ hr
    exact all_AddTask q ps out c _ _ (all_newPcb q ps out c _ w h) q1 _ id
      ⟨Or.inr hlt, hc.1⟩
  | enqueueWithResolver q1 body id k _ ihk =>
    simp only [Prog.run] at hr
    simp only [Prog.outside] at hc
    have hcount := h.count
    have hlt : out + ps.length < w.pcbCount := by omega
    refine ihk _ _ (hc.2 _ hlt) ?_ hr
    exact all_AddTask q ps out c _ _ (all_newPcb q ps out c _ w h) q1 _ id
      ⟨Or.inr hlt, hc.1 _ hlt⟩
  | createResolver id k ihk =>
    simp only [Prog.run] at hr
    simp only [Prog.outside] at hc
    have hcount := h.count
    have hlt : out + ps.length < w.pcbCount := by omega
    exact ihk _ _ (hc _ hlt) (all_newPcb q ps out c _ w h) hr
  | createResolvedPromise v id k ihk =>
    simp only [Prog.run] at hr
    simp only [Prog.outside] at hc
    have hcount := h.count
    have hlt : out + ps.length < w.pcbCount := by omega
    cases hcr : w.CreateResolvedPromise v with
    | none => simp [hcr] at hr
    | some r1 =>
      simp only [hcr] at hr
      simp only [CreateResolvedPromise, CreateResolver] at hcr
      cases hres : w.newPcb.1.Resolve w.newPcb.2 v with
      | none => simp [hres] at hcr
      | some w2 =>
        simp only [hres, Option.some.injEq] at hcr
        subst hcr
        exact ihk _ _ (hc _ hlt)
          (all_Resolve q ps out c _ _ (all_newPcb q ps out c _ w h) _ v w2 (Or.inr hlt) hres) hr
  | thenOn p1 q1 f id k _ ihk =>
    simp only [Prog.run] at hr
    simp only [Prog.outside] at hc
    cases ht : w.Then p1 q1 f id with
    | none => simp [ht] at hr
    | some r1 =>
      simp only [ht] at hr
      obtain ⟨k1, k2⟩ := all_Then q ps out c w h p1 q1 f id r1 hc.1 ht
      exact ihk _ _ (hc.2 _ k2) k1 hr
  | thenHere p1 f id k _ ihk =>
    simp only [Prog.run] at hr
    simp only [Prog.outside] at hc
    cases ht : w.ThenHere cur p1 f id with
    | none => simp [ht] at hr
    | some r1 =>
      simp only [ht] at hr
      cases hcur : cur with
      | none => simp [ThenHere, hcur] at ht
      | some q1 =>
        simp only [ThenHere, hcur] at ht
        obtain ⟨k1, k2⟩ := all_Then q ps out c w h p1 q1 f id r1 hc.1 ht
        exact ihk _ _ (hc.2 _ k2) k1 hr
  | resolve p1 v rest ih =>
    simp only [Prog.run] at hr
    simp only [Prog.outside] at hc
    cases hres : w.Resolve p1 v with
    | none => simp [hres] at hr
    | some w1 =>
      simp only [hres] at hr
      exact ih _ hc.2 (all_Resolve q ps out c _ w h p1 v w1 hc.1 hres) hr
  | decr c1 k ihk =>
    simp only [Prog.run] at hr
    simp only [Prog.outside] at hc
    refine ihk _ _ (hc.2 _) ?_ hr
    refine all_same q ps out c _ w _ h rfl rfl ?_ (Nat.le_refl _) (Nat.le_refl _)
    have hne : c ≠ c1 := fun e => hc.1 e.symm
    simp only [decr, Function.update_noteq hne]
  | resolveAll id ps1 k ihk =>
    simp only [Prog.run] at hr
    simp only [Prog.outside] at hc
    have hcount := h.count
    have hcell := h.cellc
    have hlt : out + ps.length < w.pcbCount := by omega
    cases ha : w.ResolveAll cur ps1 with
    | none => simp [ha] at hr
    | some r1 =>
      simp only [ha] at hr
      simp only [ResolveAll, CreateResolver] at ha
      cases he : thenEach cur (resolveAllBody (w.newPcb.1.newCell ps1.length).2 w.newPcb.2) ps1
          (w.newPcb.1.newCell ps1.length).1 with
      | none => simp [he] at ha
      | some w3 =>
        simp only [he, Option.some.injEq] at ha
        subst ha
        refine ihk _ _ (hc _ hlt) ?_ hr
        refine all_thenEach q ps out c cur _ ps1 _ w3 ?_ ?_ he
        · refine all_same q ps out c _ _ _ (all_newPcb q ps out c _ w h) rfl rfl ?_
            (Nat.le_refl _) (by simp [newCell, newPcb])
          have hne : c ≠ w.cellCount := Nat.ne_of_lt hcell
          simp only [newCell, newPcb, Function.update_noteq hne]
        · intro v
          simp only [resolveAllBody, Prog.outside, newCell, newPcb]
          refine ⟨fun e => Nat.ne_of_lt hcell e.symm, ?_⟩
          intro n
          split
          · simp only [Prog.outside]
            exact ⟨Or.inr hlt, trivial⟩
          · simp only [Prog.outside]
  | finish q1 rest ih =>
    simp only [Prog.run] at hr
    simp only [Prog.outside] at hc
    refine ih _ hc ?_ hr
    simp only [Finish]
    exact all_queue_same q ps out c _ w h q1 _ rfl

/-- A task that holds nothing of the call keeps the shape of the state when it
runs. -/
theorem all_closure (q : QId) (ps : List Nat) (out c : Nat) (f : Closure) (cur : Option QId)
    (w w1 : World) (hc : f.outside out (out + ps.length) c)
    (h : AllJoin q ps out c ps.length w) (hr : Closure.run cur f w = some w1) :
    AllJoin q ps out c ps.length w1 := by
  cases f with
  | enqueueBody g pcb =>
    simp only [Closure.run] at hr
    simp only [Closure.outside] at hc
    cases hf : Prog.run cur g w with
    | none => simp [hf] at hr
    | some r =>
      simp only [hf] at hr
      exact all_Resolve q ps out c _ r.1 (all_run q ps out c g cur w r hc.2 h hf) pcb r.2 w1
        hc.1 hr
  | thenBody g resolver value =>
    simp only [Closure.run] at hr
    simp only [Closure.outside] at hc
    cases hf : Prog.run cur (g value) w with
    | none => simp [hf] at hr
    | some r =>
      simp only [hf] at hr
      exact all_Resolve q ps out c _ r.1 (all_run q ps out c (g value) cur w r hc.2 h hf)
        resolver r.2 w1 hc.1 hr
  | withResolverBody resolve resolver =>
    simp only [Closure.run] at hr
    simp only [Closure.outside] at hc
    cases hf : Prog.run cur (resolve resolver) w with
    | none => simp [hf] at hr
    | some r =>
      simp only [hf, Option.some.injEq] at hr
      subst hr
      exact all_run q ps out c (resolve resolver) cur w r hc.2 h hf

end World

namespace World

/-- `Resolve` on an unresolved block, whatever block it is. -/
theorem all_Resolve_shape (q : QId) (ps : List Nat) (out c i : Nat) (w : World)
    (hts : AllTasks q ps out c i w) (hdp : AllDeps q ps out c i w) (hi : i ≤ ps.length)
    (p1 : Nat) (v : Int) (hun : (w.pcbs p1).result_ = none) :
    ∃ w1, w.Resolve p1 v = some w1 ∧ AllTasks q ps out c i w1 ∧ AllDeps q ps out c i w1 ∧
      (∀ j, j < i → allWaiting w1 q ps out j = allWaiting w q ps out j) ∧
      w1.cells = w.cells ∧
      (∀ p, (w1.pcbs p).result_ = if p = p1 then some v else (w.pcbs p).result_) ∧
      w1.pcbCount = w.pcbCount ∧ w1.cellCount = w.cellCount ∧
      (∀ q1, (w1.queues q1).t_ = (w.queues q1).t_) := by
  have hpc : w.pcbs p1 = ⟨none, (w.pcbs p1).dependents_⟩ := by
    rw [← hun]
  refine ⟨_, world_Resolve_unresolved w p1 v _ hpc, ?_⟩
  obtain ⟨k1, k2, k3, k4⟩ := all_notify_shape q ps out c i w hts hdp hi p1 (some v) _ v
    (fun d hd => hdp p1 d hd)
  exact ⟨k1, k2, fun j hj => Nat.add_right_cancel (k3 j hj), k4⟩

/-- When the continuation of the `j`-th input runs, one more continuation has
run. -/
theorem all_unrun_flip (w u : World) (out i j : Nat) (hj : j < i)
    (h1 : (w.pcbs (out + 1 + j)).result_ = none)
    (h2 : (u.pcbs (out + 1 + j)).result_ ≠ none)
    (h3 : ∀ j1, j1 < i → j1 ≠ j →
      (u.pcbs (out + 1 + j1)).result_ = (w.pcbs (out + 1 + j1)).result_) :
    allUnrun w out i = allUnrun u out i + 1 := by
  induction i with
  | zero => omega
  | succ i ih =>
    rw [all_unrun_succ, all_unrun_succ]
    by_cases hji : j = i
    · subst hji
      rw [if_pos h1, if_neg h2,
        all_unrun_congr w u out j (fun j1 hj1 => h3 j1 (by omega) (by omega))]
    · rw [ih (by omega) (fun j1 hj1 hne => h3 j1 (by omega) hne),
        h3 i (by omega) (fun e => hji e.symm)]
      omega

/-- The state after the run of the continuation of the `j`-th input, put
together from what the run changed. -/
theorem all_ours_final (q : QId) (ps : List Nat) (out c : Nat) (w w3 : World) (j : Nat)
    (h : AllJoin q ps out c ps.length w) (hj : j < ps.length)
    (hT : AllTasks q ps out c ps.length w3) (hD : AllDeps q ps out c ps.length w3)
    (hwait : ∀ j1, j1 < ps.length →
      allWaiting w3 q ps out j1 + (if j1 = j then 1 else 0) = allWaiting w q ps out j1)
    (hcell : w3.cells c = w.cells c - 1)
    (hres : ∀ p, out < p → p ≤ out + ps.length →
      (w3.pcbs p).result_ = if p = out + 1 + j then some 0 else (w.pcbs p).result_)
    (hout : (w3.pcbs out).result_ = if w.cells c - 1 = 0 then some 0 else none)
    (hn : w.pcbCount ≤ w3.pcbCount) (hm : w.cellCount ≤ w3.cellCount) :
    AllJoin q ps out c ps.length w3 ∧ (w.pcbs (out + 1 + j)).result_ = none ∧
      (w.pcbs out).result_ = none ∧ allUnrun w out ps.length = allUnrun w3 out ps.length + 1 := by
  have hwj := hwait j hj
  rw [if_pos rfl] at hwj
  have honce := h.once j hj
  have haux : (w.pcbs (out + 1 + j)).result_ = none := by
    by_contra hne
    rw [if_neg hne] at honce
    omega
  rw [if_pos haux] at honce
  have hflip := all_unrun_flip w w3 out ps.length j hj haux
    (by rw [hres _ (by omega) (by omega), if_pos rfl]; simp)
    (fun j1 hj1 hne => by
      rw [hres _ (by omega) (by omega),
        if_neg (show ¬ (out + 1 + j1 = out + 1 + j) by omega)])
  have hcw := h.cell
  rw [Nat.sub_self, Nat.add_zero] at hcw
  have hw0 : w.cells c ≠ 0 := by
    rw [hcw, hflip]
    omega
  have houtw : (w.pcbs out).result_ = none := by
    rw [h.outp, if_neg hw0]
  refine ⟨⟨Nat.le_refl _, Nat.le_trans h.count hn, Nat.lt_of_lt_of_le h.cellc hm, h.inputs,
    hT, hD, ?_, ?_, ?_⟩, haux, houtw, hflip⟩
  · intro j1 hj1
    have h1 := hwait j1 hj1
    have h2 := h.once j1 hj1
    rw [hres _ (by omega) (by omega)]
    by_cases hjj : j1 = j
    · subst hjj
      rw [if_pos rfl] at h1
      rw [if_pos rfl, if_neg (show ¬ ((some 0 : Option Int) = none) by simp)]
      omega
    · rw [if_neg hjj] at h1
      rw [if_neg (show ¬ (out + 1 + j1 = out + 1 + j) by omega)]
      omega
  · rw [hcell, hcw, hflip, Nat.sub_self, Nat.add_zero]
    push_cast
    omega
  · rw [hout, hcell]

end World

namespace World

/-- A continuation of the call that waits somewhere has not run, the counter
is not 0, and the returned promise is unresolved. -/
theorem all_pending (q : QId) (ps : List Nat) (out c : Nat) (w : World) (j : Nat)
    (h : AllJoin q ps out c ps.length w) (hj : j < ps.length)
    (hw : 1 ≤ allWaiting w q ps out j) :
    (w.pcbs (out + 1 + j)).result_ = none ∧ w.cells c ≠ 0 ∧ (w.pcbs out).result_ = none := by
  have honce := h.once j hj
  have haux : (w.pcbs (out + 1 + j)).result_ = none := by
    by_contra hne
    rw [if_neg hne] at honce
    omega
  have hpos : 0 < allUnrun w out ps.length := by
    simp only [allUnrun]
    rw [List.countP_pos_iff]
    exact ⟨j, List.mem_range.mpr hj, by rw [haux]; rfl⟩
  have hcw := h.cell
  rw [Nat.sub_self, Nat.add_zero] at hcw
  have hw0 : w.cells c ≠ 0 := by
    rw [hcw]
    omega
  exact ⟨haux, hw0, by rw [h.outp, if_neg hw0]⟩

/-- The pass of the worker of `q` that pops the downstream task of the
continuation of the `j`-th input: the task runs without a failed assertion, it
decrements the counter, resolves the returned promise when the counter reaches
0, and resolves the promise of its own `Then`. -/
theorem all_ours (q : QId) (ps : List Nat) (out c : Nat) (w : World) (j : Nat) (v : Int)
    (rest : List (Task Closure)) (h : AllJoin q ps out c ps.length w) (hj : j < ps.length)
    (ht : (w.queues q).t_ = true)
    (hts : (w.queues q).tasks_ = taskOf (allDep q out c j, v) :: rest) :
    ∃ w3, w.workerStep q = some w3 ∧ AllJoin q ps out c ps.length w3 ∧
      (w.pcbs (out + 1 + j)).result_ = none ∧ (w.pcbs out).result_ = none ∧
      (w3.pcbs (out + 1 + j)).result_ = some 0 ∧
      (∀ j1, j1 < ps.length → j1 ≠ j →
        (w3.pcbs (out + 1 + j1)).result_ = (w.pcbs (out + 1 + j1)).result_) ∧
      w3.cells c = w.cells c - 1 ∧
      allUnrun w out ps.length = allUnrun w3 out ps.length + 1 ∧
      (w3.queues q).t_ = true := by
  have hw1 : 1 ≤ allWaiting w q ps out j := by
    simp only [allWaiting, hts, List.countP_cons, taskOf, allDep, Closure.target, decide_True,
      if_true]
    omega
  obtain ⟨haux, hw0, houtw⟩ := all_pending q ps out c w j h hj hw1
  -- the state after the pop and the decrement
  have hTb : AllTasks q ps out c ps.length
      ((w.setQueue q { w.queues q with tasks_ := rest }).decr c).1 := by
    intro q2 t hm
    by_cases hq : q2 = q
    · subst hq
      simp only [decr, setQueue, Function.update_same] at hm
      exact h.tasks q2 t (by rw [hts]; exact List.mem_cons_of_mem _ hm)
    · simp only [decr, setQueue, Function.update_noteq hq] at hm
      exact h.tasks q2 t hm
  have hDb : AllDeps q ps out c ps.length
      ((w.setQueue q { w.queues q with tasks_ := rest }).decr c).1 := h.deps
  have hWb : ∀ j1, j1 < ps.length →
      allWaiting ((w.setQueue q { w.queues q with tasks_ := rest }).decr c).1 q ps out j1
        + (if j1 = j then 1 else 0) = allWaiting w q ps out j1 := by
    intro j1 _
    simp only [allWaiting, decr, setQueue, Function.update_same, hts, List.countP_cons, taskOf,
      allDep, Closure.target]
    by_cases hjj : j1 = j
    · subst hjj
      simp only [decide_True, if_true]
      omega
    · have hne : ¬ (out + 1 + j = out + 1 + j1) := by omega
      simp only [hjj, hne, decide_False, if_false]
      simp
  have hstep : w.workerStep q =
      match Prog.run (some q)
          (if w.cells c - 1 = 0 then Prog.resolve out 0 (Prog.ret 0) else Prog.ret 0)
          ((w.setQueue q { w.queues q with tasks_ := rest }).decr c).1 with
      | none => none
      | some (w1, v1) => w1.Resolve (out + 1 + j) v1 := by
    simp only [workerStep, EventQueue.pass, ht, hts, if_true]
    rfl
  by_cases hn : w.cells c - 1 = 0
  · obtain ⟨wc, hc1, hc2, hc3, hc4, hc5, hc6, hc7, hc8, hc9⟩ :=
      all_Resolve_shape q ps out c ps.length _ hTb hDb (Nat.le_refl _) out 0
        (show ((((w.setQueue q { w.queues q with tasks_ := rest }).decr c).1).pcbs out).result_
          = none from houtw)
    have hauxc : (wc.pcbs (out + 1 + j)).result_ = none := by
      rw [hc6, if_neg (show ¬ (out + 1 + j = out) by omega)]
      exact haux
    obtain ⟨wd, hd1, hd2, hd3, hd4, hd5, hd6, hd7, hd8, hd9⟩ :=
      all_Resolve_shape q ps out c ps.length wc hc2 hc3 (Nat.le_refl _) (out + 1 + j) 0 hauxc
    have hfin := all_ours_final q ps out c w wd j h hj hd2 hd3
      (fun j1 hj1 => by rw [hd4 j1 hj1, hc4 j1 hj1]; exact hWb j1 hj1)
      (by rw [hd5, hc5]; simp [decr, setQueue])
      (fun p hp1 hp2 => by
        rw [hd6 p]
        by_cases hp : p = out + 1 + j
        · rw [if_pos hp, if_pos hp]
        · rw [if_neg hp, if_neg hp, hc6, if_neg (show ¬ (p = out) by omega)]
          rfl)
      (by
        rw [hd6, if_neg (show ¬ (out = out + 1 + j) by omega), hc6, if_pos rfl, if_pos hn])
      (by rw [hd7, hc7]; exact Nat.le_refl _)
      (by rw [hd8, hc8]; exact Nat.le_refl _)
    refine ⟨wd, ?_, hfin.1, haux, houtw, ?_, ?_, ?_, hfin.2.2.2, ?_⟩
    · rw [hstep, if_pos hn]
      simp only [Prog.run, hc1, hd1]
    · rw [hd6, if_pos rfl]
    · intro j1 _ hne
      rw [hd6, if_neg (show ¬ (out + 1 + j1 = out + 1 + j) by omega), hc6,
        if_neg (show ¬ (out + 1 + j1 = out) by omega)]
      rfl
    · rw [hd5, hc5]
      simp [decr, setQueue]
    · rw [hd9, hc9]
      simp only [decr, setQueue, Function.update_same]
      exact ht
  · obtain ⟨wd, hd1, hd2, hd3, hd4, hd5, hd6, hd7, hd8, hd9⟩ :=
      all_Resolve_shape q ps out c ps.length _ hTb hDb (Nat.le_refl _) (out + 1 + j) 0
        (show ((((w.setQueue q { w.queues q with tasks_ := rest }).decr c).1).pcbs
          (out + 1 + j)).result_ = none from haux)
    have hfin := all_ours_final q ps out c w wd j h hj hd2 hd3
      (fun j1 hj1 => by rw [hd4 j1 hj1]; exact hWb j1 hj1)
      (by rw [hd5]; simp [decr, setQueue])
      (fun p hp1 hp2 => by
        rw [hd6 p]
        by_cases hp : p = out + 1 + j
        · rw [if_pos hp, if_pos hp]
        · rw [if_neg hp, if_neg hp]
          rfl)
      (by
        rw [hd6, if_neg (show ¬ (out = out + 1 + j) by omega), if_neg hn]
        exact houtw)
      (by rw [hd7]; exact Nat.le_refl _)
      (by rw [hd8]; exact Nat.le_refl _)
    refine ⟨wd, ?_, hfin.1, haux, houtw, ?_, ?_, ?_, hfin.2.2.2, ?_⟩
    · rw [hstep, if_neg hn]
      simp only [Prog.run, hd1]
    · rw [hd6, if_pos rfl]
    · intro j1 _ hne
      rw [hd6, if_neg (show ¬ (out + 1 + j1 = out + 1 + j) by omega)]
      rfl
    · rw [hd5]
      simp [decr, setQueue]
    · rw [hd9]
      simp only [decr, setQueue, Function.update_same]
      exact ht

end World

namespace World

/-- Every step of a thread keeps the shape of the state: client code that holds
nothing of the call, and a pass of any worker, which runs a task that holds
nothing of the call or the downstream task of a continuation of the call. -/
theorem all_step (q : QId) (ps : List Nat) (out c : Nat) (w w1 : World) (e : Ev)
    (he : e.outside out (out + ps.length) c) (h : AllJoin q ps out c ps.length w)
    (hr : w.step e = some w1) : AllJoin q ps out c ps.length w1 := by
  cases e with
  | client cur code =>
    simp only [step] at hr
    cases hc : Prog.run cur code w with
    | none => simp [hc] at hr
    | some r =>
      simp only [hc, Option.map_some', Option.some.injEq] at hr
      subst hr
      exact all_run q ps out c code cur w r he h hc
  | worker q1 =>
    by_cases htr : (w.queues q1).t_ = true
    · cases hq : (w.queues q1).tasks_ with
      | nil =>
        simp only [step, workerStep] at hr
        by_cases hc : (!(w.queues q1).running_ && (w.queues q1).count_ == 0) = true
        · simp [EventQueue.pass, htr, hq, hc] at hr
          subst hr
          exact all_queue_same q ps out c _ w h q1 _ hq.symm
        · simp [EventQueue.pass, htr, hq, hc] at hr
          subst hr
          exact all_queue_same q ps out c _ w h q1 _ rfl
      | cons t rest =>
        rcases h.tasks q1 t (by rw [hq]; exact List.mem_cons_self _ _) with k | ⟨k1, j, v, hj, k2⟩
        · simp only [step, workerStep, EventQueue.pass, htr, hq, if_true] at hr
          refine all_closure q ps out c t.f (some q1) _ w1 k ?_ hr
          exact all_pop q ps out c _ w h q1 _ t hq k
        · rw [k1] at hq htr hr
          rw [k2] at hq
          obtain ⟨w3, h1, h2, _⟩ := all_ours q ps out c w j v rest h hj htr hq
          simp only [step] at hr
          rw [h1, Option.some.injEq] at hr
          subst hr
          exact h2
    · simp only [step, workerStep] at hr
      simp [EventQueue.pass, htr] at hr
      subst hr
      exact all_queue_same q ps out c _ w h q1 _ rfl

theorem all_exec (q : QId) (ps : List Nat) (out c : Nat) (evs : List Ev) (w w1 : World)
    (he : ∀ e ∈ evs, e.outside out (out + ps.length) c) (h : AllJoin q ps out c ps.length w)
    (hr : exec evs w = some w1) : AllJoin q ps out c ps.length w1 := by
  induction evs generalizing w with
  | nil =>
    simp only [exec, Option.some.injEq] at hr
    subst hr
    exact h
  | cons e es ih =>
    simp only [exec] at hr
    cases hs : w.step e with
    | none => simp [hs] at hr
    | some w2 =>
      simp only [hs] at hr
      exact ih w2 (fun e1 h1 => he e1 (List.mem_cons_of_mem _ h1))
        (all_step q ps out c w w2 e (he e (List.mem_cons_self _ _)) h hs) hr

end World

namespace World

/-- A change of a queue that leaves its FIFO as it is changes nothing of the
shape. -/
theorem all_shape_queue (q : QId) (ps : List Nat) (out c i : Nat) (w : World) (q1 : QId)
    (s : EventQueue Closure) (hs : s.tasks_ = (w.queues q1).tasks_)
    (hT : AllTasks q ps out c i w) (hD : AllDeps q ps out c i w) :
    AllTasks q ps out c i (w.setQueue q1 s) ∧ AllDeps q ps out c i (w.setQueue q1 s) ∧
      ∀ j, allWaiting (w.setQueue q1 s) q ps out j = allWaiting w q ps out j := by
  refine ⟨?_, hD, ?_⟩
  · intro q2 t ht
    by_cases hq : q2 = q1
    · subst hq
      simp only [setQueue, Function.update_same, hs] at ht
      exact hT q2 t ht
    · simp only [setQueue, Function.update_noteq hq] at ht
      exact hT q2 t ht
  · intro j
    by_cases hq : q = q1
    · subst hq
      simp only [allWaiting, setQueue, Function.update_same, hs]
    · simp only [allWaiting, setQueue, Function.update_noteq hq]

/-- The shape of the state after one more `Then` of the call, put together from
what the `Then` changed. -/
theorem all_extend (q : QId) (ps : List Nat) (out c i : Nat) (w u : World)
    (h : AllJoin q ps out c i w) (hi : i < ps.length)
    (hT : AllTasks q ps out c (i + 1) u) (hD : AllDeps q ps out c (i + 1) u)
    (hw : ∀ j, j < i → allWaiting u q ps out j = allWaiting w q ps out j)
    (hwi : allWaiting u q ps out i = 1) (hc : u.cells c = w.cells c)
    (hr : ∀ p, out ≤ p → p ≤ out + i → (u.pcbs p).result_ = (w.pcbs p).result_)
    (hnew : (u.pcbs (out + 1 + i)).result_ = none)
    (hn : out + 1 + (i + 1) ≤ u.pcbCount) (hm : w.cellCount ≤ u.cellCount) :
    AllJoin q ps out c (i + 1) u := by
  refine ⟨hi, hn, Nat.lt_of_lt_of_le h.cellc hm, h.inputs, hT, hD, ?_, ?_, ?_⟩
  · intro j hj
    by_cases hji : j = i
    · subst hji
      rw [hwi, if_pos hnew]
    · have hlt : j < i := by omega
      rw [hw j hlt, hr (out + 1 + j) (by omega) (by omega)]
      exact h.once j hlt
  · rw [hc, h.cell, all_unrun_succ, if_pos hnew,
      all_unrun_congr w u out i (fun j hj => hr (out + 1 + j) (by omega) (by omega))]
    congr 1
    omega
  · rw [hr out (Nat.le_refl _) (by omega), hc]
    exact h.outp

/-- The `Then` that `ResolveAll` makes on its `i`-th input. -/
theorem all_Then_ours (q : QId) (ps : List Nat) (out c i : Nat) (w : World)
    (h : AllJoin q ps out c i w) (hi : i < ps.length) (hcount : w.pcbCount = out + 1 + i)
    (p1 : Nat) (hp : ps[i]? = some p1) :
    ∃ u, w.Then p1 q (resolveAllBody c out) "" = some (u, out + 1 + i) ∧
      AllJoin q ps out c (i + 1) u ∧ u.pcbCount = out + 1 + (i + 1) ∧
      (u.queues q).t_ = (w.queues q).t_ ∧ u.cells = w.cells := by
  have hn := all_newPcb q ps out c i w h
  have hmem : p1 ∈ ps := by
    rw [List.getElem?_eq_getElem hi, Option.some.injEq] at hp
    rw [← hp]
    exact List.getElem_mem _
  have hlt := h.inputs p1 hmem
  have hne : p1 ≠ w.pcbCount := by omega
  have hget : (ps[i]?).getD 0 = p1 := by rw [hp]; rfl
  have hd : (⟨q, resolveAllBody c out, w.newPcb.2, ""⟩ : Dependent) = allDep q out c i := by
    simp only [allDep, newPcb, hcount]
  -- nothing waits for the new continuation yet
  have hz1 : ∀ p2, (w.newPcb.1.pcbs p2).dependents_.countP
      (fun d => decide ((d.resolver : Nat) = out + 1 + i)) = 0 := by
    intro p2
    rw [List.countP_eq_zero]
    intro d hdm
    simp only [decide_eq_true_eq]
    intro hr
    have := (all_deps_resolver q ps out c i _ hn.deps p2 d hdm i hi hr).1
    omega
  have hz2 : (w.newPcb.1.queues q).tasks_.countP
      (fun t => decide (t.f.target = out + 1 + i)) = 0 := by
    rw [List.countP_eq_zero]
    intro t htm
    simp only [decide_eq_true_eq]
    intro hr
    have := (all_tasks_target q ps out c i _ hn.tasks q t htm i hi hr).2.1
    omega
  have hcnt : ∀ j, j < i + 1 →
      ((w.newPcb.1.pcbs p1).dependents_ ++ [allDep q out c i]).countP
          (fun d => decide ((d.resolver : Nat) = out + 1 + j))
        = (w.newPcb.1.pcbs p1).dependents_.countP
            (fun d => decide ((d.resolver : Nat) = out + 1 + j)) + if j = i then 1 else 0 := by
    intro j _
    simp only [List.countP_append, List.countP_cons, List.countP_nil, allDep, Nat.zero_add]
    by_cases hji : j = i
    · subst hji
      simp
    · have : ¬ (out + 1 + i = out + 1 + j) := by omega
      simp [hji, this]
  have hds : ∀ d ∈ (w.newPcb.1.pcbs p1).dependents_ ++ [allDep q out c i],
      d.outside out (out + ps.length) c ∨
        ∃ j, j < i + 1 ∧ ps[j]? = some p1 ∧ d = allDep q out c j := by
    intro d hdm
    rcases List.mem_append.mp hdm with k | k
    · exact all_deps_mono q ps out c i (i + 1) _ (Nat.le_succ _) hn.deps p1 d k
    · rw [List.mem_singleton] at k
      exact Or.inr ⟨i, Nat.lt_succ_self _, hp, k⟩
  simp only [Then]
  rw [hd]
  cases hres : (w.newPcb.1.pcbs p1).result_ with
  | none =>
    have hpc : w.newPcb.1.pcbs p1 = ⟨none, (w.newPcb.1.pcbs p1).dependents_⟩ := by
      rw [← hres]
    rw [hpc, PromiseControlBlock.pcb_Then_unresolved]
    refine ⟨(w.newPcb.1.setPcb p1
        ⟨none, (w.newPcb.1.pcbs p1).dependents_ ++ [allDep q out c i]⟩).setQueue q
        ((w.newPcb.1.setPcb p1
          ⟨none, (w.newPcb.1.pcbs p1).dependents_ ++ [allDep q out c i]⟩).queues q).Take,
      by rw [show w.newPcb.2 = out + 1 + i from hcount]; rfl, ?_,
      by simp only [setQueue, setPcb, newPcb]; omega,
      by simp [setQueue, setPcb, newPcb, EventQueue.Take], rfl⟩
    have hsq := all_shape_queue q ps out c (i + 1)
      (w.newPcb.1.setPcb p1 ⟨none, (w.newPcb.1.pcbs p1).dependents_ ++ [allDep q out c i]⟩) q
      ((w.newPcb.1.setPcb p1
        ⟨none, (w.newPcb.1.pcbs p1).dependents_ ++ [allDep q out c i]⟩).queues q).Take rfl
      (all_tasks_mono q ps out c i (i + 1) _ (Nat.le_succ _) hn.tasks)
      (by
        intro p2 d hdm
        by_cases hp2 : p2 = p1
        · subst hp2
          simp only [setPcb, Function.update_same] at hdm
          exact hds d hdm
        · simp only [setPcb, Function.update_noteq hp2] at hdm
          exact all_deps_mono q ps out c i (i + 1) _ (Nat.le_succ _) hn.deps p2 d hdm)
    have hwait : ∀ j, j < i + 1 →
        allWaiting (w.newPcb.1.setPcb p1
            ⟨none, (w.newPcb.1.pcbs p1).dependents_ ++ [allDep q out c i]⟩) q ps out j
          = allWaiting w.newPcb.1 q ps out j + if j = i then 1 else 0 := by
      intro j hj
      simp only [allWaiting]
      by_cases hpj : (ps[j]?).getD 0 = p1
      · rw [hpj]
        simp only [setPcb, Function.update_same]
        rw [hcnt j hj]
        omega
      · simp only [setPcb, Function.update_noteq hpj]
        have hji : j ≠ i := by
          intro e
          rw [e] at hpj
          exact hpj hget
        rw [if_neg hji]
        rfl
    apply all_extend q ps out c i w.newPcb.1 _ hn hi hsq.1 hsq.2.1
    · intro j hj
      rw [hsq.2.2 j, hwait j (by omega), if_neg (by omega)]
      rfl
    · rw [hsq.2.2 i, hwait i (by omega), if_pos rfl]
      simp only [allWaiting, hget, hz1 p1, hz2]
    · rfl
    · intro p _ _
      by_cases hp2 : p = p1
      · subst hp2
        simp only [setQueue, setPcb, Function.update_same]
        exact hres.symm
      · simp only [setQueue, setPcb, Function.update_noteq hp2]
    · have hne2 : out + 1 + i ≠ p1 := by omega
      simp only [setQueue, setPcb, Function.update_noteq hne2, newPcb, hcount,
        Function.update_same, PromiseControlBlock.new]
    · simp only [setQueue, setPcb, newPcb]
      omega
    · exact Nat.le_refl _
  | some v =>
    have hpc : w.newPcb.1.pcbs p1 = ⟨some v, (w.newPcb.1.pcbs p1).dependents_⟩ := by
      rw [← hres]
    rw [hpc, PromiseControlBlock.pcb_Then_resolved]
    have hsq := all_shape_queue q ps out c (i + 1) w.newPcb.1 q (w.newPcb.1.queues q).Take rfl
      (all_tasks_mono q ps out c i (i + 1) _ (Nat.le_succ _) hn.tasks)
      (all_deps_mono q ps out c i (i + 1) _ (Nat.le_succ _) hn.deps)
    obtain ⟨k1, k2, k3, k4, k5, k6, k7, k8⟩ :=
      all_notify_shape q ps out c (i + 1) (w.newPcb.1.setQueue q (w.newPcb.1.queues q).Take)
        hsq.1 hsq.2.1 hi p1 (some v)
        ((w.newPcb.1.pcbs p1).dependents_ ++ [allDep q out c i]) v hds
    refine ⟨((w.newPcb.1.setQueue q (w.newPcb.1.queues q).Take).setPcb p1 ⟨some v, []⟩).calls
        (((w.newPcb.1.pcbs p1).dependents_ ++ [allDep q out c i]).map fun d => (d, v)),
      by rw [show w.newPcb.2 = out + 1 + i from hcount]; rfl, ?_, ?_, ?_, by rw [k4]; rfl⟩
    · apply all_extend q ps out c i w.newPcb.1 _ hn hi k1 k2
      · intro j hj
        have h3 := k3 j (by omega)
        rw [hsq.2.2 j] at h3
        have h4 := hcnt j (by omega)
        rw [if_neg (show ¬ (j = i) by omega)] at h4
        rw [show (w.newPcb.1.setQueue q (w.newPcb.1.queues q).Take).pcbs p1
          = w.newPcb.1.pcbs p1 from rfl] at h3
        omega
      · have h3 := k3 i (by omega)
        rw [hsq.2.2 i] at h3
        have h4 := hcnt i (by omega)
        rw [if_pos rfl] at h4
        have h5 : allWaiting w.newPcb.1 q ps out i = 0 := by
          simp only [allWaiting, hget, hz1 p1, hz2]
        have h6 := hz1 p1
        rw [show (w.newPcb.1.setQueue q (w.newPcb.1.queues q).Take).pcbs p1
          = w.newPcb.1.pcbs p1 from rfl] at h3
        omega
      · rw [k4]
        rfl
      · intro p _ _
        rw [k5 p]
        by_cases hp2 : p = p1
        · subst hp2
          rw [if_pos rfl]
          exact hres.symm
        · rw [if_neg hp2]
          rfl
      · rw [k5, if_neg (show ¬ (out + 1 + i = p1) by omega)]
        simp only [setQueue, newPcb, hcount, Function.update_same, PromiseControlBlock.new]
      · rw [k6]
        simp only [setQueue, newPcb]
        omega
      · rw [k7]
        exact Nat.le_refl _
    · rw [k6]
      simp only [setQueue, newPcb]
      omega
    · rw [k8]
      simp [setQueue, newPcb, EventQueue.Take]

end World

namespace World

/-- The fold of `ResolveAll` over the inputs that are left, from the `i`-th
on. -/
theorem all_thenEach_ours (q : QId) (ps : List Nat) (out c : Nat) (suf : List Nat) (i : Nat)
    (w : World) (h : AllJoin q ps out c i w) (hcount : w.pcbCount = out + 1 + i)
    (hsuf : ps.drop i = suf) :
    ∃ w1, thenEach (some q) (resolveAllBody c out) suf w = some w1 ∧
      AllJoin q ps out c ps.length w1 ∧ (w1.queues q).t_ = (w.queues q).t_ ∧
      w1.cells = w.cells := by
  induction suf generalizing i w with
  | nil =>
    have hle : ps.length ≤ i := List.drop_eq_nil_iff.mp hsuf
    have hi := h.hi
    have he : i = ps.length := by omega
    subst he
    exact ⟨w, rfl, h, rfl, rfl⟩
  | cons p1 suf ih =>
    have hi : i < ps.length := by
      by_contra hge
      rw [List.drop_eq_nil_iff.mpr (by omega)] at hsuf
      simp at hsuf
    have hp : ps[i]? = some p1 := by
      have h0 : (ps.drop i)[0]? = some p1 := by
        rw [hsuf]
        simp
      simpa using h0
    have hnext : ps.drop (i + 1) = suf := by
      have := List.drop_drop 1 i ps
      rw [hsuf] at this
      simpa [Nat.add_comm] using this.symm
    obtain ⟨u, h1, h2, h3, h4, h5⟩ := all_Then_ours q ps out c i w h hi hcount p1 hp
    obtain ⟨w1, k1, k2, k3, k4⟩ := ih (i + 1) u h2 h3 hnext
    refine ⟨w1, ?_, k2, by rw [k3, h4], by rw [k4, h5]⟩
    simp only [thenEach, ThenHere, h1]
    exact k1

/-- The call `ResolveAll(id, ps...)` on the worker of `q`, in a state in which
nothing holds the blocks and the counter that the call allocates. -/
theorem all_call_any (w : World) (q : QId) (ps : List Nat) (hne : ps ≠ [])
    (hps : ∀ p ∈ ps, p < w.pcbCount)
    (htasks : ∀ q1, ∀ t ∈ (w.queues q1).tasks_,
      t.f.outside w.pcbCount (w.pcbCount + ps.length) w.cellCount)
    (hdeps : ∀ p1, ∀ d ∈ (w.pcbs p1).dependents_,
      d.outside w.pcbCount (w.pcbCount + ps.length) w.cellCount) :
    ∃ w1, w.ResolveAll (some q) ps = some (w1, w.pcbCount) ∧
      AllJoin q ps w.pcbCount w.cellCount ps.length w1 ∧
      (w1.queues q).t_ = (w.queues q).t_ ∧ w1.cells w.cellCount = (ps.length : Int) := by
  have hlen : 0 < ps.length := List.length_pos.mpr hne
  have h0 : AllJoin q ps w.pcbCount w.cellCount 0 (w.newPcb.1.newCell ps.length).1 := by
    refine ⟨Nat.zero_le _, by simp [newPcb, newCell], by simp [newPcb, newCell], hps, ?_, ?_,
      ?_, ?_, ?_⟩
    · intro q1 t ht
      exact Or.inl (htasks q1 t ht)
    · intro p1 d hd
      by_cases hp : p1 = w.pcbCount
      · subst hp
        simp [newPcb, newCell, PromiseControlBlock.new] at hd
      · simp only [newPcb, newCell, Function.update_noteq hp] at hd
        exact Or.inl (hdeps p1 d hd)
    · intro j hj
      omega
    · simp [newPcb, newCell, allUnrun]
    · have hc : (w.newPcb.1.newCell ps.length).1.cells w.cellCount = (ps.length : Int) := by
        simp [newPcb, newCell]
      rw [hc, if_neg (by omega)]
      simp [newPcb, newCell, PromiseControlBlock.new]
  obtain ⟨w1, k1, k2, k3, k4⟩ := all_thenEach_ours q ps w.pcbCount w.cellCount ps 0 _ h0
    (by simp [newPcb, newCell]) rfl
  refine ⟨w1, ?_, k2, by rw [k3]; rfl, by rw [k4]; simp [newPcb, newCell]⟩
  simp only [ResolveAll, CreateResolver]
  rw [show (w.newPcb.1.newCell ps.length).2 = w.cellCount from rfl,
    show w.newPcb.2 = w.pcbCount from rfl, k1]

/-- Every continuation has run exactly when none is counted as not run. -/
theorem all_unrun_zero (w : World) (out i : Nat) :
    allUnrun w out i = 0 ↔ ∀ j, j < i → (w.pcbs (out + 1 + j)).result_ ≠ none := by
  simp only [allUnrun, List.countP_eq_zero, List.mem_range, Option.isNone_iff_eq_none]

/-- What the shape of the state says about the returned promise. -/
theorem all_result (q : QId) (ps : List Nat) (out c : Nat) (w : World)
    (h : AllJoin q ps out c ps.length w) :
    ((w.pcbs out).result_ = some 0 ↔
      ∀ j, j < ps.length → (w.pcbs (out + 1 + j)).result_ ≠ none) ∧
    ((w.pcbs out).result_ = none ∨ (w.pcbs out).result_ = some 0) ∧
    w.cells c = ((allUnrun w out ps.length : Nat) : Int) := by
  have hc := h.cell
  rw [Nat.sub_self, Nat.add_zero] at hc
  have ho := h.outp
  refine ⟨?_, ?_, hc⟩
  · rw [← all_unrun_zero, ho]
    by_cases h0 : w.cells c = 0
    · rw [if_pos h0]
      rw [hc] at h0
      exact ⟨fun _ => by exact_mod_cast h0, fun _ => rfl⟩
    · rw [if_neg h0]
      rw [hc] at h0
      exact ⟨fun e => by simp at e, fun e => absurd (by rw [e]; rfl) h0⟩
  · rw [ho]
    by_cases h0 : w.cells c = 0
    · rw [if_pos h0]
      exact Or.inr rfl
    · rw [if_neg h0]
      exact Or.inl rfl

/-- Where a continuation that has not run waits. -/
theorem all_where (q : QId) (ps : List Nat) (out c : Nat) (w : World)
    (h : AllJoin q ps out c ps.length w) (j : Nat) (hj : j < ps.length)
    (hn : (w.pcbs (out + 1 + j)).result_ = none) :
    allDep q out c j ∈ (w.pcbs ((ps[j]?).getD 0)).dependents_ ∨
      ∃ v, taskOf (allDep q out c j, v) ∈ (w.queues q).tasks_ := by
  have honce := h.once j hj
  rw [if_pos hn] at honce
  simp only [allWaiting] at honce
  by_cases hd : 0 < (w.pcbs ((ps[j]?).getD 0)).dependents_.countP
      (fun d => decide ((d.resolver : Nat) = out + 1 + j))
  · left
    rw [List.countP_pos_iff] at hd
    obtain ⟨d, hdm, hr⟩ := hd
    simp only [decide_eq_true_eq] at hr
    have := (all_deps_resolver q ps out c _ w h.deps _ d hdm j hj hr).2.2
    rw [← this]
    exact hdm
  · right
    have ht : 0 < (w.queues q).tasks_.countP (fun t => decide (t.f.target = out + 1 + j)) := by
      omega
    rw [List.countP_pos_iff] at ht
    obtain ⟨t, htm, hr⟩ := ht
    simp only [decide_eq_true_eq] at hr
    obtain ⟨_, _, v, hv⟩ := all_tasks_target q ps out c _ w h.tasks q t htm j hj hr
    exact ⟨v, by rw [← hv]; exact htm⟩

end World

namespace World

/-- A pass of the worker of `q1` does not stop the worker of `q` while the FIFO
of `q` holds a task or `q` is held. -/
theorem all_alive_step (w w1 : World) (e : Ev) (q : QId)
    (hc : 1 ≤ (w.queues q).count_ ∨ (w.queues q).tasks_ ≠ [])
    (ht : (w.queues q).t_ = true) (hs : w.step e = some w1) : (w1.queues q).t_ = true := by
  rcases hc with hc | hc
  · exact alive_step w w1 e q hc ht hs
  · refine stable_step (fun u => (u.queues q).t_ = true) (alive_stable q) w w1 ?_ e ht hs
    intro q1 _
    by_cases hq : q = q1
    · subst hq
      cases hts : (w.queues q).tasks_ with
      | nil => exact absurd hts hc
      | cons t rest =>
        simp [setQueue, EventQueue.pass, ht, hts]
    · simpa [setQueue, Function.update_noteq hq] using ht

/-- While a continuation of the call has not run, the worker of `q` stays in
its loop. -/
theorem all_alive (q : QId) (ps : List Nat) (out c : Nat) (evs : List Ev) (w w2 : World)
    (he : ∀ e ∈ evs, e.outside out (out + ps.length) c) (h : AllJoin q ps out c ps.length w)
    (hh : Held w) (ht : (w.queues q).t_ = true ∨ allUnrun w out ps.length = 0)
    (hr : exec evs w = some w2) :
    (w2.queues q).t_ = true ∨ allUnrun w2 out ps.length = 0 := by
  induction evs generalizing w with
  | nil =>
    simp only [exec, Option.some.injEq] at hr
    subst hr
    exact ht
  | cons e es ih =>
    simp only [exec] at hr
    cases hs : w.step e with
    | none => simp [hs] at hr
    | some w1 =>
      simp only [hs] at hr
      have h1 := all_step q ps out c w w1 e (he e (List.mem_cons_self _ _)) h hs
      have hh1 := held_exec [e] w w1 hh (by simp [exec, hs])
      refine ih w1 (fun e1 k => he e1 (List.mem_cons_of_mem _ k)) h1 hh1 ?_ hr
      by_cases hz : allUnrun w out ps.length = 0
      · right
        rw [all_unrun_zero] at hz ⊢
        intro j hj
        have hcount := h.count
        have hg := (grows_step (out + 1 + j) w w1 e hs).2 (show out + 1 + j < w.pcbCount by omega)
        have hsome := hg.1 (by
          cases hres : (w.pcbs (out + 1 + j)).result_ with
          | none => exact absurd hres (hz j hj)
          | some v => rfl)
        intro hnone
        rw [hnone] at hsome
        simp at hsome
      · left
        have htt : (w.queues q).t_ = true := by
          rcases ht with k | k
          · exact k
          · exact absurd k hz
        have hex : ∃ j, j < ps.length ∧ (w.pcbs (out + 1 + j)).result_ = none := by
          by_contra hno
          apply hz
          rw [all_unrun_zero]
          intro j hj hn
          exact hno ⟨j, hj, hn⟩
        obtain ⟨j, hj, hn⟩ := hex
        apply all_alive_step w w1 e q ?_ htt hs
        rcases all_where q ps out c w h j hj hn with k | ⟨v, k⟩
        · exact Or.inl (held_pending w hh _ _ q k rfl)
        · right
          intro hnil
          rw [hnil] at k
          simp at k

end World

/-- C7: `ResolveAll(id, ps...)` with `k >= 1` inputs, called on the worker of
`q` in any state: the inputs are any allocated blocks, resolved or not, in any
number equal to one another, with any continuations pending on them, and the
FIFOs hold any tasks; only no task, no pending continuation and no later client
code holds a resolver of the blocks that the call allocates (the returned
promise `out` and the promises `out + 1 + j` of its `Then`s) or a pointer to
its counter.  The call returns `out` unresolved.  After every sequence of steps
of all threads, client code and worker passes, which resolve the inputs in any
order: `out` is resolved, with the unit value, exactly when the continuation of
every input has run (the promise `out + 1 + j` of its `Then` is resolved); the
counter is the number of continuations that have not run; a continuation that
has not run is pending on its input or its task waits in the FIFO of `q`; the
worker pass that runs the task of a continuation does not fail an assertion,
finds `out` unresolved and resolves it exactly when it is the last continuation
to run; a worker pass that fails an assertion is the pass of a task that holds
nothing of the call; and when every pending continuation holds its queue, as in
every state the program reaches, the worker of `q` stays in its loop while a
continuation has not run. -/
theorem resolveAll_resolved_by_last_continuation (w : World) (q : QId) (ps : List Nat)
    (evs : List World.Ev) (hne : ps ≠ []) (hps : ∀ p ∈ ps, p < w.pcbCount)
    (htasks : ∀ q1, ∀ t ∈ (w.queues q1).tasks_,
      t.f.outside w.pcbCount (w.pcbCount + ps.length) w.cellCount)
    (hdeps : ∀ p1, ∀ d ∈ (w.pcbs p1).dependents_,
      d.outside w.pcbCount (w.pcbCount + ps.length) w.cellCount)
    (hev : ∀ e ∈ evs, e.outside w.pcbCount (w.pcbCount + ps.length) w.cellCount) :
    ∃ w1, w.ResolveAll (some q) ps = some (w1, w.pcbCount) ∧
      (w1.pcbs w.pcbCount).result_ = none ∧
      ∀ w2, World.exec evs w1 = some w2 →
        ((w2.pcbs w.pcbCount).result_ = some 0 ↔
          ∀ j, j < ps.length → (w2.pcbs (w.pcbCount + 1 + j)).result_ ≠ none) ∧
        ((w2.pcbs w.pcbCount).result_ = none ∨ (w2.pcbs w.pcbCount).result_ = some 0) ∧
        w2.cells w.cellCount = ((World.allUnrun w2 w.pcbCount ps.length : Nat) : Int) ∧
        (∀ j, j < ps.length → (w2.pcbs (w.pcbCount + 1 + j)).result_ = none →
          World.allDep q w.pcbCount w.cellCount j ∈ (w2.pcbs ((ps[j]?).getD 0)).dependents_ ∨
          ∃ v, World.taskOf (World.allDep q w.pcbCount w.cellCount j, v)
            ∈ (w2.queues q).tasks_) ∧
        (∀ j v rest, j < ps.length → (w2.queues q).t_ = true →
          (w2.queues q).tasks_
            = World.taskOf (World.allDep q w.pcbCount w.cellCount j, v) :: rest →
          ∃ w3, w2.workerStep q = some w3 ∧
            (w2.pcbs w.pcbCount).result_ = none ∧
            (w2.pcbs (w.pcbCount + 1 + j)).result_ = none ∧
            (w3.pcbs (w.pcbCount + 1 + j)).result_ = some 0 ∧
            (∀ j1, j1 < ps.length → j1 ≠ j →
              (w3.pcbs (w.pcbCount + 1 + j1)).result_
                = (w2.pcbs (w.pcbCount + 1 + j1)).result_) ∧
            ((w3.pcbs w.pcbCount).result_ = some 0 ↔
              ∀ j1, j1 < ps.length → j1 ≠ j →
                (w2.pcbs (w.pcbCount + 1 + j1)).result_ ≠ none)) ∧
        (∀ q1, w2.workerStep q1 = none →
          ∃ t rest, (w2.queues q1).tasks_ = t :: rest ∧
            t.f.outside w.pcbCount (w.pcbCount + ps.length) w.cellCount) ∧
        (World.Held w → (w.queues q).t_ = true →
          ∀ j, j < ps.length → (w2.pcbs (w.pcbCount + 1 + j)).result_ = none →
            (w2.queues q).t_ = true) := by
  obtain ⟨w1, h1, h2, h3, h4⟩ := World.all_call_any w q ps hne hps htasks hdeps
  have hlen : 0 < ps.length := List.length_pos.mpr hne
  have hout1 : (w1.pcbs w.pcbCount).result_ = none := by
    rw [h2.outp, h4, if_neg (by omega)]
  refine ⟨w1, h1, hout1, ?_⟩
  intro w2 he
  have hj2 := World.all_exec q ps w.pcbCount w.cellCount evs w1 w2 hev h2 he
  have hr2 := World.all_result q ps w.pcbCount w.cellCount w2 hj2
  refine ⟨hr2.1, hr2.2.1, hr2.2.2, ?_, ?_, ?_, ?_⟩
  · intro j hj hn
    exact World.all_where q ps w.pcbCount w.cellCount w2 hj2 j hj hn
  · intro j v rest hj ht hts
    obtain ⟨w3, k1, k2, k3, k4, k5, k6, _, _, _⟩ :=
      World.all_ours q ps w.pcbCount w.cellCount w2 j v rest hj2 hj ht hts
    refine ⟨w3, k1, k4, k3, k5, k6, ?_⟩
    rw [(World.all_result q ps w.pcbCount w.cellCount w3 k2).1]
    constructor
    · intro hall j1 hj1 hne1
      rw [← k6 j1 hj1 hne1]
      exact hall j1 hj1
    · intro hall j1 hj1
      by_cases hjj : j1 = j
      · subst hjj
        rw [k5]
        simp
      · rw [k6 j1 hj1 hjj]
        exact hall j1 hj1 hjj
  · intro q1 hfail
    by_cases htr : (w2.queues q1).t_ = true
    · cases hq : (w2.queues q1).tasks_ with
      | nil =>
        by_cases hc : (!(w2.queues q1).running_ && (w2.queues q1).count_ == 0) = true
        · simp [World.workerStep, EventQueue.pass, htr, hq, hc] at hfail
        · simp [World.workerStep, EventQueue.pass, htr, hq, hc] at hfail
      | cons t rest =>
        refine ⟨t, rest, rfl, ?_⟩
        rcases hj2.tasks q1 t (by rw [hq]; exact List.mem_cons_self _ _) with
          k | ⟨k1, j, v, hj, k2⟩
        · exact k
        · rw [k1] at hq htr hfail
          rw [k2] at hq
          obtain ⟨w3, h5, _⟩ :=
            World.all_ours q ps w.pcbCount w.cellCount w2 j v rest hj2 hj htr hq
          rw [h5] at hfail
          simp at hfail
    · simp [World.workerStep, EventQueue.pass, htr] at hfail
  · intro hh ht j hj hn
    have hh1 : World.Held w1 := by
      have hrun : Prog.run (some q) (Prog.resolveAll "" ps fun o => Prog.ret 0) w
          = some (w1, 0) := by
        simp only [Prog.run, h1]
      exact World.stable_run World.Held World.held_stable _ (some q) w (w1, 0) hh hrun
    rcases World.all_alive q ps w.pcbCount w.cellCount evs w1 w2 hev h2 hh1
        (Or.inl (by rw [h3]; exact ht)) he with k | k
    · exact k
    · rw [World.all_unrun_zero] at k
      exact absurd hn (k j hj)

/-- The test `ResolveAll` from its start: the worker of queue 0 runs the task
of the test, the four tasks, the four continuations of `ResolveAll` and the
continuation on the returned promise, and leaves its loop.  The returned
promise, block 5, is resolved, and the continuation with the assertions ran
after the four tasks. -/
theorem all_test_run :
    (World.exec (List.replicate 11 (World.Ev.worker 0)) (World.testStart 0 resolveAllTest)).map
        (fun w => (w.got, (w.pcbs 5).result_, (w.queues 0).t_, (w.queues 0).tasks_.length))
      = some ([1, 2, 3, 4, 5], some 0, false, 0) := by
  rfl

theorem all_test_call :
    (Prog.run (some 0) resolveAllTest
        ((World.testStart 0 resolveAllTest).setQueue 0
          ((World.testStart 0 resolveAllTest).queues 0).pass.1)).map Prod.fst
      = (World.resolveAllCall.ResolveAll (some 0) [1, 2, 3, 4]).bind fun r =>
          (Prog.run (some 0)
            (Prog.thenHere r.2 (fun _ => Prog.push 5 (Prog.ret 0)) "" fun _ => Prog.ret 0)
            r.1).map Prod.fst := by
  rfl

/-- C7, at the test `ResolveAll`: the call with the promises 1 to 4 of four
tasks that wait in the FIFO of queue 0, made by the task of the test on the
worker of queue 0.  The call returns block 5 unresolved; the rest of the body
and nine passes of the worker, which run the four tasks and then the four
continuations, end with block 5 resolved and the continuation with the
assertions run after the four tasks. -/
theorem resolveAll_resolved_by_last_continuation_witness :
    (((World.resolveAllCall.ResolveAll (some 0) [1, 2, 3, 4]).bind fun r =>
        World.exec World.resolveAllRest r.1).map fun w => ((w.pcbs 5).result_, w.got))
      = some (some 0, [1, 2, 3, 4, 5]) ∧
    ∃ w1, World.resolveAllCall.ResolveAll (some 0) [1, 2, 3, 4] = some (w1, 5) ∧
      (w1.pcbs 5).result_ = none ∧
      ∀ w2, World.exec World.resolveAllRest w1 = some w2 →
        ((w2.pcbs 5).result_ = some 0 ↔
          ∀ j, j < 4 → (w2.pcbs (5 + 1 + j)).result_ ≠ none) :=
  ⟨rfl, Exists.imp (fun _ h => ⟨h.1, h.2.1, fun w2 he => (h.2.2 w2 he).1⟩)
    (resolveAll_resolved_by_last_continuation World.resolveAllCall 0 [1, 2, 3, 4]
      World.resolveAllRest (by simp)
      (by
        intro p hp
        simp only [List.mem_cons, List.mem_singleton, List.not_mem_nil, or_false] at hp
        rcases hp with h | h | h | h <;> subst h <;> decide)
      (by
        intro q1 t ht
        by_cases hq : q1 = 0
        · subst hq
          have e : (World.resolveAllCall.queues 0).tasks_ =
              [⟨"", Closure.enqueueBody (Prog.push 1 (Prog.ret 1)) 1⟩,
               ⟨"", Closure.enqueueBody (Prog.push 2 (Prog.ret 2)) 2⟩,
               ⟨"", Closure.enqueueBody (Prog.push 3 (Prog.ret 3)) 3⟩,
               ⟨"", Closure.enqueueBody (Prog.push 4 (Prog.ret 0)) 4⟩] := rfl
          rw [e] at ht
          simp only [List.mem_cons, List.mem_singleton, List.not_mem_nil, or_false] at ht
          rcases ht with h | h | h | h <;> subst h <;>
            exact ⟨Or.inl (by decide), trivial⟩
        · have e : (World.resolveAllCall.queues q1).tasks_ = [] := by
            simp [World.resolveAllCall, World.testStart, World.Enqueue, World.AddTask,
              World.setQueue, World.Finish, World.newPcb, World.init, EventQueue.new,
              Function.update_noteq hq]
          rw [e] at ht
          exact absurd ht (List.not_mem_nil _))
      (by
        intro p1 d hd
        have e : (World.resolveAllCall.pcbs p1).dependents_ = [] := by
          simp only [World.resolveAllCall, World.testStart, World.Enqueue, World.AddTask,
            World.setQueue, World.Finish, World.newPcb, World.init, Function.update_apply]
          repeat (first | rfl | split)
        rw [e] at hd
        exact absurd hd (List.not_mem_nil _))
      (by
        intro e he
        simp only [World.resolveAllRest, List.mem_cons, List.mem_replicate] at he
        rcases he with h | h
        · subst h
          exact ⟨fun _ => trivial, fun _ _ => ⟨Or.inl (by decide), trivial⟩⟩
        · rw [h.2]
          trivial))⟩

/-! ## Schedule: the timer entry of a schedule, with `Cancel` -/

namespace ScheduleWorld

/-- No step adds a firing: the number of timer entries, firing bodies and
continuations of the schedule never grows. -/
theorem sched_step_tokens (f : Nat → Bool) (w : ScheduleWorld) (e : Ev)
    (r : ScheduleWorld × List Obs) (h : step f w e = some r) :
    armedCount r.1 + queuedCount r.1 ≤ armedCount w + queuedCount w := by
  have hw1 : ∀ b, (ScheduleTask.continuation b).weight = 1 := fun _ => rfl
  cases e with
  | cancelLock =>
    simp only [step, Option.some.injEq] at h
    subst h
    cases hc : w.scb.current_timer_ with
    | none => simp [CancelTimer, hc, armedCount, queuedCount]
    | some i =>
      have := sched_timerWeight_cancel i w.timer.tasks_
      simp only [CancelTimer, hc, armedCount, queuedCount, TimerImpl.Cancel]
      omega
  | cancelFinish =>
    by_cases hc : w.cancelling = 0
    · simp [step, hc] at h
      subst h
      exact Nat.le_refl _
    · by_cases hrun : w.scb.running_ = true
      · cases hd : w.done.Resolve () with
        | none => simp [step, hc, Finish, hrun, hd] at h
        | some r1 =>
          simp [step, hc, Finish, hrun, hd] at h
          subst h
          simp [armedCount, queuedCount]
      · simp [step, hc, Finish, hrun] at h
        subst h
        simp [armedCount, queuedCount]
  | timerPass now =>
    cases htt : w.this_task with
    | some j =>
      simp [step, htt] at h
      subst h
      exact Nat.le_refl _
    | none =>
      by_cases hrn : w.timer.run_ = true
      · cases hq : w.timer.tasks_ with
        | nil =>
          simp [step, htt, TimerImpl.pass, hrn, hq] at h
          subst h
          simp [armedCount, queuedCount, htt, hq]
        | cons a rest =>
          by_cases hd : a.1 ≤ now
          · simp [step, htt, TimerImpl.pass, hrn, hq, hd] at h
            subst h
            simp only [armedCount, queuedCount, htt, hq, thisWeight, timerWeight,
              TimerImpl.mapErase, List.map_cons, List.sum_cons]
            simp
            omega
          · simp [step, htt, TimerImpl.pass, hrn, hq, hd] at h
            subst h
            simp [armedCount, queuedCount, htt, hq]
      · simp [step, htt, TimerImpl.pass, hrn] at h
        subst h
        simp [armedCount, queuedCount, htt]
  | timerCall =>
    cases htt : w.this_task with
    | none =>
      simp [step, htt] at h
      subst h
      exact Nat.le_refl _
    | some j =>
      cases j with
      | timerCallback =>
        simp [step, htt] at h
        subst h
        simp only [armedCount, queuedCount, htt, thisWeight, TimerCallback,
          EventQueue.AddTask, queueWeight, List.map_append, List.sum_append, List.map_cons,
          List.map_nil, List.sum_cons, List.sum_nil, TimerJob.weight, ScheduleTask.weight]
        omega
      | other =>
        simp [step, htt] at h
        subst h
        simp [armedCount, queuedCount, htt, thisWeight, TimerJob.weight]
  | timerOther when =>
    simp [step] at h
    subst h
    have := (sched_timerWeight_insert when ⟨w.timer.id_counter_, TimerJob.other⟩
      w.timer.tasks_).2
    simp only [TimerJob.weight] at this
    simp only [armedCount, queuedCount, TimerImpl.Schedule]
    omega
  | workerPass =>
    cases htt : w.task with
    | some j =>
      simp [step, htt] at h
      subst h
      exact Nat.le_refl _
    | none =>
      by_cases hrn : w.q.t_ = true
      · cases hq : w.q.tasks_ with
        | nil =>
          by_cases hc : (!w.q.running_ && w.q.count_ == 0) = true
          · simp [step, htt, EventQueue.pass, hrn, hq, hc] at h
            subst h
            simp [armedCount, queuedCount, hq, htt]
          · simp [step, htt, EventQueue.pass, hrn, hq, hc] at h
            subst h
            simp [armedCount, queuedCount, hq, htt]
        | cons a rest =>
          simp [step, htt, EventQueue.pass, hrn, hq] at h
          subst h
          simp only [armedCount, queuedCount, htt, hq, heldWeight, queueWeight, List.map_cons,
            List.sum_cons]
          omega
      · simp [step, htt, EventQueue.pass, hrn] at h
        subst h
        simp [armedCount, queuedCount, htt]
  | workerRun now =>
    cases htt : w.task with
    | none =>
      simp [step, htt] at h
      subst h
      exact Nat.le_refl _
    | some j =>
      cases j with
      | firing =>
        by_cases hrun : w.scb.running_ = true
        · simp [step, htt, firing, hrun, sched_callThen] at h
          subst h
          simp only [armedCount, queuedCount, htt, heldWeight, queueWeight, EventQueue.Take,
            EventQueue.AddTask, EventQueue.Release, List.map_append, List.sum_append,
            List.map_cons, List.map_nil, List.sum_cons, List.sum_nil, hw1]
          have : ScheduleTask.firing.weight = 1 := rfl
          omega
        · simp [step, htt, firing, hrun] at h
          subst h
          simp only [armedCount, queuedCount, htt, heldWeight]
          omega
      | continuation b =>
        have hheld : heldWeight (some (ScheduleTask.continuation b)) = 1 := rfl
        cases b with
        | true =>
          simp [step, htt, continuation] at h
          subst h
          by_cases hrun : w.scb.running_ = true
          · have := (sched_timerWeight_insert
              (if w.scb.scheduled_run_time_ = 0 then now
                else wrapTicks (w.scb.scheduled_run_time_ + w.scb.interval_))
              ⟨w.timer.id_counter_, TimerJob.timerCallback⟩ w.timer.tasks_).2
            simp only [TimerJob.weight] at this
            simp only [ScheduleNextRun, hrun, armedCount, queuedCount, htt, TimerImpl.Schedule,
              hheld, heldWeight]
            simp
            have := hw1 true
            omega
          · simp only [ScheduleNextRun, hrun, armedCount, queuedCount, htt, hheld, heldWeight]
            simp
        | false =>
          by_cases hrun : w.scb.running_ = true
          · cases hd : w.done.Resolve () with
            | none => simp [step, htt, continuation, Finish, hrun, hd] at h
            | some r1 =>
              simp [step, htt, continuation, Finish, hrun, hd] at h
              subst h
              simp only [armedCount, queuedCount, htt, hheld, heldWeight]
              omega
          · simp [step, htt, continuation, Finish, hrun] at h
            subst h
            simp only [armedCount, queuedCount, htt, hheld, heldWeight]
            omega
      | other =>
        simp [step, htt] at h
        subst h
        simp only [armedCount, queuedCount, htt, heldWeight]
        omega
  | enqueueOther id =>
    simp [step] at h
    subst h
    simp only [armedCount, queuedCount, EventQueue.AddTask, queueWeight, List.map_append,
      List.sum_append, List.map_cons, List.map_nil, List.sum_cons, List.sum_nil,
      ScheduleTask.weight]
    omega
  | queueFinish =>
    simp [step] at h
    subst h
    simp [armedCount, queuedCount, EventQueue.Finish]

theorem sched_exec_tokens (f : Nat → Bool) (evs : List Ev) (w : ScheduleWorld)
    (r : ScheduleWorld × List Obs) (h : exec f evs w = some r) :
    armedCount r.1 + queuedCount r.1 ≤ armedCount w + queuedCount w := by
  induction evs generalizing w r with
  | nil =>
    simp only [exec, Option.some.injEq] at h
    subst h
    exact Nat.le_refl _
  | cons e es ih =>
    cases hs : step f w e with
    | none => simp [exec, hs] at h
    | some r1 =>
      rw [sched_exec_cons f e es w r1 hs] at h
      cases he : exec f es r1.1 with
      | none => simp [he] at h
      | some r2 =>
        simp only [he, Option.map_some', Option.some.injEq] at h
        subst h
        exact Nat.le_trans (ih r1.1 r2 he) (sched_step_tokens f w e r1 hs)

end ScheduleWorld

namespace ScheduleWorld

theorem sched_mapInsert_mem (k : Int) (v : TimerImpl.Task TimerJob)
    (l : List (Int × TimerImpl.Task TimerJob)) (x : Int × TimerImpl.Task TimerJob)
    (h : x ∈ l) : x ∈ TimerImpl.mapInsert k v l := by
  induction l with
  | nil => simp at h
  | cons e rest ih =>
    by_cases h1 : k < e.1
    · simp only [TimerImpl.mapInsert, h1, if_true]
      exact List.mem_cons_of_mem _ h
    · by_cases h2 : k = e.1
      · have he : TimerImpl.mapInsert k v (e :: rest) = e :: rest := by
          simp [TimerImpl.mapInsert, h2]
        rw [he]
        exact h
      · simp only [TimerImpl.mapInsert, h1, h2, if_false]
        rcases List.mem_cons.mp h with k1 | k1
        · rw [k1]
          exact List.mem_cons_self _ _
        · exact List.mem_cons_of_mem _ (ih k1)

/-- A change that keeps the timer id, the pending entries and the local of the
timer thread keeps the registration. -/
theorem sched_registered_transfer (w u : ScheduleWorld) (h : Registered w)
    (hc : u.scb.current_timer_ = w.scb.current_timer_ ∨ u.scb.current_timer_ = none)
    (ht : ∀ x ∈ w.timer.tasks_, x ∈ u.timer.tasks_)
    (hl : u.this_task = w.this_task) : Registered u := by
  intro i hi
  rcases hc with hc | hc
  · rw [hc] at hi
    rcases h i hi with ⟨when, hw⟩ | hw
    · exact Or.inl ⟨when, ht _ hw⟩
    · right
      rw [hl]
      exact hw
  · rw [hc] at hi
    simp at hi

/-- A step that calls `Timer::Schedule` only for a free time point keeps the
registration. -/
theorem sched_step_registered (f : Nat → Bool) (w : ScheduleWorld) (e : Ev)
    (r : ScheduleWorld × List Obs) (hreg : Registered w)
    (hd : ∀ t, e.schedules w = some t → t ∉ w.timer.tasks_.map Prod.fst)
    (h : step f w e = some r) : Registered r.1 := by
  cases e with
  | cancelLock =>
    simp only [step, Option.some.injEq] at h
    subst h
    cases hc : w.scb.current_timer_ with
    | none =>
      intro i hi
      simp [CancelTimer, hc] at hi
    | some j =>
      intro i hi
      simp [CancelTimer, hc] at hi
  | cancelFinish =>
    by_cases hc : w.cancelling = 0
    · simp [step, hc] at h
      subst h
      exact hreg
    · by_cases hrun : w.scb.running_ = true
      · cases hdn : w.done.Resolve () with
        | none => simp [step, hc, Finish, hrun, hdn] at h
        | some r1 =>
          simp [step, hc, Finish, hrun, hdn] at h
          subst h
          exact sched_registered_transfer w _ hreg (Or.inl rfl) (fun _ hx => hx) rfl
      · simp [step, hc, Finish, hrun] at h
        subst h
        exact sched_registered_transfer w _ hreg (Or.inl rfl) (fun _ hx => hx) rfl
  | timerPass now =>
    cases htt : w.this_task with
    | some j =>
      simp [step, htt] at h
      subst h
      exact hreg
    | none =>
      by_cases hrn : w.timer.run_ = true
      · cases hq : w.timer.tasks_ with
        | nil =>
          simp [step, htt, TimerImpl.pass, hrn, hq] at h
          subst h
          exact sched_registered_transfer w _ hreg (Or.inl rfl) (fun _ hx => hx) (by simp [htt])
        | cons a rest =>
          by_cases hdue : a.1 ≤ now
          · simp [step, htt, TimerImpl.pass, hrn, hq, hdue] at h
            subst h
            intro i hi
            rcases hreg i hi with ⟨when, hw⟩ | hw
            · rw [hq] at hw
              rcases List.mem_cons.mp hw with k | k
              · right
                simp only
                rw [← k]
              · left
                exact ⟨when, by simpa [TimerImpl.mapErase] using k⟩
            · rw [htt] at hw
              simp at hw
          · simp [step, htt, TimerImpl.pass, hrn, hq, hdue] at h
            subst h
            exact sched_registered_transfer w _ hreg (Or.inl rfl) (fun _ hx => hx) (by simp [htt])
      · simp [step, htt, TimerImpl.pass, hrn] at h
        subst h
        exact sched_registered_transfer w _ hreg (Or.inl rfl) (fun _ hx => hx) (by simp [htt])
  | timerCall =>
    cases htt : w.this_task with
    | none =>
      simp [step, htt] at h
      subst h
      exact hreg
    | some j =>
      cases j with
      | timerCallback =>
        simp [step, htt] at h
        subst h
        intro i hi
        simp [TimerCallback] at hi
      | other =>
        simp [step, htt] at h
        subst h
        intro i hi
        rcases hreg i hi with ⟨when, hw⟩ | hw
        · exact Or.inl ⟨when, hw⟩
        · rw [htt] at hw
          simp at hw
  | timerOther when =>
    simp [step] at h
    subst h
    exact sched_registered_transfer w _ hreg (Or.inl rfl)
      (fun x hx => sched_mapInsert_mem when _ w.timer.tasks_ x hx) rfl
  | workerPass =>
    cases htt : w.task with
    | some j =>
      simp [step, htt] at h
      subst h
      exact hreg
    | none =>
      simp only [step, htt] at h
      cases hp : w.q.pass with
      | mk s p =>
        rw [hp] at h
        cases p <;> simp at h <;> subst h <;>
          exact sched_registered_transfer w _ hreg (Or.inl rfl) (fun _ hx => hx) rfl
  | workerRun now =>
    cases htt : w.task with
    | none =>
      simp [step, htt] at h
      subst h
      exact hreg
    | some j =>
      cases j with
      | firing =>
        by_cases hrun : w.scb.running_ = true
        · simp [step, htt, firing, hrun, sched_callThen] at h
          subst h
          exact sched_registered_transfer w _ hreg (Or.inl rfl) (fun _ hx => hx) rfl
        · simp [step, htt, firing, hrun] at h
          subst h
          exact sched_registered_transfer w _ hreg (Or.inl rfl) (fun _ hx => hx) rfl
      | continuation b =>
        cases b with
        | true =>
          simp [step, htt, continuation] at h
          subst h
          by_cases hrun : w.scb.running_ = true
          · have hfree := hd (if w.scb.scheduled_run_time_ = 0 then now
                else wrapTicks (w.scb.scheduled_run_time_ + w.scb.interval_))
              (by simp [Ev.schedules, htt, hrun])
            have hmem := TimerImpl.timer_mapInsert_of_not_mem _
              (⟨w.timer.id_counter_, TimerJob.timerCallback⟩ : TimerImpl.Task TimerJob)
              w.timer.tasks_ hfree
            intro i hi
            simp [ScheduleNextRun, hrun, TimerImpl.Schedule] at hi
            subst hi
            left
            refine ⟨(if w.scb.scheduled_run_time_ = 0 then now
                else wrapTicks (w.scb.scheduled_run_time_ + w.scb.interval_)), ?_⟩
            simpa [ScheduleNextRun, hrun, TimerImpl.Schedule] using hmem
          · have : ScheduleNextRun { w with task := none } now = ({ w with task := none }, []) := by
              simp [ScheduleNextRun, hrun]
            rw [this]
            exact sched_registered_transfer w _ hreg (Or.inl rfl) (fun _ hx => hx) rfl
        | false =>
          by_cases hrun : w.scb.running_ = true
          · cases hdn : w.done.Resolve () with
            | none => simp [step, htt, continuation, Finish, hrun, hdn] at h
            | some r1 =>
              simp [step, htt, continuation, Finish, hrun, hdn] at h
              subst h
              exact sched_registered_transfer w _ hreg (Or.inl rfl) (fun _ hx => hx) rfl
          · simp [step, htt, continuation, Finish, hrun] at h
            subst h
            exact sched_registered_transfer w _ hreg (Or.inl rfl) (fun _ hx => hx) rfl
      | other =>
        simp [step, htt] at h
        subst h
        exact sched_registered_transfer w _ hreg (Or.inl rfl) (fun _ hx => hx) rfl
  | enqueueOther id =>
    simp [step] at h
    subst h
    exact sched_registered_transfer w _ hreg (Or.inl rfl) (fun _ hx => hx) rfl
  | queueFinish =>
    simp [step] at h
    subst h
    exact sched_registered_transfer w _ hreg (Or.inl rfl) (fun _ hx => hx) rfl

theorem sched_exec_registered (f : Nat → Bool) (evs : List Ev) (w : ScheduleWorld)
    (r : ScheduleWorld × List Obs) (hreg : Registered w) (hd : Distinct f evs w)
    (h : exec f evs w = some r) : Registered r.1 := by
  induction evs generalizing w r with
  | nil =>
    simp only [exec, Option.some.injEq] at h
    subst h
    exact hreg
  | cons e es ih =>
    cases hs : step f w e with
    | none => simp [exec, hs] at h
    | some r1 =>
      rw [sched_exec_cons f e es w r1 hs] at h
      simp only [Distinct, hs] at hd
      cases he : exec f es r1.1 with
      | none => simp [he] at h
      | some r2 =>
        simp only [he, Option.map_some', Option.some.injEq] at h
        subst h
        exact ih r1.1 r2 (sched_step_registered f w e r1 hreg hd.1 hs) hd.2 he

/-- On a stopped schedule a cleared timer id stays cleared. -/
theorem sched_step_cleared (f : Nat → Bool) (w : ScheduleWorld) (e : Ev)
    (r : ScheduleWorld × List Obs) (hrun : w.scb.running_ = false)
    (h : step f w e = some r) :
    r.1.scb.current_timer_ = w.scb.current_timer_ ∨ r.1.scb.current_timer_ = none := by
  cases e with
  | cancelLock =>
    simp only [step, Option.some.injEq] at h
    subst h
    cases hc : w.scb.current_timer_ <;> simp [CancelTimer, hc]
  | cancelFinish =>
    by_cases hc : w.cancelling = 0
    · simp [step, hc] at h
      subst h
      exact Or.inl rfl
    · simp [step, hc, Finish, hrun] at h
      subst h
      exact Or.inl rfl
  | timerPass now =>
    cases htt : w.this_task with
    | some j =>
      simp [step, htt] at h
      subst h
      exact Or.inl rfl
    | none =>
      simp only [step, htt] at h
      cases hp : w.timer.pass now with
      | mk s p =>
        rw [hp] at h
        cases p <;> simp at h <;> subst h <;> exact Or.inl rfl
  | timerCall =>
    cases htt : w.this_task with
    | none =>
      simp [step, htt] at h
      subst h
      exact Or.inl rfl
    | some j =>
      cases j with
      | timerCallback =>
        simp [step, htt] at h
        subst h
        exact Or.inr rfl
      | other =>
        simp [step, htt] at h
        subst h
        exact Or.inl rfl
  | timerOther when =>
    simp [step] at h
    subst h
    exact Or.inl rfl
  | workerPass =>
    cases htt : w.task with
    | some j =>
      simp [step, htt] at h
      subst h
      exact Or.inl rfl
    | none =>
      simp only [step, htt] at h
      cases hp : w.q.pass with
      | mk s p =>
        rw [hp] at h
        cases p <;> simp at h <;> subst h <;> exact Or.inl rfl
  | workerRun now =>
    cases htt : w.task with
    | none =>
      simp [step, htt] at h
      subst h
      exact Or.inl rfl
    | some j =>
      cases j with
      | firing =>
        simp [step, htt, firing, hrun] at h
        subst h
        exact Or.inl rfl
      | continuation b =>
        cases b with
        | true =>
          simp [step, htt, continuation, ScheduleNextRun, hrun] at h
          subst h
          exact Or.inl rfl
        | false =>
          simp [step, htt, continuation, Finish, hrun] at h
          subst h
          exact Or.inl rfl
      | other =>
        simp [step, htt] at h
        subst h
        exact Or.inl rfl
  | enqueueOther id =>
    simp [step] at h
    subst h
    exact Or.inl rfl
  | queueFinish =>
    simp [step] at h
    subst h
    exact Or.inl rfl

end ScheduleWorld

namespace ScheduleWorld

theorem sched_exec_cleared (f : Nat → Bool) (evs : List Ev) (w : ScheduleWorld)
    (r : ScheduleWorld × List Obs) (hrun : w.scb.running_ = false)
    (hc : w.scb.current_timer_ = none) (h : exec f evs w = some r) :
    r.1.scb.current_timer_ = none := by
  induction evs generalizing w r with
  | nil =>
    simp only [exec, Option.some.injEq] at h
    subst h
    exact hc
  | cons e es ih =>
    cases hs : step f w e with
    | none => simp [exec, hs] at h
    | some r1 =>
      rw [sched_exec_cons f e es w r1 hs] at h
      cases he : exec f es r1.1 with
      | none => simp [he] at h
      | some r2 =>
        simp only [he, Option.map_some', Option.some.injEq] at h
        subst h
        obtain ⟨w1, k1, k2, _⟩ := sched_step_stopped f w e hrun
        rw [hs, Option.some.injEq] at k1
        have hr1 : r1.1.scb.running_ = false := by rw [k1]; exact k2
        have hc1 : r1.1.scb.current_timer_ = none := by
          rcases sched_step_cleared f w e r1 hrun hs with k | k
          · rw [k]; exact hc
          · exact k
        exact ih r1.1 r2 hr1 hc1 he

theorem sched_Finish_cleared (w : ScheduleWorld) (x : ScheduleWorld × List Obs)
    (h : w.Finish = some x) :
    x.1.scb.running_ = false ∧ x.1.scb.current_timer_ = w.scb.current_timer_ := by
  by_cases hrun : w.scb.running_ = true
  · cases hd : w.done.Resolve () with
    | none => simp [Finish, hrun, hd] at h
    | some d =>
      simp [Finish, hrun, hd] at h
      subst h
      exact ⟨rfl, rfl⟩
  · simp [Finish, hrun] at h
    subst h
    exact ⟨by simpa using hrun, rfl⟩

end ScheduleWorld

/-- C28, counterexample: a schedule with interval 5 armed at 10 whose user
function returns true.  After the first firing the worker holds the
continuation; a thread calls `Cancel`, whose first locked section finds no
timer id; the worker runs the continuation, which arms the timer with id 1; the
thread in `Cancel` calls `Finish` and `Cancel` returns.  Now `running_` is
false, `current_timer_` holds the id 1 and the entry of the schedule is
pending in the timer. -/
theorem schedule_stopped_with_timer_armed :
    (ScheduleWorld.exec (fun _ => true)
      [ScheduleWorld.Ev.timerPass 10, ScheduleWorld.Ev.timerCall, ScheduleWorld.Ev.workerPass,
        ScheduleWorld.Ev.workerRun 10, ScheduleWorld.Ev.workerPass, ScheduleWorld.Ev.cancelLock,
        ScheduleWorld.Ev.workerRun 11, ScheduleWorld.Ev.cancelFinish]
      (ScheduleWorld.DoPeriodically TimerImpl.new EventQueue.new 5 "" 10).1).map
        (fun r => (r.1.scb.running_, r.1.cancelling, r.1.scb.current_timer_,
          ScheduleWorld.timerWeight r.1.timer.tasks_, ScheduleWorld.armedTimes r.2))
      = some (false, 0, some 1, 1, [15]) := by
  rfl

/-- C28, amended: a schedule started on a timer and a queue that hold nothing
of it, and any sequence of steps of the threads (the two locked sections of
every `Cancel`, passes and calls of the timer thread, other clients of the
timer, worker passes and runs, any results of the user function).  In the
state reached at most one firing of the schedule is in flight, as a pending
timer entry, an entry the timer thread has just erased, a firing body or a
continuation; in particular at most one timer entry of the schedule is
pending.  When no call of `Timer::Schedule` was made for a time point with a
pending entry, `current_timer_` is set only if it is the id of a pending entry
of the schedule or the timer thread has just erased the entry of the schedule.
Once `running_` is false no step fails or arms a timer, `running_` stays false
and a clear `current_timer_` stays clear.  When `running_` became false
without a call of `Cancel`, by the terminal false return, `current_timer_` is
clear and no firing is in flight; and after the two locked sections of a
`Cancel` that no other step separates, `running_` is false and
`current_timer_` is clear. -/
theorem schedule_timer_entry_invariant (f : Nat → Bool) (timer : TimerImpl TimerJob)
    (q : EventQueue ScheduleTask) (interval : Int) (id : String) (t0 : Int)
    (evs : List ScheduleWorld.Ev) (r : ScheduleWorld × List Obs)
    (htimer : ∀ e ∈ timer.tasks_, e.2.callback = TimerJob.other)
    (hq : ∀ t ∈ q.tasks_, t.f = ScheduleTask.other)
    (h : ScheduleWorld.exec f evs (ScheduleWorld.DoPeriodically timer q interval id t0).1
      = some r) :
    (ScheduleWorld.timerWeight r.1.timer.tasks_ ≤ 1 ∧
      ScheduleWorld.armedCount r.1 + ScheduleWorld.queuedCount r.1 ≤ 1) ∧
    (t0 ∉ timer.tasks_.map Prod.fst →
      ScheduleWorld.Distinct f evs (ScheduleWorld.DoPeriodically timer q interval id t0).1 →
      ScheduleWorld.Registered r.1) ∧
    (r.1.scb.running_ = false → ∀ evs2, ∃ w2,
      ScheduleWorld.exec f evs2 r.1 = some (w2, []) ∧ w2.scb.running_ = false ∧
      (r.1.scb.current_timer_ = none → w2.scb.current_timer_ = none)) ∧
    ((∀ e ∈ evs, ScheduleWorld.Ev.isCancel e = false) → r.1.scb.running_ = false →
      r.1.scb.current_timer_ = none ∧
      ScheduleWorld.armedCount r.1 + ScheduleWorld.queuedCount r.1 = 0) ∧
    (∀ r1 r2, ScheduleWorld.step f r.1 ScheduleWorld.Ev.cancelLock = some r1 →
      ScheduleWorld.step f r1.1 ScheduleWorld.Ev.cancelFinish = some r2 →
      r2.1.scb.running_ = false ∧ r2.1.scb.current_timer_ = none) := by
  obtain ⟨st, sr⟩ := ScheduleWorld.sched_start_steady f timer q interval id t0 htimer hq
  have hone := Nat.le_trans (ScheduleWorld.sched_exec_tokens f evs _ r h) st.one
  refine ⟨⟨?_, hone⟩, ?_, ?_, ?_, ?_⟩
  · simp only [ScheduleWorld.armedCount] at hone
    omega
  · intro ht0 hd
    refine ScheduleWorld.sched_exec_registered f evs _ r ?_ hd h
    intro i hi
    left
    have hmem := TimerImpl.timer_mapInsert_of_not_mem t0
      (⟨timer.id_counter_, TimerJob.timerCallback⟩ : TimerImpl.Task TimerJob) timer.tasks_ ht0
    simp [ScheduleWorld.DoPeriodically, ScheduleWorld.ScheduleNextRun,
      TimerImpl.Schedule] at hi
    subst hi
    refine ⟨t0, ?_⟩
    simpa [ScheduleWorld.DoPeriodically, ScheduleWorld.ScheduleNextRun,
      TimerImpl.Schedule] using hmem
  · intro hrun evs2
    obtain ⟨w2, k1, k2, _⟩ := ScheduleWorld.sched_exec_stopped f evs2 r.1 hrun
    refine ⟨w2, k1, k2, ?_⟩
    intro hc
    exact ScheduleWorld.sched_exec_cleared f evs2 r.1 (w2, []) hrun hc k1
  · intro hcf hrun
    obtain ⟨k1, _⟩ := ScheduleWorld.sched_exec_steady f evs _ st sr hcf r h
    obtain ⟨a, b⟩ := k1.zero hrun
    exact ⟨b, a⟩
  · intro r1 r2 h1 h2
    simp only [ScheduleWorld.step, Option.some.injEq] at h1
    subst h1
    simp only [ScheduleWorld.step, Nat.add_one_ne_zero, if_false] at h2
    cases hf : ScheduleWorld.Finish
        { r.1.CancelTimer with cancelling := r.1.cancelling + 1 } with
    | none => simp [hf] at h2
    | some x =>
      simp only [hf, Option.some.injEq] at h2
      subst h2
      have hcur : ({ r.1.CancelTimer with cancelling := r.1.cancelling + 1 }
          : ScheduleWorld).scb.current_timer_ = none := by
        cases hc : r.1.scb.current_timer_ <;> simp [ScheduleWorld.CancelTimer, hc]
      obtain ⟨k1, k2⟩ := ScheduleWorld.sched_Finish_cleared _ x hf
      exact ⟨k1, k2.trans hcur⟩

/-- C28, amended, at the run of the counterexample: one timer entry of the
schedule is pending, `current_timer_` holds its id, and a later `Cancel`
clears it. -/
theorem schedule_timer_entry_invariant_witness :
    ScheduleWorld.timerWeight
      ((ScheduleWorld.exec (fun _ => true)
        [ScheduleWorld.Ev.timerPass 10, ScheduleWorld.Ev.timerCall, ScheduleWorld.Ev.workerPass,
          ScheduleWorld.Ev.workerRun 10, ScheduleWorld.Ev.workerPass,
          ScheduleWorld.Ev.cancelLock, ScheduleWorld.Ev.workerRun 11,
          ScheduleWorld.Ev.cancelFinish]
        (ScheduleWorld.DoPeriodically TimerImpl.new EventQueue.new 5 "" 10).1).getD
          ((ScheduleWorld.DoPeriodically TimerImpl.new EventQueue.new 5 "" 10).1, [])).1.timer.tasks_
      ≤ 1 :=
  (schedule_timer_entry_invariant (fun _ => true) TimerImpl.new EventQueue.new 5 "" 10
    [ScheduleWorld.Ev.timerPass 10, ScheduleWorld.Ev.timerCall, ScheduleWorld.Ev.workerPass,
      ScheduleWorld.Ev.workerRun 10, ScheduleWorld.Ev.workerPass,
      ScheduleWorld.Ev.cancelLock, ScheduleWorld.Ev.workerRun 11,
      ScheduleWorld.Ev.cancelFinish]
    ((ScheduleWorld.exec (fun _ => true)
        [ScheduleWorld.Ev.timerPass 10, ScheduleWorld.Ev.timerCall, ScheduleWorld.Ev.workerPass,
          ScheduleWorld.Ev.workerRun 10, ScheduleWorld.Ev.workerPass,
          ScheduleWorld.Ev.cancelLock, ScheduleWorld.Ev.workerRun 11,
          ScheduleWorld.Ev.cancelFinish]
        (ScheduleWorld.DoPeriodically TimerImpl.new EventQueue.new 5 "" 10).1).getD
          ((ScheduleWorld.DoPeriodically TimerImpl.new EventQueue.new 5 "" 10).1, []))
    (by intro e he; simp [TimerImpl.new] at he)
    (by intro t ht; simp [EventQueue.new] at ht)
    rfl).1.1

/-! ## `Publish`: the deliveries and the fan-in on their promises -/

namespace FanIn

theorem fan_unfold (cur : QId) (resolver : PId) (l : List PId) (k : Prog) :
    resolvePublishPromiseWhenRecipientsDone cur resolver l k
      = Prog.enqueue cur (fanInBody cur resolver l) "" fun _ => k := by
  cases l <;> rfl

theorem fan_rest_lt (n j : Nat) (h : j < n) : rest n j = j :: rest n (j + 1) := by
  simp only [rest]
  rw [List.drop_eq_getElem_cons (by simpa using h)]
  simp

theorem fan_rest_end (n : Nat) : rest n n = [] := by
  simp [rest]

/-- Removing the first element that passes a filter of a list without
duplicates. -/
theorem fan_filter_head (P Q : Nat → Bool) (l : List Nat) (i : Nat) (tl : List Nat)
    (hl : l.Nodup) (h : l.filter P = i :: tl)
    (hq : ∀ x, Q x = (P x && decide (x ≠ i))) : l.filter Q = tl := by
  have h1 : l.filter Q = (l.filter P).filter fun x => decide (x ≠ i) := by
    rw [List.filter_filter]
    congr 1
    funext x
    rw [hq x, Bool.and_comm]
  rw [h1, h]
  have hn : (i :: tl).Nodup := by
    rw [← h]
    exact hl.filter _
  have hi : i ∉ tl := (List.nodup_cons.mp hn).1
  simp only [List.filter_cons, ne_eq, not_true_eq_false, decide_False, Bool.false_eq_true,
    if_false]
  apply List.filter_eq_self.mpr
  intro x hx
  simp only [decide_eq_true_eq]
  intro e
  exact hi (e ▸ hx)

end FanIn

namespace FanIn

theorem fan_waitingOn_cons_same (subs : List QId) (ret : List Nat) (q : QId) (i : Nat)
    (tl : List Nat) (h : waitingOn subs ret q = i :: tl) :
    waitingOn subs (i :: ret) q = tl := by
  apply fan_filter_head _ _ (List.range subs.length) i tl (List.nodup_range _) h
  intro x
  by_cases hx : x = i
  · simp [hx]
  · simp [hx]

theorem fan_waitingOn_head (subs : List QId) (ret : List Nat) (q : QId) (i : Nat)
    (tl : List Nat) (h : waitingOn subs ret q = i :: tl) :
    i < subs.length ∧ i ∉ ret ∧ subs[i]? = some q := by
  have hm : i ∈ waitingOn subs ret q := by
    rw [h]
    exact List.mem_cons_self _ _
  simp only [waitingOn, List.mem_filter, List.mem_range, decide_eq_true_eq] at hm
  exact ⟨hm.1, hm.2.1, hm.2.2⟩

theorem fan_waitingOn_cons_other (subs : List QId) (ret : List Nat) (q q1 : QId) (i : Nat)
    (hi : subs[i]? = some q) (hq : q1 ≠ q) :
    waitingOn subs (i :: ret) q1 = waitingOn subs ret q1 := by
  simp only [waitingOn]
  apply List.filter_congr
  intro x _
  by_cases hx : x = i
  · subst hx
    have : ¬ subs[x]? = some q1 := by
      rw [hi]
      intro e
      exact hq (Option.some.inj e).symm
    simp [this]
  · simp [hx]

/-- A pass of a worker whose FIFO is empty changes nothing. -/
theorem fan_step_idle (cur : QId) (subs : List QId) (value : Int) (w : World)
    (ret : List Nat) (st : Stage) (h : Inv cur subs value w ret st) (q : QId)
    (hq : (w.queues q).tasks_ = []) : w.workerStep q = some w := by
  have ha := h.alive q
  have : w.setQueue q (w.queues q) = w := by
    simp [World.setQueue]
  simp [World.workerStep, EventQueue.pass, ha.1, ha.2, hq, this]

end FanIn

namespace FanIn

/-- The stage after the delivery `i` has returned. -/
theorem fan_pending_after (cur : QId) (n : Nat) (st : Stage) (i : Nat) :
    ∃ st1, (∀ k, k ≠ i → pending cur n st1 k = pending cur n st k) ∧
      token cur n st1 = token cur n st ++
        ((pending cur n st i).map fun d => World.taskOf (d, 0)) ∧
      (∀ (w u : World) (ret : List Nat), stageOk n w ret st → i < n → i ∉ ret →
        u.pcbCount = w.pcbCount → (∀ p, p ≠ i → u.pcbs p = w.pcbs p) →
        stageOk n u (i :: ret) st1) ∧
      (∀ ret : List Nat, measure n (i :: ret) st1
        = n - (ret.length + 1) + (measure n ret st - (n - ret.length))) ∧
      (∀ d ∈ pending cur n st i, d.q = cur) := by
  cases st with
  | task j =>
    refine ⟨Stage.task j, fun _ _ => rfl, by simp [pending], ?_, ?_, by simp [pending]⟩
    · intro w u ret hs hi hr hc hp
      obtain ⟨h1, h2, h3, h4, h5⟩ := hs
      refine ⟨h1, fun k hk => List.mem_cons_of_mem _ (h2 k hk), hc.trans h3, ?_, ?_⟩
      · rw [hp _ (by omega)]; exact h4
      · rw [hp _ (by omega)]; exact h5
    · intro ret
      simp only [measure, List.length_cons]
      omega
  | waiting j =>
    by_cases hj : i = j
    · subst hj
      refine ⟨Stage.cont i, ?_, ?_, ?_, ?_, ?_⟩
      · intro k hk
        simp [pending, hk]
      · simp [pending, token, World.taskOf, dep]
      · intro w u ret hs hi hr hc hp
        obtain ⟨h1, h2, h3, h4, h5, h6⟩ := hs
        refine ⟨h1, ?_, hc.trans h4, ?_, ?_⟩
        · intro k hk
          by_cases hki : k = i
          · rw [hki]; exact List.mem_cons_self _ _
          · exact List.mem_cons_of_mem _ (h3 k (by omega))
        · rw [hp _ (by omega)]; exact h5
        · rw [hp _ (by omega)]; exact h6
      · intro ret
        simp only [measure, List.length_cons]
        omega
      · simp [pending, dep]
    · refine ⟨Stage.waiting j, fun _ _ => rfl, by simp [pending, hj], ?_, ?_,
        by simp [pending, hj]⟩
      · intro w u ret hs hi hr hc hp
        obtain ⟨h1, h2, h3, h4, h5, h6⟩ := hs
        refine ⟨h1, ?_, fun k hk => List.mem_cons_of_mem _ (h3 k hk), hc.trans h4, ?_, ?_⟩
        · intro hm
          rcases List.mem_cons.mp hm with e | e
          · exact hj e.symm
          · exact h2 e
        · rw [hp _ (by omega)]; exact h5
        · rw [hp _ (by omega)]; exact h6
      · intro ret
        simp only [measure, List.length_cons]
        omega
  | cont j =>
    refine ⟨Stage.cont j, fun _ _ => rfl, by simp [pending], ?_, ?_, by simp [pending]⟩
    · intro w u ret hs hi hr hc hp
      obtain ⟨h1, h2, h3, h4, h5⟩ := hs
      refine ⟨h1, fun k hk => List.mem_cons_of_mem _ (h2 k hk), hc.trans h3, ?_, ?_⟩
      · rw [hp _ (by omega)]; exact h4
      · rw [hp _ (by omega)]; exact h5
    · intro ret
      simp only [measure, List.length_cons]
      omega
  | done =>
    refine ⟨Stage.done, fun _ _ => rfl, by simp [pending], ?_, ?_, by simp [pending]⟩
    · intro w u ret hs hi hr hc hp
      exact absurd (hs.1 i hi) hr
    · intro ret
      simp only [measure, List.length_cons]
      omega

end FanIn

namespace FanIn

theorem fan_length_lt (n : Nat) (ret : List Nat) (i : Nat) (hn : ret.Nodup)
    (hl : ∀ k ∈ ret, k < n) (hi : i < n) (hr : i ∉ ret) : ret.length < n := by
  have h1 : (i :: ret).Nodup := List.nodup_cons.mpr ⟨hr, hn⟩
  have h2 : (i :: ret) ⊆ List.range n := by
    intro k hk
    rcases List.mem_cons.mp hk with e | e
    · rw [e]; exact List.mem_range.mpr hi
    · exact List.mem_range.mpr (hl k e)
  have h3 := (List.subperm_of_subset h1 h2).length_le
  simp only [List.length_cons, List.length_range] at h3
  omega

/-- The pass of a worker that runs the delivery `i`: the listener is called,
the promise of the delivery is resolved, and a continuation of the fan-in that
is pending on it is called. -/
theorem fan_step_delivery (cur : QId) (subs : List QId) (value : Int) (w : World)
    (ret : List Nat) (st : Stage) (h : Inv cur subs value w ret st) (q : QId) (i : Nat)
    (tl : List Nat) (hq : waitingOn subs ret q = i :: tl) :
    ∃ w1 st1, w.workerStep q = some w1 ∧ Inv cur subs value w1 (i :: ret) st1 ∧
      measure subs.length (i :: ret) st1 + 1 = measure subs.length ret st := by
  obtain ⟨hi, hr, hs⟩ := fan_waitingOn_head subs ret q i tl hq
  obtain ⟨st1, p1, p2, p3, p4, p5⟩ := fan_pending_after cur subs.length st i
  have hfifo := h.fifo q
  rw [hq, List.map_cons, List.cons_append] at hfifo
  have hstep := World.world_workerStep_pop w q _ _ (h.alive q).1 hfifo
  have hpcb := h.unreturned i hi hr
  have hrun : w.workerStep q = some (((({ w.setQueue q { w.queues q with
        tasks_ := tl.map (delivery value) ++
          (if q = cur then token cur subs.length st else []) } with
        got := w.got ++ [value] } : World).setPcb i ⟨some 0, []⟩).calls
      ((pending cur subs.length st i).map fun d => (d, 0)))) := by
    have hp2 : ({ w.setQueue q { w.queues q with
        tasks_ := tl.map (delivery value) ++
          (if q = cur then token cur subs.length st else []) } with
        got := w.got ++ [value] } : World).pcbs i
        = ⟨none, pending cur subs.length st i⟩ := by
      simpa [World.setQueue] using hpcb
    rw [hstep]
    simp only [delivery, Closure.run, Prog.run]
    exact World.world_Resolve_unresolved _ i 0 (pending cur subs.length st i) hp2
  refine ⟨_, st1, hrun, ?_, ?_⟩
  · have hrest := World.world_calls_rest ((pending cur subs.length st i).map fun d => (d, 0))
      (({ w.setQueue q { w.queues q with
        tasks_ := tl.map (delivery value) ++
          (if q = cur then token cur subs.length st else []) } with
        got := w.got ++ [value] } : World).setPcb i ⟨some 0, []⟩)
    refine ⟨List.nodup_cons.mpr ⟨hr, h.nodup⟩, ?_, ?_, ?_, ?_, ?_, ?_, ?_⟩
    · intro k hk
      rcases List.mem_cons.mp hk with e | e
      · rw [e]; exact hi
      · exact h.lt k e
    · intro q1
      rw [World.world_calls_queues]
      have hfil : (((pending cur subs.length st i).map fun d => (d, (0 : Int))).filter
          fun c => decide (c.1.q = q1)).map World.taskOf
          = if q1 = cur then (pending cur subs.length st i).map fun d => World.taskOf (d, 0)
            else [] := by
        by_cases hc : q1 = cur
        · subst hc
          rw [if_pos rfl, List.filter_eq_self.mpr, List.map_map]
          · rfl
          · intro c hc
            obtain ⟨d, hd, hdc⟩ := List.mem_map.mp hc
            rw [← hdc]
            simpa using p5 d hd
        · rw [if_neg hc, List.filter_eq_nil_iff.mpr]
          · rfl
          · intro c hcm
            obtain ⟨d, hd, hdc⟩ := List.mem_map.mp hcm
            rw [← hdc]
            simp only [decide_eq_true_eq]
            rw [p5 d hd]
            exact fun e => hc e.symm
      simp only [hfil]
      by_cases hq1 : q1 = q
      · subst hq1
        rw [fan_waitingOn_cons_same subs ret q1 i tl hq, p2]
        by_cases hc : q1 = cur
        · subst hc
          simp [World.setPcb, World.setQueue]
        · simp [World.setPcb, World.setQueue, hc]
      · rw [fan_waitingOn_cons_other subs ret q q1 i hs hq1, p2]
        have := h.fifo q1
        by_cases hc : q1 = cur
        · subst hc
          simp [World.setPcb, World.setQueue, Function.update_noteq hq1, this]
        · simp [World.setPcb, World.setQueue, Function.update_noteq hq1, hc, this]
    · intro q1
      rw [World.world_calls_queues]
      by_cases hq1 : q1 = q
      · subst hq1
        simpa [World.setPcb, World.setQueue] using h.alive q1
      · simpa [World.setPcb, World.setQueue, Function.update_noteq hq1] using h.alive q1
    · intro k hk hkr
      have hki : k ≠ i := fun e => hkr (e ▸ List.mem_cons_self _ _)
      rw [hrest.1, p1 k hki]
      simp only [World.setPcb, World.setQueue, Function.update_noteq hki]
      exact h.unreturned k hk (fun e => hkr (List.mem_cons_of_mem _ e))
    · intro k hk
      rw [hrest.1]
      rcases List.mem_cons.mp hk with e | e
      · rw [e]
        simp [World.setPcb]
      · have hki : k ≠ i := fun x => hr (x ▸ e)
        simp only [World.setPcb, World.setQueue, Function.update_noteq hki]
        exact h.returned k e
    · rw [hrest.2.2.2.2]
      simp [World.setPcb, World.setQueue, h.got, List.replicate_succ']
    · apply p3 w _ ret h.stage hi hr
      · rw [hrest.2.1]
        rfl
      · intro p hp
        rw [hrest.1]
        simp [World.setPcb, World.setQueue, Function.update_noteq hp]
  · have hlen := fan_length_lt subs.length ret i h.nodup h.lt hi hr
    rw [p4 ret]
    have hm : subs.length - ret.length ≤ measure subs.length ret st := by
      cases st <;> simp only [measure] <;> omega
    omega

end FanIn

namespace FanIn

/-- The pass of the publisher's worker that runs the task of the fan-in. -/
theorem fan_step_token (cur : QId) (subs : List QId) (value : Int) (w : World)
    (ret : List Nat) (st : Stage) (h : Inv cur subs value w ret st)
    (hq : waitingOn subs ret cur = []) (hne : token cur subs.length st ≠ []) :
    ∃ w1 st1, w.workerStep cur = some w1 ∧ Inv cur subs value w1 ret st1 ∧
      measure subs.length ret st1 + 1 = measure subs.length ret st := by
  have hfifo := h.fifo cur
  rw [hq, List.map_nil, List.nil_append, if_pos rfl] at hfifo
  have halive := h.alive
  have hst := h.stage
  have hother : ∀ q, q ≠ cur → (w.queues q).tasks_
      = (waitingOn subs ret q).map (delivery value) := by
    intro q hc
    have := h.fifo q
    rwa [if_neg hc, List.append_nil] at this
  cases st with
  | waiting j => exact absurd rfl hne
  | done => exact absurd rfl hne
  | task j =>
    obtain ⟨hjn, hall, hcount, hself, hpub⟩ := hst
    simp only [token] at hfifo
    rw [World.world_workerStep_pop w cur _ [] (halive cur).1 hfifo]
    rcases Nat.lt_or_ge j subs.length with hj | hj
    · have hn1 : j ≠ subs.length + 2 + 2 * j := by omega
      have hn2 : subs.length + 1 + 2 * j ≠ j := by omega
      have hn3 : subs.length + 1 + 2 * j ≠ subs.length + 2 + 2 * j := by omega
      have hn4 : subs.length + 2 + 2 * j ≠ subs.length + 1 + 2 * j := by omega
      have hn5 : subs.length ≠ subs.length + 1 + 2 * j := by omega
      have hn6 : subs.length ≠ subs.length + 2 + 2 * j := by omega
      have hn7 : subs.length ≠ j := by omega
      simp only [Closure.run, Prog.run, fan_rest_lt _ _ hj, fanInBody, World.ThenHere]
      by_cases hr : j ∈ ret
      · have hpj : (w.setQueue cur { w.queues cur with tasks_ := [] }).pcbs j
            = ⟨some 0, []⟩ := by
          simpa [World.setQueue] using h.returned j hr
        rw [World.world_Then_resolved _ j cur _ "" 0 [] hpj
          (by simpa [World.setQueue, hcount] using hn1)]
        simp only [Prog.run]
        rw [World.world_Resolve_unresolved _ _ 0 []]
        · refine ⟨_, Stage.cont j, rfl, ⟨h.nodup, h.lt, ?_, ?_, ?_, ?_, ?_, ?_⟩, ?_⟩
          · intro q
            by_cases hc : q = cur
            · subst hc
              simp [World.setPcb, World.setQueue, World.calls, World.call, World.Take,
                World.newPcb, World.AddTask, World.Release, EventQueue.AddTask,
                EventQueue.Release, EventQueue.Take, hq, token, hcount]
              rfl
            · simp [World.setPcb, World.setQueue, World.calls, World.call, World.Take,
                World.newPcb, World.AddTask, World.Release, EventQueue.AddTask,
                EventQueue.Release, EventQueue.Take, Function.update_noteq hc, hother q hc, hc]
          · intro q
            by_cases hc : q = cur
            · subst hc
              simpa [World.setPcb, World.setQueue, World.calls, World.call, World.Take,
                World.newPcb, World.AddTask, World.Release, EventQueue.AddTask,
                EventQueue.Release, EventQueue.Take] using halive q
            · simpa [World.setPcb, World.setQueue, World.calls, World.call, World.Take,
                World.newPcb, World.AddTask, World.Release, EventQueue.AddTask,
                EventQueue.Release, EventQueue.Take, Function.update_noteq hc] using halive q
          · intro i hi hri
            have hij : i ≠ j := fun e => hri (e ▸ hr)
            have h1 : i ≠ subs.length + 1 + 2 * j := by omega
            have h2 : i ≠ subs.length + 2 + 2 * j := by omega
            have := h.unreturned i hi hri
            simpa [World.setPcb, World.setQueue, World.calls, World.call, World.Take,
              World.newPcb, World.AddTask, World.Release, Function.update_noteq h1,
              Function.update_noteq h2, Function.update_noteq hij, hcount, pending] using this
          · intro i hi
            have hil := h.lt i hi
            have h1 : i ≠ subs.length + 1 + 2 * j := by omega
            have h2 : i ≠ subs.length + 2 + 2 * j := by omega
            have := h.returned i hi
            by_cases hij : i = j
            · subst hij
              simp [World.setPcb, World.setQueue, World.calls, World.call, World.Take,
                World.newPcb, World.AddTask, World.Release, Function.update_noteq h1]
            · simpa [World.setPcb, World.setQueue, World.calls, World.call, World.Take,
                World.newPcb, World.AddTask, World.Release, Function.update_noteq h1,
                Function.update_noteq h2, Function.update_noteq hij, hcount] using this
          · simpa [World.setPcb, World.setQueue, World.calls, World.call, World.Take,
              World.newPcb, World.AddTask, World.Release] using h.got
          · refine ⟨hj, ?_, ?_, ?_, ?_⟩
            · intro i hi
              rcases Nat.lt_or_ge i j with hlt | hge
              · exact hall i hlt
              · have : i = j := Nat.le_antisymm hi hge
                rw [this]; exact hr
            · simp [World.setPcb, World.setQueue, World.calls, World.call, World.Take,
                World.newPcb, World.AddTask, World.Release, hcount]
              omega
            · simp [World.setPcb, World.setQueue, World.calls, World.call, World.Take,
                World.newPcb, World.AddTask, World.Release, hcount,
                Function.update_noteq hn4, Function.update_noteq hn1.symm]
            · simpa [World.setPcb, World.setQueue, World.calls, World.call, World.Take,
                World.newPcb, World.AddTask, World.Release, hcount,
                Function.update_noteq hn5, Function.update_noteq hn6,
                Function.update_noteq hn7] using hpub
          · simp only [measure]
            omega
        · simpa [World.setPcb, World.setQueue, World.calls, World.call, World.Take,
            World.newPcb, World.AddTask, World.Release, hcount, PromiseControlBlock.new,
            Function.update_noteq hn2, Function.update_noteq hn3] using hself
      · have hpj : (w.setQueue cur { w.queues cur with tasks_ := [] }).pcbs j
            = ⟨none, []⟩ := by
          simpa [World.setQueue, pending] using h.unreturned j hj hr
        rw [World.world_Then_unresolved _ j cur _ "" [] hpj
          (by simpa [World.setQueue, hcount] using hn1)]
        simp only [Prog.run]
        rw [World.world_Resolve_unresolved _ _ 0 []]
        · refine ⟨_, Stage.waiting j, rfl, ⟨h.nodup, h.lt, ?_, ?_, ?_, ?_, ?_, ?_⟩, ?_⟩
          · intro q
            by_cases hc : q = cur
            · subst hc
              simp [World.setPcb, World.setQueue, World.calls, World.Take,
                World.newPcb, EventQueue.Take, hq, token]
            · simp [World.setPcb, World.setQueue, World.calls, World.Take,
                World.newPcb, EventQueue.Take, Function.update_noteq hc, hother q hc, hc]
          · intro q
            by_cases hc : q = cur
            · subst hc
              simpa [World.setPcb, World.setQueue, World.calls, World.Take,
                World.newPcb, EventQueue.Take] using halive q
            · simpa [World.setPcb, World.setQueue, World.calls, World.Take,
                World.newPcb, EventQueue.Take, Function.update_noteq hc] using halive q
          · intro i hi hri
            have h1 : i ≠ subs.length + 1 + 2 * j := by omega
            have h2 : i ≠ subs.length + 2 + 2 * j := by omega
            have := h.unreturned i hi hri
            by_cases hij : i = j
            · subst hij
              simp [World.setPcb, World.setQueue, World.calls, World.Take,
                World.newPcb, Function.update_noteq h1, pending, dep, hcount]
              rfl
            · simpa [World.setPcb, World.setQueue, World.calls, World.Take,
                World.newPcb, Function.update_noteq h1,
                Function.update_noteq h2, Function.update_noteq hij, hcount, pending,
                hij] using this
          · intro i hi
            have hil := h.lt i hi
            have h1 : i ≠ subs.length + 1 + 2 * j := by omega
            have h2 : i ≠ subs.length + 2 + 2 * j := by omega
            have hij : i ≠ j := fun e => hr (e ▸ hi)
            have := h.returned i hi
            simpa [World.setPcb, World.setQueue, World.calls, World.Take,
              World.newPcb, Function.update_noteq h1,
              Function.update_noteq h2, Function.update_noteq hij, hcount] using this
          · simpa [World.setPcb, World.setQueue, World.calls, World.Take,
              World.newPcb] using h.got
          · refine ⟨hj, hr, hall, ?_, ?_, ?_⟩
            · simp [World.setPcb, World.setQueue, World.calls, World.Take,
                World.newPcb, hcount]
              omega
            · simp [World.setPcb, World.setQueue, World.calls, World.Take,
                World.newPcb, hcount,
                Function.update_noteq hn4, Function.update_noteq hn1.symm]
            · simpa [World.setPcb, World.setQueue, World.calls, World.Take,
                World.newPcb, hcount,
                Function.update_noteq hn5, Function.update_noteq hn6,
                Function.update_noteq hn7] using hpub
          · simp only [measure]
            omega
        · simpa [World.setPcb, World.setQueue, World.calls, World.Take,
            World.newPcb, hcount, PromiseControlBlock.new,
            Function.update_noteq hn2, Function.update_noteq hn3] using hself
    · have hjeq : j = subs.length := Nat.le_antisymm hjn hj
      subst hjeq
      have hp : (w.setQueue cur { w.queues cur with tasks_ := [] }).pcbs subs.length
          = ⟨none, []⟩ := by
        simpa [World.setQueue, PromiseControlBlock.new] using hpub
      simp only [Closure.run, Prog.run, fan_rest_end, fanInBody]
      rw [World.world_Resolve_unresolved _ subs.length 0 [] hp]
      simp only [List.map_nil, World.calls, List.foldl_nil]
      have hne2 : subs.length + 1 + 2 * subs.length ≠ subs.length := by omega
      have hp2 : ((w.setQueue cur { w.queues cur with tasks_ := [] }).setPcb subs.length
          ⟨some 0, []⟩).pcbs (subs.length + 1 + 2 * subs.length) = ⟨none, []⟩ := by
        simpa [World.setQueue, World.setPcb, PromiseControlBlock.new,
          Function.update_noteq hne2] using hself
      rw [World.world_Resolve_unresolved _ _ 0 [] hp2]
      simp only [List.map_nil, World.calls, List.foldl_nil]
      refine ⟨_, Stage.done, rfl, ⟨h.nodup, h.lt, ?_, ?_, ?_, ?_, ?_, ?_⟩, ?_⟩
      · intro q
        by_cases hc : q = cur
        · subst hc
          simp [World.setPcb, World.setQueue, hq, token]
        · simp [World.setPcb, World.setQueue, Function.update_noteq hc, hother q hc, hc]
      · intro q
        by_cases hc : q = cur
        · subst hc
          simpa [World.setPcb, World.setQueue] using halive q
        · simpa [World.setPcb, World.setQueue, Function.update_noteq hc] using halive q
      · intro i hi hr
        exact absurd (hall i hi) hr
      · intro i hi
        have hil := h.lt i hi
        have h1 : i ≠ subs.length := by omega
        have h2 : i ≠ subs.length + 1 + 2 * subs.length := by omega
        simpa [World.setPcb, World.setQueue, Function.update_noteq h1,
          Function.update_noteq h2] using h.returned i hi
      · simpa [World.setPcb, World.setQueue] using h.got
      · exact ⟨hall, by simp [World.setPcb, World.setQueue, Function.update_noteq hne2.symm]⟩
      · simp only [measure]
        omega
  | cont j =>
    obtain ⟨hj, hall, hcount, hself, hpub⟩ := hst
    simp only [token] at hfifo
    rw [World.world_workerStep_pop w cur _ [] (halive cur).1 hfifo]
    have hn3 : subs.length + 2 + 2 * j ≠ subs.length + 3 + 2 * j := by omega
    have hn5 : subs.length ≠ subs.length + 2 + 2 * j := by omega
    have hn6 : subs.length ≠ subs.length + 3 + 2 * j := by omega
    simp only [Closure.run, next, fan_unfold, Prog.run, World.Enqueue]
    rw [World.world_Resolve_unresolved _ _ 0 []]
    · refine ⟨_, Stage.task (j + 1), rfl, ⟨h.nodup, h.lt, ?_, ?_, ?_, ?_, ?_, ?_⟩, ?_⟩
      · intro q
        by_cases hc : q = cur
        · subst hc
          have e : subs.length + 3 + 2 * j = subs.length + 1 + 2 * (j + 1) := by omega
          simp [World.setPcb, World.setQueue, World.calls, World.newPcb, World.AddTask,
            EventQueue.AddTask, hq, token]
          exact hcount.trans e
        · simp [World.setPcb, World.setQueue, World.calls, World.newPcb, World.AddTask,
            EventQueue.AddTask, Function.update_noteq hc, hother q hc, hc]
      · intro q
        by_cases hc : q = cur
        · subst hc
          simpa [World.setPcb, World.setQueue, World.calls, World.newPcb, World.AddTask,
            EventQueue.AddTask] using halive q
        · simpa [World.setPcb, World.setQueue, World.calls, World.newPcb, World.AddTask,
            EventQueue.AddTask, Function.update_noteq hc] using halive q
      · intro i hi hri
        have h1 : i ≠ subs.length + 2 + 2 * j := by omega
        have h2 : i ≠ subs.length + 3 + 2 * j := by omega
        have := h.unreturned i hi hri
        simpa [World.setPcb, World.setQueue, World.calls, World.newPcb, World.AddTask,
          Function.update_noteq h1, Function.update_noteq h2, hcount, pending] using this
      · intro i hi
        have hil := h.lt i hi
        have h1 : i ≠ subs.length + 2 + 2 * j := by omega
        have h2 : i ≠ subs.length + 3 + 2 * j := by omega
        have := h.returned i hi
        simpa [World.setPcb, World.setQueue, World.calls, World.newPcb, World.AddTask,
          Function.update_noteq h1, Function.update_noteq h2, hcount] using this
      · simpa [World.setPcb, World.setQueue, World.calls, World.newPcb, World.AddTask]
          using h.got
      · refine ⟨hj, fun i hi => hall i (Nat.lt_succ_iff.mp hi), ?_, ?_, ?_⟩
        · simp [World.setPcb, World.setQueue, World.calls, World.newPcb, World.AddTask, hcount]
          omega
        · have e : subs.length + 1 + 2 * (j + 1) = subs.length + 3 + 2 * j := by omega
          rw [e]
          simp [World.setPcb, World.setQueue, World.calls, World.newPcb, World.AddTask, hcount,
            Function.update_noteq hn3.symm]
        · simpa [World.setPcb, World.setQueue, World.calls, World.newPcb, World.AddTask, hcount,
            Function.update_noteq hn5, Function.update_noteq hn6] using hpub
      · simp only [measure]
        omega
    · simpa [World.setPcb, World.setQueue, World.calls, World.newPcb, World.AddTask, hcount,
        PromiseControlBlock.new, Function.update_noteq hn3] using hself

end FanIn

namespace FanIn

theorem fan_popsAt_idle (w : World) (q : QId) (hq : (w.queues q).tasks_ = []) :
    w.popsAt q = 0 := by
  simp only [World.popsAt, EventQueue.pass, hq]
  by_cases ht : (w.queues q).t_ = true
  · by_cases hc : (!(w.queues q).running_ && (w.queues q).count_ == 0) = true
    · simp [ht, hc]
    · simp [ht, hc]
  · simp [ht]

theorem fan_popsAt_pop (w : World) (q : QId) (t : Task Closure) (rest : List (Task Closure))
    (ht : (w.queues q).t_ = true) (hq : (w.queues q).tasks_ = t :: rest) :
    w.popsAt q = 1 := by
  simp [World.popsAt, EventQueue.pass, hq, ht]

/-- One pass of the worker of any queue keeps the shape, and a pass that pops
a task brings the resolution of the promise of `Publish` one pass nearer. -/
theorem fan_step (cur : QId) (subs : List QId) (value : Int) (w : World)
    (ret : List Nat) (st : Stage) (h : Inv cur subs value w ret st) (q : QId) :
    ∃ w1 ret1 st1, w.workerStep q = some w1 ∧ Inv cur subs value w1 ret1 st1 ∧
      measure subs.length ret1 st1 + w.popsAt q = measure subs.length ret st := by
  have hfifo := h.fifo q
  cases hw : waitingOn subs ret q with
  | cons i tl =>
    obtain ⟨w1, st1, h1, h2, h3⟩ := fan_step_delivery cur subs value w ret st h q i tl hw
    rw [hw, List.map_cons, List.cons_append] at hfifo
    exact ⟨w1, i :: ret, st1, h1, h2, by rw [fan_popsAt_pop w q _ _ (h.alive q).1 hfifo]; exact h3⟩
  | nil =>
    rw [hw, List.map_nil, List.nil_append] at hfifo
    by_cases hc : q = cur
    · subst hc
      rw [if_pos rfl] at hfifo
      cases ht : token q subs.length st with
      | nil =>
        rw [ht] at hfifo
        exact ⟨w, ret, st, fan_step_idle q subs value w ret st h q hfifo, h,
          by rw [fan_popsAt_idle w q hfifo]; rfl⟩
      | cons t tl =>
        obtain ⟨w1, st1, h1, h2, h3⟩ := fan_step_token q subs value w ret st h hw
          (by rw [ht]; exact List.cons_ne_nil _ _)
        rw [ht] at hfifo
        exact ⟨w1, ret, st1, h1, h2,
          by rw [fan_popsAt_pop w q _ _ (h.alive q).1 hfifo]; exact h3⟩
    · rw [if_neg hc] at hfifo
      exact ⟨w, ret, st, fan_step_idle cur subs value w ret st h q hfifo, h,
        by rw [fan_popsAt_idle w q hfifo]; rfl⟩

/-- Any turns of the workers keep the shape; the passes that popped a task are
counted by the measure. -/
theorem fan_exec (cur : QId) (subs : List QId) (value : Int) (qs : List QId) (w : World)
    (ret : List Nat) (st : Stage) (h : Inv cur subs value w ret st) :
    ∃ w1 ret1 st1, World.runWorkers qs w = some w1 ∧ Inv cur subs value w1 ret1 st1 ∧
      measure subs.length ret1 st1 + World.busy qs w = measure subs.length ret st := by
  induction qs generalizing w ret st with
  | nil => exact ⟨w, ret, st, rfl, h, rfl⟩
  | cons q qs ih =>
    obtain ⟨w1, ret1, st1, h1, h2, h3⟩ := fan_step cur subs value w ret st h q
    obtain ⟨w2, ret2, st2, k1, k2, k3⟩ := ih w1 ret1 st1 h2
    refine ⟨w2, ret2, st2, ?_, k2, ?_⟩
    · simp only [World.runWorkers, h1]
      exact k1
    · simp only [World.busy, h1]
      omega

theorem fan_length_le (n : Nat) (ret : List Nat) (hn : ret.Nodup) (hl : ∀ k ∈ ret, k < n) :
    ret.length ≤ n := by
  have h2 : ret ⊆ List.range n := fun k hk => List.mem_range.mpr (hl k hk)
  simpa using (List.subperm_of_subset hn h2).length_le

theorem fan_length_ge (n : Nat) (ret : List Nat) (hl : ∀ k, k < n → k ∈ ret) :
    n ≤ ret.length := by
  have h2 : List.range n ⊆ ret := fun k hk => hl k (List.mem_range.mp hk)
  simpa using (List.subperm_of_subset (List.nodup_range n) h2).length_le

/-- What the shape says about the promise of `Publish`: it is resolved exactly
when the measure is zero, every delivery has returned by then, and before that
some FIFO holds a task. -/
theorem fan_facts (cur : QId) (subs : List QId) (value : Int) (w : World)
    (ret : List Nat) (st : Stage) (h : Inv cur subs value w ret st) :
    ((w.pcbs subs.length).result_ = some 0 ↔ measure subs.length ret st = 0) ∧
      ((w.pcbs subs.length).result_ ≠ none →
        w.got = List.replicate subs.length value ∧
          ∀ i, i < subs.length → (w.pcbs i).result_ = some 0) ∧
      ((w.pcbs subs.length).result_ = none → ∃ q, (w.queues q).tasks_ ≠ []) := by
  have hst := h.stage
  have hle := fan_length_le subs.length ret h.nodup h.lt
  cases st with
  | done =>
    obtain ⟨hall, hpub⟩ := hst
    have hge := fan_length_ge subs.length ret hall
    have hlen : ret.length = subs.length := Nat.le_antisymm hle hge
    refine ⟨?_, ?_, ?_⟩
    · simp only [measure, hpub]
      constructor
      · intro _; omega
      · intro _; trivial
    · intro _
      refine ⟨by rw [h.got, hlen], fun i hi => ?_⟩
      rw [h.returned i (hall i hi)]
    · intro hn
      rw [hpub] at hn
      exact absurd hn (by simp)
  | task j =>
    obtain ⟨hjn, hall, hcount, hself, hpub⟩ := hst
    refine ⟨?_, ?_, ?_⟩
    · simp only [measure, hpub, PromiseControlBlock.new]
      constructor
      · intro e; exact absurd e (by simp)
      · intro e; omega
    · intro hn
      rw [hpub] at hn
      exact absurd rfl hn
    · intro _
      refine ⟨cur, ?_⟩
      rw [h.fifo cur, if_pos rfl]
      simp [token]
  | cont j =>
    obtain ⟨hjn, hall, hcount, hself, hpub⟩ := hst
    refine ⟨?_, ?_, ?_⟩
    · simp only [measure, hpub, PromiseControlBlock.new]
      constructor
      · intro e; exact absurd e (by simp)
      · intro e; omega
    · intro hn
      rw [hpub] at hn
      exact absurd rfl hn
    · intro _
      refine ⟨cur, ?_⟩
      rw [h.fifo cur, if_pos rfl]
      simp [token]
  | waiting j =>
    obtain ⟨hjn, hr, hall, hcount, hself, hpub⟩ := hst
    refine ⟨?_, ?_, ?_⟩
    · simp only [measure, hpub, PromiseControlBlock.new]
      constructor
      · intro e; exact absurd e (by simp)
      · intro e; omega
    · intro hn
      rw [hpub] at hn
      exact absurd rfl hn
    · intro _
      obtain ⟨q, hq⟩ : ∃ q, subs[j]? = some q := ⟨subs[j], List.getElem?_eq_getElem hjn⟩
      refine ⟨q, ?_⟩
      rw [h.fifo q]
      have hm : j ∈ waitingOn subs ret q := by
        simp only [waitingOn, List.mem_filter, List.mem_range, decide_eq_true_eq]
        exact ⟨hjn, hr, hq⟩
      intro e
      have e1 := (List.append_eq_nil.mp e).1
      rw [List.map_eq_nil_iff] at e1
      rw [e1] at hm
      exact absurd hm (List.not_mem_nil _)

end FanIn

namespace FanIn

/-- The loop of `Publish` after the deliveries for `pre` were enqueued, and the
end of the member. -/
theorem fan_loop (cur : QId) (value : Int) (post pre : List QId) (w : World)
    (hcount : w.pcbCount = pre.length)
    (hpcbs : ∀ p, w.pcbs p = PromiseControlBlock.new)
    (hfifo : ∀ q, (w.queues q).tasks_ = ((List.range pre.length).filter
      fun i => decide ((pre ++ post)[i]? = some q)).map (delivery value))
    (halive : ∀ q, (w.queues q).t_ = true ∧ (w.queues q).running_ = true)
    (hgot : w.got = []) :
    ∃ w0, Prog.run (some cur) (publishFrom cur value post (List.range pre.length)) w
        = some (w0, ((pre ++ post).length : Int)) ∧
      Inv cur (pre ++ post) value w0 [] (Stage.task 0) := by
  induction post generalizing pre w with
  | nil =>
    simp only [List.append_nil] at hfifo ⊢
    simp only [publishFrom, publishPromise, Prog.run, World.CreateResolver, fan_unfold,
      World.Enqueue]
    refine ⟨w.newPcb.1.newPcb.1.AddTask cur
      (Closure.enqueueBody (fanInBody cur w.newPcb.2 (List.range pre.length))
        w.newPcb.1.newPcb.2) "", ?_, ⟨List.nodup_nil, by simp, ?_, ?_, ?_, ?_, ?_, ?_⟩⟩
    · rw [← hcount]
      rfl
    · intro q
      by_cases hc : q = cur
      · subst hc
        simp [World.newPcb, World.AddTask, World.setQueue, EventQueue.AddTask, hfifo q,
          waitingOn, token, rest, hcount]
      · simp [World.newPcb, World.AddTask, World.setQueue, EventQueue.AddTask, hfifo q,
          waitingOn, Function.update_noteq hc, hc]
    · intro q
      by_cases hc : q = cur
      · subst hc
        simpa [World.newPcb, World.AddTask, World.setQueue, EventQueue.AddTask] using halive q
      · simpa [World.newPcb, World.AddTask, World.setQueue, EventQueue.AddTask,
          Function.update_noteq hc] using halive q
    · intro i hi _
      simp [World.newPcb, World.AddTask, World.setQueue, Function.update_apply, hpcbs,
        PromiseControlBlock.new, pending]
    · intro i hi
      exact absurd hi (List.not_mem_nil _)
    · simpa [World.newPcb, World.AddTask, World.setQueue] using hgot
    · refine ⟨Nat.zero_le _, fun i hi => absurd hi (Nat.not_lt_zero _), ?_, ?_, ?_⟩
      · simp [World.newPcb, World.AddTask, World.setQueue, hcount]
      · simp [World.newPcb, World.AddTask, World.setQueue, Function.update_apply, hpcbs]
      · simp [World.newPcb, World.AddTask, World.setQueue, Function.update_apply, hpcbs]
  | cons q post ih =>
    have e : pre ++ [q] ++ post = pre ++ q :: post := by simp
    have hk : (pre ++ q :: post)[pre.length]? = some q := by
      rw [List.getElem?_append_right (Nat.le_refl _)]
      simp
    have hlt : pre.length < (pre ++ q :: post).length := by simp
    have hk1 : (pre ++ q :: post)[pre.length] = q := by
      have := hk
      rw [List.getElem?_eq_getElem hlt] at this
      exact Option.some.inj this
    have := ih (pre ++ [q]) ((w.newPcb.1).AddTask q
      (Closure.enqueueBody (Prog.push value (Prog.ret 0)) w.pcbCount) "")
      (by simp [World.newPcb, World.AddTask, World.setQueue, hcount])
      (by intro p; simp [World.newPcb, World.AddTask, World.setQueue, Function.update_apply, hpcbs])
      (by
        intro q1
        rw [e]
        simp only [List.length_append, List.length_singleton, List.range_succ,
          List.filter_append, List.map_append]
        by_cases hc : q1 = q
        · subst hc
          simp [World.newPcb, World.AddTask, World.setQueue, EventQueue.AddTask, hfifo q1,
            List.filter_cons, hk1, delivery, hcount]
        · have hk2 : ¬ q = q1 := fun x => hc x.symm
          simp [World.newPcb, World.AddTask, World.setQueue, EventQueue.AddTask, hfifo q1,
            List.filter_cons, hk1, hk2, Function.update_noteq hc])
      (by
        intro q1
        by_cases hc : q1 = q
        · subst hc
          simpa [World.newPcb, World.AddTask, World.setQueue, EventQueue.AddTask]
            using halive q1
        · simpa [World.newPcb, World.AddTask, World.setQueue, EventQueue.AddTask,
            Function.update_noteq hc] using halive q1)
      (by simpa [World.newPcb, World.AddTask, World.setQueue] using hgot)
    rw [e] at this
    simp only [publishFrom, Prog.run, World.Enqueue]
    simpa [List.range_succ, hcount, World.newPcb] using this

/-- The member `Publish` on the fresh fixture returns the promise of the
fan-in and leaves the deliveries and the first task of the fan-in in the
FIFOs. -/
theorem fan_start (cur : QId) (value : Int) (subs : List QId) :
    ∃ w0, Prog.run (some cur) (publishFrom cur value subs []) World.init
        = some (w0, (subs.length : Int)) ∧
      Inv cur subs value w0 [] (Stage.task 0) := by
  have := fan_loop cur value subs [] World.init rfl (fun _ => rfl)
    (by intro q; simp [World.init, EventQueue.new])
    (by intro q; simp [World.init, EventQueue.new]) rfl
  simpa using this

end FanIn

/-- C21: `Publish(value)` is called on the fresh fixture from a task of the
queue `cur`, for the subscriptions whose queues are `subs`, and returns the
promise of the fan-in (block `subs.length`) with the state `w0`.  Then the
workers make their passes in any order `qs`.  Every such run has a state (no
`Resolve` meets a block that is resolved already, so the promise of `Publish`
is resolved at most once); the passes that pop a task number at most
`3 * subs.length + 1`, and the promise of `Publish` is resolved exactly when
that number is reached (the fan-in ends: one task and one continuation per
completion promise, each for the list without its head, and the task for the
empty list resolves the promise); when the promise is resolved every listener
has been called and the promise of every delivery is resolved; and while it is
not resolved some FIFO holds a task for a worker to pop. -/
theorem publish_promise_resolved_once_after_deliveries (cur : QId) (value : Int)
    (subs : List QId) :
    ∃ w0, Prog.run (some cur) (publishFrom cur value subs []) World.init
        = some (w0, (subs.length : Int)) ∧
      ∀ qs, ∃ w, World.runWorkers qs w0 = some w ∧
        World.busy qs w0 ≤ 3 * subs.length + 1 ∧
        ((w.pcbs subs.length).result_ = some 0 ↔ World.busy qs w0 = 3 * subs.length + 1) ∧
        ((w.pcbs subs.length).result_ ≠ none →
          w.got = List.replicate subs.length value ∧
            ∀ i, i < subs.length → (w.pcbs i).result_ = some 0) ∧
        ((w.pcbs subs.length).result_ = none → ∃ q, (w.queues q).tasks_ ≠ []) := by
  obtain ⟨w0, h0, hinv⟩ := FanIn.fan_start cur value subs
  refine ⟨w0, h0, fun qs => ?_⟩
  obtain ⟨w, ret, st, h1, h2, h3⟩ := FanIn.fan_exec cur subs value qs w0 [] (FanIn.Stage.task 0) hinv
  obtain ⟨f1, f2, f3⟩ := FanIn.fan_facts cur subs value w ret st h2
  have hm : FanIn.measure subs.length [] (FanIn.Stage.task 0) = 3 * subs.length + 1 := by
    simp only [FanIn.measure, List.length_nil]
    omega
  rw [hm] at h3
  refine ⟨w, h1, by omega, ?_, f2, f3⟩
  rw [f1]
  constructor
  · intro e; omega
  · intro e; omega

end cpppromise
